import Mathlib

/-!
# gocryptsftp: directory cache, request coalescer, file tree and handlers

A verification development over a shallow embedding of

* `filetree/fastcache.go` (`DirMapping`, `FastCache`, `NewFastCache`, `Find`,
  `refreshNode`, `Clear`, `Store`),
* `requester/synccache.go` (`syncCache` and its operations),
* `requester/requester.go`, `requester/makerequest.go` and the three public
  wrappers `ReadFile`, `ReadDir`, `DecryptName`,
* `filetree/filetree.go` and `filetree/fileinfo.go` (`FileTree` with `findPath`,
  `findInDir`, `rangeInDir`, `ReadDir`, `ReadFile`, `Stat`, and `plainFileInfo`),
* `filetree/decrypt.go` (`readFileID`, `decryptFile`),
* `handlers/decrypt.go` (`Fileread`, `Filewrite`, `Filecmd`, `Filelist`) and
  `handlers/proxy.go` (`listerat.ListAt`),
* `config/config.go` (`LoadSSHKey`).

Conventions of the embedding.

* A Go `map[string]T` is a duplicate-free association list `GoMap T`.
* A Go pointer `*DirMapping` is an index into the list of nodes allocated so
  far (`FastCache.heap`); `nil` is `none`.  Every operation that dereferences a
  pointer returns `Option`: `none` is the run-time panic of a `nil`
  dereference.
* Go `int` is `Int`; none of the arithmetic here can overflow.  The conversions
  between `int64` and `uint64` in `filetree.go` are written out (`toUint64`,
  `toInt64`).
* What lies outside the repository's source (the standard library's
  `path/filepath`, package `ssh`, the `gocrypt` packages, the backend) is a
  parameter of the code that calls it: `Filepath` and `Deps` for `FileTree`,
  `ContentEnc` for `readFileID` and `decryptFile`, `KeyEnv` for `LoadSSHKey`.
* A started requester is a `System`: the states it reaches are those of
  `System.Reachable`, one step being a cache read, a deletion, a send on the work
  queue, a wait or `ClearCache`, with the workers running as the scheduler
  decides.  Callers that run at the same time are sequences of such steps;
  `System.ReachableKeeping` leaves out `ClearCache` and the deletion of one key.
-/

/-! ## Go maps with string keys -/

/-- A Go `map[string]β`: an association list holding each key at most once. -/
abbrev GoMap (β : Type) := List (String × β)

namespace GoMap

/-- The read `v, found := m[k]`. -/
def get {β : Type} : GoMap β → String → Option β
  | [], _ => none
  | (k', v) :: rest, k => if k' = k then some v else get rest k

/-- The statement `delete(m, k)`. -/
def delete {β : Type} : GoMap β → String → GoMap β
  | [], _ => []
  | (k', v) :: rest, k => if k' = k then delete rest k else (k', v) :: delete rest k

/-- The assignment `m[k] = v`. -/
def set {β : Type} (m : GoMap β) (k : String) (v : β) : GoMap β :=
  (k, v) :: delete m k

/-- The keys of the map, as `for k := range m` would visit them. -/
def keys {β : Type} (m : GoMap β) : List String := m.map Prod.fst

end GoMap

/-! ## `filetree/fastcache.go` -/

namespace filetree

/-- The struct `DirMapping`; `prev` and `next` are pointers to other nodes. -/
structure DirMapping where
  PlaintextPath : String
  CiphertextPath : String
  prev : Option Nat
  next : Option Nat
deriving DecidableEq, Repr

/-- The zero value `DirMapping{}`. -/
def DirMapping.zero : DirMapping :=
  { PlaintextPath := "", CiphertextPath := "", prev := none, next := none }

/-- The struct `FastCache` (without its mutex) together with the nodes it has
allocated: a `*DirMapping` is an index into `heap`. -/
structure FastCache where
  heap : List DirMapping
  storage : GoMap Nat
  cacheSize : Int
  count : Int
  head : Option Nat
  last : Option Nat
deriving DecidableEq, Repr

/-- The constructor `NewFastCache(cacheSize)`. -/
def NewFastCache (cacheSize : Int) : FastCache :=
  { heap := [], storage := [], cacheSize := cacheSize, count := 0,
    head := none, last := none }

/-- A write through the pointer `p`: `*p = g(*p)`. -/
def FastCache.update (f : FastCache) (p : Nat) (g : DirMapping → DirMapping) :
    Option FastCache :=
  match f.heap[p]? with
  | none => none
  | some n => some { f with heap := f.heap.set p (g n) }

/-- The method `(f *FastCache) refreshNode(d)`, statement by statement. -/
def FastCache.refreshNode (f : FastCache) (d : Nat) : Option FastCache :=
  match f.heap[d]? with
  | none => none
  | some nd =>
    match nd.next with
    | none => some f
    | some nx =>
      -- if d.prev != nil { d.prev.next = d.next } else { f.head = d.next }
      (match nd.prev with
        | some pv => f.update pv (fun n => { n with next := some nx })
        | none => some { f with head := some nx }) >>= fun f1 =>
      -- d.prev = f.last
      f1.update d (fun n => { n with prev := f1.last }) >>= fun f2 =>
      -- d.next = nil
      f2.update d (fun n => { n with next := none }) >>= fun f3 =>
      -- f.last.next = d
      f3.last >>= fun l =>
      f3.update l (fun n => { n with next := some d }) >>= fun f4 =>
      -- f.last = d
      some { f4 with last := some d }

/-- The method `(f *FastCache) Find(pPath)`: the new state, the returned copy `*d` and
the flag `found`. -/
def FastCache.Find (f : FastCache) (pPath : String) :
    Option (FastCache × DirMapping × Bool) :=
  match f.storage.get pPath with
  | none => some (f, DirMapping.zero, false)
  | some d =>
    f.refreshNode d >>= fun f1 =>
    f1.heap[d]? >>= fun nd =>
    some (f1, nd, true)

/-- The method `(f *FastCache) Clear()`. The nodes already allocated become garbage. -/
def FastCache.Clear (f : FastCache) : FastCache :=
  { f with head := none, last := none, storage := [], count := 0 }

/-- The method `(f *FastCache) Store(pPath, cPath)`, statement by statement. -/
def FastCache.Store (f : FastCache) (pPath cPath : String) : Option FastCache :=
  match f.storage.get pPath with
  | some d =>
    f.refreshNode d >>= fun f1 =>
    f1.update d (fun n => { n with CiphertextPath := cPath })
  | none =>
    -- f.count++
    let f0 : FastCache := { f with count := f.count + 1 }
    if f0.count > f0.cacheSize then
      -- oldHeadPath := f.head.PlaintextPath ; d := f.head
      f0.head >>= fun d =>
      f0.heap[d]? >>= fun hn =>
      let oldHeadPath := hn.PlaintextPath
      f0.refreshNode d >>= fun f1 =>
      f1.update d (fun n => { n with PlaintextPath := pPath }) >>= fun f2 =>
      f2.update d (fun n => { n with CiphertextPath := cPath }) >>= fun f3 =>
      let f4 : FastCache := { f3 with count := f3.cacheSize }
      let f5 : FastCache := { f4 with storage := f4.storage.delete oldHeadPath }
      some { f5 with storage := f5.storage.set pPath d }
    else
      -- newNode := &DirMapping{...}
      let newNode := f0.heap.length
      let f1 : FastCache :=
        { f0 with heap := f0.heap ++
            [{ PlaintextPath := pPath, CiphertextPath := cPath, prev := none, next := none }] }
      let f2 : FastCache := { f1 with storage := f1.storage.set pPath newNode }
      match f2.head with
      | none => some { f2 with head := some newNode, last := some newNode }
      | some _ =>
        -- newNode.prev = f.last ; f.last.next = newNode ; f.last = newNode
        f2.update newNode (fun n => { n with prev := f2.last }) >>= fun f3 =>
        f3.last >>= fun l =>
        f3.update l (fun n => { n with next := some newNode }) >>= fun f4 =>
        some { f4 with last := some newNode }

/-- One call on a `FastCache`, for describing sequences of calls. -/
inductive Op where
  | store (pPath cPath : String)
  | find (pPath : String)
  | clear
deriving DecidableEq, Repr

/-- The state after one call (`none` if the call panics). -/
def FastCache.step (f : FastCache) : Op → Option FastCache
  | .store p c => f.Store p c
  | .find p => (f.Find p).map (fun r => r.1)
  | .clear => some f.Clear

/-- The state after a sequence of calls, made one after the other. -/
def FastCache.run (f : FastCache) : List Op → Option FastCache
  | [] => some f
  | op :: ops => f.step op >>= fun f1 => f1.run ops

/-- Whether `Find(pPath)` would report `found`: the key is in the map. -/
def FastCache.present (f : FastCache) (pPath : String) : Bool :=
  (f.storage.get pPath).isSome


/-! ### A reference model: the recency-ordered list

The cache as the specification describes it: the mappings in order of their
most recent use, least recently used first. -/

/-- The reference model's state: `(plaintext, ciphertext)` pairs, least
recently used first. -/
abbrev RefLRU := List (String × String)

/-- Reference `Find`: a hit moves the mapping to the most-recently-used end. -/
def RefLRU.find (l : RefLRU) (p : String) : RefLRU :=
  match GoMap.get l p with
  | none => l
  | some c => GoMap.delete l p ++ [(p, c)]

/-- Reference `Store` with capacity `cap`: an overwrite updates and moves to the
most-recently-used end; an insertion at capacity first drops the least recently
used mapping. -/
def RefLRU.store (cap : Nat) (l : RefLRU) (p c : String) : RefLRU :=
  match GoMap.get l p with
  | some _ => GoMap.delete l p ++ [(p, c)]
  | none => if l.length < cap then l ++ [(p, c)] else l.drop 1 ++ [(p, c)]

/-- One call on the reference model. -/
def RefLRU.step (cap : Nat) (l : RefLRU) : Op → RefLRU
  | .store p c => RefLRU.store cap l p c
  | .find p => RefLRU.find l p
  | .clear => []

/-- A sequence of calls on the reference model. -/
def RefLRU.run (cap : Nat) (l : RefLRU) (ops : List Op) : RefLRU :=
  ops.foldl (RefLRU.step cap) l


/-! ### Reachable states and what a caller observes -/

/-- The states reachable from `NewFastCache(C)` by calls of `Store`, `Find`
and `Clear` that return. -/
inductive Reachable (C : Int) : FastCache → Prop where
  | init : Reachable C (NewFastCache C)
  | step {f f1 : FastCache} (op : Op) : Reachable C f → f.step op = some f1 → Reachable C f1

/-- What a caller of `Find(pPath)` sees: the exported fields of the returned
mapping and the flag `found` (`none` if the call panics). -/
def FastCache.findResult (f : FastCache) (pPath : String) : Option (String × String × Bool) :=
  (f.Find pPath).map (fun r => (r.2.1.PlaintextPath, r.2.1.CiphertextPath, r.2.2))

/-- All pointers held by the cache and its nodes point to allocated nodes. -/
def PtrOk (f : FastCache) : Prop :=
  (∀ (i : Nat) (n : DirMapping), f.heap[i]? = some n →
    (∀ p, n.prev = some p → p < f.heap.length) ∧ (∀ p, n.next = some p → p < f.heap.length)) ∧
  (∀ h, f.head = some h → h < f.heap.length) ∧
  (∀ l, f.last = some l → l < f.heap.length)

/-- The part of the data-structure invariant that `Store` and `Find` rely on:
each key of the map leads to a node carrying that key, all pointers are valid,
a cache that counts no entry has an empty map and no head, and a cache that
counts at least one entry has a head and a last node. -/
structure Inv (C : Int) (f : FastCache) : Prop where
  size : f.cacheSize = C
  keys : ∀ (k : String) (d : Nat), f.storage.get k = some d →
    ∃ n : DirMapping, f.heap[d]? = some n ∧ n.PlaintextPath = k
  ptr : PtrOk f
  countNonneg : 0 ≤ f.count
  empty : f.count = 0 → f.storage = [] ∧ f.head = none
  nonempty : 0 < f.count → f.head.isSome = true ∧ f.last.isSome = true

/-- Two states that differ only in pointers: same map, same counters, and every
node keeps its two paths. -/
def SameData (f f1 : FastCache) : Prop :=
  f1.storage = f.storage ∧ f1.cacheSize = f.cacheSize ∧ f1.count = f.count ∧
  f1.heap.length = f.heap.length ∧
  ∀ (i : Nat) (n : DirMapping), f.heap[i]? = some n →
    ∃ n1 : DirMapping, f1.heap[i]? = some n1 ∧ n1.PlaintextPath = n.PlaintextPath ∧
      n1.CiphertextPath = n.CiphertextPath

end filetree

/-! ## `requester/synccache.go` and `requester/requester.go`: the data -/

/-- The interface `os.FileInfo`, as the record of what its methods return. -/
structure FileInfo where
  Name : String
  Size : Int
  Mode : Nat
  ModTime : Int
  IsDir : Bool
  Sys : Option Nat
deriving DecidableEq, Repr

namespace requester

/-- A Go `error` value, identified by its message; `nil` is `none`. -/
abbrev GoError := String

/-- A non-nil `interface{}` held in `genCacheEntry.data`: the workers store a
`[]byte`, a `[]os.FileInfo` or a `string`. A `[]byte` is a list of byte values. -/
inductive Payload where
  | fileData (b : List Nat)
  | dirData (l : List FileInfo)
  | decryptedName (s : String)
deriving DecidableEq, Repr

/-- The struct `genCacheEntry`. -/
structure genCacheEntry where
  data : Option Payload
  err : Option GoError
  lockerNum : Int
deriving DecidableEq, Repr

/-- The zero value `genCacheEntry{}`, which a Go map read yields for an
absent key. -/
def genCacheEntry.zero : genCacheEntry :=
  { data := none, err := none, lockerNum := 0 }

/-- The struct `syncCache` (without its lock). -/
structure syncCache where
  m : GoMap genCacheEntry
deriving DecidableEq, Repr

/-- The constructor `newSyncCache(startingSize)`. -/
def newSyncCache (_startingSize : Int) : syncCache := { m := [] }

/-- The method `(s *syncCache) ClearCache()`, run without interference: the keys are
collected first and then deleted one by one. -/
def syncCache.ClearCache (s : syncCache) : syncCache :=
  let keysToDelete := s.m.keys
  { m := keysToDelete.foldl (fun m k => GoMap.delete m k) s.m }

/-- The method `(s *syncCache) Get(key)`. -/
def syncCache.Get (s : syncCache) (key : String) : genCacheEntry × Bool :=
  match s.m.get key with
  | some cacheEntry => (cacheEntry, true)
  | none => (genCacheEntry.zero, false)

/-- The method `(s *syncCache) GetOrInsert(key, value)`: the new cache and the two
results `cacheEntry, loaded`. -/
def syncCache.GetOrInsert (s : syncCache) (key : String) (value : genCacheEntry) :
    syncCache × genCacheEntry × Bool :=
  match s.m.get key with
  | some cacheEntry => (s, cacheEntry, true)
  | none => ({ m := s.m.set key value }, genCacheEntry.zero, false)

/-- The method `(s *syncCache) Set(key, value)`. -/
def syncCache.Set (s : syncCache) (key : String) (value : genCacheEntry) : syncCache :=
  { m := s.m.set key value }

/-- The method `(s *syncCache) Delete(key)`. -/
def syncCache.Delete (s : syncCache) (key : String) : syncCache :=
  { m := s.m.delete key }

/-- The type `workType` with its four constants. -/
inductive workType where
  | workNone
  | workReadFile
  | workReadDir
  | workDecryptName
deriving DecidableEq, Repr

/-- The struct `work`, without `respChan`: what comes back on that channel is
the result of sending the item (see `Env.send`). -/
structure work where
  requestType : workType
  arg1 : String
  arg2 : List Nat
deriving DecidableEq, Repr

/-- The struct `workTicket`: its mutex and condition variable are synchronisation
only, so a ticket is known by its `lockerNum`. -/
structure workTicket where
  lockerNum : Int
deriving DecidableEq, Repr

/-- The constant `cacheErrRetryAttempts`. -/
def cacheErrRetryAttempts : Nat := 3

/-- What the `select` in `makeRequest` observes: a ticket received on
`respChan`, `respChan` closed, or the 20 second timer. -/
inductive Resp where
  | ticket (t : workTicket)
  | closed
  | timeout
deriving DecidableEq, Repr

end requester

/-! ## `requester/makerequest.go`

`makeRequest` runs in the caller's goroutine and meets the rest of the program
(the caches, which workers and other callers also write, the work queue and the
tickets) only through the operations collected in `Env`.  The embedding keeps
the code of `makeRequest` and takes those operations as a parameter, so that a
statement about `makeRequest` can quantify over everything the other
goroutines may do. -/

namespace requester

/-- A `*syncCache` held by the `Requester`: one of its three caches. -/
inductive CacheRef where
  | fileCache
  | dirCache
  | decryptCache
deriving DecidableEq, Repr

/-- The operations through which `makeRequest` meets shared state, over a
state `σ` of the rest of the program.

* `Get` and `Delete` are `cache.Get(key)` and `cache.Delete(key)`;
* `send` is `r.workQueue <- work{...}` followed by the `select` on `respChan`
  and the timer; it is `none` when the caller never gets past it;
* `Lock`, `Unlock`, `Wait` are the ticket's methods; `Wait` is `none` when the
  caller is never woken. -/
structure Env (σ : Type) where
  Get : σ → CacheRef → String → (genCacheEntry × Bool) × σ
  Delete : σ → CacheRef → String → σ
  send : σ → work → Option (Resp × σ)
  Lock : σ → workTicket → σ
  Unlock : σ → workTicket → σ
  Wait : σ → workTicket → Option σ

/-- The two results of `makeRequest`: `interface{}` and `error`. -/
abbrev Result := Option Payload × Option GoError

/-- The text `fmt.Errorf` produces for the final error: `%s` prints a
`[]string` as its elements separated by blanks, in brackets. -/
def retriesError (retryErrs : List String) : GoError :=
  "somehow could not succeed after retries. Retry errors: [" ++
    " ".intercalate retryErrs ++ "]"

/-- The key `makeRequest` computes; `complexKey` is the helper of that name. -/
def requestKey (complexKey : String → List Nat → String) (arg1 : String) (arg2 : List Nat) :
    String :=
  if arg2.length > 0 then complexKey arg1 arg2 else arg1

/-- The inner `for` loop of `makeRequest` under `ticket.Lock()`: it returns the
last `cached, found` read.  `fuel` bounds the number of iterations; `none` means
the loop did not end, by lack of fuel or because `Wait` never returned. -/
def waitLoop {σ : Type} (env : Env σ) (cache : CacheRef) (key : String)
    (ticket : workTicket) : Nat → σ → Option ((genCacheEntry × Bool) × σ)
  | 0, _ => none
  | fuel + 1, s =>
    let ((cached, found), s1) := env.Get s cache key
    let dataAvailable := cached.data.isSome || cached.err.isSome
    let wrongLocker := ticket.lockerNum == 0 || cached.lockerNum != ticket.lockerNum
    if !found || dataAvailable || wrongLocker then
      some ((cached, found), s1)
    else
      match env.Wait s1 ticket with
      | none => none
      | some s2 => waitLoop env cache key ticket fuel s2

/-- The outer `for` loop of `makeRequest`, with `n` iterations left and the
retry reasons collected so far. -/
def attempts {σ : Type} (env : Env σ) (fuel : Nat) (requestType : workType)
    (arg1 : String) (arg2 : List Nat) (cache : CacheRef) (key : String) :
    Nat → σ → List String → Option (Result × σ)
  | 0, s, retryErrs => some ((none, some (retriesError retryErrs)), s)
  | n + 1, s, retryErrs =>
    let ((cached, found), s1) := env.Get s cache key
    if found && cached.data.isSome then
      some ((cached.data, none), s1)
    else
      match env.send s1 { requestType := requestType, arg1 := arg1, arg2 := arg2 } with
      | none => none
      | some (.timeout, s2) => some ((none, some "nonresponsive work queue"), s2)
      | some (.closed, s2) =>
        -- case ticket, ok := <-respChan, with ok false
        let ((cached, found), s3) := env.Get s2 cache key
        if !found then
          attempts env fuel requestType arg1 arg2 cache key n s3
            (retryErrs ++ ["cache wiped before ticket could be handled"])
        else if cached.data.isSome then
          some ((cached.data, none), s3)
        else
          let reason :=
            if cached.err.isSome then "retrying because of cached error"
            else "empty data for path in cache"
          let s4 := env.Delete s3 cache key
          attempts env fuel requestType arg1 arg2 cache key n s4 (retryErrs ++ [reason])
      | some (.ticket ticket, s2) =>
        -- case ticket, ok := <-respChan, with ok true
        let ((cached, found), s3) := env.Get s2 cache key
        if !found then
          attempts env fuel requestType arg1 arg2 cache key n s3
            (retryErrs ++ ["cache wiped before ticket could be handled"])
        else if cached.data.isSome then
          some ((cached.data, none), s3)
        else
          let s4 := env.Lock s3 ticket
          match waitLoop env cache key ticket fuel s4 with
          | none => none
          | some ((cached, found), s5) =>
            let d := cached.data
            let err := cached.err
            let s6 := env.Unlock s5 ticket
            if !found then
              attempts env fuel requestType arg1 arg2 cache key n s6
                (retryErrs ++ ["cache entry deleted while waiting"])
            else if d.isNone && err.isNone then
              attempts env fuel requestType arg1 arg2 cache key n s6
                (retryErrs ++ ["data missing by the time request completed"])
            else if err.isSome then
              some ((none, err), s6)
            else
              some ((d, none), s6)

/-- The `switch requestType` at the head of `makeRequest`; `none` is
`panic("Invalid request type")`. -/
def requestCache : workType → Option CacheRef
  | .workReadFile => some .fileCache
  | .workReadDir => some .dirCache
  | .workDecryptName => some .decryptCache
  | .workNone => none

/-- The method `(r *Requester) makeRequest(requestType, arg1, arg2)`.  `complexKey` is the
package's helper of that name and `fuel` bounds each wait loop.  The result is
`none` when the call does not return: the panic, or a wait that never ends. -/
def makeRequest {σ : Type} (env : Env σ) (complexKey : String → List Nat → String)
    (fuel : Nat) (s : σ) (requestType : workType) (arg1 : String) (arg2 : List Nat) :
    Option (Result × σ) :=
  match requestCache requestType with
  | none => none
  | some cache =>
    attempts env fuel requestType arg1 arg2 cache (requestKey complexKey arg1 arg2)
      cacheErrRetryAttempts s []

/-- The method `(r *Requester) ReadFile(path)`; a nil `[]byte` is the empty list, and a
failing type assertion is `none`. -/
def ReadFile {σ : Type} (env : Env σ) (complexKey : String → List Nat → String)
    (fuel : Nat) (s : σ) (path : String) : Option ((List Nat × Option GoError) × σ) :=
  match makeRequest env complexKey fuel s .workReadFile path [] with
  | none => none
  | some ((some (.fileData b), err), s1) => some ((b, err), s1)
  | some ((some _, _), _) => none
  | some ((none, err), s1) => some (([], err), s1)

/-- The method `(r *Requester) ReadDir(path)`. -/
def ReadDir {σ : Type} (env : Env σ) (complexKey : String → List Nat → String)
    (fuel : Nat) (s : σ) (path : String) : Option ((List FileInfo × Option GoError) × σ) :=
  match makeRequest env complexKey fuel s .workReadDir path [] with
  | none => none
  | some ((some (.dirData l), err), s1) => some ((l, err), s1)
  | some ((some _, _), _) => none
  | some ((none, err), s1) => some (([], err), s1)

/-- The method `(r *Requester) DecryptName(cName, iv)`. -/
def DecryptName {σ : Type} (env : Env σ) (complexKey : String → List Nat → String)
    (fuel : Nat) (s : σ) (cName : String) (iv : List Nat) :
    Option ((String × Option GoError) × σ) :=
  match makeRequest env complexKey fuel s .workDecryptName cName iv with
  | none => none
  | some ((some (.decryptedName n), err), s1) => some ((n, err), s1)
  | some ((some _, _), _) => none
  | some ((none, err), s1) => some (("", err), s1)

/-! ## `requester/requester.go`: the workers

The backend and the decrypter are external; their answers may depend on the
calls made before, so each operation receives the log of earlier invocations. -/

/-- The interface `Backend`. -/
structure Backend where
  ReadFile : List work → String → List Nat × Option GoError
  ReadDir : List work → String → List FileInfo × Option GoError

/-- The interface `Decrypter`. -/
structure Decrypter where
  DecryptName : List work → String → List Nat → String × Option GoError

/-- The struct `Requester`, without `workQueue`. -/
structure Requester where
  numWorkers : Int
  backend : Backend
  decrypter : Decrypter
  fileCache : syncCache
  dirCache : syncCache
  decryptCache : syncCache
  lockers : List workTicket

/-- The constant `initialCacheSize`. -/
def initialCacheSize : Int := 1000

/-- The constructor `New(numWorkers, backend, decrypter)`; `make` panics on a negative length. -/
def New (numWorkers : Int) (backend : Backend) (decrypter : Decrypter) : Option Requester :=
  if numWorkers + 1 < 0 then none
  else some
    { numWorkers := numWorkers
      backend := backend
      decrypter := decrypter
      fileCache := newSyncCache initialCacheSize
      dirCache := newSyncCache initialCacheSize
      decryptCache := newSyncCache initialCacheSize
      lockers := (List.range (numWorkers + 1).toNat).map
        (fun (i : Nat) => { lockerNum := Int.ofNat i }) }

/-- The cache behind a `CacheRef`. -/
def Requester.cache (r : Requester) : CacheRef → syncCache
  | .fileCache => r.fileCache
  | .dirCache => r.dirCache
  | .decryptCache => r.decryptCache

/-- An update of the cache behind a `CacheRef`. -/
def Requester.setCache (r : Requester) (c : CacheRef) (v : syncCache) : Requester :=
  match c with
  | .fileCache => { r with fileCache := v }
  | .dirCache => { r with dirCache := v }
  | .decryptCache => { r with decryptCache := v }

/-- The method `(r *Requester) ClearCache()`. -/
def Requester.ClearCache (r : Requester) : Requester :=
  { r with fileCache := r.fileCache.ClearCache, dirCache := r.dirCache.ClearCache,
           decryptCache := r.decryptCache.ClearCache }

/-- The index expression `r.lockers[i]`; out of range is `none` (a panic). -/
def lockerAt (lockers : List workTicket) (i : Int) : Option workTicket :=
  if i < 0 then none else lockers[i.toNat]?

/-- The method `performRequestAndCache(key, num, cache, responseCh, request)` up to the
point where `request()` is called: the cache after `GetOrInsert`, what
`responseCh` carries, and whether this worker goes on to call `request()`. -/
def performRequestAndCache (lockers : List workTicket) (key : String) (num : Int)
    (cache : syncCache) : Option (syncCache × Resp × Bool) :=
  let (cache1, cacheEntry, loaded) :=
    cache.GetOrInsert key { data := none, err := none, lockerNum := num }
  if !loaded then
    match lockerAt lockers num with
    | none => none
    | some wt => some (cache1, .ticket wt, true)
  else if cacheEntry.data.isSome || cacheEntry.err.isSome then
    some (cache1, .closed, false)
  else
    match lockerAt lockers cacheEntry.lockerNum with
    | none => none
    | some wt => some (cache1, .ticket wt, false)

/-- The rest of `performRequestAndCache` once `request()` has returned
`data, err`: the statement `cache.Set(key, genCacheEntry{data: data, err: err})`. -/
def performRequestAndCacheSet (key : String) (cache : syncCache) (res : Result) : syncCache :=
  cache.Set key { data := res.1, err := res.2, lockerNum := 0 }

/-- The `switch w.requestType` of `worker`: the cache and the key passed to
`performRequestAndCache`; `none` for `workNone`, where the worker does nothing. -/
def workerTarget (complexKey : String → List Nat → String) (w : work) :
    Option (CacheRef × String) :=
  match w.requestType with
  | .workReadFile => some (.fileCache, w.arg1)
  | .workReadDir => some (.dirCache, w.arg1)
  | .workDecryptName => some (.decryptCache, complexKey w.arg1 w.arg2)
  | .workNone => none

/-- The three closures `worker` passes as `request`; `calls` is the log of the
invocations made before this one. -/
def workerRequest (r : Requester) (calls : List work) (w : work) : Result :=
  match w.requestType with
  | .workReadFile =>
    let (fileData, err) := r.backend.ReadFile calls w.arg1
    if fileData.length > 0 then (some (.fileData fileData), err) else (none, err)
  | .workReadDir =>
    let (dirData, err) := r.backend.ReadDir calls w.arg1
    if dirData.length > 0 then (some (.dirData dirData), err) else (none, err)
  | .workDecryptName =>
    let (decryptedName, err) := r.decrypter.DecryptName calls w.arg1 w.arg2
    if decryptedName.length > 0 then (some (.decryptedName decryptedName), err) else (none, err)
  | .workNone => (none, none)

/-! ### One caller on a started `Requester`

The program while a single goroutine calls the public methods one after the
other and the worker goroutines of `Start()` serve the queue.  The caller runs
`makeRequest`; a worker runs `performRequestAndCache` with the closure that
`worker` builds.  What is left open is the order in which the two sides reach
the shared caches, which the Go scheduler decides.  It is a parameter here:
`sched i` gives, for the `i`-th work item sent, the worker that receives it and
the number of later cache reads of the caller that still come before that
worker's `request()` and `cache.Set`.  A worker holds the mutex of its ticket
from before `request()` until after `Broadcast`, so a caller parked in `Wait`
on that ticket finds the result when it wakes: delay 0 is a worker that is done
before the caller looks, a large delay a caller that waits first.  The timer of
20 seconds is taken not to fire while there is a worker to answer. -/

/-- A worker between sending its ticket and `cache.Set`: its number, the work
item, and the number of cache reads of the caller that still come first. -/
structure Job where
  num : Int
  w : work
  delay : Nat

/-- The program state seen by a single caller. -/
structure System where
  r : Requester
  complexKey : String → List Nat → String
  sched : Nat → Nat × Nat
  jobs : List Job
  calls : List work
  sent : Nat

/-- A started `Requester` with idle workers and nothing sent yet. -/
def System.start (r : Requester) (complexKey : String → List Nat → String)
    (sched : Nat → Nat × Nat) : System :=
  { r := r, complexKey := complexKey, sched := sched, jobs := [], calls := [], sent := 0 }

/-- The worker of job `j` calls `request()` and then `cache.Set`. -/
def System.complete (sys : System) (j : Job) : System :=
  match workerTarget sys.complexKey j.w with
  | none => sys
  | some (c, key) =>
    let res := workerRequest sys.r sys.calls j.w
    { sys with
      r := sys.r.setCache c (performRequestAndCacheSet key (sys.r.cache c) res)
      calls := sys.calls ++ [j.w] }

/-- The workers move on while the caller is about to read a cache: the jobs whose
delay has run out complete, the others come one read closer. -/
def System.tick (sys : System) : System :=
  let due := sys.jobs.filter (fun j => j.delay == 0)
  let rest := (sys.jobs.filter (fun j => j.delay != 0)).map
    (fun j => { j with delay := j.delay - 1 })
  due.foldl System.complete { sys with jobs := rest }

/-- A worker that is to take a new item first finishes the job it is in. -/
def System.finish (sys : System) (num : Int) : System :=
  (sys.jobs.filter (fun j => j.num == num)).foldl System.complete
    { sys with jobs := sys.jobs.filter (fun j => j.num != num) }

/-- The worker that receives the next work item: one of `1 .. numWorkers`,
as the scheduler decides. -/
def System.nextWorker (sys : System) : Int :=
  1 + (((sys.sched sys.sent).1 % sys.r.numWorkers.toNat : Nat) : Int)

/-- How many cache reads of the caller come before the completion of the job
that the next work item may start, as the scheduler decides. -/
def System.nextDelay (sys : System) : Nat :=
  (sys.sched sys.sent).2

/-- The caller sends `w` on the work queue and waits for the answer.  Without
workers nobody answers and the timer fires; otherwise the worker chosen by the
scheduler receives `w` and runs `performRequestAndCache` up to `request()`. -/
def System.send (sys : System) (w : work) : Option (Resp × System) :=
  let sys0 := { sys with sent := sys.sent + 1 }
  if sys.r.numWorkers ≤ 0 then some (.timeout, sys0)
  else
    let num := sys.nextWorker
    let sys1 := sys0.finish num
    match workerTarget sys.complexKey w with
    | none => some (.timeout, sys1)
    | some (c, key) =>
      match performRequestAndCache sys1.r.lockers key num (sys1.r.cache c) with
      | none => none
      | some (cache1, resp, run) =>
        let sys2 := { sys1 with r := sys1.r.setCache c cache1 }
        if run then
          some (resp,
            { sys2 with jobs := sys2.jobs ++ [{ num := num, w := w, delay := sys.nextDelay }] })
        else some (resp, sys2)

/-- The caller waits on a ticket: it is woken by the `Broadcast` of the worker
that owns the ticket, when that worker completes its job; with no such job
nobody wakes it. -/
def System.Wait (sys : System) (t : workTicket) : Option System :=
  match sys.jobs.filter (fun j => j.num == t.lockerNum) with
  | [] => none
  | _ :: _ => some (sys.finish t.lockerNum)

/-- The operations of `makeRequest` on a `System`. -/
def System.env : Env System where
  Get := fun sys c key => ((sys.tick.r.cache c).Get key, sys.tick)
  Delete := fun sys c key => { sys with r := sys.r.setCache c ((sys.r.cache c).Delete key) }
  send := System.send
  Lock := fun sys _ => sys
  Unlock := fun sys _ => sys
  Wait := System.Wait

/-- The state after `sys` sent `w` and a worker inserted the pending entry under
`key`: that worker's job is the only one in flight, `delay` cache reads away
from completion. -/
def System.inflight (sys : System) (c : CacheRef) (key : String) (w : work) (delay : Nat) :
    System :=
  { sys with
    sent := sys.sent + 1
    r := sys.r.setCache c
      { m := (sys.r.cache c).m.set key { data := none, err := none, lockerNum := sys.nextWorker } }
    jobs := [{ num := sys.nextWorker, w := w, delay := delay }] }

/-- The state after `sys` sent `w` and the worker has run `request()` and stored
its result under `key`. -/
def System.done (sys : System) (c : CacheRef) (key : String) (w : work) : System :=
  { sys with
    sent := sys.sent + 1
    calls := sys.calls ++ [w]
    r := sys.r.setCache c
      (performRequestAndCacheSet key (sys.r.cache c) (workerRequest sys.r sys.calls w)) }

/-- The tickets are those `New` creates (ticket `i` carries `lockerNum = i`
for `0 ≤ i ≤ numWorkers`) and there is at least one worker. -/
structure System.WF (sys : System) : Prop where
  workers : 1 ≤ sys.r.numWorkers
  lockers : ∀ i : Int, 0 ≤ i → i ≤ sys.r.numWorkers →
    lockerAt sys.r.lockers i = some { lockerNum := i }

/-- A call of one of the three public methods `ReadFile`, `ReadDir` and
`DecryptName`, with its arguments. -/
inductive Call where
  | ReadFile (path : String)
  | ReadDir (path : String)
  | DecryptName (cName : String) (iv : List Nat)
deriving DecidableEq, Repr

/-- What such a call returns: the typed result and the error. -/
inductive Outcome where
  | bytes (b : List Nat) (err : Option GoError)
  | infos (l : List FileInfo) (err : Option GoError)
  | name (s : String) (err : Option GoError)
deriving DecidableEq, Repr

/-- The work item that the method sends through `makeRequest`. -/
def Call.work : Call → work
  | .ReadFile path => { requestType := .workReadFile, arg1 := path, arg2 := [] }
  | .ReadDir path => { requestType := .workReadDir, arg1 := path, arg2 := [] }
  | .DecryptName cName iv => { requestType := .workDecryptName, arg1 := cName, arg2 := iv }

/-- The call, made through the method of that name. -/
def Call.run {σ : Type} (env : Env σ) (complexKey : String → List Nat → String)
    (fuel : Nat) (s : σ) : Call → Option (Outcome × σ)
  | .ReadFile path =>
    (requester.ReadFile env complexKey fuel s path).map (fun x => (.bytes x.1.1 x.1.2, x.2))
  | .ReadDir path =>
    (requester.ReadDir env complexKey fuel s path).map (fun x => (.infos x.1.1 x.1.2, x.2))
  | .DecryptName cName iv =>
    (requester.DecryptName env complexKey fuel s cName iv).map (fun x => (.name x.1.1 x.1.2, x.2))

/-- The result of a failed call: the empty result together with the error. -/
def Call.failure (E : GoError) : Call → Outcome
  | .ReadFile _ => .bytes [] (some E)
  | .ReadDir _ => .infos [] (some E)
  | .DecryptName _ _ => .name "" (some E)

/-- The backend (or decrypter) operation behind the call fails with the error
`E` and returns no data, whenever it is invoked. -/
def Call.AlwaysFails (backend : Backend) (decrypter : Decrypter) (E : GoError) : Call → Prop
  | .ReadFile path => ∀ calls, backend.ReadFile calls path = ([], some E)
  | .ReadDir path => ∀ calls, backend.ReadDir calls path = ([], some E)
  | .DecryptName cName iv => ∀ calls, decrypter.DecryptName calls cName iv = ("", some E)

/-- The outcome carries a non-empty result. -/
def Outcome.hasData : Outcome → Bool
  | .bytes b _ => b.length > 0
  | .infos l _ => l.length > 0
  | .name s _ => s.length > 0

/-- The error of the outcome. -/
def Outcome.err : Outcome → Option GoError
  | .bytes _ err => err
  | .infos _ err => err
  | .name _ err => err

/-- The sequence of `n` calls of the same method with the same arguments, made one
after the other by a single caller: the outcomes in order and the final state. -/
def System.callN (fuel : Nat) (call : Call) : Nat → System → Option (List Outcome × System)
  | 0, sys => some ([], sys)
  | n + 1, sys =>
    match call.run System.env sys.complexKey fuel sys with
    | none => none
    | some (out, sys1) =>
      match System.callN fuel call n sys1 with
      | none => none
      | some (rest, sys2) => some (out :: rest, sys2)

/-- The idle state after one more work item was sent and answered. -/
def System.sentOne (sys : System) : System := { sys with sent := sys.sent + 1 }

/-- The idle state after one more work item was sent and answered and the
caller deleted the entry under `key`. -/
def System.dropped (sys : System) (c : CacheRef) (key : String) : System :=
  { sys with sent := sys.sent + 1, r := sys.r.setCache c ((sys.r.cache c).Delete key) }

/-- The cache that `makeRequest` selects for the call. -/
def Call.cacheRef : Call → CacheRef
  | .ReadFile _ => .fileCache
  | .ReadDir _ => .dirCache
  | .DecryptName _ _ => .decryptCache

/-- The key under which `makeRequest` looks the call up. -/
def Call.key (complexKey : String → List Nat → String) (call : Call) : String :=
  requestKey complexKey call.work.arg1 call.work.arg2

/-- The caller and the worker use the same key for the call.  For `ReadFile`
and `ReadDir` both use the path.  For `DecryptName` the worker always uses
`complexKey(cName, iv)` and the caller does so when `iv` is not empty, so this
is a condition on `complexKey` for an empty `iv` only. -/
def Call.KeysAgree (complexKey : String → List Nat → String) : Call → Prop
  | .ReadFile _ => True
  | .ReadDir _ => True
  | .DecryptName cName iv => iv = [] → complexKey cName [] = cName

/-- A state in which a call whose operation fails with `E` is about to be made:
the workers are idle and the cache has no entry for the key, or the entry left
by an earlier failure. -/
structure System.ErrReady (sys : System) (call : Call) (E : GoError) : Prop where
  jobs : sys.jobs = []
  wf : sys.WF
  target : workerTarget sys.complexKey call.work = some (call.cacheRef, call.key sys.complexKey)
  fails : ∀ calls, workerRequest sys.r calls call.work = (none, some E)
  entry : (sys.r.cache call.cacheRef).m.get (call.key sys.complexKey) = none ∨
    ∃ e, (sys.r.cache call.cacheRef).m.get (call.key sys.complexKey) = some e ∧
      e.data = none ∧ e.err.isSome = true

/-- The cache `c` holds no data under the key `k`, and every job in flight
works for the key `wk` of that cache. -/
structure System.NoData (sys : System) (c : CacheRef) (k wk : String) : Prop where
  jobs : ∀ j ∈ sys.jobs, workerTarget sys.complexKey j.w = some (c, wk)
  entry : ∀ e, (sys.r.cache c).m.get k = some e → e.data = none

/-- The backend stub of `readfile_test.go`: one file exists, every other read
fails with "Not found". -/
def testBackend : Backend where
  ReadFile := fun _ path =>
    if path = "/expected/file/path" then ([83, 111, 109, 101], none) else ([], some "Not found")
  ReadDir := fun _ _ => ([], some "Not found")

/-- The decrypter stub of `decryptname_test.go`. -/
def testDecrypter : Decrypter where
  DecryptName := fun _ name iv =>
    if name = "encrypted12345" ∧ iv = [73, 86] then ("decrypted", none)
    else ("", some "Error decrypting")

/-- The value of `New(1, testBackend, testDecrypter)`. -/
def testRequester : Requester where
  numWorkers := 1
  backend := testBackend
  decrypter := testDecrypter
  fileCache := { m := [] }
  dirCache := { m := [] }
  decryptCache := { m := [] }
  lockers := [{ lockerNum := 0 }, { lockerNum := 1 }]

/-- A started `testRequester` whose scheduler always picks the first worker,
which completes its job before the caller reads the cache again. -/
def testSystem : System :=
  System.start testRequester (fun cName _ => cName) (fun _ => (0, 0))

/-- An environment in which every cache read finds the entry `e` and the work
queue never answers. -/
def Env.fixed (e : genCacheEntry) : Env Unit where
  Get := fun _ _ _ => ((e, true), ())
  Delete := fun _ _ _ => ()
  send := fun _ _ => some (.timeout, ())
  Lock := fun _ _ => ()
  Unlock := fun _ _ => ()
  Wait := fun _ _ => none

end requester

/-! ## The retry loop of `makeRequest`, one pass at a time -/

namespace requester

/-- How one pass through the body of the retry loop of `makeRequest` ends:
with a `return`, or with a `continue` that has appended one retry reason. -/
inductive Iteration (σ : Type) where
  | returned (res : Result) (s : σ)
  | retry (reason : String) (s : σ)

/-- The body of the loop `for i := 0; i < cacheErrRetryAttempts; i++` of
`makeRequest`, run once from state `s`; `none` when the pass never ends. -/
def iteration {σ : Type} (env : Env σ) (fuel : Nat) (requestType : workType)
    (arg1 : String) (arg2 : List Nat) (cache : CacheRef) (key : String) (s : σ) :
    Option (Iteration σ) :=
  let ((cached, found), s1) := env.Get s cache key
  if found && cached.data.isSome then
    some (.returned (cached.data, none) s1)
  else
    match env.send s1 { requestType := requestType, arg1 := arg1, arg2 := arg2 } with
    | none => none
    | some (.timeout, s2) => some (.returned (none, some "nonresponsive work queue") s2)
    | some (.closed, s2) =>
      let ((cached, found), s3) := env.Get s2 cache key
      if !found then
        some (.retry "cache wiped before ticket could be handled" s3)
      else if cached.data.isSome then
        some (.returned (cached.data, none) s3)
      else
        let reason :=
          if cached.err.isSome then "retrying because of cached error"
          else "empty data for path in cache"
        some (.retry reason (env.Delete s3 cache key))
    | some (.ticket ticket, s2) =>
      let ((cached, found), s3) := env.Get s2 cache key
      if !found then
        some (.retry "cache wiped before ticket could be handled" s3)
      else if cached.data.isSome then
        some (.returned (cached.data, none) s3)
      else
        let s4 := env.Lock s3 ticket
        match waitLoop env cache key ticket fuel s4 with
        | none => none
        | some ((cached, found), s5) =>
          let d := cached.data
          let err := cached.err
          let s6 := env.Unlock s5 ticket
          if !found then
            some (.retry "cache entry deleted while waiting" s6)
          else if d.isNone && err.isNone then
            some (.retry "data missing by the time request completed" s6)
          else if err.isSome then
            some (.returned (none, err) s6)
          else
            some (.returned (d, none) s6)

/-- The state in which a pass through the loop body ends. -/
def Iteration.state {σ : Type} : Iteration σ → σ
  | .returned _ s => s
  | .retry _ s => s

/-- The function `cnt` counts the work items sent to the work queue in the
environment `env`: a `send` that goes through adds one, and no other operation
changes the count. -/
structure Env.Counts {σ : Type} (env : Env σ) (cnt : σ → Nat) : Prop where
  get : ∀ (s : σ) (c : CacheRef) (k : String), cnt (env.Get s c k).2 = cnt s
  delete : ∀ (s : σ) (c : CacheRef) (k : String), cnt (env.Delete s c k) = cnt s
  lock : ∀ (s : σ) (t : workTicket), cnt (env.Lock s t) = cnt s
  unlock : ∀ (s : σ) (t : workTicket), cnt (env.Unlock s t) = cnt s
  wait : ∀ (s : σ) (t : workTicket) (s1 : σ), env.Wait s t = some s1 → cnt s1 = cnt s
  send : ∀ (s : σ) (w : work) (r : Resp) (s1 : σ), env.send s w = some (r, s1) →
    cnt s1 = cnt s + 1

/-- The texts that `makeRequest` appends to `retryErrs`. -/
def retryReasons : List String :=
  ["cache wiped before ticket could be handled",
   "retrying because of cached error",
   "empty data for path in cache",
   "cache entry deleted while waiting",
   "data missing by the time request completed"]

/-- An environment together with a counter of the work items sent to the work
queue: every operation acts as in `env`, and `send` adds one to the counter. -/
def Env.counting {σ : Type} (env : Env σ) : Env (σ × Nat) where
  Get := fun s c k => ((env.Get s.1 c k).1, ((env.Get s.1 c k).2, s.2))
  Delete := fun s c k => (env.Delete s.1 c k, s.2)
  send := fun s w =>
    match env.send s.1 w with
    | none => none
    | some (r, s1) => some (r, (s1, s.2 + 1))
  Lock := fun s t => (env.Lock s.1 t, s.2)
  Unlock := fun s t => (env.Unlock s.1 t, s.2)
  Wait := fun s t =>
    match env.Wait s.1 t with
    | none => none
    | some s1 => some (s1, s.2)

/-- An environment whose cache never holds the key and whose workers close the
response channel at once. -/
def Env.wiped : Env Unit where
  Get := fun _ _ _ => ((genCacheEntry.zero, false), ())
  Delete := fun _ _ _ => ()
  send := fun _ _ => some (.closed, ())
  Lock := fun _ _ => ()
  Unlock := fun _ _ => ()
  Wait := fun _ _ => some ()

end requester

/-! ## `filetree`: walking the list of `FastCache` -/

namespace filetree

/-- The nodes met from `start` by following the pointer `dir` (`next` or
`prev`) until it is nil, at most `fuel` of them. -/
def FastCache.follow (f : FastCache) (dir : DirMapping → Option Nat) :
    Nat → Option Nat → List Nat
  | 0, _ => []
  | _ + 1, none => []
  | fuel + 1, some p =>
    p :: (match f.heap[p]? with
          | none => []
          | some n => FastCache.follow f dir fuel (dir n))

/-- The nodes reached by following `next` from `head`.  The walk is cut after
one node more than were ever allocated, so a longer list shows a cycle. -/
def FastCache.forward (f : FastCache) : List Nat :=
  f.follow (fun n => n.next) (f.heap.length + 1) f.head

/-- The nodes reached by following `prev` from `last`, cut in the same way. -/
def FastCache.backward (f : FastCache) : List Nat :=
  f.follow (fun n => n.prev) (f.heap.length + 1) f.last

/-- The field `prev` of the node `f.head`. -/
def FastCache.headPrev (f : FastCache) : Option (Option Nat) :=
  match f.head with
  | none => none
  | some h => (f.heap[h]?).map (fun n => n.prev)

end filetree

/-! ## `filetree`: the type `FileTree` -/

namespace filetree

open requester (GoError)

/-- The constant `cacheSize` of `filetree.go`. -/
def cacheSize : Int := 16

/-- The functions of Go's package `path/filepath` that `FileTree` calls. -/
structure Filepath where
  Clean : String → String
  Dir : String → String
  Base : String → String
  Join : String → String → String

/-- What a `FileTree` reaches through its fields `reqCacher`, `fsAccessor` and
`cEnc`, over a state `σ` of the world outside the `FileTree`: the three
methods of `*requester.Requester`, `fsAccessor.Stat`,
`cEnc.CipherSizeToPlainSize` (on `uint64`), and the method `decryptFile`.  A call
that does not return is `none`. -/
structure Deps (σ : Type) where
  filepath : Filepath
  ReadFile : σ → String → Option ((List Nat × Option GoError) × σ)
  ReadDir : σ → String → Option ((List FileInfo × Option GoError) × σ)
  DecryptName : σ → String → List Nat → Option ((String × Option GoError) × σ)
  Stat : σ → String → Option ((Option FileInfo × Option GoError) × σ)
  CipherSizeToPlainSize : Nat → Nat
  decryptFile : List Nat → List Nat × Option GoError

/-- The calls a `FileTree` makes on its directory cache, on the coalescer and
on the backend. -/
inductive Event where
  | lruFind (pPath : String)
  | lruStore (pPath cPath : String)
  | readFile (path : String)
  | readDir (path : String)
  | decryptName (cName : String) (iv : List Nat)
  | stat (path : String)
deriving DecidableEq, Repr

/-- The struct `FileTree`: the encrypted root, the directory cache, the state
of the world behind `reqCacher` and `fsAccessor`, and (not in the source) the
record `trace` of the calls made so far, oldest first. -/
structure FileTree (σ : Type) where
  encryptedRoot : String
  fastCache : FastCache
  world : σ
  trace : List Event
deriving DecidableEq

/-- The call `f.fastCache.Find(pPath)`; `none` is a panic. -/
def FileTree.lruFind {σ : Type} (f : FileTree σ) (pPath : String) :
    Option ((DirMapping × Bool) × FileTree σ) :=
  match f.fastCache.Find pPath with
  | none => none
  | some (fc, d, found) =>
    some ((d, found), { f with fastCache := fc, trace := f.trace ++ [.lruFind pPath] })

/-- The call `f.fastCache.Store(pPath, cPath)`; `none` is a panic. -/
def FileTree.lruStore {σ : Type} (f : FileTree σ) (pPath cPath : String) :
    Option (FileTree σ) :=
  match f.fastCache.Store pPath cPath with
  | none => none
  | some fc => some { f with fastCache := fc, trace := f.trace ++ [.lruStore pPath cPath] }

/-- The call `f.reqCacher.ReadFile(path)`. -/
def FileTree.reqReadFile {σ : Type} (d : Deps σ) (f : FileTree σ) (path : String) :
    Option ((List Nat × Option GoError) × FileTree σ) :=
  match d.ReadFile f.world path with
  | none => none
  | some (r, w) => some (r, { f with world := w, trace := f.trace ++ [.readFile path] })

/-- The call `f.reqCacher.ReadDir(path)`. -/
def FileTree.reqReadDir {σ : Type} (d : Deps σ) (f : FileTree σ) (path : String) :
    Option ((List FileInfo × Option GoError) × FileTree σ) :=
  match d.ReadDir f.world path with
  | none => none
  | some (r, w) => some (r, { f with world := w, trace := f.trace ++ [.readDir path] })

/-- The call `f.reqCacher.DecryptName(cName, iv)`. -/
def FileTree.reqDecryptName {σ : Type} (d : Deps σ) (f : FileTree σ) (cName : String)
    (iv : List Nat) : Option ((String × Option GoError) × FileTree σ) :=
  match d.DecryptName f.world cName iv with
  | none => none
  | some (r, w) =>
    some (r, { f with world := w, trace := f.trace ++ [.decryptName cName iv] })

/-- The call `f.fsAccessor.Stat(path)`. -/
def FileTree.fsStat {σ : Type} (d : Deps σ) (f : FileTree σ) (path : String) :
    Option ((Option FileInfo × Option GoError) × FileTree σ) :=
  match d.Stat f.world path with
  | none => none
  | some (r, w) => some (r, { f with world := w, trace := f.trace ++ [.stat path] })

/-- The conversion `uint64(x)` of an `int64`. -/
def toUint64 (x : Int) : Nat := (x % 2 ^ 64).toNat

/-- The conversion `int64(n)` of a `uint64`. -/
def toInt64 (n : Nat) : Int :=
  if n % 2 ^ 64 < 2 ^ 63 then Int.ofNat (n % 2 ^ 64) else Int.ofNat (n % 2 ^ 64) - 2 ^ 64

/-- The expression `int64(f.cEnc.CipherSizeToPlainSize(uint64(size)))`. -/
def plainSize {σ : Type} (d : Deps σ) (size : Int) : Int :=
  toInt64 (d.CipherSizeToPlainSize (toUint64 size))

/-- The value `plainFileInfo{FileInfo: info, name: name, size: size}` of
`fileinfo.go`, seen through the methods of `os.FileInfo`: `Name()` and `Size()` are
overridden, the other methods are those of the embedded `info`. -/
def plainFileInfo (info : FileInfo) (name : String) (size : Int) : FileInfo :=
  { info with Name := name, Size := size }

/-- The loop `for _, info := range dirListing` of `rangeInDir`.  The variables
that the closure `fn` captures and assigns are the value `acc`, which `fn` takes
and returns together with its result `exit`. -/
def rangeLoop {σ α : Type} (d : Deps σ) (fn : α → FileInfo → String → α × Bool)
    (iv : List Nat) : List FileInfo → α → FileTree σ → Option (α × FileTree σ)
  | [], acc, f => some (acc, f)
  | info :: rest, acc, f =>
    match f.reqDecryptName d info.Name iv with
    | none => none
    | some ((rName, err), f1) =>
      if err.isSome then
        rangeLoop d fn iv rest acc f1
      else
        let (acc1, exit) := fn acc info rName
        if exit then some (acc1, f1) else rangeLoop d fn iv rest acc1 f1

/-- The method `(f *FileTree) rangeInDir(cipherPath, fn)`; the result carries
the final value of the variables captured by `fn`. -/
def FileTree.rangeInDir {σ α : Type} (d : Deps σ) (f : FileTree σ) (cipherPath : String)
    (fn : α → FileInfo → String → α × Bool) (acc : α) :
    Option ((α × Option GoError) × FileTree σ) :=
  match f.reqReadFile d (d.filepath.Join cipherPath "gocryptfs.diriv") with
  | none => none
  | some ((_, some e), f1) => some ((acc, some ("error reading directory IV: " ++ e)), f1)
  | some ((iv, none), f1) =>
    match f1.reqReadDir d cipherPath with
    | none => none
    | some ((_, some e), f2) => some ((acc, some ("error listing directory: " ++ e)), f2)
    | some ((dirListing, none), f2) =>
      match rangeLoop d fn iv dirListing acc f2 with
      | none => none
      | some (acc1, f3) => some ((acc1, none), f3)

/-- The closure that `findInDir` passes to `rangeInDir`; `item` is the named
result it assigns. -/
def findInDirFn (plainName : String) (item : Option FileInfo) (info : FileInfo)
    (decryptedName : String) : Option FileInfo × Bool :=
  if plainName = decryptedName then (some info, true) else (item, false)

/-- The method `(f *FileTree) findInDir(cipherPath, plainName)`. -/
def FileTree.findInDir {σ : Type} (d : Deps σ) (f : FileTree σ) (cipherPath plainName : String) :
    Option ((Option FileInfo × Option GoError) × FileTree σ) :=
  match f.rangeInDir d cipherPath (findInDirFn plainName) none with
  | none => none
  | some ((_, some e), f1) =>
    some ((none, some ("error iterating " ++ cipherPath ++ ": " ++ e)), f1)
  | some ((none, none), f1) =>
    some ((none, some (plainName ++ " not found in " ++ cipherPath)), f1)
  | some ((some item, none), f1) => some ((some item, none), f1)

/-- The method `(f *FileTree) findPath(plainPath)`.  `depth` bounds the depth of
the recursion: `none` is a recursion that does not end within `depth` calls, a
panic, or a call of the coalescer that does not return. -/
def FileTree.findPath {σ : Type} (d : Deps σ) :
    Nat → FileTree σ → String → Option ((String × Option GoError) × FileTree σ)
  | 0, _, _ => none
  | depth + 1, f, plainPath =>
    let cleanPath := d.filepath.Clean plainPath
    if cleanPath = "/" then
      some ((f.encryptedRoot, none), f)
    else
      match f.lruFind cleanPath with
      | none => none
      | some ((dirMapping, true), f1) => some ((dirMapping.CiphertextPath, none), f1)
      | some ((_, false), f1) =>
        let plainParentPath := d.filepath.Dir cleanPath
        let plainDirName := d.filepath.Base cleanPath
        match FileTree.findPath d depth f1 plainParentPath with
        | none => none
        | some ((_, some err), f2) => some (("", some err), f2)
        | some ((cipherParentPath, none), f2) =>
          match f2.findInDir d cipherParentPath plainDirName with
          | none => none
          | some ((_, some err), f3) => some (("", some err), f3)
          | some ((none, none), _) => none
          | some ((some item, none), f3) =>
            let ciphertextPath := d.filepath.Join cipherParentPath item.Name
            if !item.IsDir then
              some (("", some (ciphertextPath ++ " is not a directory")), f3)
            else
              match f3.lruStore cleanPath ciphertextPath with
              | none => none
              | some f4 => some ((ciphertextPath, none), f4)

/-- The closure that `ReadDir` passes to `rangeInDir`; `listing` is the
variable it appends to. -/
def readDirFn {σ : Type} (d : Deps σ) (listing : List FileInfo) (info : FileInfo)
    (plainName : String) : List FileInfo × Bool :=
  (listing ++ [plainFileInfo info plainName (plainSize d info.Size)], false)

/-- The method `(f *FileTree) ReadDir(plainPath)`. -/
def FileTree.ReadDir {σ : Type} (d : Deps σ) (depth : Nat) (f : FileTree σ)
    (plainPath : String) : Option ((List FileInfo × Option GoError) × FileTree σ) :=
  let cleanPath := d.filepath.Clean plainPath
  match f.findPath d depth cleanPath with
  | none => none
  | some ((_, some err), f1) =>
    some (([], some ("ReadDir: " ++ ("error finding path " ++ cleanPath ++ ": " ++ err))), f1)
  | some ((ciphertextPath, none), f1) =>
    match f1.rangeInDir d ciphertextPath (readDirFn d) [] with
    | none => none
    | some ((_, some err), f2) =>
      some (([], some ("ReadDir: " ++
        ("error listing directory " ++ ciphertextPath ++ ": " ++ err))), f2)
    | some ((listing, none), f2) => some ((listing, none), f2)

/-- The method `(f *FileTree) ReadFile(plainPath)`. -/
def FileTree.ReadFile {σ : Type} (d : Deps σ) (depth : Nat) (f : FileTree σ)
    (plainPath : String) : Option ((List Nat × Option GoError) × FileTree σ) :=
  let cleanPath := d.filepath.Clean plainPath
  if cleanPath = "/" then
    some (([], some ("ReadFile: " ++ "/ is a directory")), f)
  else
    let plainDirPath := d.filepath.Dir cleanPath
    let plainFileName := d.filepath.Base cleanPath
    match f.findPath d depth plainDirPath with
    | none => none
    | some ((_, some err), f1) =>
      some (([], some ("ReadFile: " ++ ("error finding parent path: " ++ err))), f1)
    | some ((cipherDirPath, none), f1) =>
      match f1.findInDir d cipherDirPath plainFileName with
      | none => none
      | some ((_, some err), f2) => some (([], some ("ReadFile: " ++ err)), f2)
      | some ((none, none), _) => none
      | some ((some item, none), f2) =>
        let ciphertextPath := d.filepath.Join cipherDirPath item.Name
        if item.IsDir then
          some (([], some ("ReadFile: " ++ (ciphertextPath ++ " is a directory"))), f2)
        else
          match f2.reqReadFile d ciphertextPath with
          | none => none
          | some ((_, some err), f3) =>
            some (([], some ("ReadFile: " ++
              ("error reading file " ++ ciphertextPath ++ ": " ++ err))), f3)
          | some ((fileBytes, none), f3) =>
            match d.decryptFile fileBytes with
            | (_, some err) =>
              some (([], some ("ReadFile: " ++
                ("error decrypting file " ++ ciphertextPath ++ ": " ++ err))), f3)
            | (plainFileBytes, none) => some ((plainFileBytes, none), f3)

/-- The method `(f *FileTree) Stat(plainPath)`; a nil `os.FileInfo` is `none`. -/
def FileTree.Stat {σ : Type} (d : Deps σ) (depth : Nat) (f : FileTree σ)
    (plainPath : String) : Option ((Option FileInfo × Option GoError) × FileTree σ) :=
  let cleanPath := d.filepath.Clean plainPath
  let plainBaseName := d.filepath.Base cleanPath
  match f.findPath d depth cleanPath with
  | none => none
  | some ((_, some err), f1) =>
    some ((none, some ("Stat: " ++ ("error finding path: " ++ err))), f1)
  | some ((cipherPath, none), f1) =>
    match f1.fsStat d cipherPath with
    | none => none
    | some ((_, some err), f2) =>
      some ((none, some ("Stat: " ++ ("error running stat on path: " ++ err))), f2)
    | some ((none, none), _) => none
    | some ((some item, none), f2) =>
      some ((some (plainFileInfo item plainBaseName (plainSize d item.Size)), none), f2)

/-- The coalescer of package `requester` as the `reqCacher` of a `FileTree`,
over an environment `env`, with a backend `stat` for `fsAccessor.Stat`. -/
def Deps.ofEnv {σ : Type} (env : requester.Env σ) (complexKey : String → List Nat → String)
    (fuel : Nat) (fp : Filepath)
    (stat : σ → String → Option ((Option FileInfo × Option GoError) × σ))
    (cipherSizeToPlainSize : Nat → Nat)
    (decryptFile : List Nat → List Nat × Option GoError) : Deps σ where
  filepath := fp
  ReadFile := fun s path => requester.ReadFile env complexKey fuel s path
  ReadDir := fun s path => requester.ReadDir env complexKey fuel s path
  DecryptName := fun s cName iv => requester.DecryptName env complexKey fuel s cName iv
  Stat := stat
  CipherSizeToPlainSize := cipherSizeToPlainSize
  decryptFile := decryptFile

end filetree

/-! ## `handlers/decrypt.go` -/

namespace handlers

open requester (GoError)
open filetree (FileTree Deps)

/-- The fields of `sftp.Request` that the handler reads. -/
structure Request where
  Method : String
  Filepath : String
  Target : String

/-- The method `(p *decrypt) Filewrite(req)`: the returned error (the writer is
always nil). -/
def Filewrite (req : Request) : Option GoError :=
  some ("Writing not supported for path: " ++ req.Filepath)

/-- The method `(p *decrypt) Filecmd(req)`: the returned error, `none` for nil. -/
def Filecmd (req : Request) : Option GoError :=
  if req.Method = "Setstat" then
    some ("Setstat not supported. path: " ++ req.Filepath)
  else if req.Method = "Rename" then
    some ("Renaming not supported. path: " ++ req.Filepath ++ ", target: " ++ req.Target)
  else if req.Method = "Rmdir" ∨ req.Method = "Remove" then
    some ("Removing not supported. path: " ++ req.Filepath)
  else if req.Method = "Mkdir" then
    some ("Mkdir not supported. path: " ++ req.Filepath)
  else if req.Method = "Symlink" then
    some ("Symlink not supported. path: " ++ req.Filepath ++ ", target " ++ req.Target)
  else
    none

/-- The method `(p *decrypt) Filelist(req)`: the returned `sftp.ListerAt` (a
`listerat`, `none` for nil) and the returned error. -/
def Filelist {σ : Type} (d : Deps σ) (depth : Nat) (ft : FileTree σ) (req : Request) :
    Option ((Option (List FileInfo) × Option GoError) × FileTree σ) :=
  if req.Method = "List" then
    match ft.ReadDir d depth req.Filepath with
    | none => none
    | some ((_, some err), ft1) => some ((none, some err), ft1)
    | some ((fileList, none), ft1) => some ((some fileList, none), ft1)
  else if req.Method = "Stat" then
    match ft.Stat d depth req.Filepath with
    | none => none
    | some ((_, some err), ft1) => some ((none, some err), ft1)
    | some ((none, none), _) => none
    | some ((some fileInfo, none), ft1) => some ((some [fileInfo], none), ft1)
  else if req.Method = "Readlink" then
    some ((none, some ("ReadLink not supported. path: " ++ req.Filepath)), ft)
  else
    some ((none, none), ft)

/-- The method `(p *decrypt) Fileread(req)`: the bytes behind the returned
reader (`none` for a nil reader) and the returned error. -/
def Fileread {σ : Type} (d : Deps σ) (depth : Nat) (ft : FileTree σ) (req : Request) :
    Option ((Option (List Nat) × Option GoError) × FileTree σ) :=
  match ft.ReadFile d depth req.Filepath with
  | none => none
  | some ((_, some err), ft1) => some ((none, some err), ft1)
  | some ((b, none), ft1) => some ((some b, none), ft1)

end handlers

/-! ## `config/config.go`: `LoadSSHKey` -/

namespace config

open requester (GoError)

/-- What `ssh.ParsePrivateKeyWithPassphrase` and `ssh.ParsePrivateKey` return: a
signer, the error value `x509.IncorrectPasswordError`, or another error. -/
inductive ParseResult (Signer : Type) where
  | signer (s : Signer)
  | incorrectPassword
  | otherError (e : GoError)

/-- What `LoadSSHKey` returns: a signer with nil error, or nil with an error,
which is `x509.IncorrectPasswordError` or another error. -/
inductive LoadResult (Signer : Type) where
  | signer (s : Signer)
  | incorrectPassword
  | error (e : GoError)

/-- What `LoadSSHKey` depends on: the result of `ioutil.ReadFile` on the key
path, `isPrivateKeyEncrypted`, the answer of `pwReader.ReadPassword` to its
`n`-th call (counted from 0) with the given prompt, and the two parsers of
package `ssh`. -/
structure KeyEnv (Signer : Type) where
  PrivateKeyPath : String
  readFile : String → List Nat × Option GoError
  isPrivateKeyEncrypted : List Nat → Bool
  ReadPassword : Nat → String → List Nat × Option GoError
  ParsePrivateKeyWithPassphrase : List Nat → List Nat → ParseResult Signer
  ParsePrivateKey : List Nat → ParseResult Signer

/-- The result of a parser as the pair `signer, err` that `LoadSSHKey` returns. -/
def ParseResult.toLoad {Signer : Type} : ParseResult Signer → LoadResult Signer
  | .signer s => .signer s
  | .incorrectPassword => .incorrectPassword
  | .otherError e => .error e

/-- The loop `for i := 0; i < 3; i++` of `LoadSSHKey` with `n` iterations left,
after `prompts` calls of `ReadPassword`; the result comes with the number of
calls of `ReadPassword` made in all. -/
def promptLoop {Signer : Type} (env : KeyEnv Signer) (privateBytes : List Nat) :
    Nat → Nat → LoadResult Signer × Nat
  | 0, prompts => (.incorrectPassword, prompts)
  | n + 1, prompts =>
    let prompt := "Enter passphrase for key '" ++ env.PrivateKeyPath ++ "': "
    match env.ReadPassword prompts prompt with
    | (_, some err) => (.error err, prompts + 1)
    | (passphrase, none) =>
      match env.ParsePrivateKeyWithPassphrase privateBytes passphrase with
      | .signer s => (.signer s, prompts + 1)
      | .otherError e => (.error e, prompts + 1)
      | .incorrectPassword => promptLoop env privateBytes n (prompts + 1)

/-- The method `(c *Config) LoadSSHKey()`: what it returns, and the number of
calls of `pwReader.ReadPassword` it made. -/
def LoadSSHKey {Signer : Type} (env : KeyEnv Signer) : LoadResult Signer × Nat :=
  match env.readFile env.PrivateKeyPath with
  | (_, some err) => (.error ("failed to load private key: " ++ err), 0)
  | (privateBytes, none) =>
    if env.isPrivateKeyEncrypted privateBytes then
      promptLoop env privateBytes 3 0
    else
      ((env.ParsePrivateKey privateBytes).toLoad, 0)

/-- The key of the tests of `config_test.go`: a key file that is encrypted
(`encrypted = true`) under the passphrase `[107, 101, 121]`, and a password reader
that answers its `n`-th call with `answers n`. -/
def testKeyEnv (encrypted : Bool) (answers : Nat → List Nat × Option GoError) : KeyEnv Unit where
  PrivateKeyPath := "/tmp/key"
  readFile := fun path => if path = "/tmp/key" then ([1], none) else ([], some "no such file")
  isPrivateKeyEncrypted := fun _ => encrypted
  ReadPassword := fun n _ => answers n
  ParsePrivateKeyWithPassphrase := fun _ pass =>
    if pass = [107, 101, 121] then .signer () else .incorrectPassword
  ParsePrivateKey := fun _ => if encrypted then .otherError "passphrase protected" else .signer ()

end config

/-! ## `path/filepath` on Unix, and a small encrypted tree -/

namespace filetree

open requester (GoError)

/-- The elements of a path, cut at each separator `/`; `cur` is the element
being read, last character first. -/
def splitPath : List Char → List Char → List (List Char)
  | cur, [] => [cur.reverse]
  | cur, c :: cs =>
    if c = '/' then cur.reverse :: splitPath [] cs else splitPath (c :: cur) cs

/-- The pass of `filepath.Clean` over the elements of a path; `out` holds the
elements kept so far, last first.  Empty elements and `.` are dropped; `..`
removes the element before it, is dropped at the root, and is kept where a
relative path has nothing left to remove. -/
def cleanElems (rooted : Bool) : List (List Char) → List (List Char) → List (List Char)
  | out, [] => out.reverse
  | out, e :: rest =>
    if e = [] ∨ e = ['.'] then
      cleanElems rooted out rest
    else if e = ['.', '.'] then
      match out with
      | [] => if rooted then cleanElems rooted [] rest else cleanElems rooted [e] rest
      | top :: below =>
        if top = ['.', '.'] then cleanElems rooted (e :: out) rest
        else cleanElems rooted below rest
    else
      cleanElems rooted (e :: out) rest

/-- The elements joined by `/`. -/
def joinElems : List (List Char) → List Char
  | [] => []
  | [e] => e
  | e :: rest => e ++ '/' :: joinElems rest

/-- Go's `filepath.Clean` on Unix. -/
def goClean (path : String) : String :=
  let cs := path.data
  if cs = [] then "."
  else
    let rooted := cs.head? = some '/'
    let body := joinElems (cleanElems rooted [] (splitPath [] cs))
    if rooted then String.mk ('/' :: body)
    else if body = [] then "."
    else String.mk body

/-- Go's `filepath.Dir` on Unix: `Clean` of the path up to its last separator. -/
def goDir (path : String) : String :=
  goClean (String.mk (path.data.reverse.dropWhile (fun c => c ≠ '/')).reverse)

/-- Go's `filepath.Base` on Unix. -/
def goBase (path : String) : String :=
  if path = "" then "."
  else
    let stripped := path.data.reverse.dropWhile (fun c => c = '/')
    let last := (stripped.takeWhile (fun c => c ≠ '/')).reverse
    if last = [] then "/" else String.mk last

/-- Go's `filepath.Join` of two elements on Unix. -/
def goJoin (a b : String) : String :=
  if a ≠ "" then goClean (a ++ "/" ++ b)
  else if b ≠ "" then goClean b
  else ""

/-- The functions of `path/filepath` on Unix. -/
def goFilepath : Filepath where
  Clean := goClean
  Dir := goDir
  Base := goBase
  Join := goJoin

/-- The directory listing of the encrypted root of the small tree. -/
def testListing : List FileInfo :=
  [{ Name := "gocryptfs.diriv", Size := 16, Mode := 420, ModTime := 1, IsDir := false,
     Sys := none },
   { Name := "Xdir", Size := 4096, Mode := 493, ModTime := 2, IsDir := true, Sys := none },
   { Name := "Xfile", Size := 150, Mode := 420, ModTime := 3, IsDir := false, Sys := some 7 }]

/-- A small encrypted tree under `/enc`: the directory IV is `[73, 86]`, the root
holds the directory `Xdir` (plaintext `dir`) and the file `Xfile` (plaintext
`file`, content `[1, 2, 3]`).  The state of the world counts the calls made. -/
def testDeps : Deps Nat where
  filepath := goFilepath
  ReadFile := fun w path =>
    some (if path = "/enc/gocryptfs.diriv" then ([73, 86], none)
      else if path = "/enc/Xfile" then ([1, 2, 3], none)
      else ([], some "Not found"), w + 1)
  ReadDir := fun w path =>
    some (if path = "/enc" then (testListing, none) else ([], some "Not found"), w + 1)
  DecryptName := fun w cName iv =>
    some (if iv = [73, 86] ∧ cName = "Xdir" then ("dir", none)
      else if iv = [73, 86] ∧ cName = "Xfile" then ("file", none)
      else ("", some "Error decrypting"), w + 1)
  Stat := fun w _ => some ((none, some "Not found"), w + 1)
  CipherSizeToPlainSize := fun n => n - 50
  decryptFile := fun b => (b, none)

/-- The `FileTree` that `Init` builds over the encrypted root `/enc`. -/
def testTree : FileTree Nat :=
  { encryptedRoot := "/enc", fastCache := NewFastCache cacheSize, world := 0, trace := [] }

/-- The directory cache maps the plaintext path `p` to the ciphertext path `c`. -/
def FastCache.Maps (f : FastCache) (p c : String) : Prop :=
  ∃ (dn : Nat) (n : DirMapping),
    f.storage.get p = some dn ∧ f.heap[dn]? = some n ∧ n.CiphertextPath = c

/-- The calls `f.reqCacher.DecryptName(info.Name(), iv)` for the entries of a
listing, one after the other: the answers in order. -/
def decryptNames {σ : Type} (d : Deps σ) (iv : List Nat) :
    List FileInfo → FileTree σ → Option (List (String × Option GoError) × FileTree σ)
  | [], f => some ([], f)
  | info :: rest, f =>
    match f.reqDecryptName d info.Name iv with
    | none => none
    | some (r, f1) =>
      match decryptNames d iv rest f1 with
      | none => none
      | some (rs, f2) => some (r :: rs, f2)

/-- The listing that the specification describes: one entry for each backend
entry whose name was decrypted without error, in backend order, with the
decrypted name and the plaintext size. -/
def listingSpec {σ : Type} (d : Deps σ) (dirListing : List FileInfo)
    (results : List (String × Option GoError)) : List FileInfo :=
  (dirListing.zip results).filterMap (fun x =>
    if x.2.2.isSome then none
    else some (plainFileInfo x.1 x.2.1 (plainSize d x.1.Size)))

end filetree


/-! ## `handlers/proxy.go`: the type `listerat` -/

namespace handlers

open requester (GoError)

/-- The error value `io.EOF`. -/
def ioEOF : GoError := "EOF"

/-- The built-in `copy(dst, src)`: the content of `dst` afterwards and the
number of elements copied, the smaller of the two lengths. -/
def goCopy {α : Type} (dst src : List α) : List α × Nat :=
  let n := min dst.length src.length
  (src.take n ++ dst.drop n, n)

/-- The method `(f listerat) ListAt(ls, offset)`: the content of `ls` afterwards
and the two results `n, err`.  The result is `none` if the slice expression
`f[offset:]` panics. -/
def ListAt (f ls : List FileInfo) (offset : Int) :
    Option (List FileInfo × Nat × Option GoError) :=
  if offset ≥ Int.ofNat f.length then
    some (ls, 0, some ioEOF)
  else if offset < 0 then
    none
  else
    let (ls1, n) := goCopy ls (f.drop offset.toNat)
    if n < ls.length then some (ls1, n, some ioEOF) else some (ls1, n, none)

end handlers

/-! ## `filetree/decrypt.go` -/

namespace filetree

open requester (GoError)

/-- What `decrypt.go` uses of package `contentenc`, which is not part of the
source at hand: the constants `HeaderLen`, `MAX_KERNEL_WRITE` and `DefaultBS`,
the function `ParseHeader` (the field `ID` of the header it returns, and its
error), and the methods of `*ContentEnc` and of the blocks, whose type is
`Block`.  `DecryptBlocks` returns the plaintext together with the capacity of
the slice that holds it. -/
structure ContentEnc (Block : Type) where
  HeaderLen : Nat
  MAX_KERNEL_WRITE : Nat
  DefaultBS : Nat
  ParseHeader : List Nat → List Nat × Option GoError
  CipherSizeToPlainSize : Nat → Nat
  ExplodePlainRange : Nat → Nat → List Block
  JointCiphertextRange : Block → List Block → Nat × Nat
  BlockNo : Block → Nat
  DecryptBlocks : List Nat → Nat → List Nat → (List Nat × Nat) × Option GoError

/-- The method `(f *FileTree) readFileID(fileBytes)`. -/
def readFileID {Block : Type} (cEnc : ContentEnc Block) (fileBytes : List Nat) :
    List Nat × Option GoError :=
  if fileBytes.length ≤ cEnc.HeaderLen then
    ([], some handlers.ioEOF)
  else
    let buf := fileBytes.take cEnc.HeaderLen
    match cEnc.ParseHeader buf with
    | (_, some err) => ([], some err)
    | (id, none) => (id, none)

/-- The method `(f *FileTree) decryptFile(fileBytes)`; `none` is the panic of
`blocks[0]` on an empty list of blocks or of `fileBytes[alignedOffset:]` out of
range. -/
def decryptFile {Block : Type} (cEnc : ContentEnc Block) (fileBytes : List Nat) :
    Option (List Nat × Option GoError) :=
  let plainLength := cEnc.CipherSizeToPlainSize fileBytes.length
  match readFileID cEnc fileBytes with
  | (_, some err) => some ([], some err)
  | (fileID, none) =>
    let blocks := cEnc.ExplodePlainRange 0 plainLength
    match blocks with
    | [] => none
    | b0 :: _ =>
      let alignedOffset := (cEnc.JointCiphertextRange b0 blocks).1
      if alignedOffset > fileBytes.length then none
      else
        match cEnc.DecryptBlocks (fileBytes.drop alignedOffset) (cEnc.BlockNo b0) fileID with
        | (_, some err) => some ([], some err)
        | ((plaintext, capacity), none) =>
          if capacity > cEnc.MAX_KERNEL_WRITE + cEnc.DefaultBS then
            some (plaintext, none)
          else
            some ((handlers.goCopy (List.replicate plainLength 0) plaintext).1, none)

/-- A content encryption with headers of 18 bytes, whose `ParseHeader` accepts
every header and takes its last 16 bytes as the file id. -/
def testContentEnc : ContentEnc Nat where
  HeaderLen := 18
  MAX_KERNEL_WRITE := 131072
  DefaultBS := 4096
  ParseHeader := fun buf => (buf.drop 2, none)
  CipherSizeToPlainSize := fun n => n - 18
  ExplodePlainRange := fun _ _ => [0]
  JointCiphertextRange := fun _ _ => (18, 0)
  BlockNo := fun b => b
  DecryptBlocks := fun c _ _ => ((c, c.length), none)

end filetree

/-! ## The helper `complexKey` -/

namespace requester

/-- Modelled from the spec: the helper `complexKey(arg1, arg2)`, which the
specification describes as "a collision-free composition of the name and the
IV bytes (e.g. length-prefixed concatenation)": the length of the name in
decimal, a colon, the name, and the IV bytes as characters. -/
def complexKeySpec (arg1 : String) (arg2 : List Nat) : String :=
  toString arg1.length ++ ":" ++ arg1 ++ String.mk (arg2.map Char.ofNat)

/-- A decrypter that decrypts every name to `plain`. -/
def plainDecrypter : Decrypter where
  DecryptName := fun _ _ _ => ("plain", none)

/-- A backend whose `ReadFile` returns one byte together with an error, and
whose `ReadDir` returns an empty listing and no error. -/
def partialBackend : Backend where
  ReadFile := fun _ _ => ([1], some "partial read")
  ReadDir := fun _ _ => ([], none)

/-- The value of `New(1, partialBackend, plainDecrypter)`. -/
def partialRequester : Requester where
  numWorkers := 1
  backend := partialBackend
  decrypter := plainDecrypter
  fileCache := { m := [] }
  dirCache := { m := [] }
  decryptCache := { m := [] }
  lockers := [{ lockerNum := 0 }, { lockerNum := 1 }]

/-- A started `partialRequester` with the key composition `complexKeySpec`; the
worker completes its job before the caller reads the cache again. -/
def specSystem : System :=
  System.start partialRequester complexKeySpec (fun _ => (0, 0))

end requester

/-! ## The started requester: its workers and the states it reaches -/

namespace requester

/-- The method `(r *Requester) Start()`: the arguments `num` of the goroutines
`go r.worker(i)` it starts, `i = 1 .. numWorkers`. -/
def Requester.Start (r : Requester) : List Int :=
  (List.range r.numWorkers.toNat).map (fun (i : Nat) => Int.ofNat i + 1)

/-- What the caller side can do to a started requester: read a cache, delete a
key, send a work item, wait on a ticket, and call `ClearCache`. -/
inductive SysOp where
  | get (c : CacheRef) (key : String)
  | delete (c : CacheRef) (key : String)
  | send (w : work)
  | wait (t : workTicket)
  | clear

/-- One such operation on the program state; `none` if it does not return. -/
def System.step (sys : System) : SysOp → Option System
  | .get c key => some (System.env.Get sys c key).2
  | .delete c key => some (System.env.Delete sys c key)
  | .send w => (sys.send w).map Prod.snd
  | .wait t => sys.Wait t
  | .clear => some { sys with r := sys.r.ClearCache }

/-- The program states reached from `sys0` by any sequence of such operations,
with the workers running in between as the scheduler decides. -/
inductive System.Reachable (sys0 : System) : System → Prop where
  | init : System.Reachable sys0 sys0
  | step {s s1 : System} (op : SysOp) :
      System.Reachable sys0 s → s.step op = some s1 → System.Reachable sys0 s1

/-- The tickets are those `New` creates, every worker at work has a number in
`1 .. numWorkers`, and every cache entry carries ticket id 0 or is an entry
without data and error whose ticket id is in `1 .. numWorkers`. -/
structure System.TicketsOk (sys : System) : Prop where
  workers : 0 ≤ sys.r.numWorkers
  lockers : ∀ i : Int, 0 ≤ i → i ≤ sys.r.numWorkers →
    lockerAt sys.r.lockers i = some { lockerNum := i }
  jobs : ∀ j ∈ sys.jobs, 1 ≤ j.num ∧ j.num ≤ sys.r.numWorkers
  entries : ∀ (c : CacheRef) (key : String) (e : genCacheEntry),
    (sys.r.cache c).m.get key = some e →
    e.lockerNum = 0 ∨
      (e.data = none ∧ e.err = none ∧ 1 ≤ e.lockerNum ∧ e.lockerNum ≤ sys.r.numWorkers)

end requester

namespace requester

/-- The backend (or decrypter) operation behind the call returns an empty
payload and a nil error, whenever it is invoked. -/
def Call.AlwaysEmpty (backend : Backend) (decrypter : Decrypter) : Call → Prop
  | .ReadFile path => ∀ calls, backend.ReadFile calls path = ([], none)
  | .ReadDir path => ∀ calls, backend.ReadDir calls path = ([], none)
  | .DecryptName cName iv => ∀ calls, decrypter.DecryptName calls cName iv = ("", none)

/-- The error that `makeRequest` returns after three attempts that each found
an entry without data and without error. -/
def emptyError : GoError :=
  retriesError ["data missing by the time request completed",
    "data missing by the time request completed",
    "data missing by the time request completed"]

/-- A state in which a call whose operation returns an empty payload is about
to be made again: the workers are idle and the cache holds, under the key of
the call, the entry without data and error and with ticket id 0. -/
structure System.EmptyLatched (sys : System) (call : Call) : Prop where
  jobs : sys.jobs = []
  wf : sys.WF
  target : workerTarget sys.complexKey call.work = some (call.cacheRef, call.key sys.complexKey)
  entry : (sys.r.cache call.cacheRef).m.get (call.key sys.complexKey) =
    some { data := none, err := none, lockerNum := 0 }

end requester

/-! ## Cleaned absolute paths -/

namespace filetree

/-- A path element as `filepath.Clean` leaves it in an absolute path: not empty,
without a separator, and neither `.` nor `..`. -/
def Proper (e : List Char) : Prop :=
  e ≠ [] ∧ '/' ∉ e ∧ e ≠ ['.'] ∧ e ≠ ['.', '.']

/-- The absolute path with the elements `es`: `/` followed by the elements
joined by `/`. -/
def absPath (es : List (List Char)) : String :=
  String.mk ('/' :: joinElems es)

/-- Every call of the coalescer returns. -/
structure Deps.Total {σ : Type} (d : Deps σ) : Prop where
  readFile : ∀ (s : σ) (path : String), (d.ReadFile s path).isSome = true
  readDir : ∀ (s : σ) (path : String), (d.ReadDir s path).isSome = true
  decryptName : ∀ (s : σ) (cName : String) (iv : List Nat),
    (d.DecryptName s cName iv).isSome = true

end filetree

namespace filetree

/-- The `FileTree` after a lookup of `pPath` in the directory cache that
missed: the cache is unchanged and the lookup is recorded. -/
def FileTree.afterMiss {σ : Type} (f : FileTree σ) (pPath : String) : FileTree σ :=
  { f with trace := f.trace ++ [.lruFind pPath] }

/-- The small tree after calls that left the world in state `w` and the record
of calls `tr`; its directory cache is still empty. -/
def testTreeAt (w : Nat) (tr : List Event) : FileTree Nat :=
  { testTree with world := w, trace := tr }

/-- The paths of the calls `f.fsAccessor.Stat(path)` in a record of calls,
oldest first. -/
def statCalls : List Event → List String
  | [] => []
  | .stat path :: rest => path :: statCalls rest
  | _ :: rest => statCalls rest

/-- The elements of the cleaned form of an absolute path, as `filepath.Clean`
keeps them. -/
def pathElems (p : String) : List (List Char) :=
  cleanElems true [] (splitPath [] p.data)

end filetree

/-! ## Interleaved callers: what is invoked, and what the entries hold -/

namespace requester

/-- Every entry with ticket id 0 is the result that a worker stored: some
invocation `w` in the log, made after the invocations `pre`, has the entry's
cache and key as its target, and the entry holds the data and the error that
the worker's closure returned for it.  The closures are those of the requester
`r0`. -/
structure System.Provenance (sys : System) (r0 : Requester) : Prop where
  request : ∀ (calls : List work) (w : work),
    workerRequest sys.r calls w = workerRequest r0 calls w
  entries : ∀ (c : CacheRef) (key : String) (e : genCacheEntry),
    (sys.r.cache c).m.get key = some e → e.lockerNum = 0 →
    ∃ (pre post : List work) (w : work), sys.calls = pre ++ w :: post ∧
      workerTarget sys.complexKey w = some (c, key) ∧
      e = { data := (workerRequest r0 pre w).1, err := (workerRequest r0 pre w).2,
            lockerNum := 0 }

/-- Whether a worker that receives `w` works on the entry of cache `c` under
`key`. -/
def work.targets (complexKey : String → List Nat → String) (c : CacheRef) (key : String)
    (w : work) : Bool :=
  decide (workerTarget complexKey w = some (c, key))

/-- The number of invocations of `request()` for the entry of cache `c` under
`key` that have been started: those in the log and those of the workers still
at work. -/
def System.started (sys : System) (c : CacheRef) (key : String) : Nat :=
  sys.calls.countP (work.targets sys.complexKey c key) +
    sys.jobs.countP (fun j => j.w.targets sys.complexKey c key)

/-- The operation leaves the entry of cache `c` under `key` in the cache: it is
neither `ClearCache` nor the deletion of that key. -/
def SysOp.Keeps (c : CacheRef) (key : String) : SysOp → Prop
  | .clear => False
  | .delete c1 key1 => ¬ (c1 = c ∧ key1 = key)
  | _ => True

/-- The program states reached from `sys0` by operations that keep the entry
of cache `c` under `key`. -/
inductive System.ReachableKeeping (sys0 : System) (c : CacheRef) (key : String) :
    System → Prop where
  | init : System.ReachableKeeping sys0 c key sys0
  | step {s s1 : System} (op : SysOp) :
      System.ReachableKeeping sys0 c key s → op.Keeps c key → s.step op = some s1 →
      System.ReachableKeeping sys0 c key s1

/-- For the entry of cache `c` under `key`, while the jobs `pend` are about to
complete: one invocation has been started if the entry exists and none
otherwise, and no worker is at work for an entry that holds a result. -/
structure System.Single (sys : System) (c : CacheRef) (key : String) (pend : List Job) :
    Prop where
  count : sys.calls.countP (work.targets sys.complexKey c key) +
      pend.countP (fun j => j.w.targets sys.complexKey c key) +
      sys.jobs.countP (fun j => j.w.targets sys.complexKey c key) =
    if ((sys.r.cache c).m.get key).isSome then 1 else 0
  resolved : ∀ e, (sys.r.cache c).m.get key = some e → e.lockerNum = 0 →
    pend.countP (fun j => j.w.targets sys.complexKey c key) +
      sys.jobs.countP (fun j => j.w.targets sys.complexKey c key) = 0

/-- The state after a sequence of operations, made one after the other. -/
def System.run (sys : System) : List SysOp → Option System
  | [] => some sys
  | op :: ops =>
    match sys.step op with
    | none => none
    | some sys1 => sys1.run ops

/-- The error that `makeRequest` returns after three attempts that each missed
the entry after the answer on the response channel. -/
def wipedError : GoError :=
  retriesError ["cache wiped before ticket could be handled",
    "cache wiped before ticket could be handled",
    "cache wiped before ticket could be handled"]

/-- A single caller repeats a call whose key `k` differs from the key `wk`
under which the worker stores the result: the caller's key has no entry, only
the work item `w` of the call has been sent, and for the worker's key one
invocation has been started if it has an entry and none otherwise. -/
structure System.Stray (sys : System) (c : CacheRef) (k wk : String) (w : work) : Prop where
  tickets : sys.TicketsOk
  workers : 1 ≤ sys.r.numWorkers
  target : workerTarget sys.complexKey w = some (c, wk)
  jobs : ∀ j ∈ sys.jobs, j.w = w
  calls : ∀ w1 ∈ sys.calls, w1 = w
  absent : (sys.r.cache c).m.get k = none
  single : sys.Single c wk []

/-- A started `testRequester`, whose decrypter fails on every name but one, with
the key composition `complexKeySpec`. -/
def failingSystem : System :=
  System.start testRequester complexKeySpec (fun _ => (0, 0))

/-- A decrypter that returns the empty name and no error. -/
def emptyNameDecrypter : Decrypter where
  DecryptName := fun _ _ _ => ("", none)

/-- The value of `New(1, testBackend, emptyNameDecrypter)`. -/
def emptyNameRequester : Requester where
  numWorkers := 1
  backend := testBackend
  decrypter := emptyNameDecrypter
  fileCache := { m := [] }
  dirCache := { m := [] }
  decryptCache := { m := [] }
  lockers := [{ lockerNum := 0 }, { lockerNum := 1 }]

end requester
/-! # Theorems -/

/-! ## Go maps -/

namespace GoMap

theorem get_delete {β : Type} (m : GoMap β) (k k1 : String) :
    get (delete m k) k1 = if k = k1 then none else get m k1 := by
  induction m with
  | nil => simp [delete, get]
  | cons hd tl ih =>
    obtain ⟨a, v⟩ := hd
    by_cases h : a = k
    · subst h
      simp only [delete, get, if_true, ih]
      by_cases h2 : a = k1 <;> simp [h2]
    · simp only [delete, h, if_false, get, ih]
      by_cases h2 : a = k1
      · subst h2
        have : ¬ k = a := fun e => h e.symm
        simp [this]
      · simp [h2]

theorem get_set {β : Type} (m : GoMap β) (k k1 : String) (v : β) :
    get (set m k v) k1 = if k = k1 then some v else get m k1 := by
  simp only [set, get, get_delete]
  by_cases h : k = k1 <;> simp [h]

theorem get_nil {β : Type} (k : String) : get ([] : GoMap β) k = none := rfl

theorem delete_delete {β : Type} (m : GoMap β) (k : String) :
    delete (delete m k) k = delete m k := by
  induction m with
  | nil => rfl
  | cons hd tl ih =>
    obtain ⟨a, v⟩ := hd
    by_cases h : a = k
    · simp [delete, h, ih]
    · simp [delete, h, ih]

end GoMap

/-! ## `FastCache`: the invariant kept by `Store`, `Find` and `Clear` -/

namespace filetree

theorem update_some (f : FastCache) (p : Nat) (g : DirMapping → DirMapping)
    (hp : p < f.heap.length) :
    ∃ n, f.heap[p]? = some n ∧ f.update p g = some { f with heap := f.heap.set p (g n) } := by
  refine ⟨f.heap[p], List.getElem?_eq_getElem hp, ?_⟩
  simp [FastCache.update, List.getElem?_eq_getElem hp]

theorem SameData.refl (f : FastCache) : SameData f f :=
  ⟨rfl, rfl, rfl, rfl, fun _ n h => ⟨n, h, rfl, rfl⟩⟩

theorem SameData.trans {f f1 f2 : FastCache} (h1 : SameData f f1) (h2 : SameData f1 f2) :
    SameData f f2 := by
  obtain ⟨a1, b1, c1, d1, e1⟩ := h1
  obtain ⟨a2, b2, c2, d2, e2⟩ := h2
  refine ⟨a2.trans a1, b2.trans b1, c2.trans c1, d2.trans d1, ?_⟩
  intro i n hn
  obtain ⟨n1, hn1, p1, q1⟩ := e1 i n hn
  obtain ⟨n2, hn2, p2, q2⟩ := e2 i n1 hn1
  exact ⟨n2, hn2, p2.trans p1, q2.trans q1⟩

/-- A write through a valid pointer that stores valid pointers succeeds; it
changes the node written and nothing else. -/
theorem update_gen (f : FastCache) (p : Nat) (g : DirMapping → DirMapping)
    (hok : PtrOk f) (hp : p < f.heap.length)
    (hptr : ∀ n, f.heap[p]? = some n →
      (∀ q, (g n).prev = some q → q < f.heap.length) ∧
      (∀ q, (g n).next = some q → q < f.heap.length)) :
    ∃ f1, f.update p g = some f1 ∧ PtrOk f1 ∧ f1.storage = f.storage ∧
      f1.cacheSize = f.cacheSize ∧ f1.count = f.count ∧ f1.head = f.head ∧
      f1.last = f.last ∧ f1.heap.length = f.heap.length ∧
      (∀ n, f.heap[p]? = some n → f1.heap[p]? = some (g n)) ∧
      (∀ i, i ≠ p → f1.heap[i]? = f.heap[i]?) := by
  obtain ⟨n, hn, hu⟩ := update_some f p g hp
  refine ⟨_, hu, ?_, rfl, rfl, rfl, rfl, rfl, by simp, ?_, ?_⟩
  · obtain ⟨h1, h2, h3⟩ := hok
    refine ⟨?_, ?_, ?_⟩
    · intro i m hm
      simp only [List.length_set]
      simp only [List.getElem?_set] at hm
      by_cases hip : p = i
      · simp only [hip, if_true] at hm
        split at hm
        · cases hm
          exact hptr n hn
        · cases hm
      · simp only [hip, if_false] at hm
        exact h1 i m hm
    · intro h hh
      simp only [List.length_set]
      exact h2 h hh
    · intro l hl
      simp only [List.length_set]
      exact h3 l hl
  · intro m hm
    rw [hn] at hm
    cases hm
    simp [List.getElem?_set, hp]
  · intro i hi
    simp only [List.getElem?_set]
    have : ¬ p = i := fun e => hi e.symm
    simp [this]

/-- A write through a valid pointer that changes pointer fields only, to valid
pointers, succeeds and keeps everything else. -/
theorem update_ptr (f : FastCache) (p : Nat) (g : DirMapping → DirMapping)
    (hok : PtrOk f) (hp : p < f.heap.length)
    (hdata : ∀ n, (g n).PlaintextPath = n.PlaintextPath ∧ (g n).CiphertextPath = n.CiphertextPath)
    (hptr : ∀ n, f.heap[p]? = some n →
      (∀ q, (g n).prev = some q → q < f.heap.length) ∧
      (∀ q, (g n).next = some q → q < f.heap.length)) :
    ∃ f1, f.update p g = some f1 ∧ PtrOk f1 ∧ SameData f f1 ∧ f1.head = f.head ∧
      f1.last = f.last ∧ (∀ n, f.heap[p]? = some n → f1.heap[p]? = some (g n)) ∧
      (∀ i, i ≠ p → f1.heap[i]? = f.heap[i]?) := by
  obtain ⟨f1, h1, h2, h3, h4, h5, h6, h7, h8, h9, h10⟩ := update_gen f p g hok hp hptr
  refine ⟨f1, h1, h2, ⟨h3, h4, h5, h8, ?_⟩, h6, h7, h9, h10⟩
  intro i m hm
  by_cases hip : i = p
  · subst hip
    exact ⟨g m, h9 m hm, (hdata m).1, (hdata m).2⟩
  · exact ⟨m, (h10 i hip).trans hm, rfl, rfl⟩


theorem refreshNode_spec (f : FastCache) (d : Nat) (hok : PtrOk f)
    (hd : d < f.heap.length) (hl : f.last.isSome = true) :
    ∃ f1, f.refreshNode d = some f1 ∧ PtrOk f1 ∧ SameData f f1 ∧
      (f.head.isSome = true → f1.head.isSome = true) ∧ f1.last.isSome = true := by
  have hnd : f.heap[d]? = some f.heap[d] := List.getElem?_eq_getElem hd
  generalize f.heap[d] = nd at hnd
  simp only [FastCache.refreshNode, hnd]
  cases hnx : nd.next with
  | none => exact ⟨f, rfl, hok, SameData.refl f, id, hl⟩
  | some nx =>
    simp only []
    have hnxlt : nx < f.heap.length := (hok.1 d nd hnd).2 nx hnx
    -- the first statement
    have step1 : ∃ f1, (match nd.prev with
        | some pv => f.update pv (fun n => { n with next := some nx })
        | none => some { f with head := some nx }) = some f1 ∧ PtrOk f1 ∧ SameData f f1 ∧
          f1.last = f.last ∧ (f.head.isSome = true → f1.head.isSome = true) := by
      cases hpv : nd.prev with
      | none =>
        refine ⟨_, rfl, ⟨hok.1, ?_, hok.2.2⟩, SameData.refl f, rfl, fun _ => rfl⟩
        intro h hh
        cases hh
        exact hnxlt
      | some pv =>
        have hpvlt : pv < f.heap.length := (hok.1 d nd hnd).1 pv hpv
        obtain ⟨f1, h1, h2, h3, h4, h5, -, -⟩ :=
          update_ptr f pv (fun n => { n with next := some nx }) hok hpvlt
            (fun n => ⟨rfl, rfl⟩)
            (fun n hn => ⟨(hok.1 pv n hn).1, fun q hq => by cases hq; exact hnxlt⟩)
        exact ⟨f1, h1, h2, h3, h5, fun h => by rw [h4]; exact h⟩
    obtain ⟨f1, e1, ok1, sd1, l1, hh1⟩ := step1
    have len1 : f1.heap.length = f.heap.length := sd1.2.2.2.1
    obtain ⟨f2, e2, ok2, sd2, hh2, l2, -, -⟩ :=
      update_ptr f1 d (fun n => { n with prev := f1.last }) ok1 (len1 ▸ hd)
        (fun n => ⟨rfl, rfl⟩)
        (fun n hn => ⟨fun q hq => ok1.2.2 q hq, (ok1.1 d n hn).2⟩)
    have len2 : f2.heap.length = f1.heap.length := sd2.2.2.2.1
    obtain ⟨f3, e3, ok3, sd3, hh3, l3, -, -⟩ :=
      update_ptr f2 d (fun n => { n with next := none }) ok2 (len2 ▸ len1 ▸ hd)
        (fun n => ⟨rfl, rfl⟩)
        (fun n hn => ⟨(ok2.1 d n hn).1, fun q hq => by cases hq⟩)
    have len3 : f3.heap.length = f2.heap.length := sd3.2.2.2.1
    have hl3 : f3.last = f.last := by rw [l3, l2, l1]
    obtain ⟨l, hlast⟩ := Option.isSome_iff_exists.mp hl
    have hllt : l < f3.heap.length := ok3.2.2 l (by rw [hl3, hlast])
    obtain ⟨f4, e4, ok4, sd4, h4, -, -, -⟩ :=
      update_ptr f3 l (fun n => { n with next := some d }) ok3 hllt
        (fun n => ⟨rfl, rfl⟩)
        (fun n hn => ⟨(ok3.1 l n hn).1, fun q hq => by
          cases hq; rw [len3, len2, len1]; exact hd⟩)
    have len4 : f4.heap.length = f3.heap.length := sd4.2.2.2.1
    refine ⟨{ f4 with last := some d }, ?_, ?_, ?_, ?_, rfl⟩
    · rw [e1]
      simp only [Option.bind_eq_bind, Option.some_bind, e2, e3, hl3, hlast, e4]
    · refine ⟨ok4.1, ok4.2.1, ?_⟩
      intro q hq
      cases hq
      show d < f4.heap.length
      rw [len4, len3, len2, len1]; exact hd
    · have := (sd1.trans sd2).trans (sd3.trans sd4)
      exact ⟨this.1, this.2.1, this.2.2.1, this.2.2.2.1, this.2.2.2.2⟩
    · intro h
      show f4.head.isSome = true
      rw [h4, hh3, hh2]
      exact hh1 h


theorem Inv.init (C : Int) : Inv C (NewFastCache C) where
  size := rfl
  keys := by intro k d h; cases h
  ptr := ⟨(by intro i n h; simp [NewFastCache] at h), (by intro h hh; cases hh),
    (by intro l hl; cases hl)⟩
  countNonneg := le_refl _
  empty := fun _ => ⟨rfl, rfl⟩
  nonempty := by intro h; exact absurd h (lt_irrefl _)

theorem Inv.clear {C : Int} {f : FastCache} (h : Inv C f) : Inv C f.Clear where
  size := h.size
  keys := by intro k d hk; cases hk
  ptr := ⟨h.ptr.1, (by intro x hx; cases hx), (by intro x hx; cases hx)⟩
  countNonneg := le_refl _
  empty := fun _ => ⟨rfl, rfl⟩
  nonempty := by intro hc; exact absurd hc (lt_irrefl _)

/-- Pointer-only changes keep the invariant. -/
theorem Inv.of_sameData {C : Int} {f f1 : FastCache} (h : Inv C f) (hs : SameData f f1)
    (hok : PtrOk f1) (hhead : f.head.isSome = true → f1.head.isSome = true)
    (hlast : f1.last.isSome = true) (hpos : 0 < f.count) : Inv C f1 where
  size := hs.2.1.trans h.size
  keys := by
    intro k d hk
    rw [hs.1] at hk
    obtain ⟨n, hn, hp⟩ := h.keys k d hk
    obtain ⟨n1, hn1, hp1, -⟩ := hs.2.2.2.2 d n hn
    exact ⟨n1, hn1, hp1.trans hp⟩
  ptr := hok
  countNonneg := by rw [hs.2.2.1]; exact h.countNonneg
  empty := by
    intro hc
    rw [hs.2.2.1] at hc
    rw [hc] at hpos
    exact absurd hpos (lt_irrefl _)
  nonempty := by
    intro hc
    rw [hs.2.2.1] at hc
    exact ⟨hhead (h.nonempty hc).1, hlast⟩

theorem Inv.found_pos {C : Int} {f : FastCache} (h : Inv C f) {k : String} {d : Nat}
    (hk : f.storage.get k = some d) : 0 < f.count := by
  rcases lt_or_eq_of_le h.countNonneg with hlt | heq
  · exact hlt
  · have := (h.empty heq.symm).1
    rw [this] at hk
    cases hk

theorem Find_miss (f : FastCache) (k : String) (hk : f.storage.get k = none) :
    f.Find k = some (f, DirMapping.zero, false) := by
  simp [FastCache.Find, hk]

theorem Find_hit {C : Int} {f : FastCache} (h : Inv C f) {k : String} {d : Nat}
    (hk : f.storage.get k = some d) :
    ∃ f1 n, f.Find k = some (f1, n, true) ∧ Inv C f1 ∧ SameData f f1 ∧
      f1.heap[d]? = some n ∧ n.PlaintextPath = k ∧
      ∀ n0, f.heap[d]? = some n0 → n.CiphertextPath = n0.CiphertextPath := by
  obtain ⟨n0, hn0, hp0⟩ := h.keys k d hk
  have hd : d < f.heap.length := (List.getElem?_eq_some.mp hn0).1
  have hpos := h.found_pos hk
  obtain ⟨f1, e1, ok1, sd1, hh1, hl1⟩ := refreshNode_spec f d h.ptr hd (h.nonempty hpos).2
  obtain ⟨n1, hn1, hp1, hc1⟩ := sd1.2.2.2.2 d n0 hn0
  refine ⟨f1, n1, ?_, h.of_sameData sd1 ok1 hh1 hl1 hpos, sd1, hn1, hp1.trans hp0, ?_⟩
  · simp [FastCache.Find, hk, e1, hn1]
  · intro m hm
    rw [hn0] at hm
    cases hm
    exact hc1


theorem Store_overwrite {C : Int} {f : FastCache} (h : Inv C f) {p : String} {d : Nat}
    (c : String) (hk : f.storage.get p = some d) :
    ∃ f1, f.Store p c = some f1 ∧ Inv C f1 ∧ f1.storage = f.storage ∧ f1.count = f.count ∧
      (∃ n, f1.heap[d]? = some n ∧ n.PlaintextPath = p ∧ n.CiphertextPath = c) ∧
      (∀ i n, i ≠ d → f.heap[i]? = some n →
        ∃ n1, f1.heap[i]? = some n1 ∧ n1.PlaintextPath = n.PlaintextPath ∧
          n1.CiphertextPath = n.CiphertextPath) := by
  obtain ⟨n0, hn0, hp0⟩ := h.keys p d hk
  have hd : d < f.heap.length := (List.getElem?_eq_some.mp hn0).1
  have hpos := h.found_pos hk
  obtain ⟨f1, e1, ok1, sd1, hh1, hl1⟩ := refreshNode_spec f d h.ptr hd (h.nonempty hpos).2
  obtain ⟨n1, hn1, hp1, hc1⟩ := sd1.2.2.2.2 d n0 hn0
  have hd1 : d < f1.heap.length := by rw [sd1.2.2.2.1]; exact hd
  obtain ⟨f2, e2, ok2, st2, cs2, ct2, hd2, la2, len2, at2, ot2⟩ :=
    update_gen f1 d (fun n => { n with CiphertextPath := c }) ok1 hd1
      (fun n hn => ok1.1 d n hn)
  refine ⟨f2, ?_, ?_, st2.trans sd1.1, ct2.trans sd1.2.2.1, ⟨_, at2 n1 hn1, hp1.trans hp0, rfl⟩, ?_⟩
  · simp [FastCache.Store, hk, e1, e2]
  · refine ⟨cs2.trans (sd1.2.1.trans h.size), ?_, ok2, ?_, ?_, ?_⟩
    · intro k d' hk'
      rw [st2, sd1.1] at hk'
      obtain ⟨m, hm, hpm⟩ := h.keys k d' hk'
      obtain ⟨m1, hm1, hpm1, -⟩ := sd1.2.2.2.2 d' m hm
      by_cases hdd : d' = d
      · subst hdd
        exact ⟨_, at2 m1 hm1, hpm1.trans hpm⟩
      · exact ⟨m1, (ot2 d' hdd).trans hm1, hpm1.trans hpm⟩
    · rw [ct2, sd1.2.2.1]; exact h.countNonneg
    · intro hc
      rw [ct2, sd1.2.2.1] at hc
      rw [hc] at hpos
      exact absurd hpos (lt_irrefl _)
    · intro _
      rw [hd2, la2]
      exact ⟨hh1 (h.nonempty hpos).1, hl1⟩
  · intro i m hi hm
    obtain ⟨m1, hm1, hpm1, hcm1⟩ := sd1.2.2.2.2 i m hm
    exact ⟨m1, (ot2 i hi).trans hm1, hpm1, hcm1⟩

theorem Store_insert {C : Int} {f : FastCache} (h : Inv C f) (hC : 1 ≤ C) {p : String}
    (c : String) (hk : f.storage.get p = none) :
    ∃ f1, f.Store p c = some f1 ∧ Inv C f1 ∧
      ∃ d n, f1.storage.get p = some d ∧ f1.heap[d]? = some n ∧ n.PlaintextPath = p ∧
        n.CiphertextPath = c := by
  by_cases hcap : f.count + 1 > f.cacheSize
  · -- at capacity: the head node is reused
    have hpos : 0 < f.count := by have := h.size; omega
    obtain ⟨hd0, hhead⟩ := Option.isSome_iff_exists.mp (h.nonempty hpos).1
    have hlt : hd0 < f.heap.length := h.ptr.2.1 hd0 hhead
    have hnd : f.heap[hd0]? = some f.heap[hd0] := List.getElem?_eq_getElem hlt
    generalize f.heap[hd0] = hn at hnd
    have ok0 : PtrOk { f with count := f.count + 1 } := h.ptr
    obtain ⟨f1, e1, ok1, sd1, hh1, hl1⟩ :=
      refreshNode_spec { f with count := f.count + 1 } hd0 ok0 hlt (h.nonempty hpos).2
    have hlt1 : hd0 < f1.heap.length := by rw [sd1.2.2.2.1]; exact hlt
    obtain ⟨f2, e2, ok2, st2, cs2, ct2, hd2, la2, len2, at2, ot2⟩ :=
      update_gen f1 hd0 (fun n => { n with PlaintextPath := p }) ok1 hlt1
        (fun n hn => ok1.1 hd0 n hn)
    have hlt2 : hd0 < f2.heap.length := by rw [len2]; exact hlt1
    obtain ⟨f3, e3, ok3, st3, cs3, ct3, hd3, la3, len3, at3, ot3⟩ :=
      update_gen f2 hd0 (fun n => { n with CiphertextPath := c }) ok2 hlt2
        (fun n hn => ok2.1 hd0 n hn)
    obtain ⟨m1, hm1, hpm1, hcm1⟩ := sd1.2.2.2.2 hd0 hn hnd
    have hnode3 : f3.heap[hd0]? = some { m1 with PlaintextPath := p, CiphertextPath := c } := by
      have := at3 _ (at2 m1 hm1)
      simpa using this
    refine ⟨{ f3 with count := f3.cacheSize,
                      storage := (f3.storage.delete hn.PlaintextPath).set p hd0 }, ?_, ?_, ?_⟩
    · have e1' := e1
      simp only [hhead] at e1'
      simp [FastCache.Store, hk, hcap, hhead, hnd, e1', e2, e3]
    · refine ⟨?_, ?_, ok3, ?_, ?_, ?_⟩
      · exact cs3.trans (cs2.trans (sd1.2.1.trans h.size))
      · intro k d' hk'
        simp only [GoMap.get_set, GoMap.get_delete] at hk'
        by_cases hpk : p = k
        · simp only [hpk, if_true] at hk'
          cases hk'
          exact ⟨_, hnode3, hpk⟩
        · simp only [hpk, if_false] at hk'
          by_cases hold : hn.PlaintextPath = k
          · simp [hold] at hk'
          · simp only [hold, if_false] at hk'
            rw [st3, st2, sd1.1] at hk'
            obtain ⟨m, hm, hpm⟩ := h.keys k d' hk'
            have hne : d' ≠ hd0 := by
              intro e
              subst e
              rw [hnd] at hm
              cases hm
              exact hold hpm
            obtain ⟨m', hm', hpm', -⟩ := sd1.2.2.2.2 d' m hm
            refine ⟨m', ?_, hpm'.trans hpm⟩
            rw [ot3 d' hne, ot2 d' hne]
            exact hm'
      · show 0 ≤ f3.cacheSize
        rw [cs3, cs2, sd1.2.1]
        have := h.size
        show 0 ≤ f.cacheSize
        omega
      · intro hc
        have hc' : f3.cacheSize = 0 := hc
        rw [cs3, cs2, sd1.2.1] at hc'
        have := h.size
        have hc'' : f.cacheSize = 0 := hc'
        omega
      · intro _
        show f3.head.isSome = true ∧ f3.last.isSome = true
        rw [hd3, hd2, la3, la2]
        exact ⟨hh1 (h.nonempty hpos).1, hl1⟩
    · exact ⟨hd0, _, by simp [GoMap.get_set], hnode3, rfl, rfl⟩
  · -- below capacity: a fresh node is linked in behind the last one
    have hlen : ∀ i n, f.heap[i]? = some n → i < f.heap.length :=
      fun i n hn => (List.getElem?_eq_some.mp hn).1
    -- the state once the node is allocated and entered into the map
    obtain ⟨g, hg⟩ : ∃ g : FastCache, g =
        { heap := f.heap ++ [{ PlaintextPath := p, CiphertextPath := c, prev := none, next := none }],
          storage := f.storage.set p f.heap.length, cacheSize := f.cacheSize,
          count := f.count + 1, head := f.head, last := f.last } := ⟨_, rfl⟩
    have gheap : g.heap = f.heap ++
        [{ PlaintextPath := p, CiphertextPath := c, prev := none, next := none }] := by rw [hg]
    have glen : g.heap.length = f.heap.length + 1 := by rw [gheap]; simp
    have gnew : g.heap[f.heap.length]? =
        some { PlaintextPath := p, CiphertextPath := c, prev := none, next := none } := by
      rw [gheap]; simp
    have gold : ∀ i, i < f.heap.length → g.heap[i]? = f.heap[i]? := by
      intro i hi
      rw [gheap, List.getElem?_append_left hi]
    have gok : PtrOk g := by
      refine ⟨?_, ?_, ?_⟩
      · intro i n hn
        by_cases hi : i < f.heap.length
        · rw [gold i hi] at hn
          have := h.ptr.1 i n hn
          exact ⟨fun q hq => (by rw [glen]; exact Nat.lt_succ_of_lt (this.1 q hq)),
                 fun q hq => (by rw [glen]; exact Nat.lt_succ_of_lt (this.2 q hq))⟩
        · have hi2 : i = f.heap.length := by
            have := (List.getElem?_eq_some.mp hn).1
            rw [glen] at this
            omega
          subst hi2
          rw [gnew] at hn
          cases hn
          exact ⟨fun q hq => (by cases hq), fun q hq => (by cases hq)⟩
      · intro x hx
        rw [glen]
        have : f.head = some x := by rw [hg] at hx; exact hx
        exact Nat.lt_succ_of_lt (h.ptr.2.1 x this)
      · intro x hx
        rw [glen]
        have : f.last = some x := by rw [hg] at hx; exact hx
        exact Nat.lt_succ_of_lt (h.ptr.2.2 x this)
    have gkeys : ∀ (k : String) (d : Nat), g.storage.get k = some d →
        ∃ n : DirMapping, g.heap[d]? = some n ∧ n.PlaintextPath = k := by
      intro k d hkd
      have hst : g.storage = f.storage.set p f.heap.length := by rw [hg]
      rw [hst, GoMap.get_set] at hkd
      by_cases hpk : p = k
      · simp only [hpk, if_true] at hkd
        cases hkd
        exact ⟨_, gnew, hpk⟩
      · simp only [hpk, if_false] at hkd
        obtain ⟨n, hn, hpn⟩ := h.keys k d hkd
        exact ⟨n, (gold d (hlen d n hn)).trans hn, hpn⟩
    have gget : g.storage.get p = some f.heap.length := by
      rw [hg]; simp [GoMap.get_set]
    have gcount : g.count = f.count + 1 := by rw [hg]
    have gsize : g.cacheSize = f.cacheSize := by rw [hg]
    have ghead : g.head = f.head := by rw [hg]
    have glast : g.last = f.last := by rw [hg]
    have hcnt := h.countNonneg
    cases hhead : f.head with
    | none =>
      refine ⟨{ g with head := some f.heap.length, last := some f.heap.length }, ?_, ?_, ?_⟩
      · simp [FastCache.Store, hk, hcap, hhead, hg]
      · refine ⟨gsize.trans h.size, gkeys, ⟨gok.1, ?_, ?_⟩, ?_, ?_, ?_⟩
        · intro x hx
          cases hx
          show f.heap.length < g.heap.length
          omega
        · intro x hx
          cases hx
          show f.heap.length < g.heap.length
          omega
        · show 0 ≤ g.count
          omega
        · intro hc
          have : g.count = 0 := hc
          omega
        · intro _
          exact ⟨rfl, rfl⟩
      · exact ⟨f.heap.length, _, gget, gnew, rfl, rfl⟩
    | some hd0 =>
      have hpos : 0 < f.count := by
        rcases lt_or_eq_of_le hcnt with hlt | heq
        · exact hlt
        · have := (h.empty heq.symm).2
          rw [hhead] at this
          cases this
      obtain ⟨l, hlast⟩ := Option.isSome_iff_exists.mp (h.nonempty hpos).2
      have hllt : l < f.heap.length := h.ptr.2.2 l hlast
      obtain ⟨f3, e3, ok3, sd3, hd3, la3, at3, ot3⟩ :=
        update_ptr g f.heap.length (fun n => { n with prev := g.last }) gok (by omega)
          (fun n => ⟨rfl, rfl⟩)
          (fun n hn => ⟨fun q hq => gok.2.2 q hq, (gok.1 _ n hn).2⟩)
      have len3 : f3.heap.length = g.heap.length := sd3.2.2.2.1
      obtain ⟨f4, e4, ok4, sd4, hd4, la4, at4, ot4⟩ :=
        update_ptr f3 l (fun n => { n with next := some f.heap.length }) ok3 (by omega)
          (fun n => ⟨rfl, rfl⟩)
          (fun n hn => ⟨(ok3.1 _ n hn).1, fun q hq => by cases hq; omega⟩)
      have len4 : f4.heap.length = f3.heap.length := sd4.2.2.2.1
      have sd : SameData g f4 := sd3.trans sd4
      have keys4 : ∀ (k : String) (d : Nat), f4.storage.get k = some d →
          ∃ n : DirMapping, f4.heap[d]? = some n ∧ n.PlaintextPath = k := by
        intro k d hkd
        rw [sd.1] at hkd
        obtain ⟨n, hn, hpn⟩ := gkeys k d hkd
        obtain ⟨n1, hn1, hpn1, -⟩ := sd.2.2.2.2 d n hn
        exact ⟨n1, hn1, hpn1.trans hpn⟩
      refine ⟨{ f4 with last := some f.heap.length }, ?_, ?_, ?_⟩
      · have e3' := e3
        have e4' := e4
        rw [hg] at e3'
        simp only [hlast, hhead] at e3'
        have hl3 : f3.last = some l := by rw [la3, glast, hlast]
        simp [FastCache.Store, hk, hcap, hhead, hlast, e3', hl3, e4']
      · refine ⟨sd.2.1.trans (gsize.trans h.size), keys4, ⟨ok4.1, ok4.2.1, ?_⟩, ?_, ?_, ?_⟩
        · intro x hx
          cases hx
          show f.heap.length < f4.heap.length
          omega
        · show 0 ≤ f4.count
          rw [sd.2.2.1]; omega
        · intro hc
          have : f4.count = 0 := hc
          rw [sd.2.2.1] at this
          omega
        · intro _
          refine ⟨?_, rfl⟩
          show f4.head.isSome = true
          rw [hd4, hd3, ghead, hhead]
          rfl
      · obtain ⟨n1, hn1, hpn1, hcn1⟩ := sd.2.2.2.2 _ _ gnew
        exact ⟨f.heap.length, n1, by show f4.storage.get p = _; rw [sd.1]; exact gget,
          hn1, hpn1, hcn1⟩


theorem Store_spec {C : Int} {f : FastCache} (h : Inv C f) (hC : 1 ≤ C) (p c : String) :
    ∃ f1, f.Store p c = some f1 ∧ Inv C f1 ∧
      ∃ d n, f1.storage.get p = some d ∧ f1.heap[d]? = some n ∧ n.PlaintextPath = p ∧
        n.CiphertextPath = c := by
  cases hk : f.storage.get p with
  | none => exact Store_insert h hC c hk
  | some d =>
    obtain ⟨f1, e1, i1, st1, -, ⟨n, hn, hp, hc⟩, -⟩ := Store_overwrite h c hk
    exact ⟨f1, e1, i1, d, n, by rw [st1]; exact hk, hn, hp, hc⟩

/-- Every call on a state satisfying the invariant returns, in a state that
satisfies it again. -/
theorem step_spec {C : Int} {f : FastCache} (h : Inv C f) (hC : 1 ≤ C) (op : Op) :
    ∃ f1, f.step op = some f1 ∧ Inv C f1 := by
  cases op with
  | store p c =>
    obtain ⟨f1, e1, i1, -⟩ := Store_spec h hC p c
    exact ⟨f1, e1, i1⟩
  | find p =>
    cases hk : f.storage.get p with
    | none => exact ⟨f, by simp [FastCache.step, Find_miss f p hk], h⟩
    | some d =>
      obtain ⟨f1, n, e1, i1, -⟩ := Find_hit h hk
      exact ⟨f1, by simp [FastCache.step, e1], i1⟩
  | clear => exact ⟨f.Clear, rfl, h.clear⟩

theorem Reachable.inv {C : Int} (hC : 1 ≤ C) {f : FastCache} (hf : Reachable C f) : Inv C f := by
  induction hf with
  | init => exact Inv.init C
  | step op _ hstep ih =>
    obtain ⟨f2, e2, i2⟩ := step_spec ih hC op
    rw [e2] at hstep
    cases hstep
    exact i2

/-- What `Find` reports, read off the map and the node it leads to. -/
theorem findResult_eq {C : Int} {f : FastCache} (h : Inv C f) (k : String) :
    f.findResult k =
      match f.storage.get k with
      | none => some ("", "", false)
      | some d => (f.heap[d]?).map (fun n => (k, n.CiphertextPath, true)) := by
  cases hk : f.storage.get k with
  | none => simp [FastCache.findResult, Find_miss f k hk, DirMapping.zero]
  | some d =>
    obtain ⟨f1, n, e1, -, -, -, hp, hc⟩ := Find_hit h hk
    obtain ⟨n0, hn0, -⟩ := h.keys k d hk
    simp [FastCache.findResult, e1, hn0, hp, hc n0 hn0]

/-- Once a key leads to a node with ciphertext `c`, any number of `Find`s of
that key return, and the next `Find` reports the key with `c`. -/
theorem find_repeat {C : Int} (p c : String) (n : Nat) :
    ∀ (f : FastCache) (d : Nat) (nd : DirMapping), Inv C f → f.storage.get p = some d →
      f.heap[d]? = some nd → nd.CiphertextPath = c →
      ∃ f2, f.run (List.replicate n (Op.find p)) = some f2 ∧
        f2.findResult p = some (p, c, true) := by
  induction n with
  | zero =>
    intro f d nd h hk hn hc
    refine ⟨f, rfl, ?_⟩
    rw [findResult_eq h, hk]
    simp [hn, hc]
  | succ n ih =>
    intro f d nd h hk hn hc
    obtain ⟨f1, m, e1, i1, sd1, hm, -, hcm⟩ := Find_hit h hk
    obtain ⟨f2, e2, r2⟩ := ih f1 d m i1 (by rw [sd1.1]; exact hk) hm ((hcm nd hn).trans hc)
    refine ⟨f2, ?_, r2⟩
    simp [List.replicate_succ, FastCache.run, FastCache.step, e1, e2]

end filetree

/-! ## The claims about `FastCache` -/

namespace filetree

/-- C1 (the code departs from the claim). With capacity 2, after
`Store(a)`, `Store(b)`, `Find(a)`, `Find(b)` the least recently used key is
`a`, and the reference recency list drops `a` on `Store(c)`; `FastCache`
removes `b`, the key used last, and keeps `a`. -/
theorem FastCache_evicts_most_recently_used :
    ((NewFastCache 2).run
        [.store "a" "A", .store "b" "B", .find "a", .find "b", .store "c" "C"]).map
      (fun f => (f.present "a", f.present "b", f.present "c")) = some (true, false, true) ∧
    (RefLRU.run 2 []
        [.store "a" "A", .store "b" "B", .find "a", .find "b", .store "c" "C"]).map Prod.fst
      = ["b", "c"] := by
  decide

/-- C2 (the code departs from the claim). With capacity 2, after storing the
five distinct paths `k1 .. k5` in order, `FastCache` holds `k3` and `k5`: the
lookup of `k4`, one of the last two paths stored, misses, and the lookup of the
earlier `k3` hits. -/
theorem FastCache_store_only_eviction :
    ((NewFastCache 2).run
        [.store "k1" "c1", .store "k2" "c2", .store "k3" "c3", .store "k4" "c4",
         .store "k5" "c5"]).map
      (fun f => [f.findResult "k1", f.findResult "k2", f.findResult "k3",
                 f.findResult "k4", f.findResult "k5"]) =
      some [some ("", "", false), some ("", "", false), some ("k3", "c3", true),
            some ("", "", false), some ("k5", "c5", true)] := by
  decide

/-- C3. In every state reachable from `NewFastCache(C)`, `C ≥ 1`, a call
`Store(pPath, cPath)` returns, and after it `Find(pPath)` reports
`found = true` with `PlaintextPath = pPath` and `CiphertextPath = cPath`, also
when the `Find` is repeated any number of times. -/
theorem store_find_roundtrip (C : Int) (hC : 1 ≤ C) (f : FastCache) (hf : Reachable C f)
    (pPath cPath : String) :
    ∃ f1, f.Store pPath cPath = some f1 ∧
      ∀ n : Nat, ∃ f2, f1.run (List.replicate n (Op.find pPath)) = some f2 ∧
        f2.findResult pPath = some (pPath, cPath, true) := by
  obtain ⟨f1, e1, i1, d, nd, hk, hn, -, hc⟩ := Store_spec (hf.inv hC) hC pPath cPath
  exact ⟨f1, e1, fun n => find_repeat pPath cPath n f1 d nd i1 hk hn hc⟩

theorem store_find_roundtrip_witness :
    ∃ f1, (NewFastCache 2).Store "a" "A" = some f1 ∧
      ∀ n : Nat, ∃ f2, f1.run (List.replicate n (Op.find "a")) = some f2 ∧
        f2.findResult "a" = some ("a", "A", true) :=
  store_find_roundtrip 2 (by decide) (NewFastCache 2) Reachable.init "a" "A"

/-- C4. In every reachable state in which `pPath` is present,
`Store(pPath, newCPath)` returns and changes only that mapping: the same keys
are present afterwards (nothing is evicted and the count is unchanged), `Find`
reports every other key exactly as before, and `Find(pPath)` reports
`newCPath`. -/
theorem store_overwrite_frame (C : Int) (hC : 1 ≤ C) (f : FastCache) (hf : Reachable C f)
    (pPath newCPath : String) (hp : f.present pPath = true) :
    ∃ f1, f.Store pPath newCPath = some f1 ∧
      (∀ k, f1.present k = f.present k) ∧ f1.count = f.count ∧
      (∀ k, k ≠ pPath → f1.findResult k = f.findResult k) ∧
      f1.findResult pPath = some (pPath, newCPath, true) := by
  have h := hf.inv hC
  obtain ⟨d, hk⟩ := Option.isSome_iff_exists.mp hp
  obtain ⟨f1, e1, i1, st1, ct1, ⟨n, hn, -, hc⟩, hrest⟩ := Store_overwrite h newCPath hk
  refine ⟨f1, e1, ?_, ct1, ?_, ?_⟩
  · intro k
    simp [FastCache.present, st1]
  · intro k hkp
    rw [findResult_eq i1, findResult_eq h, st1]
    cases hk2 : f.storage.get k with
    | none => rfl
    | some d2 =>
      obtain ⟨m, hm, hpm⟩ := h.keys k d2 hk2
      obtain ⟨m0, hm0, hpm0⟩ := h.keys pPath d hk
      have hne : d2 ≠ d := by
        intro e
        subst e
        rw [hm] at hm0
        cases hm0
        exact hkp (hpm.symm.trans hpm0)
      obtain ⟨m1, hm1, -, hcm1⟩ := hrest d2 m hne hm
      simp [hm, hm1, hcm1]
  · rw [findResult_eq i1, st1, hk]
    simp [hn, hc]

theorem store_overwrite_frame_witness :
    ∃ f1, (FastCache.mk [⟨"a", "A", none, none⟩] [("a", 0)] 2 1 (some 0) (some 0)).Store "a" "Z"
        = some f1 ∧
      (∀ k, f1.present k =
        (FastCache.mk [⟨"a", "A", none, none⟩] [("a", 0)] 2 1 (some 0) (some 0)).present k) ∧
      f1.count = (FastCache.mk [⟨"a", "A", none, none⟩] [("a", 0)] 2 1 (some 0) (some 0)).count ∧
      (∀ k, k ≠ "a" → f1.findResult k =
        (FastCache.mk [⟨"a", "A", none, none⟩] [("a", 0)] 2 1 (some 0) (some 0)).findResult k) ∧
      f1.findResult "a" = some ("a", "Z", true) :=
  store_overwrite_frame 2 (by decide)
    (FastCache.mk [⟨"a", "A", none, none⟩] [("a", 0)] 2 1 (some 0) (some 0))
    (Reachable.step (.store "a" "A") Reachable.init (by decide)) "a" "Z" (by decide)

end filetree

/-! ## The claims about `syncCache` -/

namespace requester

/-- C5, as the claim states it, fails: on the empty cache `GetOrInsert` with a
value whose `lockerNum` is 1 does not return that value. -/
theorem GetOrInsert_returns_zero_entry :
    ((newSyncCache 0).GetOrInsert "k" { data := none, err := none, lockerNum := 1 }).2 ≠
      ({ data := none, err := none, lockerNum := 1 }, false) := by
  decide

/-- C5, amended. For every cache, key `k` absent from it and entry `v`,
`GetOrInsert(k, v)` stores `v` under `k`, so that a following `Get(k)` returns
`(v, true)`, and it returns the zero-valued entry together with `false`. -/
theorem GetOrInsert_absent (s : syncCache) (k : String) (v : genCacheEntry)
    (h : (s.Get k).2 = false) :
    ((s.GetOrInsert k v).1.Get k = (v, true)) ∧
      (s.GetOrInsert k v).2 = (genCacheEntry.zero, false) := by
  cases hk : s.m.get k with
  | some e => simp [syncCache.Get, hk] at h
  | none =>
    simp [syncCache.GetOrInsert, syncCache.Get, hk, GoMap.get_set]

theorem GetOrInsert_absent_witness :
    (((newSyncCache 0).GetOrInsert "k" { data := none, err := none, lockerNum := 1 }).1.Get "k"
        = ({ data := none, err := none, lockerNum := 1 }, true)) ∧
      ((newSyncCache 0).GetOrInsert "k" { data := none, err := none, lockerNum := 1 }).2
        = (genCacheEntry.zero, false) :=
  GetOrInsert_absent (newSyncCache 0) "k" { data := none, err := none, lockerNum := 1 }
    (by decide)

/-- C6. For every cache in which `Get(k)` finds the entry `e`, and every `v`,
`GetOrInsert(k, v)` returns `(e, true)` and leaves the cache as it is. -/
theorem GetOrInsert_present (s : syncCache) (k : String) (e v : genCacheEntry)
    (h : s.Get k = (e, true)) :
    s.GetOrInsert k v = (s, e, true) := by
  cases hk : s.m.get k with
  | none => simp [syncCache.Get, hk] at h
  | some e1 =>
    simp only [syncCache.Get, hk, Prod.mk.injEq, and_true] at h
    simp [syncCache.GetOrInsert, hk, h]

theorem GetOrInsert_present_witness :
    (syncCache.mk [("k", { data := none, err := some "e", lockerNum := 0 })]).GetOrInsert "k"
        { data := none, err := none, lockerNum := 1 } =
      (syncCache.mk [("k", { data := none, err := some "e", lockerNum := 0 })],
        { data := none, err := some "e", lockerNum := 0 }, true) :=
  GetOrInsert_present _ "k" _ _ (by decide)


/-! ## The claims about `makeRequest` -/

/-- Every result returned by the retry loop has exactly one non-nil component. -/
theorem attempts_exclusive {σ : Type} (env : Env σ) (fuel : Nat) (requestType : workType)
    (arg1 : String) (arg2 : List Nat) (cache : CacheRef) (key : String) (n : Nat) :
    ∀ (s : σ) (retryErrs : List String) (res : Result) (s1 : σ),
      attempts env fuel requestType arg1 arg2 cache key n s retryErrs = some (res, s1) →
      (res.1.isSome = true ∧ res.2 = none) ∨ (res.1 = none ∧ res.2.isSome = true) := by
  induction n with
  | zero =>
    intro s retryErrs res s1 h
    simp only [attempts, Option.some.injEq, Prod.mk.injEq] at h
    obtain ⟨h1, -⟩ := h
    subst h1
    exact Or.inr ⟨rfl, rfl⟩
  | succ n ih =>
    intro s retryErrs res s1 h
    unfold attempts at h
    simp only [] at h
    repeat' split at h
    all_goals first
      | exact ih _ _ _ _ h
      | (simp only [Option.some.injEq, Prod.mk.injEq] at h
         obtain ⟨h1, -⟩ := h
         subst h1
         simp_all [Option.isSome_iff_ne_none])
      | (cases h)


/-- C7. Whatever the caches, the work queue, the workers and the tickets do
(any `Env`, any state), a call of `makeRequest` that returns, on any of its
return paths, returns exactly one non-nil value: data with a nil error, or nil
data with an error; never `(nil, nil)`. -/
theorem makeRequest_never_nil_nil {σ : Type} (env : Env σ)
    (complexKey : String → List Nat → String) (fuel : Nat) (s : σ) (requestType : workType)
    (arg1 : String) (arg2 : List Nat) (data : Option Payload) (err : Option GoError) (s1 : σ)
    (h : makeRequest env complexKey fuel s requestType arg1 arg2 = some ((data, err), s1)) :
    (data.isSome = true ∧ err = none) ∨ (data = none ∧ err.isSome = true) := by
  unfold makeRequest at h
  split at h
  · cases h
  · exact attempts_exclusive env fuel requestType arg1 arg2 _ _ _ s [] (data, err) s1 h

theorem makeRequest_never_nil_nil_witness :
    ((some (Payload.fileData [1])).isSome = true ∧ (none : Option GoError) = none) ∨
      ((some (Payload.fileData [1])) = none ∧ (none : Option GoError).isSome = true) :=
  makeRequest_never_nil_nil
    (Env.fixed { data := some (.fileData [1]), err := none, lockerNum := 0 })
    (fun n _ => n) 0 () .workReadFile "/x" [] (some (.fileData [1])) none () (by rfl)

end requester

namespace requester

/-! ### One caller and the workers: the steps of a call -/

@[simp]
theorem Requester.cache_setCache (r : Requester) (c : CacheRef) (v : syncCache) :
    (r.setCache c v).cache c = v := by
  cases c <;> rfl

@[simp]
theorem Requester.setCache_setCache (r : Requester) (c : CacheRef) (v1 v2 : syncCache) :
    (r.setCache c v1).setCache c v2 = r.setCache c v2 := by
  cases c <;> rfl

@[simp]
theorem Requester.setCache_numWorkers (r : Requester) (c : CacheRef) (v : syncCache) :
    (r.setCache c v).numWorkers = r.numWorkers := by
  cases c <;> rfl

@[simp]
theorem Requester.setCache_lockers (r : Requester) (c : CacheRef) (v : syncCache) :
    (r.setCache c v).lockers = r.lockers := by
  cases c <;> rfl

@[simp]
theorem workerRequest_setCache (r : Requester) (c : CacheRef) (v : syncCache)
    (calls : List work) (w : work) :
    workerRequest (r.setCache c v) calls w = workerRequest r calls w := by
  cases c <;> rfl

theorem System.nextWorker_range (sys : System) (h : 1 ≤ sys.r.numWorkers) :
    0 ≤ sys.nextWorker ∧ sys.nextWorker ≤ sys.r.numWorkers ∧ sys.nextWorker ≠ 0 := by
  unfold System.nextWorker
  have h1 : 0 < sys.r.numWorkers.toNat := by omega
  have h2 := Nat.mod_lt (sys.sched sys.sent).1 h1
  omega

theorem System.tick_nil (sys : System) (hj : sys.jobs = []) : sys.tick = sys := by
  obtain ⟨r, ck, sched, jobs, calls, sent⟩ := sys
  simp only at hj
  subst hj
  rfl

theorem System.env_Get (sys : System) (c : CacheRef) (key : String) :
    System.env.Get sys c key = ((sys.tick.r.cache c).Get key, sys.tick) := rfl

theorem System.send_absent (sys : System) (c : CacheRef) (key : String) (w : work)
    (hj : sys.jobs = []) (hwf : sys.WF)
    (hwt : workerTarget sys.complexKey w = some (c, key))
    (habs : (sys.r.cache c).m.get key = none) :
    sys.send w = some (.ticket { lockerNum := sys.nextWorker },
      sys.inflight c key w sys.nextDelay) := by
  obtain ⟨h0, h1, -⟩ := sys.nextWorker_range hwf.workers
  have hlock := hwf.lockers _ h0 h1
  have hnw : ¬ sys.r.numWorkers ≤ 0 := by have := hwf.workers; omega
  simp [System.send, hnw, hwt, System.finish, hj, performRequestAndCache,
    syncCache.GetOrInsert, habs, hlock, System.inflight]

theorem System.tick_inflight_zero (sys : System) (c : CacheRef) (key : String) (w : work)
    (hj : sys.jobs = []) (hwt : workerTarget sys.complexKey w = some (c, key)) :
    (sys.inflight c key w 0).tick = sys.done c key w := by
  simp [hj, System.tick, System.inflight, System.complete, hwt, System.done,
    performRequestAndCacheSet, syncCache.Set, GoMap.set, GoMap.delete, GoMap.delete_delete]

theorem System.tick_inflight_succ (sys : System) (c : CacheRef) (key : String) (w : work)
    (d : Nat) :
    (sys.inflight c key w (d + 1)).tick = sys.inflight c key w d := by
  simp [System.tick, System.inflight]

theorem System.Wait_inflight (sys : System) (c : CacheRef) (key : String) (w : work)
    (d : Nat) (hj : sys.jobs = []) (hwt : workerTarget sys.complexKey w = some (c, key)) :
    (sys.inflight c key w d).Wait { lockerNum := sys.nextWorker } = some (sys.done c key w) := by
  simp [hj, System.Wait, System.finish, System.inflight, System.complete, hwt, System.done,
    performRequestAndCacheSet, syncCache.Set, GoMap.set, GoMap.delete, GoMap.delete_delete]

theorem System.Get_inflight (sys : System) (c : CacheRef) (key : String) (w : work) (d : Nat) :
    ((sys.inflight c key w d).r.cache c).Get key =
      ({ data := none, err := none, lockerNum := sys.nextWorker }, true) := by
  simp [System.inflight, syncCache.Get, GoMap.set, GoMap.get]

theorem System.Get_done (sys : System) (c : CacheRef) (key : String) (w : work) :
    ((sys.done c key w).r.cache c).Get key =
      ({ data := (workerRequest sys.r sys.calls w).1, err := (workerRequest sys.r sys.calls w).2,
         lockerNum := 0 }, true) := by
  simp [System.done, syncCache.Get, performRequestAndCacheSet, syncCache.Set, GoMap.set, GoMap.get]


theorem System.env_send (sys : System) (w : work) : System.env.send sys w = sys.send w := rfl

theorem System.env_Wait (sys : System) (t : workTicket) : System.env.Wait sys t = sys.Wait t := rfl

theorem System.env_Lock (sys : System) (t : workTicket) : System.env.Lock sys t = sys := rfl

theorem System.env_Unlock (sys : System) (t : workTicket) : System.env.Unlock sys t = sys := rfl

theorem System.env_Delete (sys : System) (c : CacheRef) (key : String) :
    System.env.Delete sys c key =
      { sys with r := sys.r.setCache c ((sys.r.cache c).Delete key) } := rfl

theorem System.done_jobs (sys : System) (c : CacheRef) (key : String) (w : work)
    (hj : sys.jobs = []) : (sys.done c key w).jobs = [] := hj

/-- With no job in flight the wait loop ends at once when the entry it reads is
missing, resolved, or not owned by the ticket. -/
theorem waitLoop_break (sys : System) (c : CacheRef) (key : String) (t : workTicket)
    (fuel : Nat) (e : genCacheEntry) (found : Bool) (hj : sys.jobs = [])
    (hget : (sys.r.cache c).Get key = (e, found))
    (hbreak : (!found || (e.data.isSome || e.err.isSome) ||
      (t.lockerNum == 0 || e.lockerNum != t.lockerNum)) = true) :
    waitLoop System.env c key t (fuel + 1) sys = some ((e, found), sys) := by
  rw [waitLoop]
  simp only [System.env_Get, System.tick_nil sys hj, hget, hbreak, if_true]

/-- The wait loop on the ticket of the worker whose job is in flight ends when
that job has completed. -/
theorem waitLoop_inflight (sys : System) (c : CacheRef) (key : String) (w : work)
    (fuel d : Nat) (hj : sys.jobs = []) (hwf : sys.WF)
    (hwt : workerTarget sys.complexKey w = some (c, key)) :
    waitLoop System.env c key { lockerNum := sys.nextWorker } (fuel + 2)
        (sys.inflight c key w d) =
      some ((genCacheEntry.mk (workerRequest sys.r sys.calls w).1
               (workerRequest sys.r sys.calls w).2 0, true), sys.done c key w) := by
  obtain ⟨-, -, hne⟩ := sys.nextWorker_range hwf.workers
  have hbreak : ∀ (x : Option Payload) (y : Option GoError),
      (!true || (x.isSome || y.isSome) ||
        (sys.nextWorker == 0 || (0 : Int) != sys.nextWorker)) = true := by
    intro x y
    have : ((0 : Int) != sys.nextWorker) = true := by
      simp [bne_iff_ne, Ne.symm hne]
    simp [this]
  cases d with
  | zero =>
    rw [waitLoop]
    simp only [System.env_Get, System.tick_inflight_zero sys c key w hj hwt,
      System.Get_done, hbreak, if_true]
  | succ d =>
    rw [waitLoop]
    have hstay : (!true || ((none : Option Payload).isSome || (none : Option GoError).isSome) ||
        (sys.nextWorker == 0 || sys.nextWorker != sys.nextWorker)) = false := by
      simp [hne]
    simp only [System.env_Get, System.tick_inflight_succ, System.Get_inflight, hstay,
      System.env_Wait, System.Wait_inflight sys c key w d hj hwt]
    simp only [Bool.false_eq_true, if_false]
    exact waitLoop_break _ c key _ fuel _ true (System.done_jobs sys c key w hj)
      (System.Get_done sys c key w) (hbreak _ _)


theorem syncCache.Get_absent (s : syncCache) (key : String) (h : s.m.get key = none) :
    s.Get key = (genCacheEntry.zero, false) := by
  simp [syncCache.Get, h]

/-- One iteration of the retry loop when no job is in flight and the key is
absent: a worker runs the request and stores its result; the caller returns
that result unless it is empty. -/
theorem attempt_absent (sys : System) (fuel : Nat) (c : CacheRef) (key : String)
    (requestType : workType) (arg1 : String) (arg2 : List Nat) (n : Nat)
    (retryErrs : List String)
    (hj : sys.jobs = []) (hwf : sys.WF)
    (hwt : workerTarget sys.complexKey ⟨requestType, arg1, arg2⟩ = some (c, key))
    (habs : (sys.r.cache c).m.get key = none) :
    attempts System.env (fuel + 2) requestType arg1 arg2 c key (n + 1) sys retryErrs =
      if (workerRequest sys.r sys.calls ⟨requestType, arg1, arg2⟩).1.isSome = true ∧
          (sys.nextDelay = 0 ∨
            (workerRequest sys.r sys.calls ⟨requestType, arg1, arg2⟩).2.isSome = false) then
        some (((workerRequest sys.r sys.calls ⟨requestType, arg1, arg2⟩).1, none),
          sys.done c key ⟨requestType, arg1, arg2⟩)
      else if (workerRequest sys.r sys.calls ⟨requestType, arg1, arg2⟩).2.isSome = true then
        some ((none, (workerRequest sys.r sys.calls ⟨requestType, arg1, arg2⟩).2),
          sys.done c key ⟨requestType, arg1, arg2⟩)
      else
        attempts System.env (fuel + 2) requestType arg1 arg2 c key n
          (sys.done c key ⟨requestType, arg1, arg2⟩)
          (retryErrs ++ ["data missing by the time request completed"]) := by
  rw [attempts]
  simp only [System.env_Get, System.tick_nil sys hj, syncCache.Get_absent _ key habs,
    System.env_send, System.send_absent sys c key _ hj hwf hwt habs, Bool.false_and,
    Bool.false_eq_true, if_false, System.env_Lock, System.env_Unlock]
  generalize hres : workerRequest sys.r sys.calls ⟨requestType, arg1, arg2⟩ = res
  obtain ⟨rd, re⟩ := res
  cases hd : sys.nextDelay with
  | zero =>
    have hbreak : (!true || (rd.isSome || re.isSome) ||
        ((sys.nextWorker == 0) || ((0 : Int) != sys.nextWorker))) = true := by
      obtain ⟨-, -, hne⟩ := sys.nextWorker_range hwf.workers
      have : ((0 : Int) != sys.nextWorker) = true := by simp [bne_iff_ne, Ne.symm hne]
      simp [this]
    have hwl := waitLoop_break (sys.done c key ⟨requestType, arg1, arg2⟩) c key
      { lockerNum := sys.nextWorker } (fuel + 1) _ true (System.done_jobs sys c key _ hj)
      (System.Get_done sys c key _) (by rw [hres]; exact hbreak)
    rw [hres] at hwl
    simp only [System.tick_inflight_zero sys c key _ hj hwt, System.Get_done, hres, hwl]
    cases rd <;> cases re <;> simp
  | succ d =>
    have hwl := waitLoop_inflight sys c key ⟨requestType, arg1, arg2⟩ fuel d hj hwf hwt
    rw [hres] at hwl
    simp only [System.tick_inflight_succ, System.Get_inflight, hwl]
    cases rd <;> cases re <;> simp


theorem syncCache.Get_present (s : syncCache) (key : String) (e : genCacheEntry)
    (h : s.m.get key = some e) : s.Get key = (e, true) := by
  simp [syncCache.Get, h]

theorem System.send_resolved (sys : System) (c : CacheRef) (key : String) (w : work)
    (e : genCacheEntry) (hj : sys.jobs = []) (hwf : sys.WF)
    (hwt : workerTarget sys.complexKey w = some (c, key))
    (hget : (sys.r.cache c).m.get key = some e)
    (hres : (e.data.isSome || e.err.isSome) = true) :
    sys.send w = some (.closed, sys.sentOne) := by
  have hnw : ¬ sys.r.numWorkers ≤ 0 := by have := hwf.workers; omega
  obtain ⟨r, ck, sched, jobs, calls, sent⟩ := sys
  simp only at hj hget hwt hnw
  subst hj
  have hset : r.setCache c (r.cache c) = r := by cases c <;> rfl
  simp [System.send, hnw, hwt, System.finish, performRequestAndCache,
    syncCache.GetOrInsert, hget, hres, System.sentOne, hset]

theorem System.send_unresolved (sys : System) (c : CacheRef) (key : String) (w : work)
    (e : genCacheEntry) (hj : sys.jobs = []) (hwf : sys.WF)
    (hwt : workerTarget sys.complexKey w = some (c, key))
    (hget : (sys.r.cache c).m.get key = some e)
    (hres : (e.data.isSome || e.err.isSome) = false) :
    sys.send w =
      match lockerAt sys.r.lockers e.lockerNum with
      | none => none
      | some wt => some (.ticket wt, sys.sentOne) := by
  have hnw : ¬ sys.r.numWorkers ≤ 0 := by have := hwf.workers; omega
  obtain ⟨r, ck, sched, jobs, calls, sent⟩ := sys
  simp only at hj hget hwt hnw
  subst hj
  have hset : r.setCache c (r.cache c) = r := by cases c <;> rfl
  cases hl : lockerAt r.lockers e.lockerNum with
  | none =>
    simp [System.send, hnw, hwt, System.finish, performRequestAndCache,
      syncCache.GetOrInsert, hget, hres, System.sentOne, hl]
  | some wt =>
    simp [System.send, hnw, hwt, System.finish, performRequestAndCache,
      syncCache.GetOrInsert, hget, hres, System.sentOne, hl, hset]

theorem System.Wait_idle (sys : System) (t : workTicket) (hj : sys.jobs = []) :
    sys.Wait t = none := by
  simp [System.Wait, hj]

/-- One iteration of the retry loop when the key holds data: the fast path. -/
theorem attempt_data (sys : System) (fuel : Nat) (c : CacheRef) (key : String)
    (requestType : workType) (arg1 : String) (arg2 : List Nat) (n : Nat)
    (retryErrs : List String) (e : genCacheEntry)
    (hj : sys.jobs = [])
    (hget : (sys.r.cache c).m.get key = some e) (hdata : e.data.isSome = true) :
    attempts System.env fuel requestType arg1 arg2 c key (n + 1) sys retryErrs =
      some ((e.data, none), sys) := by
  rw [attempts]
  simp [System.env_Get, System.tick_nil sys hj, syncCache.Get_present _ key e hget, hdata]

/-- One iteration of the retry loop when the key holds an error and no data:
the worker closes the channel, the caller deletes the entry and tries again. -/
theorem attempt_error (sys : System) (fuel : Nat) (c : CacheRef) (key : String)
    (requestType : workType) (arg1 : String) (arg2 : List Nat) (n : Nat)
    (retryErrs : List String) (e : genCacheEntry)
    (hj : sys.jobs = []) (hwf : sys.WF)
    (hwt : workerTarget sys.complexKey ⟨requestType, arg1, arg2⟩ = some (c, key))
    (hget : (sys.r.cache c).m.get key = some e)
    (hdata : e.data = none) (herr : e.err.isSome = true) :
    attempts System.env fuel requestType arg1 arg2 c key (n + 1) sys retryErrs =
      attempts System.env fuel requestType arg1 arg2 c key n
        (sys.dropped c key) (retryErrs ++ ["retrying because of cached error"]) := by
  rw [attempts]
  have hres : (e.data.isSome || e.err.isSome) = true := by simp [herr]
  have hj1 : sys.sentOne.jobs = [] := hj
  have hget1 : (sys.sentOne.r.cache c).Get key = (e, true) :=
    syncCache.Get_present _ key e hget
  simp only [System.env_Get, System.tick_nil sys hj, syncCache.Get_present _ key e hget,
    System.env_send, System.send_resolved sys c key _ e hj hwf hwt hget hres,
    System.tick_nil _ hj1, hget1, System.env_Delete]
  simp [hdata, herr, System.sentOne, System.dropped]


theorem call_requestCache_eq (call : Call) :
    requestCache call.work.requestType = some call.cacheRef := by
  cases call <;> rfl

theorem call_target_eq (complexKey : String → List Nat → String) (call : Call)
    (h : call.KeysAgree complexKey) :
    workerTarget complexKey call.work = some (call.cacheRef, call.key complexKey) := by
  cases call with
  | ReadFile path => rfl
  | ReadDir path => rfl
  | DecryptName cName iv =>
    cases iv with
    | nil =>
      have := h rfl
      simp [workerTarget, Call.work, Call.cacheRef, Call.key, requestKey, this]
    | cons b bs =>
      simp [workerTarget, Call.work, Call.cacheRef, Call.key, requestKey]

theorem call_fails_eq (backend : Backend) (decrypter : Decrypter) (E : GoError) (call : Call)
    (h : call.AlwaysFails backend decrypter E) (r : Requester) (hb : r.backend = backend)
    (hd : r.decrypter = decrypter) (calls : List work) :
    workerRequest r calls call.work = (none, some E) := by
  cases call with
  | ReadFile path => simp [workerRequest, Call.work, hb, h calls]
  | ReadDir path => simp [workerRequest, Call.work, hb, h calls]
  | DecryptName cName iv => simp [workerRequest, Call.work, hd, h calls]

/-- A failed `makeRequest` is what the method reports as its failure. -/
theorem call_run_of_error {σ : Type} (env : Env σ) (complexKey : String → List Nat → String)
    (fuel : Nat) (s s1 : σ) (call : Call) (E : GoError)
    (h : makeRequest env complexKey fuel s call.work.requestType call.work.arg1 call.work.arg2
      = some ((none, some E), s1)) :
    call.run env complexKey fuel s = some (call.failure E, s1) := by
  cases call with
  | ReadFile path =>
    simp only [Call.work] at h
    simp [Call.run, ReadFile, h, Call.failure]
  | ReadDir path =>
    simp only [Call.work] at h
    simp [Call.run, ReadDir, h, Call.failure]
  | DecryptName cName iv =>
    simp only [Call.work] at h
    simp [Call.run, DecryptName, h, Call.failure]

theorem System.WF_of_eq {sys sys1 : System} (h : sys.WF) (hn : sys1.r.numWorkers = sys.r.numWorkers)
    (hl : sys1.r.lockers = sys.r.lockers) : sys1.WF :=
  ⟨by rw [hn]; exact h.workers, by rw [hn, hl]; exact h.lockers⟩

/-- A call whose operation fails, made in a state that is ready for it, returns
the operation's error after exactly one invocation, in a state that is ready
for the next call. -/
theorem makeRequest_error (sys : System) (fuel : Nat) (call : Call) (E : GoError)
    (h : sys.ErrReady call E) :
    ∃ sys1, makeRequest System.env sys.complexKey (fuel + 2) sys call.work.requestType
        call.work.arg1 call.work.arg2 = some ((none, some E), sys1) ∧
      sys1.ErrReady call E ∧ sys1.complexKey = sys.complexKey ∧
      sys1.calls = sys.calls ++ [call.work] := by
  have hready : ∀ (s : System) (n : Nat) (errs : List String), s.jobs = [] → s.WF →
      s.complexKey = sys.complexKey →
      (∀ calls, workerRequest s.r calls call.work = (none, some E)) →
      (s.r.cache call.cacheRef).m.get (call.key sys.complexKey) = none →
      ∃ sys1, attempts System.env (fuel + 2) call.work.requestType call.work.arg1
          call.work.arg2 call.cacheRef (call.key sys.complexKey) (n + 1) s errs
          = some ((none, some E), sys1) ∧
        sys1.ErrReady call E ∧ sys1.complexKey = sys.complexKey ∧
        sys1.calls = s.calls ++ [call.work] := by
    intro s n errs hj hwf hck hfail habs
    have hwt : workerTarget s.complexKey ⟨call.work.requestType, call.work.arg1, call.work.arg2⟩
        = some (call.cacheRef, call.key sys.complexKey) := by
      rw [hck]; exact h.target
    refine ⟨s.done call.cacheRef (call.key sys.complexKey) call.work, ?_, ?_, hck, rfl⟩
    · rw [attempt_absent s fuel call.cacheRef (call.key sys.complexKey)
        call.work.requestType call.work.arg1 call.work.arg2 n errs hj hwf hwt habs]
      have := hfail s.calls
      simp only [show (⟨call.work.requestType, call.work.arg1, call.work.arg2⟩ : work)
        = call.work from rfl, this]
      simp
    · refine ⟨hj, System.WF_of_eq hwf (by simp [System.done]) (by simp [System.done]), ?_, ?_, ?_⟩
      · show workerTarget s.complexKey call.work = some (call.cacheRef, call.key s.complexKey)
        rw [hck]; exact h.target
      · intro calls
        simp [System.done, hfail calls]
      · right
        refine ⟨⟨none, some E, 0⟩, ?_, rfl, rfl⟩
        show ((s.done call.cacheRef (call.key sys.complexKey) call.work).r.cache call.cacheRef).m.get
          (call.key s.complexKey) = _
        rw [hck]
        simp [System.done, performRequestAndCacheSet, syncCache.Set, GoMap.get_set, hfail s.calls]
  unfold makeRequest
  rw [call_requestCache_eq]
  show ∃ sys1, attempts System.env (fuel + 2) call.work.requestType call.work.arg1
      call.work.arg2 call.cacheRef (call.key sys.complexKey) (2 + 1) sys [] = _ ∧ _
  rcases h.entry with habs | ⟨e, hget, hdata, herr⟩
  · exact hready sys 2 [] h.jobs h.wf rfl h.fails habs
  · rw [attempt_error sys (fuel + 2) call.cacheRef (call.key sys.complexKey)
      call.work.requestType call.work.arg1 call.work.arg2 2 [] e h.jobs h.wf h.target
      hget hdata herr]
    obtain ⟨sys1, h1, h2, h3, h4⟩ := hready (sys.dropped call.cacheRef (call.key sys.complexKey)) 1
      ([] ++ ["retrying because of cached error"]) h.jobs
      (System.WF_of_eq h.wf (by simp [System.dropped]) (by simp [System.dropped])) rfl
      (by intro calls; simp [System.dropped, h.fails calls])
      (by simp [System.dropped, syncCache.Delete, GoMap.get_delete])
    exact ⟨sys1, h1, h2, h3, h4⟩


theorem callN_error (fuel : Nat) (call : Call) (E : GoError) (N : Nat) :
    ∀ sys : System, sys.ErrReady call E →
      ∃ sys1, sys.callN (fuel + 2) call N = some (List.replicate N (call.failure E), sys1) ∧
        sys1.calls = sys.calls ++ List.replicate N call.work := by
  induction N with
  | zero =>
    intro sys _
    exact ⟨sys, rfl, by simp⟩
  | succ N ih =>
    intro sys h
    obtain ⟨sys1, h1, h2, -, h4⟩ := makeRequest_error sys fuel call E h
    obtain ⟨sys2, h5, h6⟩ := ih sys1 h2
    refine ⟨sys2, ?_, ?_⟩
    · simp only [System.callN, call_run_of_error _ _ _ _ _ _ _ h1, h5, List.replicate_succ]
    · rw [h6, h4, List.append_assoc]
      simp [List.replicate_succ]

theorem New_WF (numWorkers : Int) (backend : Backend) (decrypter : Decrypter) (r : Requester)
    (hn : 1 ≤ numWorkers) (hr : New numWorkers backend decrypter = some r)
    (complexKey : String → List Nat → String) (sched : Nat → Nat × Nat) :
    (System.start r complexKey sched).WF ∧ r.backend = backend ∧ r.decrypter = decrypter ∧
      r.fileCache.m = [] ∧ r.dirCache.m = [] ∧ r.decryptCache.m = [] := by
  have hneg : ¬ numWorkers + 1 < 0 := by omega
  simp only [New, hneg, if_false, Option.some.injEq] at hr
  subst hr
  refine ⟨⟨hn, ?_⟩, rfl, rfl, rfl, rfl, rfl⟩
  intro i h0 h1
  have h1' : i ≤ numWorkers := h1
  have hlt : i.toNat < (numWorkers + 1).toNat := by omega
  have hi : ¬ i < 0 := by omega
  simp only [System.start, lockerAt, hi, if_false]
  rw [List.getElem?_map, List.getElem?_range hlt]
  simp only [Option.map_some', Option.some.injEq, workTicket.mk.injEq]
  show ((i.toNat : Nat) : Int) = i
  omega

/-- With no job in flight the wait loop never ends when the entry it reads is
pending and owned by the ticket: nobody will wake the caller. -/
theorem waitLoop_stuck (sys : System) (c : CacheRef) (key : String) (t : workTicket)
    (fuel : Nat) (e : genCacheEntry) (found : Bool) (hj : sys.jobs = [])
    (hget : (sys.r.cache c).Get key = (e, found))
    (hstay : (!found || (e.data.isSome || e.err.isSome) ||
      (t.lockerNum == 0 || e.lockerNum != t.lockerNum)) = false) :
    waitLoop System.env c key t fuel sys = none := by
  cases fuel with
  | zero => rfl
  | succ fuel =>
    rw [waitLoop]
    simp only [System.env_Get, System.tick_nil sys hj, hget, hstay, System.env_Wait,
      System.Wait_idle sys t hj]
    simp

/-- One iteration of the retry loop when the key holds an entry without data
and without error and no job is in flight. -/
theorem attempt_empty (sys : System) (fuel : Nat) (c : CacheRef) (key : String)
    (requestType : workType) (arg1 : String) (arg2 : List Nat) (n : Nat)
    (retryErrs : List String) (e : genCacheEntry)
    (hj : sys.jobs = []) (hwf : sys.WF)
    (hwt : workerTarget sys.complexKey ⟨requestType, arg1, arg2⟩ = some (c, key))
    (hget : (sys.r.cache c).m.get key = some e)
    (hdata : e.data = none) (herr : e.err = none) :
    attempts System.env (fuel + 1) requestType arg1 arg2 c key (n + 1) sys retryErrs =
      match lockerAt sys.r.lockers e.lockerNum with
      | none => none
      | some wt =>
        if (wt.lockerNum == 0 || e.lockerNum != wt.lockerNum) = true then
          attempts System.env (fuel + 1) requestType arg1 arg2 c key n sys.sentOne
            (retryErrs ++ ["data missing by the time request completed"])
        else none := by
  rw [attempts]
  have hres : (e.data.isSome || e.err.isSome) = false := by simp [hdata, herr]
  have hj1 : sys.sentOne.jobs = [] := hj
  have hget1 : (sys.sentOne.r.cache c).Get key = (e, true) :=
    syncCache.Get_present _ key e hget
  simp only [System.env_Get, System.tick_nil sys hj, syncCache.Get_present _ key e hget,
    System.env_send, System.send_unresolved sys c key _ e hj hwf hwt hget hres]
  cases hl : lockerAt sys.r.lockers e.lockerNum with
  | none => simp [hdata]
  | some wt =>
    simp only [System.tick_nil _ hj1, hget1, System.env_Lock, System.env_Unlock]
    by_cases hb : (wt.lockerNum == 0 || e.lockerNum != wt.lockerNum) = true
    · have hbreak : (!true || (e.data.isSome || e.err.isSome) ||
          (wt.lockerNum == 0 || e.lockerNum != wt.lockerNum)) = true := by simp [hb]
      rw [waitLoop_break sys.sentOne c key wt fuel e true hj1 hget1 hbreak]
      simp [hdata, herr, hb]
    · have hstay : (!true || (e.data.isSome || e.err.isSome) ||
          (wt.lockerNum == 0 || e.lockerNum != wt.lockerNum)) = false := by
        simp only [Bool.not_eq_true] at hb
        simp [hres, hb]
      rw [waitLoop_stuck sys.sentOne c key wt (fuel + 1) e true hj1 hget1 hstay]
      simp [hdata, hb]

/-- When the retry loop, started with idle workers, returns data, the workers
are idle again and the cache holds that data under the key. -/
theorem attempts_data (fuel : Nat) (c : CacheRef) (key : String) (requestType : workType)
    (arg1 : String) (arg2 : List Nat) (n : Nat) :
    ∀ (sys : System) (retryErrs : List String) (D : Payload) (sys1 : System),
      sys.jobs = [] → sys.WF →
      workerTarget sys.complexKey ⟨requestType, arg1, arg2⟩ = some (c, key) →
      attempts System.env (fuel + 2) requestType arg1 arg2 c key n sys retryErrs
        = some ((some D, none), sys1) →
      sys1.jobs = [] ∧ sys1.complexKey = sys.complexKey ∧
        ∃ e, (sys1.r.cache c).m.get key = some e ∧ e.data = some D := by
  induction n with
  | zero =>
    intro sys retryErrs D sys1 _ _ _ h
    simp [attempts] at h
  | succ n ih =>
    intro sys retryErrs D sys1 hj hwf hwt h
    cases hget : (sys.r.cache c).m.get key with
    | none =>
      rw [attempt_absent sys fuel c key requestType arg1 arg2 n retryErrs hj hwf hwt hget] at h
      split at h
      · simp only [Option.some.injEq, Prod.mk.injEq, and_true] at h
        obtain ⟨hd, hs⟩ := h
        subst hs
        refine ⟨hj, rfl, ⟨(workerRequest sys.r sys.calls ⟨requestType, arg1, arg2⟩).1,
          (workerRequest sys.r sys.calls ⟨requestType, arg1, arg2⟩).2, 0⟩, ?_, hd⟩
        simp [System.done, performRequestAndCacheSet, syncCache.Set, GoMap.get_set]
      · split at h
        · simp at h
        · have := ih (sys.done c key ⟨requestType, arg1, arg2⟩) _ D sys1 hj
            (System.WF_of_eq hwf (by simp [System.done]) (by simp [System.done])) hwt h
          exact this
    | some e =>
      cases hdata : e.data with
      | some d =>
        rw [attempt_data sys (fuel + 2) c key requestType arg1 arg2 n retryErrs e hj hget
          (by simp [hdata])] at h
        simp only [Option.some.injEq, Prod.mk.injEq, and_true] at h
        obtain ⟨hd, hs⟩ := h
        subst hs
        exact ⟨hj, rfl, e, hget, hd⟩
      | none =>
        cases herr : e.err with
        | some err =>
          rw [attempt_error sys (fuel + 2) c key requestType arg1 arg2 n retryErrs e hj hwf hwt
            hget hdata (by simp [herr])] at h
          exact ih (sys.dropped c key) _ D sys1 hj
            (System.WF_of_eq hwf (by simp [System.dropped]) (by simp [System.dropped])) hwt h
        | none =>
          rw [attempt_empty sys (fuel + 1) c key requestType arg1 arg2 n retryErrs e hj hwf hwt
            hget hdata herr] at h
          split at h
          · cases h
          · split at h
            · exact ih sys.sentOne _ D sys1 hj
                (System.WF_of_eq hwf (by simp [System.sentOne]) (by simp [System.sentOne])) hwt h
            · cases h


/-- A method that reports a non-empty result without error got that result,
as data and with a nil error, from `makeRequest`; and whenever `makeRequest`
returns that data, the method reports the same outcome. -/
theorem call_run_data {σ : Type} (env : Env σ) (complexKey : String → List Nat → String)
    (fuel : Nat) (s s1 : σ) (call : Call) (out : Outcome)
    (h : call.run env complexKey fuel s = some (out, s1))
    (hdata : out.hasData = true) (herr : out.err = none) :
    ∃ D, makeRequest env complexKey fuel s call.work.requestType call.work.arg1 call.work.arg2
        = some ((some D, none), s1) ∧
      ∀ {τ : Type} (env1 : Env τ) (ck1 : String → List Nat → String) (fuel1 : Nat) (t t1 : τ),
        makeRequest env1 ck1 fuel1 t call.work.requestType call.work.arg1 call.work.arg2
          = some ((some D, none), t1) →
        call.run env1 ck1 fuel1 t = some (out, t1) := by
  cases call with
  | ReadFile path =>
    simp only [Call.run, ReadFile, Option.map_eq_some'] at h
    obtain ⟨⟨⟨b, err⟩, s2⟩, h1, h2⟩ := h
    simp only [Prod.mk.injEq] at h2
    obtain ⟨h2, h3⟩ := h2
    subst h2 h3
    simp only [Outcome.err] at herr
    subst herr
    simp only [Outcome.hasData, decide_eq_true_eq] at hdata
    split at h1
    · cases h1
    · simp only [Option.some.injEq, Prod.mk.injEq] at h1
      obtain ⟨⟨hb, he⟩, hs⟩ := h1
      subst hb he hs
      rename_i heq
      refine ⟨_, heq, ?_⟩
      intro τ env1 ck1 fuel1 t t1 h4
      simp only [Call.work] at h4
      simp [Call.run, ReadFile, h4]
    · cases h1
    · simp only [Option.some.injEq, Prod.mk.injEq] at h1
      obtain ⟨⟨hb, -⟩, -⟩ := h1
      subst hb
      simp at hdata
  | ReadDir path =>
    simp only [Call.run, ReadDir, Option.map_eq_some'] at h
    obtain ⟨⟨⟨b, err⟩, s2⟩, h1, h2⟩ := h
    simp only [Prod.mk.injEq] at h2
    obtain ⟨h2, h3⟩ := h2
    subst h2 h3
    simp only [Outcome.err] at herr
    subst herr
    simp only [Outcome.hasData, decide_eq_true_eq] at hdata
    split at h1
    · cases h1
    · simp only [Option.some.injEq, Prod.mk.injEq] at h1
      obtain ⟨⟨hb, he⟩, hs⟩ := h1
      subst hb he hs
      rename_i heq
      refine ⟨_, heq, ?_⟩
      intro τ env1 ck1 fuel1 t t1 h4
      simp only [Call.work] at h4
      simp [Call.run, ReadDir, h4]
    · cases h1
    · simp only [Option.some.injEq, Prod.mk.injEq] at h1
      obtain ⟨⟨hb, -⟩, -⟩ := h1
      subst hb
      simp at hdata
  | DecryptName cName iv =>
    simp only [Call.run, DecryptName, Option.map_eq_some'] at h
    obtain ⟨⟨⟨b, err⟩, s2⟩, h1, h2⟩ := h
    simp only [Prod.mk.injEq] at h2
    obtain ⟨h2, h3⟩ := h2
    subst h2 h3
    simp only [Outcome.err] at herr
    subst herr
    simp only [Outcome.hasData, decide_eq_true_eq] at hdata
    split at h1
    · cases h1
    · simp only [Option.some.injEq, Prod.mk.injEq] at h1
      obtain ⟨⟨hb, he⟩, hs⟩ := h1
      subst hb he hs
      rename_i heq
      refine ⟨_, heq, ?_⟩
      intro τ env1 ck1 fuel1 t t1 h4
      simp only [Call.work] at h4
      simp [Call.run, DecryptName, h4]
    · cases h1
    · simp only [Option.some.injEq, Prod.mk.injEq] at h1
      obtain ⟨⟨hb, -⟩, -⟩ := h1
      subst hb
      simp at hdata


/-- The wait loop keeps an invariant of the environment under which no cache
read under the key yields data, and the entry it returns has no data. -/
theorem waitLoop_nodata {σ : Type} (env : Env σ) (I : σ → Prop) (c : CacheRef) (key : String)
    (ticket : workTicket)
    (hGet : ∀ s, I s → I (env.Get s c key).2 ∧ (env.Get s c key).1.1.data = none)
    (hWait : ∀ s t s1, I s → env.Wait s t = some s1 → I s1) (fuel : Nat) :
    ∀ (s : σ) (cached : genCacheEntry) (found : Bool) (s5 : σ), I s →
      waitLoop env c key ticket fuel s = some ((cached, found), s5) →
      I s5 ∧ cached.data = none := by
  induction fuel with
  | zero =>
    intro s cached found s5 _ h
    simp [waitLoop] at h
  | succ fuel ih =>
    intro s cached found s5 hI h
    rw [waitLoop] at h
    obtain ⟨hI1, hd1⟩ := hGet s hI
    simp only [] at h
    split at h
    · simp only [Option.some.injEq, Prod.mk.injEq] at h
      obtain ⟨⟨h1, -⟩, h2⟩ := h
      subst h1 h2
      exact ⟨hI1, hd1⟩
    · split at h
      · cases h
      · rename_i s2 hw
        exact ih s2 cached found s5 (hWait _ _ _ hI1 hw) h

/-- Under such an invariant the retry loop never returns data. -/
theorem attempts_nodata {σ : Type} (env : Env σ) (I : σ → Prop) (fuel : Nat)
    (requestType : workType) (arg1 : String) (arg2 : List Nat) (c : CacheRef) (key : String)
    (hGet : ∀ s, I s → I (env.Get s c key).2 ∧ (env.Get s c key).1.1.data = none)
    (hDel : ∀ s, I s → I (env.Delete s c key))
    (hSend : ∀ s r s1, I s →
      env.send s { requestType := requestType, arg1 := arg1, arg2 := arg2 } = some (r, s1) → I s1)
    (hLock : ∀ s t, I s → I (env.Lock s t))
    (hUnlock : ∀ s t, I s → I (env.Unlock s t))
    (hWait : ∀ s t s1, I s → env.Wait s t = some s1 → I s1) (n : Nat) :
    ∀ (s : σ) (retryErrs : List String) (res : Result) (s1 : σ), I s →
      attempts env fuel requestType arg1 arg2 c key n s retryErrs = some (res, s1) →
      res.1 = none := by
  induction n with
  | zero =>
    intro s retryErrs res s1 _ h
    simp only [attempts, Option.some.injEq, Prod.mk.injEq] at h
    obtain ⟨h1, -⟩ := h
    subst h1
    rfl
  | succ n ih =>
    intro s retryErrs res s1 hI h
    rw [attempts] at h
    obtain ⟨hI1, hd1⟩ := hGet s hI
    simp only [hd1, Option.isSome_none, Bool.and_false, Bool.false_eq_true, if_false] at h
    split at h
    · cases h
    · simp only [Option.some.injEq, Prod.mk.injEq] at h
      obtain ⟨h1, -⟩ := h
      subst h1
      rfl
    · rename_i s2 hs
      have hI2 := hSend _ _ _ hI1 hs
      obtain ⟨hI3, hd3⟩ := hGet s2 hI2
      simp only [hd3, Option.isSome_none, Bool.false_eq_true, if_false] at h
      split at h
      · exact ih _ _ _ _ hI3 h
      · exact ih _ _ _ _ (hDel _ hI3) h
    · rename_i ticket s2 hs
      have hI2 := hSend _ _ _ hI1 hs
      obtain ⟨hI3, hd3⟩ := hGet s2 hI2
      simp only [hd3, Option.isSome_none, Bool.false_eq_true, if_false] at h
      split at h
      · exact ih _ _ _ _ hI3 h
      · split at h
        · cases h
        · rename_i cached found s5 hw
          obtain ⟨hI5, hd5⟩ := waitLoop_nodata env I c key ticket hGet hWait fuel _ cached found s5
            (hLock _ _ hI3) hw
          simp only [hd5] at h
          repeat' split at h
          all_goals first
            | exact ih _ _ _ _ (hUnlock _ _ hI5) h
            | (simp only [Option.some.injEq, Prod.mk.injEq] at h
               obtain ⟨h1, -⟩ := h
               subst h1
               rfl)


theorem System.complete_nodata (sys : System) (c : CacheRef) (k wk : String) (j : Job)
    (hne : wk ≠ k) (h : sys.NoData c k wk)
    (hj : workerTarget sys.complexKey j.w = some (c, wk)) :
    (sys.complete j).NoData c k wk := by
  have e1 : (sys.complete j).jobs = sys.jobs := by simp [System.complete, hj]
  have e2 : (sys.complete j).complexKey = sys.complexKey := by simp [System.complete, hj]
  refine ⟨?_, ?_⟩
  · rw [e1, e2]; exact h.jobs
  · intro e he
    apply h.entry e
    simpa [System.complete, hj, performRequestAndCacheSet, syncCache.Set, GoMap.get_set, hne]
      using he

theorem System.foldl_complete_nodata (c : CacheRef) (k wk : String) (hne : wk ≠ k)
    (js : List Job) :
    ∀ sys : System, sys.NoData c k wk →
      (∀ j ∈ js, workerTarget sys.complexKey j.w = some (c, wk)) →
      (js.foldl System.complete sys).NoData c k wk ∧
        (js.foldl System.complete sys).jobs = sys.jobs ∧
        (js.foldl System.complete sys).complexKey = sys.complexKey := by
  induction js with
  | nil => intro sys h _; exact ⟨h, rfl, rfl⟩
  | cons j js ih =>
    intro sys h hjs
    have hj := hjs j (List.mem_cons_self _ _)
    have e1 : (sys.complete j).jobs = sys.jobs := by simp [System.complete, hj]
    have e2 : (sys.complete j).complexKey = sys.complexKey := by simp [System.complete, hj]
    obtain ⟨h1, h2, h3⟩ := ih (sys.complete j) (System.complete_nodata sys c k wk j hne h hj)
      (by intro j1 hj1; rw [e2]; exact hjs j1 (List.mem_cons_of_mem _ hj1))
    exact ⟨h1, h2.trans e1, h3.trans e2⟩

theorem System.tick_nodata (sys : System) (c : CacheRef) (k wk : String) (hne : wk ≠ k)
    (h : sys.NoData c k wk) : sys.tick.NoData c k wk := by
  simp only [System.tick]
  refine (System.foldl_complete_nodata c k wk hne _ _ ?_ ?_).1
  · refine ⟨?_, h.entry⟩
    intro j hj
    simp only [List.mem_map, List.mem_filter] at hj
    obtain ⟨j0, ⟨hj0, -⟩, rfl⟩ := hj
    exact h.jobs j0 hj0
  · intro j hj
    exact h.jobs j (List.mem_filter.mp hj).1

theorem System.finish_nodata (sys : System) (c : CacheRef) (k wk : String) (hne : wk ≠ k)
    (num : Int) (h : sys.NoData c k wk) :
    (sys.finish num).NoData c k wk ∧ (sys.finish num).complexKey = sys.complexKey := by
  unfold System.finish
  have := System.foldl_complete_nodata c k wk hne (sys.jobs.filter (fun j => j.num == num))
    { sys with jobs := sys.jobs.filter (fun j => j.num != num) }
    ⟨fun j hj => h.jobs j (List.mem_filter.mp hj).1, h.entry⟩
    (fun j hj => h.jobs j (List.mem_filter.mp hj).1)
  exact ⟨this.1, this.2.2⟩

theorem performRequestAndCache_other (lockers : List workTicket) (key k : String) (num : Int)
    (cache cache1 : syncCache) (resp : Resp) (run : Bool) (hne : key ≠ k)
    (h : performRequestAndCache lockers key num cache = some (cache1, resp, run)) :
    cache1.m.get k = cache.m.get k := by
  unfold performRequestAndCache syncCache.GetOrInsert at h
  cases hg : cache.m.get key with
  | none =>
    simp only [hg, Bool.not_false, if_true] at h
    split at h
    · cases h
    · simp only [Option.some.injEq, Prod.mk.injEq] at h
      obtain ⟨rfl, -, -⟩ := h
      simp [GoMap.get_set, hne]
  | some e =>
    simp only [hg, Bool.not_true, Bool.false_eq_true, if_false] at h
    split at h
    · simp only [Option.some.injEq, Prod.mk.injEq] at h
      obtain ⟨rfl, -, -⟩ := h
      rfl
    · split at h
      · cases h
      · simp only [Option.some.injEq, Prod.mk.injEq] at h
        obtain ⟨rfl, -, -⟩ := h
        rfl

theorem System.send_nodata (sys : System) (c : CacheRef) (k wk : String) (hne : wk ≠ k)
    (w : work) (hw : workerTarget sys.complexKey w = some (c, wk)) (r : Resp) (sys1 : System)
    (h : sys.NoData c k wk) (hs : sys.send w = some (r, sys1)) :
    sys1.NoData c k wk ∧ sys1.complexKey = sys.complexKey := by
  unfold System.send at hs
  simp only [] at hs
  split at hs
  · simp only [Option.some.injEq, Prod.mk.injEq] at hs
    obtain ⟨-, rfl⟩ := hs
    exact ⟨⟨h.jobs, h.entry⟩, rfl⟩
  · have h0 : ({ sys with sent := sys.sent + 1 } : System).NoData c k wk := ⟨h.jobs, h.entry⟩
    obtain ⟨h1, hck⟩ := System.finish_nodata _ c k wk hne sys.nextWorker h0
    rw [hw] at hs
    simp only [] at hs
    split at hs
    · cases hs
    · rename_i cache1 resp run hp
      have hother := performRequestAndCache_other _ wk k _ _ cache1 resp run hne hp
      have hentry : ∀ e, cache1.m.get k = some e → e.data = none := by
        intro e he
        rw [hother] at he
        exact h1.entry e he
      split at hs
      · simp only [Option.some.injEq, Prod.mk.injEq] at hs
        obtain ⟨-, rfl⟩ := hs
        refine ⟨⟨?_, ?_⟩, hck⟩
        · intro j hj
          simp only [List.mem_append, List.mem_singleton] at hj
          rcases hj with hj | rfl
          · exact h1.jobs j hj
          · show workerTarget (({ sys with sent := sys.sent + 1 } : System).finish
              sys.nextWorker).complexKey w = _
            rw [hck]
            exact hw
        · intro e he
          simp only [Requester.cache_setCache] at he
          exact hentry e he
      · simp only [Option.some.injEq, Prod.mk.injEq] at hs
        obtain ⟨-, rfl⟩ := hs
        refine ⟨⟨h1.jobs, ?_⟩, hck⟩
        intro e he
        simp only [Requester.cache_setCache] at he
        exact hentry e he

theorem System.Wait_nodata (sys : System) (c : CacheRef) (k wk : String) (hne : wk ≠ k)
    (t : workTicket) (sys1 : System) (h : sys.NoData c k wk) (hs : sys.Wait t = some sys1) :
    sys1.NoData c k wk ∧ sys1.complexKey = sys.complexKey := by
  unfold System.Wait at hs
  split at hs
  · cases hs
  · simp only [Option.some.injEq] at hs
    subst hs
    exact System.finish_nodata sys c k wk hne _ h

theorem System.Delete_nodata (sys : System) (c : CacheRef) (k wk : String)
    (h : sys.NoData c k wk) : (System.env.Delete sys c k).NoData c k wk := by
  refine ⟨h.jobs, ?_⟩
  intro e he
  simp [System.env_Delete, syncCache.Delete, GoMap.get_delete] at he

theorem System.tick_complexKey (sys : System) (c : CacheRef) (k wk : String) (hne : wk ≠ k)
    (h : sys.NoData c k wk) : sys.tick.complexKey = sys.complexKey := by
  simp only [System.tick]
  refine (System.foldl_complete_nodata c k wk hne _ _ ?_ ?_).2.2
  · refine ⟨?_, h.entry⟩
    intro j hj
    simp only [List.mem_map, List.mem_filter] at hj
    obtain ⟨j0, ⟨hj0, -⟩, rfl⟩ := hj
    exact h.jobs j0 hj0
  · intro j hj
    exact h.jobs j (List.mem_filter.mp hj).1

theorem System.Get_nodata (sys : System) (c : CacheRef) (k wk : String) (hne : wk ≠ k)
    (h : sys.NoData c k wk) :
    (System.env.Get sys c k).2.NoData c k wk ∧ (System.env.Get sys c k).1.1.data = none := by
  have ht := System.tick_nodata sys c k wk hne h
  refine ⟨ht, ?_⟩
  simp only [System.env_Get, syncCache.Get]
  cases hg : (sys.tick.r.cache c).m.get k with
  | none => rfl
  | some e => exact ht.entry e hg

/-- When the caller and the worker use different keys, a state without data
under the caller's key never yields data. -/
theorem attempts_nodata_system (fuel : Nat) (requestType : workType) (arg1 : String)
    (arg2 : List Nat) (c : CacheRef) (k wk : String) (hne : wk ≠ k) (n : Nat) (sys : System)
    (hw : workerTarget sys.complexKey ⟨requestType, arg1, arg2⟩ = some (c, wk))
    (h : sys.NoData c k wk) (retryErrs : List String) (res : Result) (sys1 : System)
    (hrun : attempts System.env fuel requestType arg1 arg2 c k n sys retryErrs
      = some (res, sys1)) :
    res.1 = none := by
  refine attempts_nodata System.env
    (fun s => s.NoData c k wk ∧ s.complexKey = sys.complexKey) fuel requestType arg1 arg2 c k
    ?_ ?_ ?_ ?_ ?_ ?_ n sys retryErrs res sys1 ⟨h, rfl⟩ hrun
  · intro s hs
    exact ⟨⟨(System.Get_nodata s c k wk hne hs.1).1,
      (System.tick_complexKey s c k wk hne hs.1).trans hs.2⟩,
      (System.Get_nodata s c k wk hne hs.1).2⟩
  · intro s hs
    exact ⟨System.Delete_nodata s c k wk hs.1, hs.2⟩
  · intro s r s1 hs hsend
    have := System.send_nodata s c k wk hne _ (by rw [hs.2]; exact hw) r s1 hs.1 hsend
    exact ⟨this.1, this.2.trans hs.2⟩
  · intro s t hs
    exact hs
  · intro s t hs
    exact hs
  · intro s t s1 hs hwait
    have := System.Wait_nodata s c k wk hne t s1 hs.1 hwait
    exact ⟨this.1, this.2.trans hs.2⟩


/-- With idle workers and data under the key, a call is answered from the
cache: it returns the data and changes nothing, so no work item is sent and no
operation invoked. -/
theorem makeRequest_fast (sys : System) (fuel : Nat) (call : Call) (e : genCacheEntry)
    (D : Payload) (hj : sys.jobs = [])
    (hget : (sys.r.cache call.cacheRef).m.get (call.key sys.complexKey) = some e)
    (hdata : e.data = some D) :
    makeRequest System.env sys.complexKey fuel sys call.work.requestType call.work.arg1
      call.work.arg2 = some ((some D, none), sys) := by
  unfold makeRequest
  rw [call_requestCache_eq]
  show attempts System.env fuel call.work.requestType call.work.arg1 call.work.arg2
    call.cacheRef (call.key sys.complexKey) (2 + 1) sys [] = _
  rw [attempt_data sys fuel call.cacheRef (call.key sys.complexKey) call.work.requestType
    call.work.arg1 call.work.arg2 2 [] e hj hget (by simp [hdata]), hdata]

theorem call_target_some (complexKey : String → List Nat → String) (call : Call) :
    ∃ wk, workerTarget complexKey call.work = some (call.cacheRef, wk) := by
  cases call with
  | ReadFile path => exact ⟨path, rfl⟩
  | ReadDir path => exact ⟨path, rfl⟩
  | DecryptName cName iv => exact ⟨complexKey cName iv, rfl⟩

/-- When a call made with idle workers returns data, the workers are idle again
and the cache holds that data under the caller's key, whether or not the worker
uses the same key. -/
theorem makeRequest_data (sys : System) (hwf : sys.WF) (hj : sys.jobs = []) (call : Call)
    (fuel : Nat) (D : Payload) (sys1 : System)
    (h : makeRequest System.env sys.complexKey (fuel + 2) sys call.work.requestType
      call.work.arg1 call.work.arg2 = some ((some D, none), sys1)) :
    sys1.jobs = [] ∧ sys1.complexKey = sys.complexKey ∧
      ∃ e, (sys1.r.cache call.cacheRef).m.get (call.key sys.complexKey) = some e ∧
        e.data = some D := by
  unfold makeRequest at h
  rw [call_requestCache_eq] at h
  obtain ⟨wk, hwk⟩ := call_target_some sys.complexKey call
  by_cases hagree : wk = call.key sys.complexKey
  · subst hagree
    exact attempts_data fuel call.cacheRef _ call.work.requestType call.work.arg1
      call.work.arg2 cacheErrRetryAttempts sys [] D sys1 hj hwf hwk h
  · by_cases hd : ∃ e, (sys.r.cache call.cacheRef).m.get (call.key sys.complexKey) = some e ∧
        e.data.isSome = true
    · obtain ⟨e, hget, hsome⟩ := hd
      have h2 : attempts System.env (fuel + 2) call.work.requestType call.work.arg1
          call.work.arg2 call.cacheRef (call.key sys.complexKey) (2 + 1) sys []
          = some ((some D, none), sys1) := h
      rw [attempt_data sys (fuel + 2) call.cacheRef (call.key sys.complexKey)
        call.work.requestType call.work.arg1 call.work.arg2 2 [] e hj hget hsome] at h2
      simp only [Option.some.injEq, Prod.mk.injEq, and_true] at h2
      obtain ⟨h3, h4⟩ := h2
      subst h4
      exact ⟨hj, rfl, e, hget, h3⟩
    · have hno : sys.NoData call.cacheRef (call.key sys.complexKey) wk := by
        refine ⟨?_, ?_⟩
        · rw [hj]
          intro j hjm
          cases hjm
        intro e he
        cases hed : e.data with
        | none => rfl
        | some d => exact absurd ⟨e, he, by simp [hed]⟩ hd
      have := attempts_nodata_system (fuel + 2) call.work.requestType call.work.arg1
        call.work.arg2 call.cacheRef (call.key sys.complexKey) wk hagree
        cacheErrRetryAttempts sys hwk hno [] _ sys1 h
      cases this

/-- C9. On a started `Requester` with the tickets `New` creates and at least
one worker, and with idle workers: if a call of `ReadFile`, `ReadDir` or
`DecryptName` returns a non-empty result `D` with a nil error, then any number
of later calls with the same arguments, made one after the other with no
`ClearCache` in between, each return `D` with a nil error and leave the whole
state as it is: no work item is sent and no backend or decrypter operation is
invoked. -/
theorem cached_success (sys : System) (hwf : sys.WF) (hj : sys.jobs = []) (call : Call)
    (fuel : Nat) (out : Outcome) (sys1 : System)
    (hrun : call.run System.env sys.complexKey (fuel + 2) sys = some (out, sys1))
    (hdata : out.hasData = true) (herr : out.err = none) (fuel1 N : Nat) :
    sys1.callN fuel1 call N = some (List.replicate N out, sys1) := by
  obtain ⟨D, hreq, hback⟩ := call_run_data System.env sys.complexKey (fuel + 2) sys sys1 call out
    hrun hdata herr
  obtain ⟨hj1, hck1, e, hget, hed⟩ := makeRequest_data sys hwf hj call fuel D sys1 hreq
  have hone : call.run System.env sys1.complexKey fuel1 sys1 = some (out, sys1) :=
    hback System.env sys1.complexKey fuel1 sys1 sys1
      (makeRequest_fast sys1 fuel1 call e D hj1 (by rw [hck1]; exact hget) hed)
  induction N with
  | zero => rfl
  | succ N ih =>
    simp only [System.callN, hone, ih, List.replicate_succ]

theorem cached_success_witness :
    (testSystem.done .fileCache "/expected/file/path"
        ⟨.workReadFile, "/expected/file/path", []⟩).callN 0 (.ReadFile "/expected/file/path") 3 =
      some (List.replicate 3 (Outcome.bytes [83, 111, 109, 101] none),
        testSystem.done .fileCache "/expected/file/path"
          ⟨.workReadFile, "/expected/file/path", []⟩) :=
  cached_success testSystem
    (New_WF 1 testBackend testDecrypter testRequester (by decide) (by rfl)
      (fun cName _ => cName) (fun _ => (0, 0))).1
    rfl (.ReadFile "/expected/file/path") 0 (.bytes [83, 111, 109, 101] none)
    (testSystem.done .fileCache "/expected/file/path" ⟨.workReadFile, "/expected/file/path", []⟩)
    (by rfl) (by decide) rfl 0 3

end requester

/-! ## The claims about cache keys and bounded retries -/

namespace requester

/-- C11 (the code departs from the claim). Whatever `complexKey` computes,
`makeRequest` looks up `DecryptName(complexKey("enc", [73, 86]), [])`, a request
with an empty IV, under the bare name, which is the key it uses for
`DecryptName("enc", [73, 86])`: two different requests share one cache key. -/
theorem requestKey_collision (complexKey : String → List Nat → String) :
    requestKey complexKey (complexKey "enc" [73, 86]) [] =
      requestKey complexKey "enc" [73, 86] ∧
    (complexKey "enc" [73, 86], ([] : List Nat)) ≠ ("enc", [73, 86]) := by
  constructor
  · simp [requestKey]
  · intro h
    cases (Prod.mk.inj h).2

/-- The retry loop runs its body once and then either returns or goes on with
one more retry reason. -/
theorem attempts_succ {σ : Type} (env : Env σ) (fuel : Nat) (requestType : workType)
    (arg1 : String) (arg2 : List Nat) (cache : CacheRef) (key : String) (n : Nat) (s : σ)
    (retryErrs : List String) :
    attempts env fuel requestType arg1 arg2 cache key (n + 1) s retryErrs =
      match iteration env fuel requestType arg1 arg2 cache key s with
      | none => none
      | some (.returned res s1) => some (res, s1)
      | some (.retry reason s1) =>
        attempts env fuel requestType arg1 arg2 cache key n s1 (retryErrs ++ [reason]) := by
  rw [attempts]
  unfold iteration
  dsimp only
  repeat (first | rfl | split)

end requester

namespace requester

/-- Every reason with which a pass of the retry loop continues is one of the
five texts of `retryReasons`. -/
theorem iteration_retry_mem {σ : Type} (env : Env σ) (fuel : Nat) (requestType : workType)
    (arg1 : String) (arg2 : List Nat) (cache : CacheRef) (key : String) (s s1 : σ)
    (reason : String)
    (h : iteration env fuel requestType arg1 arg2 cache key s = some (.retry reason s1)) :
    reason ∈ retryReasons := by
  unfold iteration at h
  dsimp only at h
  repeat (first
    | focus (cases h; done)
    | focus (cases h; simp [retryReasons]; done)
    | focus (cases h; split <;> simp [retryReasons])
    | split at h)

/-- The environment `env.counting` counts its sends in the second component
of its state. -/
theorem counting_counts {σ : Type} (env : Env σ) : env.counting.Counts Prod.snd where
  get := fun _ _ _ => rfl
  delete := fun _ _ _ => rfl
  lock := fun _ _ => rfl
  unlock := fun _ _ => rfl
  wait := by
    intro s t s1 h
    simp only [Env.counting] at h
    split at h
    · cases h
    · cases h; rfl
  send := by
    intro s w r s1 h
    simp only [Env.counting] at h
    split at h
    · cases h
    · cases h; rfl

/-- The wait loop sends nothing. -/
theorem waitLoop_count {σ : Type} {env : Env σ} {cnt : σ → Nat} (hc : env.Counts cnt)
    (cache : CacheRef) (key : String) (ticket : workTicket) (fuel : Nat) :
    ∀ (s : σ) (r : genCacheEntry × Bool) (s1 : σ),
      waitLoop env cache key ticket fuel s = some (r, s1) → cnt s1 = cnt s := by
  induction fuel with
  | zero => intro s r s1 h; simp [waitLoop] at h
  | succ fuel ih =>
    intro s r s1 h
    rw [waitLoop] at h
    dsimp only at h
    have g1 := hc.get s cache key
    split at h
    · cases h; exact g1
    · cases hw : env.Wait (env.Get s cache key).2 ticket with
      | none => rw [hw] at h; cases h
      | some s2 =>
        rw [hw] at h
        exact (ih _ _ _ h).trans ((hc.wait _ _ _ hw).trans g1)

/-- One pass through the loop body sends at most one work item. -/
theorem iteration_count {σ : Type} {env : Env σ} {cnt : σ → Nat} (hc : env.Counts cnt)
    (fuel : Nat) (requestType : workType) (arg1 : String) (arg2 : List Nat) (cache : CacheRef)
    (key : String) (s : σ) (it : Iteration σ)
    (h : iteration env fuel requestType arg1 arg2 cache key s = some it) :
    cnt it.state ≤ cnt s + 1 := by
  unfold iteration at h
  split at h
  rename_i cached found s1 heq
  have g1 := hc.get s cache key
  rw [heq] at g1
  dsimp only at g1
  split at h
  · cases h
    simp only [Iteration.state, g1]
    omega
  · split at h
    · cases h
    · rename_i s2 hs
      have g2 := hc.send _ _ _ _ hs
      cases h
      simp only [Iteration.state]
      omega
    · rename_i s2 hs
      have g2 := hc.send _ _ _ _ hs
      split at h
      rename_i c3 f3 s3 heq3
      have g3 := hc.get s2 cache key
      rw [heq3] at g3
      dsimp only at g3
      have g4 := hc.delete s3 cache key
      split at h
      · cases h
        simp only [Iteration.state]
        omega
      · split at h
        · cases h
          simp only [Iteration.state]
          omega
        · cases h
          simp only [Iteration.state]
          omega
    · rename_i ticket s2 hs
      have g2 := hc.send _ _ _ _ hs
      split at h
      rename_i c3 f3 s3 heq3
      have g3 := hc.get s2 cache key
      rw [heq3] at g3
      dsimp only at g3
      split at h
      · cases h
        simp only [Iteration.state]
        omega
      · split at h
        · cases h
          simp only [Iteration.state]
          omega
        · have g5 := hc.lock s3 ticket
          dsimp only at h
          split at h
          · cases h
          · rename_i c5 f5 s5 hw
            have g6 := waitLoop_count hc cache key ticket fuel _ _ _ hw
            have g7 := hc.unlock s5 ticket
            split at h
            · cases h
              simp only [Iteration.state]
              omega
            · split at h
              · cases h
                simp only [Iteration.state]
                omega
              · split at h
                · cases h
                  simp only [Iteration.state]
                  omega
                · cases h
                  simp only [Iteration.state]
                  omega

/-- The retry loop with `n` iterations left sends at most `n` work items. -/
theorem attempts_count {σ : Type} {env : Env σ} {cnt : σ → Nat} (hc : env.Counts cnt)
    (fuel : Nat) (requestType : workType) (arg1 : String) (arg2 : List Nat) (cache : CacheRef)
    (key : String) (n : Nat) :
    ∀ (s : σ) (retryErrs : List String) (res : Result) (s1 : σ),
      attempts env fuel requestType arg1 arg2 cache key n s retryErrs = some (res, s1) →
      cnt s1 ≤ cnt s + n := by
  induction n with
  | zero =>
    intro s retryErrs res s1 h
    rw [attempts] at h
    cases h
    exact Nat.le_refl _
  | succ n ih =>
    intro s retryErrs res s1 h
    rw [attempts_succ] at h
    cases hi : iteration env fuel requestType arg1 arg2 cache key s with
    | none => rw [hi] at h; cases h
    | some it =>
      have g := iteration_count hc fuel requestType arg1 arg2 cache key s it hi
      rw [hi] at h
      cases it with
      | returned r t =>
        dsimp only at h
        cases h
        simp only [Iteration.state] at g
        omega
      | retry r t =>
        dsimp only at h
        have g2 := ih _ _ _ _ h
        simp only [Iteration.state] at g
        omega

/-- C12. Let `cnt` count the work items sent to the work queue.  Whatever
the cache and the workers do, a call of `makeRequest` that returns has sent at
most 3 work items.  And if each of three successive passes through the loop
body ends with `continue`, with retry reasons `r1`, `r2`, `r3`, then
`makeRequest` returns no data and the aggregate error whose text is
`somehow could not succeed after retries. Retry errors: [r1 r2 r3]`, each reason
being one of the five retry texts of `makeRequest`. -/
theorem makeRequest_bounded_retries {σ : Type} (env : Env σ) (cnt : σ → Nat)
    (hc : env.Counts cnt) (complexKey : String → List Nat → String) (fuel : Nat) (s : σ)
    (requestType : workType) (arg1 : String) (arg2 : List Nat) :
    (∀ (res : Result) (s1 : σ),
      makeRequest env complexKey fuel s requestType arg1 arg2 = some (res, s1) →
      cnt s1 ≤ cnt s + 3) ∧
    (∀ (cache : CacheRef) (r1 r2 r3 : String) (t1 t2 t3 : σ),
      requestCache requestType = some cache →
      iteration env fuel requestType arg1 arg2 cache (requestKey complexKey arg1 arg2) s =
        some (.retry r1 t1) →
      iteration env fuel requestType arg1 arg2 cache (requestKey complexKey arg1 arg2) t1 =
        some (.retry r2 t2) →
      iteration env fuel requestType arg1 arg2 cache (requestKey complexKey arg1 arg2) t2 =
        some (.retry r3 t3) →
      makeRequest env complexKey fuel s requestType arg1 arg2 =
        some ((none, some (retriesError [r1, r2, r3])), t3) ∧
      r1 ∈ retryReasons ∧ r2 ∈ retryReasons ∧ r3 ∈ retryReasons) := by
  constructor
  · intro res s1 h
    unfold makeRequest at h
    split at h
    · cases h
    · exact attempts_count hc fuel requestType arg1 arg2 _ _ _ s [] res s1 h
  · intro cache r1 r2 r3 t1 t2 t3 hcache h1 h2 h3
    refine ⟨?_, iteration_retry_mem _ _ _ _ _ _ _ _ _ _ h1,
      iteration_retry_mem _ _ _ _ _ _ _ _ _ _ h2, iteration_retry_mem _ _ _ _ _ _ _ _ _ _ h3⟩
    unfold makeRequest
    rw [hcache]
    show attempts env fuel requestType arg1 arg2 cache (requestKey complexKey arg1 arg2)
      (2 + 1) s [] = _
    rw [attempts_succ, h1]
    show attempts env fuel requestType arg1 arg2 cache (requestKey complexKey arg1 arg2)
      (1 + 1) t1 ([] ++ [r1]) = _
    rw [attempts_succ, h2]
    show attempts env fuel requestType arg1 arg2 cache (requestKey complexKey arg1 arg2)
      (0 + 1) t2 ([] ++ [r1] ++ [r2]) = _
    rw [attempts_succ, h3]
    show attempts env fuel requestType arg1 arg2 cache (requestKey complexKey arg1 arg2)
      0 t3 ([] ++ [r1] ++ [r2] ++ [r3]) = _
    rw [attempts]
    rfl

/-- C12 at a concrete call: a read of `/a` against a cache that never holds
the key and workers that close the response channel at once makes three
attempts, sends three work items and returns the aggregate error with the
three reasons. -/
theorem makeRequest_bounded_retries_witness :
    makeRequest Env.wiped.counting (fun cName _ => cName) 1 ((), 0) .workReadFile "/a" [] =
      some ((none, some (retriesError
        ["cache wiped before ticket could be handled",
         "cache wiped before ticket could be handled",
         "cache wiped before ticket could be handled"])), ((), 3)) ∧
    3 ≤ 0 + 3 :=
  have h := makeRequest_bounded_retries Env.wiped.counting Prod.snd (counting_counts _)
    (fun cName _ => cName) 1 ((), 0) .workReadFile "/a" []
  have h1 := (h.2 .fileCache _ _ _ ((), 1) ((), 2) ((), 3) rfl rfl rfl rfl).1
  ⟨h1, h.1 _ _ h1⟩

end requester

/-! ## The claim about the worker step -/

namespace requester

/-- C20. The step `performRequestAndCache(key, num, cache, responseCh, request)`
of a worker.  If `key` is absent (and the worker's own ticket `lockers[num]`
exists), the worker stores the pending entry with ticket id `num`, leaving
other keys alone, sends its own ticket and calls `request()`; whatever
`data, err` that returns, the key then maps to the entry with that data, that
error and ticket id 0.  If `key` holds an entry with data or an error, the
response channel is closed, `request()` is not called and the cache is
unchanged.  If `key` holds an entry with neither, the ticket
`lockers[entry.lockerNum]` is sent, `request()` is not called and the cache is
unchanged.  So `request()` is called exactly when the key was absent. -/
theorem performRequestAndCache_transition (lockers : List workTicket) (key : String)
    (num : Int) (cache : syncCache) :
    (∀ wt, lockerAt lockers num = some wt → (cache.Get key).2 = false →
      ∃ cache1, performRequestAndCache lockers key num cache = some (cache1, .ticket wt, true) ∧
        cache1.Get key = ({ data := none, err := none, lockerNum := num }, true) ∧
        (∀ k, k ≠ key → cache1.Get k = cache.Get k) ∧
        ∀ res : Result, (performRequestAndCacheSet key cache1 res).Get key =
          ({ data := res.1, err := res.2, lockerNum := 0 }, true)) ∧
    (∀ e, cache.Get key = (e, true) → (e.data.isSome = true ∨ e.err.isSome = true) →
      performRequestAndCache lockers key num cache = some (cache, .closed, false)) ∧
    (∀ e wt1, cache.Get key = (e, true) → e.data = none → e.err = none →
      lockerAt lockers e.lockerNum = some wt1 →
      performRequestAndCache lockers key num cache = some (cache, .ticket wt1, false)) := by
  refine ⟨?_, ?_, ?_⟩
  · intro wt hwt h
    cases hk : cache.m.get key with
    | some e => simp [syncCache.Get, hk] at h
    | none =>
      refine ⟨{ m := cache.m.set key { data := none, err := none, lockerNum := num } }, ?_, ?_,
        ?_, ?_⟩
      · simp [performRequestAndCache, syncCache.GetOrInsert, hk, hwt]
      · simp [syncCache.Get, GoMap.get_set]
      · intro k hne
        have hne2 : ¬ key = k := fun e => hne e.symm
        simp [syncCache.Get, GoMap.get_set, hne2]
      · intro res
        simp [performRequestAndCacheSet, syncCache.Set, syncCache.Get, GoMap.get_set]
  · intro e he hres
    cases hk : cache.m.get key with
    | none => simp [syncCache.Get, hk] at he
    | some e1 =>
      simp only [syncCache.Get, hk, Prod.mk.injEq, and_true] at he
      subst he
      rcases hres with hd | hd <;>
        simp [performRequestAndCache, syncCache.GetOrInsert, hk, hd]
  · intro e wt1 he hd herr hl
    cases hk : cache.m.get key with
    | none => simp [syncCache.Get, hk] at he
    | some e1 =>
      simp only [syncCache.Get, hk, Prod.mk.injEq, and_true] at he
      subst he
      simp [performRequestAndCache, syncCache.GetOrInsert, hk, hd, herr, hl]

/-- C20 at a concrete step: worker 1 of a one-worker requester meets the key
`k` in an empty cache. -/
theorem performRequestAndCache_transition_witness :
    ∃ cache1, performRequestAndCache [{ lockerNum := 0 }, { lockerNum := 1 }] "k" 1
        (newSyncCache 0) = some (cache1, .ticket { lockerNum := 1 }, true) ∧
      cache1.Get "k" = ({ data := none, err := none, lockerNum := 1 }, true) ∧
      (∀ k, k ≠ "k" → cache1.Get k = (newSyncCache 0).Get k) ∧
      ∀ res : Result, (performRequestAndCacheSet "k" cache1 res).Get "k" =
        ({ data := res.1, err := res.2, lockerNum := 0 }, true) :=
  (performRequestAndCache_transition [{ lockerNum := 0 }, { lockerNum := 1 }] "k" 1
    (newSyncCache 0)).1 { lockerNum := 1 } (by decide) (by decide)

end requester

/-! ## The claim about the structure of `FastCache` -/

namespace filetree

/-- C19 (the code departs from the claim). With capacity 2, after
`Store(a)`, `Store(b)`, `Find(a)` the node `head` has a non-nil `prev`, and
following `prev` from `last` runs in a cycle instead of giving the nodes met by
following `next` from `head` in reverse; after one more `Find(b)` following
`next` from `head` meets one node while the map has two keys. -/
theorem FastCache_list_invariant_broken :
    ((NewFastCache 2).run [.store "a" "A", .store "b" "B", .find "a"]).map
      (fun f => (f.headPrev, f.forward, f.backward)) =
      some (some (some 0), [1, 0], [0, 1, 0]) ∧
    ((NewFastCache 2).run [.store "a" "A", .store "b" "B", .find "a", .find "b"]).map
      (fun f => (f.forward, f.storage.keys)) = some ([1], ["b", "a"]) := by
  decide

end filetree

/-! ## The claim about unsupported operations -/

namespace handlers

/-- For each of the methods named in its `switch`, `Filecmd` returns an error,
`Filewrite` returns one for every request, and `Filelist` returns one for
`Readlink`. -/
theorem unsupported_listed (req : Request) :
    (Filewrite req).isSome = true ∧
    (req.Method ∈ ["Setstat", "Rename", "Rmdir", "Remove", "Mkdir", "Symlink"] →
      (Filecmd req).isSome = true) ∧
    (req.Method = "Readlink" → ∀ {σ : Type} (d : filetree.Deps σ) (depth : Nat)
      (ft : filetree.FileTree σ), ∃ e, Filelist d depth ft req = some ((none, some e), ft)) := by
  refine ⟨rfl, ?_, ?_⟩
  · intro h
    simp only [List.mem_cons, List.mem_singleton, List.not_mem_nil, or_false] at h
    rcases h with h | h | h | h | h | h <;> simp [Filecmd, h]
  · intro h σ d depth ft
    simp [Filelist, h]

/-- C17 (the code departs from the claim). `Filecmd` returns a nil error for
the method `Link`, and `Filelist` returns a nil lister and a nil error for the
method `Lstat` without touching the file tree: neither `switch` has a
`default` case. -/
theorem Filecmd_Filelist_unlisted_method :
    Filecmd { Method := "Link", Filepath := "/a", Target := "/b" } = none ∧
    ∀ {σ : Type} (d : filetree.Deps σ) (depth : Nat) (ft : filetree.FileTree σ),
      Filelist d depth ft { Method := "Lstat", Filepath := "/a", Target := "" } =
        some ((none, none), ft) := by
  refine ⟨by decide, ?_⟩
  intro σ d depth ft
  simp [Filelist]

end handlers

/-! ## The claim about `LoadSSHKey` -/

namespace config

/-- The prompt loop with `n` iterations left prompts at most `n` more times. -/
theorem promptLoop_le {Signer : Type} (env : KeyEnv Signer) (privateBytes : List Nat) (n : Nat) :
    ∀ prompts : Nat, (promptLoop env privateBytes n prompts).2 ≤ prompts + n := by
  induction n with
  | zero => intro prompts; simp [promptLoop]
  | succ n ih =>
    intro prompts
    rw [promptLoop]
    split
    · simp
    · split
      · simp
      · simp
      · have := ih (prompts + 1)
        omega

/-- While the passphrases read are incorrect, the prompt loop goes on to its
next iteration. -/
theorem promptLoop_skip {Signer : Type} (env : KeyEnv Signer) (privateBytes : List Nat) (k : Nat) :
    ∀ (n prompts : Nat),
      (∀ j, j < k → ∃ p, env.ReadPassword (prompts + j)
          ("Enter passphrase for key '" ++ env.PrivateKeyPath ++ "': ") = (p, none) ∧
        env.ParsePrivateKeyWithPassphrase privateBytes p = .incorrectPassword) →
      promptLoop env privateBytes (n + k) prompts = promptLoop env privateBytes n (prompts + k) := by
  induction k with
  | zero => intro n prompts _; rfl
  | succ k ih =>
    intro n prompts h
    obtain ⟨p, hp, hq⟩ := h 0 (Nat.succ_pos k)
    have e : n + (k + 1) = (n + k) + 1 := by omega
    rw [e, promptLoop]
    simp only [Nat.add_zero] at hp
    simp only [hp, hq]
    rw [ih n (prompts + 1)]
    · have e2 : prompts + 1 + k = prompts + (k + 1) := by omega
      rw [e2]
    · intro j hj
      have e3 : prompts + 1 + j = prompts + (j + 1) := by omega
      rw [e3]
      exact h (j + 1) (by omega)

/-- C18. `LoadSSHKey` never calls `ReadPassword` more than 3 times.  For a
key file that is read and is not encrypted it returns what `ssh.ParsePrivateKey`
gives without any call of `ReadPassword`.  For one that is encrypted, suppose
the first `k` passphrases read are rejected with `x509.IncorrectPasswordError`:
if `k ≥ 3`, it returns `x509.IncorrectPasswordError` after exactly 3 calls; if
`k < 3` and the next passphrase yields a signer, it returns that signer after
exactly `k + 1` calls; and if `k < 3` and the next call of `ReadPassword` fails,
it returns that error after exactly `k + 1` calls. -/
theorem LoadSSHKey_passphrase_retry {Signer : Type} (env : KeyEnv Signer) :
    (LoadSSHKey env).2 ≤ 3 ∧
    ∀ privateBytes, env.readFile env.PrivateKeyPath = (privateBytes, none) →
      (env.isPrivateKeyEncrypted privateBytes = false →
        LoadSSHKey env = ((env.ParsePrivateKey privateBytes).toLoad, 0)) ∧
      (env.isPrivateKeyEncrypted privateBytes = true →
        ∀ k : Nat,
          (∀ j, j < k → ∃ p, env.ReadPassword j
              ("Enter passphrase for key '" ++ env.PrivateKeyPath ++ "': ") = (p, none) ∧
            env.ParsePrivateKeyWithPassphrase privateBytes p = .incorrectPassword) →
          (3 ≤ k → LoadSSHKey env = (.incorrectPassword, 3)) ∧
          (k < 3 →
            (∀ p s, env.ReadPassword k
                ("Enter passphrase for key '" ++ env.PrivateKeyPath ++ "': ") = (p, none) →
              env.ParsePrivateKeyWithPassphrase privateBytes p = .signer s →
              LoadSSHKey env = (.signer s, k + 1)) ∧
            (∀ p e, env.ReadPassword k
                ("Enter passphrase for key '" ++ env.PrivateKeyPath ++ "': ") = (p, some e) →
              LoadSSHKey env = (.error e, k + 1)))) := by
  constructor
  · unfold LoadSSHKey
    split
    · simp
    · split
      · have := promptLoop_le env ‹List Nat› 3 0
        omega
      · simp
  · intro privateBytes hread
    constructor
    · intro henc
      simp [LoadSSHKey, hread, henc]
    · intro henc k hk
      have hload : LoadSSHKey env = promptLoop env privateBytes 3 0 := by
        simp [LoadSSHKey, hread, henc]
      have hk0 : ∀ k1 : Nat, k1 ≤ k → ∀ j, j < k1 → ∃ p, env.ReadPassword (0 + j)
          ("Enter passphrase for key '" ++ env.PrivateKeyPath ++ "': ") = (p, none) ∧
          env.ParsePrivateKeyWithPassphrase privateBytes p = .incorrectPassword := by
        intro k1 hk1 j hj
        rw [Nat.zero_add]
        exact hk j (by omega)
      constructor
      · intro h3
        have e := promptLoop_skip env privateBytes 3 0 0 (hk0 3 h3)
        rw [hload]
        show promptLoop env privateBytes (0 + 3) 0 = _
        rw [e]
        rfl
      · intro h3
        have e3 : 3 = (2 - k + k) + 1 := by omega
        have e4 : (2 - k) + 1 + k = (2 - k + k) + 1 := by omega
        have e5 := promptLoop_skip env privateBytes k (2 - k + 1) 0 (hk0 k (Nat.le_refl k))
        rw [e4] at e5
        rw [Nat.zero_add] at e5
        constructor
        · intro p s hp hs
          rw [hload]
          conv_lhs => rw [e3]
          rw [e5, promptLoop]
          simp only [hp, hs]
        · intro p e hp
          rw [hload]
          conv_lhs => rw [e3]
          rw [e5, promptLoop]
          simp only [hp]

/-- C18 on the test "when the passphrase is correct after retrying": the
reader answers a wrong passphrase first and the right one at its second call,
and `LoadSSHKey` returns the signer after exactly 2 calls of `ReadPassword`. -/
theorem LoadSSHKey_passphrase_retry_witness :
    LoadSSHKey (testKeyEnv true
        (fun n => if n = 1 then ([107, 101, 121], none) else ([119], none))) = (.signer (), 2) :=
  ((((LoadSSHKey_passphrase_retry (testKeyEnv true
      (fun n => if n = 1 then ([107, 101, 121], none) else ([119], none)))).2 [1] rfl).2 rfl 1
    (fun j hj => ⟨[119], by
      have hj0 : j = 0 := by omega
      subst hj0
      exact ⟨rfl, rfl⟩⟩)).2 (by decide)).1 [107, 101, 121] () rfl rfl

end config

/-! ## The claims about `FileTree` -/

namespace filetree

open requester (GoError)

/-- A path that cleans to `/` is resolved at once, without any call. -/
theorem resolve_slash {σ : Type} (d : Deps σ) (depth : Nat) (f : FileTree σ)
    (plainPath : String) (h : d.filepath.Clean plainPath = "/") :
    f.findPath d (depth + 1) plainPath = some ((f.encryptedRoot, none), f) := by
  rw [FileTree.findPath]
  simp [h]

/-- C13. For every path whose cleaned form is `/`, `findPath` returns the
encrypted root and a nil error, and the `FileTree` is left exactly as it was:
no call of the coalescer or the backend and no `Find` or `Store` on the
directory cache is recorded. -/
theorem findPath_root {σ : Type} (d : Deps σ) (depth : Nat) (f : FileTree σ)
    (plainPath : String) (h : d.filepath.Clean plainPath = "/") :
    f.findPath d (depth + 1) plainPath = some ((f.encryptedRoot, none), f) :=
  resolve_slash d depth f plainPath h

/-- C13 on the paths `/`, `//`, `/a/..` and `/./` of the small tree. -/
theorem findPath_root_witness :
    goFilepath.Clean "/a/.." = "/" ∧
    testTree.findPath testDeps 1 "/a/.." = some (("/enc", none), testTree) ∧
    testTree.findPath testDeps 1 "/" = some (("/enc", none), testTree) ∧
    testTree.findPath testDeps 1 "//" = some (("/enc", none), testTree) ∧
    testTree.findPath testDeps 1 "/./" = some (("/enc", none), testTree) :=
  ⟨by decide, findPath_root testDeps 0 testTree "/a/.." (by decide),
    findPath_root testDeps 0 testTree "/" (by decide),
    findPath_root testDeps 0 testTree "//" (by decide),
    findPath_root testDeps 0 testTree "/./" (by decide)⟩

/-- A call of the coalescer leaves the directory cache and the encrypted root
as they are. -/
theorem reqReadFile_cache {σ : Type} {d : Deps σ} {f f1 : FileTree σ} {path : String}
    {r : List Nat × Option GoError} (h : f.reqReadFile d path = some (r, f1)) :
    f1.fastCache = f.fastCache ∧ f1.encryptedRoot = f.encryptedRoot := by
  unfold FileTree.reqReadFile at h
  split at h
  · cases h
  · cases h; exact ⟨rfl, rfl⟩

theorem reqReadDir_cache {σ : Type} {d : Deps σ} {f f1 : FileTree σ} {path : String}
    {r : List FileInfo × Option GoError} (h : f.reqReadDir d path = some (r, f1)) :
    f1.fastCache = f.fastCache ∧ f1.encryptedRoot = f.encryptedRoot := by
  unfold FileTree.reqReadDir at h
  split at h
  · cases h
  · cases h; exact ⟨rfl, rfl⟩

theorem reqDecryptName_cache {σ : Type} {d : Deps σ} {f f1 : FileTree σ} {cName : String}
    {iv : List Nat} {r : String × Option GoError}
    (h : f.reqDecryptName d cName iv = some (r, f1)) :
    f1.fastCache = f.fastCache ∧ f1.encryptedRoot = f.encryptedRoot := by
  unfold FileTree.reqDecryptName at h
  split at h
  · cases h
  · cases h; exact ⟨rfl, rfl⟩

theorem rangeLoop_cache {σ α : Type} (d : Deps σ) (fn : α → FileInfo → String → α × Bool)
    (iv : List Nat) (l : List FileInfo) :
    ∀ (acc : α) (f : FileTree σ) (acc1 : α) (f1 : FileTree σ),
      rangeLoop d fn iv l acc f = some (acc1, f1) →
      f1.fastCache = f.fastCache ∧ f1.encryptedRoot = f.encryptedRoot := by
  induction l with
  | nil =>
    intro acc f acc1 f1 h
    rw [rangeLoop] at h
    cases h
    exact ⟨rfl, rfl⟩
  | cons info rest ih =>
    intro acc f acc1 f1 h
    rw [rangeLoop] at h
    split at h
    · cases h
    · rename_i rName err f2 hd
      have g := reqDecryptName_cache hd
      split at h
      · have g2 := ih _ _ _ _ h
        exact ⟨g2.1.trans g.1, g2.2.trans g.2⟩
      · split at h
        split at h
        · cases h
          exact g
        · have g2 := ih _ _ _ _ h
          exact ⟨g2.1.trans g.1, g2.2.trans g.2⟩

theorem rangeInDir_cache {σ α : Type} {d : Deps σ} {f f1 : FileTree σ} {cipherPath : String}
    {fn : α → FileInfo → String → α × Bool} {acc : α} {r : α × Option GoError}
    (h : f.rangeInDir d cipherPath fn acc = some (r, f1)) :
    f1.fastCache = f.fastCache ∧ f1.encryptedRoot = f.encryptedRoot := by
  unfold FileTree.rangeInDir at h
  split at h
  · cases h
  · rename_i hr
    cases h
    exact reqReadFile_cache hr
  · rename_i hr
    have g := reqReadFile_cache hr
    split at h
    · cases h
    · rename_i hr2
      have g2 := reqReadDir_cache hr2
      cases h
      exact ⟨g2.1.trans g.1, g2.2.trans g.2⟩
    · rename_i hr2
      have g2 := reqReadDir_cache hr2
      split at h
      · cases h
      · rename_i hl
        have g3 := rangeLoop_cache _ _ _ _ _ _ _ _ hl
        cases h
        exact ⟨g3.1.trans (g2.1.trans g.1), g3.2.trans (g2.2.trans g.2)⟩

theorem findInDir_cache {σ : Type} {d : Deps σ} {f f1 : FileTree σ} {cipherPath plainName : String}
    {r : Option FileInfo × Option GoError}
    (h : f.findInDir d cipherPath plainName = some (r, f1)) :
    f1.fastCache = f.fastCache ∧ f1.encryptedRoot = f.encryptedRoot := by
  unfold FileTree.findInDir at h
  split at h
  · cases h
  · rename_i hr
    cases h
    exact rangeInDir_cache hr
  · rename_i hr
    cases h
    exact rangeInDir_cache hr
  · rename_i hr
    cases h
    exact rangeInDir_cache hr

/-- What `Find` leaves behind: the invariant, and on a hit a mapping from
the key to the ciphertext path it returned. -/
theorem Find_result {C : Int} {f : FastCache} (h : Inv C f) (k : String) {fc : FastCache}
    {n : DirMapping} {found : Bool} (hf : f.Find k = some (fc, n, found)) :
    Inv C fc ∧ (found = true → fc.Maps k n.CiphertextPath) := by
  cases hk : f.storage.get k with
  | none =>
    rw [Find_miss f k hk] at hf
    cases hf
    exact ⟨h, fun e => by cases e⟩
  | some dd =>
    obtain ⟨f1, n1, e, hi, hs, hn, -, -⟩ := Find_hit h hk
    rw [e] at hf
    simp only [Option.some.injEq, Prod.mk.injEq] at hf
    obtain ⟨h1, h2, -⟩ := hf
    subst h1
    subst h2
    refine ⟨hi, fun _ => ⟨dd, n1, ?_, hn, rfl⟩⟩
    rw [hs.1]
    exact hk

/-- A lookup of a path that the directory cache maps to `c` hits, returns `c`
and makes no other call. -/
theorem lruFind_hit {σ : Type} {C : Int} {f : FileTree σ} (h : Inv C f.fastCache) {p c : String}
    (hm : f.fastCache.Maps p c) :
    ∃ n f1, f.lruFind p = some ((n, true), f1) ∧ n.CiphertextPath = c ∧
      f1.world = f.world ∧ f1.trace = f.trace ++ [.lruFind p] := by
  obtain ⟨dn, n0, hk, hn0, hc⟩ := hm
  obtain ⟨fc, n1, e, -, -, -, -, hcp⟩ := Find_hit h hk
  refine ⟨n1, { f with fastCache := fc, trace := f.trace ++ [.lruFind p] }, ?_,
    (hcp n0 hn0).trans hc, rfl, rfl⟩
  simp only [FileTree.lruFind, e]

/-- What `findPath` leaves behind: the invariant of the directory cache, and
after a success either the path cleans to `/` and nothing has changed, or the
directory cache maps the cleaned path to the result. -/
theorem findPath_spec {σ : Type} (d : Deps σ) {C : Int} (hC : 1 ≤ C) (depth : Nat) :
    ∀ (f : FileTree σ) (p : String) (r : String × Option GoError) (f1 : FileTree σ),
      Inv C f.fastCache → f.findPath d depth p = some (r, f1) →
      Inv C f1.fastCache ∧ f1.encryptedRoot = f.encryptedRoot ∧
      (r.2 = none →
        (d.filepath.Clean p = "/" ∧ r.1 = f.encryptedRoot ∧ f1 = f) ∨
        (d.filepath.Clean p ≠ "/" ∧ f1.fastCache.Maps (d.filepath.Clean p) r.1)) := by
  induction depth with
  | zero =>
    intro f p r f1 _ h
    rw [FileTree.findPath] at h
    cases h
  | succ depth ih =>
    intro f p r f1 hinv h
    rw [FileTree.findPath] at h
    dsimp only at h
    split at h
    · rename_i hroot
      cases h
      exact ⟨hinv, rfl, fun _ => Or.inl ⟨hroot, rfl, rfl⟩⟩
    · rename_i hroot
      split at h
      · cases h
      · rename_i dirMapping f2 hfind
        cases h
        unfold FileTree.lruFind at hfind
        split at hfind
        · cases hfind
        · rename_i fc dm found hF
          cases hfind
          obtain ⟨hi, hm⟩ := Find_result hinv _ hF
          exact ⟨hi, rfl, fun _ => Or.inr ⟨hroot, hm rfl⟩⟩
      · rename_i dirMapping f2 hfind
        have hf2 : Inv C f2.fastCache ∧ f2.encryptedRoot = f.encryptedRoot := by
          unfold FileTree.lruFind at hfind
          split at hfind
          · cases hfind
          · rename_i fc dm found hF
            cases hfind
            exact ⟨(Find_result hinv _ hF).1, rfl⟩
        split at h
        · cases h
        · rename_i err f3 hrec
          obtain ⟨hi3, hr3, -⟩ := ih _ _ _ _ hf2.1 hrec
          cases h
          exact ⟨hi3, hr3.trans hf2.2, fun e => by cases e⟩
        · rename_i cipherParentPath f3 hrec
          obtain ⟨hi3, hr3, -⟩ := ih _ _ _ _ hf2.1 hrec
          split at h
          · cases h
          · rename_i err f4 hfd
            have g := findInDir_cache hfd
            cases h
            refine ⟨?_, g.2.trans (hr3.trans hf2.2), fun e => by cases e⟩
            rw [g.1]
            exact hi3
          · cases h
          · rename_i item f4 hfd
            have g := findInDir_cache hfd
            have hi4 : Inv C f4.fastCache := by rw [g.1]; exact hi3
            split at h
            · cases h
              exact ⟨hi4, g.2.trans (hr3.trans hf2.2), fun e => by cases e⟩
            · split at h
              · cases h
              · rename_i f5 hst
                cases h
                unfold FileTree.lruStore at hst
                split at hst
                · cases hst
                · rename_i fc hS
                  cases hst
                  obtain ⟨fc1, e1, hi5, dn, n, hk, hn, -, hc⟩ := Store_spec hi4 hC
                    (d.filepath.Clean p) (d.filepath.Join cipherParentPath item.Name)
                  rw [e1] at hS
                  cases hS
                  exact ⟨hi5, g.2.trans (hr3.trans hf2.2),
                    fun _ => Or.inr ⟨hroot, dn, n, hk, hn, hc⟩⟩

/-- C14. Let the directory cache of the `FileTree` be in a state reachable
from `NewFastCache(cacheSize)`.  If `findPath(p)` returns the ciphertext path
`c` with a nil error, then `findPath(p)` called again right away returns `c`
with a nil error; this second call leaves the world behind the coalescer and
the backend untouched, and the only call it records, if any, is the lookup
`Find` of the cleaned path in the directory cache. -/
theorem findPath_idempotent {σ : Type} (d : Deps σ) (f : FileTree σ)
    (hf : Reachable cacheSize f.fastCache) (depth depth1 : Nat) (p c : String)
    (f1 : FileTree σ) (h : f.findPath d depth p = some ((c, none), f1)) :
    ∃ f2, f1.findPath d (depth1 + 1) p = some ((c, none), f2) ∧ f2.world = f1.world ∧
      (f2.trace = f1.trace ∨ f2.trace = f1.trace ++ [.lruFind (d.filepath.Clean p)]) := by
  have hC : (1 : Int) ≤ cacheSize := by decide
  obtain ⟨hi, hr, hm⟩ := findPath_spec d hC depth f p _ f1 (hf.inv hC) h
  rcases hm rfl with ⟨hroot, hc, hf1⟩ | ⟨hroot, hmaps⟩
  · dsimp only at hc
    subst hf1
    subst hc
    exact ⟨f1, resolve_slash d depth1 f1 p hroot, rfl, Or.inl rfl⟩
  · obtain ⟨n, f2, e, hn, hw, ht⟩ := lruFind_hit hi hmaps
    refine ⟨f2, ?_, hw, Or.inr ht⟩
    rw [FileTree.findPath]
    dsimp only
    rw [if_neg hroot, e]
    dsimp only
    rw [hn]

/-- C14 on the small tree: the path `/dir` is resolved through the coalescer
to `/enc/Xdir`, and resolved again from the directory cache. -/
theorem findPath_idempotent_witness :
    ∃ f1 f2, testTree.findPath testDeps 2 "/dir" = some (("/enc/Xdir", none), f1) ∧
      f1.world = 4 ∧
      f1.findPath testDeps 1 "/dir" = some (("/enc/Xdir", none), f2) ∧ f2.world = f1.world ∧
      (f2.trace = f1.trace ∨ f2.trace = f1.trace ++ [.lruFind (testDeps.filepath.Clean "/dir")]) := by
  cases hr : testTree.findPath testDeps 2 "/dir" with
  | none =>
    have e : (testTree.findPath testDeps 2 "/dir").isSome = true := by decide
    rw [hr] at e
    cases e
  | some r =>
    obtain ⟨⟨c, err⟩, f1⟩ := r
    have e : (testTree.findPath testDeps 2 "/dir").map (fun r => (r.1, r.2.world)) =
        some (("/enc/Xdir", none), 4) := by decide
    rw [hr] at e
    simp only [Option.map_some', Option.some.injEq, Prod.mk.injEq] at e
    obtain ⟨⟨hc, he⟩, hw⟩ := e
    subst hc
    subst he
    obtain ⟨f2, h2, h3, h4⟩ :=
      findPath_idempotent testDeps testTree Reachable.init 2 0 "/dir" "/enc/Xdir" f1 hr
    exact ⟨f1, f2, rfl, hw, h2, h3, h4⟩

end filetree

namespace filetree

open requester (GoError)

/-- The loop of `rangeInDir` run with the closure of `ReadDir` appends to
`listing` the entries that the specification describes. -/
theorem rangeLoop_readDirFn {σ : Type} (d : Deps σ) (iv : List Nat) (l : List FileInfo) :
    ∀ (acc : List FileInfo) (f : FileTree σ),
      rangeLoop d (readDirFn d) iv l acc f =
        match decryptNames d iv l f with
        | none => none
        | some (rs, f1) => some (acc ++ listingSpec d l rs, f1) := by
  induction l with
  | nil =>
    intro acc f
    simp [rangeLoop, decryptNames, listingSpec]
  | cons info rest ih =>
    intro acc f
    rw [rangeLoop, decryptNames]
    cases hd : f.reqDecryptName d info.Name iv with
    | none => rfl
    | some r =>
      obtain ⟨⟨rName, err⟩, f1⟩ := r
      dsimp only
      cases hn : decryptNames d iv rest f1 with
      | none =>
        cases err with
        | none => simp [readDirFn, ih, hn]
        | some e => simp [ih, hn]
      | some q =>
        obtain ⟨rs, f2⟩ := q
        cases err with
        | none => simp [readDirFn, ih, hn, listingSpec]
        | some e => simp [ih, hn, listingSpec]

/-- The calls of `decryptNames` give one answer for each entry of the listing. -/
theorem decryptNames_length {σ : Type} (d : Deps σ) (iv : List Nat) (l : List FileInfo) :
    ∀ (f f1 : FileTree σ) (rs : List (String × Option GoError)),
      decryptNames d iv l f = some (rs, f1) → rs.length = l.length := by
  induction l with
  | nil =>
    intro f f1 rs h
    rw [decryptNames] at h
    cases h
    rfl
  | cons info rest ih =>
    intro f f1 rs h
    rw [decryptNames] at h
    split at h
    · cases h
    · split at h
      · cases h
      · rename_i hn
        cases h
        simp [ih _ _ _ hn]

/-- C15. Let `plainPath` resolve to the ciphertext directory `c`, let the IV
file and the listing `dirListing` of `c` be read without error, and let
`results` be the answers of `DecryptName` to the names of `dirListing`, asked in
order.  Then `ReadDir(plainPath)` returns, with a nil error, the entries of
`dirListing` whose answer has a nil error, in the order of `dirListing` and
nothing else.  Each returned entry has the decrypted name as `Name()`, the
value `int64(CipherSizeToPlainSize(uint64(size)))` as `Size()`, and the `Mode()`,
`ModTime()`, `IsDir()` and `Sys()` of the backend entry. -/
theorem ReadDir_listing {σ : Type} (d : Deps σ) (depth : Nat) (f f1 f2 f3 f4 : FileTree σ)
    (plainPath c : String) (iv : List Nat) (dirListing : List FileInfo)
    (results : List (String × Option GoError))
    (hpath : f.findPath d depth (d.filepath.Clean plainPath) = some ((c, none), f1))
    (hiv : f1.reqReadFile d (d.filepath.Join c "gocryptfs.diriv") = some ((iv, none), f2))
    (hdir : f2.reqReadDir d c = some ((dirListing, none), f3))
    (hnames : decryptNames d iv dirListing f3 = some (results, f4)) :
    f.ReadDir d depth plainPath = some ((listingSpec d dirListing results, none), f4) ∧
    results.length = dirListing.length ∧
    ∀ (info : FileInfo) (name : String),
      (plainFileInfo info name (plainSize d info.Size)).Name = name ∧
      (plainFileInfo info name (plainSize d info.Size)).Size =
        toInt64 (d.CipherSizeToPlainSize (toUint64 info.Size)) ∧
      (plainFileInfo info name (plainSize d info.Size)).Mode = info.Mode ∧
      (plainFileInfo info name (plainSize d info.Size)).ModTime = info.ModTime ∧
      (plainFileInfo info name (plainSize d info.Size)).IsDir = info.IsDir ∧
      (plainFileInfo info name (plainSize d info.Size)).Sys = info.Sys := by
  refine ⟨?_, decryptNames_length d iv dirListing f3 f4 results hnames,
    fun info name => ⟨rfl, rfl, rfl, rfl, rfl, rfl⟩⟩
  unfold FileTree.ReadDir
  dsimp only
  rw [hpath]
  dsimp only
  unfold FileTree.rangeInDir
  rw [hiv]
  dsimp only
  rw [hdir]
  dsimp only
  rw [rangeLoop_readDirFn, hnames]
  rfl

/-- C15 on the small tree: the listing of `/` has the entries `dir` and `file`,
in the order of the backend listing; the IV file, whose name does not
decrypt, is left out. -/
theorem ReadDir_listing_witness :
    testTree.ReadDir testDeps 1 "/" =
      some ((listingSpec testDeps testListing
          [("", some "Error decrypting"), ("dir", none), ("file", none)], none),
        { testTree with world := 5, trace := [.readFile "/enc/gocryptfs.diriv",
            .readDir "/enc", .decryptName "gocryptfs.diriv" [73, 86],
            .decryptName "Xdir" [73, 86], .decryptName "Xfile" [73, 86]] }) ∧
    listingSpec testDeps testListing
        [("", some "Error decrypting"), ("dir", none), ("file", none)] =
      [{ Name := "dir", Size := 4046, Mode := 493, ModTime := 2, IsDir := true, Sys := none },
       { Name := "file", Size := 100, Mode := 420, ModTime := 3, IsDir := false,
         Sys := some 7 }] :=
  ⟨(ReadDir_listing testDeps 1 testTree testTree
    { testTree with world := 1, trace := [.readFile "/enc/gocryptfs.diriv"] }
    { testTree with world := 2, trace := [.readFile "/enc/gocryptfs.diriv", .readDir "/enc"] }
    { testTree with world := 5, trace := [.readFile "/enc/gocryptfs.diriv", .readDir "/enc",
        .decryptName "gocryptfs.diriv" [73, 86], .decryptName "Xdir" [73, 86],
        .decryptName "Xfile" [73, 86]] }
    "/" "/enc" [73, 86] testListing
    [("", some "Error decrypting"), ("dir", none), ("file", none)]
    (by decide) (by decide) (by decide) (by decide)).1, by decide⟩

/-- C16. For every path whose cleaned form is `/`, `ReadFile` returns no
bytes and an error and leaves the `FileTree` exactly as it was (no call is
recorded).  For every other path whose parent resolves and whose last
element is found in the parent as an entry with `IsDir() = true`, `ReadFile`
returns no bytes and an error, and the `FileTree` is the one that `findInDir`
left: the file is neither read through the coalescer nor decrypted. -/
theorem ReadFile_directory {σ : Type} (d : Deps σ) (depth : Nat) (f : FileTree σ)
    (plainPath : String) :
    (d.filepath.Clean plainPath = "/" →
      f.ReadFile d depth plainPath = some (([], some "ReadFile: / is a directory"), f)) ∧
    (∀ (cipherDirPath : String) (f1 : FileTree σ) (item : FileInfo) (f2 : FileTree σ),
      d.filepath.Clean plainPath ≠ "/" →
      f.findPath d depth (d.filepath.Dir (d.filepath.Clean plainPath)) =
        some ((cipherDirPath, none), f1) →
      f1.findInDir d cipherDirPath (d.filepath.Base (d.filepath.Clean plainPath)) =
        some ((some item, none), f2) →
      item.IsDir = true →
      f.ReadFile d depth plainPath =
        some (([], some ("ReadFile: " ++
          (d.filepath.Join cipherDirPath item.Name ++ " is a directory"))), f2)) := by
  constructor
  · intro h
    unfold FileTree.ReadFile
    dsimp only
    rw [if_pos h]
    rfl
  · intro cipherDirPath f1 item f2 hroot hpath hitem hdir
    unfold FileTree.ReadFile
    dsimp only
    rw [if_neg hroot, hpath]
    dsimp only
    rw [hitem]
    dsimp only
    rw [if_pos hdir]

/-- C16 on the small tree: `ReadFile("/dir")` fails after the four calls that
look up `dir` in the root, and `ReadFile("/")` fails without any call. -/
theorem ReadFile_directory_witness :
    testTree.ReadFile testDeps 1 "/dir" =
      some (([], some "ReadFile: /enc/Xdir is a directory"),
        { testTree with world := 4, trace := [.readFile "/enc/gocryptfs.diriv", .readDir "/enc",
            .decryptName "gocryptfs.diriv" [73, 86], .decryptName "Xdir" [73, 86]] }) ∧
    testTree.ReadFile testDeps 1 "/" =
      some (([], some "ReadFile: / is a directory"), testTree) :=
  ⟨(ReadFile_directory testDeps 1 testTree "/dir").2 "/enc" testTree
      { Name := "Xdir", Size := 4096, Mode := 493, ModTime := 2, IsDir := true, Sys := none }
      { testTree with world := 4, trace := [.readFile "/enc/gocryptfs.diriv", .readDir "/enc",
          .decryptName "gocryptfs.diriv" [73, 86], .decryptName "Xdir" [73, 86]] }
      (by decide) (by decide) (by decide) rfl,
    (ReadFile_directory testDeps 1 testTree "/").1 (by decide)⟩

end filetree

/-! ## The claim about `listerat.ListAt` -/

namespace handlers

/-- C25. For every listing `f`, destination `ls` and offset `offset ≥ 0`,
`ListAt` returns without a panic, with `n = min(len(ls), max(0, len(f) - offset))`;
afterwards `ls` has its length unchanged, `ls[i] = f[offset + i]` (an element
that exists) for every `i < n`, and `ls[i]` is as before for every `i ≥ n`.  The
error is `io.EOF` if `offset ≥ len(f)` or `n < len(ls)`, and nil otherwise. -/
theorem ListAt_spec (f ls : List FileInfo) (offset : Int) (h : 0 ≤ offset) :
    ∃ ls1 n err, ListAt f ls offset = some (ls1, n, err) ∧
      Int.ofNat n = min (Int.ofNat ls.length) (max 0 (Int.ofNat f.length - offset)) ∧
      ls1.length = ls.length ∧
      (∀ i, i < n → offset.toNat + i < f.length ∧ ls1[i]? = f[offset.toNat + i]?) ∧
      (∀ i, n ≤ i → ls1[i]? = ls[i]?) ∧
      (err = some ioEOF ↔ (Int.ofNat f.length ≤ offset ∨ n < ls.length)) ∧
      (err = none ∨ err = some ioEOF) := by
  obtain ⟨k, rfl⟩ := Int.eq_ofNat_of_zero_le h
  by_cases hge : f.length ≤ k
  · refine ⟨ls, 0, some ioEOF, ?_, ?_, rfl, ?_, fun _ _ => rfl, ?_, Or.inr rfl⟩
    · have : (k : Int) ≥ Int.ofNat f.length := by
        simp only [Int.ofNat_eq_coe, ge_iff_le, Nat.cast_le]
        exact hge
      unfold ListAt
      rw [if_pos this]
    · simp only [Int.ofNat_eq_coe]
      omega
    · intro i hi
      omega
    · simp only [Int.ofNat_eq_coe, Nat.cast_le, true_iff]
      exact Or.inl hge
  · have hlt : k < f.length := Nat.lt_of_not_le hge
    have hnge : ¬ ((k : Int) ≥ Int.ofNat f.length) := by
      simp only [Int.ofNat_eq_coe, ge_iff_le, Nat.cast_le]
      exact hge
    have hnneg : ¬ ((k : Int) < 0) := by omega
    have hdrop : (f.drop k).length = f.length - k := List.length_drop k f
    refine ⟨(f.drop k).take (min ls.length (f.drop k).length) ++
        ls.drop (min ls.length (f.drop k).length), min ls.length (f.drop k).length,
      if min ls.length (f.drop k).length < ls.length then some ioEOF else none,
      ?_, ?_, ?_, ?_, ?_, ?_, ?_⟩
    · unfold ListAt
      rw [if_neg hnge, if_neg hnneg]
      simp only [goCopy, Int.toNat_ofNat]
      split <;> rfl
    · rw [hdrop]
      simp only [Int.ofNat_eq_coe]
      omega
    · simp only [List.length_append, List.length_take, List.length_drop]
      omega
    · intro i hi
      simp only [Int.toNat_ofNat]
      have hi1 : i < (f.drop k).length := by omega
      refine ⟨by omega, ?_⟩
      rw [List.getElem?_append_left
        (by simp only [List.length_take]; omega)]
      rw [List.getElem?_take_of_lt hi]
      rw [List.getElem?_drop]
    · intro i hi
      rw [List.getElem?_append_right
        (by simp only [List.length_take]; omega)]
      rw [List.getElem?_drop]
      simp only [List.length_take]
      congr 1
      omega
    · constructor
      · intro he
        split at he
        · rename_i hh
          exact Or.inr hh
        · cases he
      · intro he
        rcases he with he | he
        · exact absurd he hnge
        · rw [if_pos he]
    · split
      · exact Or.inr rfl
      · exact Or.inl rfl

/-- C25 on a listing of three entries read at offset 1 into a destination of
four: two entries are copied and the error is `io.EOF`. -/
theorem ListAt_spec_witness :
    ∃ ls1 n err, ListAt filetree.testListing
        (List.replicate 4 ⟨"", 0, 0, 0, false, none⟩) 1 = some (ls1, n, err) ∧
      Int.ofNat n = min (Int.ofNat (List.replicate 4 (FileInfo.mk "" 0 0 0 false none)).length)
        (max 0 (Int.ofNat filetree.testListing.length - 1)) ∧
      ls1.length = (List.replicate 4 (FileInfo.mk "" 0 0 0 false none)).length ∧
      (∀ i, i < n → (1 : Int).toNat + i < filetree.testListing.length ∧
        ls1[i]? = filetree.testListing[(1 : Int).toNat + i]?) ∧
      (∀ i, n ≤ i → ls1[i]? = (List.replicate 4 (FileInfo.mk "" 0 0 0 false none))[i]?) ∧
      (err = some ioEOF ↔ (Int.ofNat filetree.testListing.length ≤ 1 ∨
        n < (List.replicate 4 (FileInfo.mk "" 0 0 0 false none)).length)) ∧
      (err = none ∨ err = some ioEOF) :=
  ListAt_spec filetree.testListing (List.replicate 4 ⟨"", 0, 0, 0, false, none⟩) 1 (by decide)

end handlers

/-! ## The claims about cache entries and ticket identifiers -/

namespace requester

theorem Requester.cache_setCache_ne (r : Requester) (c c1 : CacheRef) (v : syncCache)
    (h : c1 ≠ c) : (r.setCache c v).cache c1 = r.cache c1 := by
  cases c <;> cases c1 <;> first | rfl | exact absurd rfl h

theorem mem_Start (r : Requester) (num : Int) :
    num ∈ r.Start ↔ 1 ≤ num ∧ num ≤ r.numWorkers := by
  simp only [Requester.Start, List.mem_map, List.mem_range, Int.ofNat_eq_coe]
  constructor
  · rintro ⟨i, hi, rfl⟩
    omega
  · intro h
    exact ⟨(num - 1).toNat, by omega, by omega⟩

theorem GoMap.get_foldl_delete {β : Type} (ks : List String) :
    ∀ (m : GoMap β) (k : String) (v : β),
      GoMap.get (ks.foldl (fun m k => GoMap.delete m k) m) k = some v → GoMap.get m k = some v := by
  induction ks with
  | nil => intro m k v h; exact h
  | cons a ks ih =>
    intro m k v h
    have h1 := ih _ _ _ h
    rw [GoMap.get_delete] at h1
    split at h1
    · cases h1
    · exact h1

theorem System.complete_ticketsOk (sys : System) (j : Job) (h : sys.TicketsOk) :
    (sys.complete j).TicketsOk ∧ (sys.complete j).jobs = sys.jobs ∧
      (sys.complete j).r.numWorkers = sys.r.numWorkers ∧
      (sys.complete j).r.lockers = sys.r.lockers := by
  unfold System.complete
  split
  · exact ⟨h, rfl, rfl, rfl⟩
  · rename_i c key hwt
    refine ⟨⟨?_, ?_, ?_, ?_⟩, rfl, ?_, ?_⟩
    · simp only [Requester.setCache_numWorkers]
      exact h.workers
    · simp only [Requester.setCache_numWorkers, Requester.setCache_lockers]
      exact h.lockers
    · simp only [Requester.setCache_numWorkers]
      exact h.jobs
    · intro c1 key1 e he
      simp only [Requester.setCache_numWorkers]
      by_cases hc : c1 = c
      · subst hc
        simp only [Requester.cache_setCache, performRequestAndCacheSet, syncCache.Set,
          GoMap.get_set] at he
        split at he
        · simp only [Option.some.injEq] at he
          subst he
          exact Or.inl rfl
        · exact h.entries c1 key1 e he
      · rw [Requester.cache_setCache_ne _ _ _ _ hc] at he
        exact h.entries c1 key1 e he
    · simp only [Requester.setCache_numWorkers]
    · simp only [Requester.setCache_lockers]

theorem System.foldl_complete_ticketsOk (js : List Job) :
    ∀ sys : System, sys.TicketsOk →
      (js.foldl System.complete sys).TicketsOk ∧
        (js.foldl System.complete sys).jobs = sys.jobs ∧
        (js.foldl System.complete sys).r.numWorkers = sys.r.numWorkers ∧
        (js.foldl System.complete sys).r.lockers = sys.r.lockers := by
  induction js with
  | nil => intro sys h; exact ⟨h, rfl, rfl, rfl⟩
  | cons j js ih =>
    intro sys h
    obtain ⟨h1, e1, e2, e3⟩ := System.complete_ticketsOk sys j h
    obtain ⟨g1, g2, g3, g4⟩ := ih (sys.complete j) h1
    exact ⟨g1, g2.trans e1, g3.trans e2, g4.trans e3⟩

theorem System.tick_ticketsOk (sys : System) (h : sys.TicketsOk) :
    sys.tick.TicketsOk ∧ sys.tick.r.numWorkers = sys.r.numWorkers ∧
      sys.tick.r.lockers = sys.r.lockers := by
  simp only [System.tick]
  have h0 : (System.mk sys.r sys.complexKey sys.sched
      ((sys.jobs.filter (fun j => j.delay != 0)).map (fun j => Job.mk j.num j.w (j.delay - 1)))
      sys.calls sys.sent).TicketsOk := by
    refine ⟨h.workers, h.lockers, ?_, h.entries⟩
    intro j hj
    simp only [List.mem_map, List.mem_filter] at hj
    obtain ⟨j0, ⟨hj0, -⟩, rfl⟩ := hj
    exact h.jobs j0 hj0
  obtain ⟨g1, -, g3, g4⟩ := System.foldl_complete_ticketsOk
    (sys.jobs.filter (fun j => j.delay == 0)) _ h0
  exact ⟨g1, g3, g4⟩

theorem System.finish_ticketsOk (sys : System) (num : Int) (h : sys.TicketsOk) :
    (sys.finish num).TicketsOk ∧ (sys.finish num).r.numWorkers = sys.r.numWorkers ∧
      (sys.finish num).r.lockers = sys.r.lockers := by
  unfold System.finish
  have h0 : ({ sys with jobs := sys.jobs.filter (fun j => j.num != num) } : System).TicketsOk :=
    ⟨h.workers, h.lockers, fun j hj => h.jobs j (List.mem_filter.mp hj).1, h.entries⟩
  obtain ⟨g1, -, g3, g4⟩ := System.foldl_complete_ticketsOk
    (sys.jobs.filter (fun j => j.num == num)) _ h0
  exact ⟨g1, g3, g4⟩

theorem performRequestAndCache_entries (lockers : List workTicket) (key : String) (num : Int)
    (cache cache1 : syncCache) (resp : Resp) (run : Bool)
    (h : performRequestAndCache lockers key num cache = some (cache1, resp, run)) :
    ∀ (k : String) (e : genCacheEntry), cache1.m.get k = some e →
      cache.m.get k = some e ∨ e = { data := none, err := none, lockerNum := num } := by
  unfold performRequestAndCache syncCache.GetOrInsert at h
  cases hg : cache.m.get key with
  | none =>
    simp only [hg, Bool.not_false, if_true] at h
    split at h
    · cases h
    · simp only [Option.some.injEq, Prod.mk.injEq] at h
      obtain ⟨rfl, -, -⟩ := h
      intro k e he
      simp only [GoMap.get_set] at he
      split at he
      · simp only [Option.some.injEq] at he
        exact Or.inr he.symm
      · exact Or.inl he
  | some e0 =>
    simp only [hg, Bool.not_true, Bool.false_eq_true, if_false] at h
    split at h
    · simp only [Option.some.injEq, Prod.mk.injEq] at h
      obtain ⟨rfl, -, -⟩ := h
      exact fun k e he => Or.inl he
    · split at h
      · cases h
      · simp only [Option.some.injEq, Prod.mk.injEq] at h
        obtain ⟨rfl, -, -⟩ := h
        exact fun k e he => Or.inl he

theorem System.send_ticketsOk (sys : System) (w : work) (resp : Resp) (sys1 : System)
    (h : sys.TicketsOk) (hs : sys.send w = some (resp, sys1)) :
    sys1.TicketsOk ∧ sys1.r.numWorkers = sys.r.numWorkers ∧ sys1.r.lockers = sys.r.lockers := by
  unfold System.send at hs
  simp only [] at hs
  have h0 : (System.mk sys.r sys.complexKey sys.sched sys.jobs sys.calls (sys.sent + 1)).TicketsOk :=
    ⟨h.workers, h.lockers, h.jobs, h.entries⟩
  split at hs
  · simp only [Option.some.injEq, Prod.mk.injEq] at hs
    obtain ⟨-, rfl⟩ := hs
    exact ⟨h0, rfl, rfl⟩
  · rename_i hnw
    have hw1 : 1 ≤ sys.r.numWorkers := by omega
    obtain ⟨-, hr1, hr2⟩ := sys.nextWorker_range hw1
    have hr0 : 1 ≤ sys.nextWorker := by
      have := (sys.nextWorker_range hw1).1
      omega
    obtain ⟨g1, g2, g3⟩ := System.finish_ticketsOk _ sys.nextWorker h0
    split at hs
    · simp only [Option.some.injEq, Prod.mk.injEq] at hs
      obtain ⟨-, rfl⟩ := hs
      exact ⟨g1, g2, g3⟩
    · rename_i c key hwt
      split at hs
      · cases hs
      · rename_i cache1 resp1 run hp
        have hent := performRequestAndCache_entries _ _ _ _ _ _ _ hp
        have hentries : ∀ (c1 : CacheRef) (key1 : String) (e : genCacheEntry),
            ((((System.mk sys.r sys.complexKey sys.sched sys.jobs sys.calls
              (sys.sent + 1)).finish sys.nextWorker).r.setCache c cache1).cache c1).m.get key1
                = some e →
            e.lockerNum = 0 ∨ (e.data = none ∧ e.err = none ∧ 1 ≤ e.lockerNum ∧
              e.lockerNum ≤ ((System.mk sys.r sys.complexKey sys.sched sys.jobs sys.calls
                (sys.sent + 1)).finish sys.nextWorker).r.numWorkers) := by
          intro c1 key1 e he
          by_cases hc : c1 = c
          · subst hc
            rw [Requester.cache_setCache] at he
            rcases hent key1 e he with he1 | he1
            · exact g1.entries c1 key1 e he1
            · subst he1
              refine Or.inr ⟨rfl, rfl, hr0, ?_⟩
              rw [g2]
              exact hr1
          · rw [Requester.cache_setCache_ne _ _ _ _ hc] at he
            exact g1.entries c1 key1 e he
        split at hs
        · simp only [Option.some.injEq, Prod.mk.injEq] at hs
          obtain ⟨-, rfl⟩ := hs
          refine ⟨⟨?_, ?_, ?_, ?_⟩, ?_, ?_⟩
          · simp only [Requester.setCache_numWorkers]
            exact g1.workers
          · simp only [Requester.setCache_numWorkers, Requester.setCache_lockers]
            exact g1.lockers
          · intro j hj
            simp only [Requester.setCache_numWorkers]
            simp only [List.mem_append, List.mem_singleton] at hj
            rcases hj with hj | rfl
            · exact g1.jobs j hj
            · refine ⟨hr0, ?_⟩
              show sys.nextWorker ≤ _
              rw [g2]
              exact hr1
          · intro c1 key1 e he
            simp only [Requester.setCache_numWorkers]
            exact hentries c1 key1 e he
          · simp only [Requester.setCache_numWorkers]
            exact g2
          · simp only [Requester.setCache_lockers]
            exact g3
        · simp only [Option.some.injEq, Prod.mk.injEq] at hs
          obtain ⟨-, rfl⟩ := hs
          refine ⟨⟨?_, ?_, ?_, ?_⟩, ?_, ?_⟩
          · simp only [Requester.setCache_numWorkers]
            exact g1.workers
          · simp only [Requester.setCache_numWorkers, Requester.setCache_lockers]
            exact g1.lockers
          · intro j hj
            simp only [Requester.setCache_numWorkers]
            exact g1.jobs j hj
          · intro c1 key1 e he
            simp only [Requester.setCache_numWorkers]
            exact hentries c1 key1 e he
          · simp only [Requester.setCache_numWorkers]
            exact g2
          · simp only [Requester.setCache_lockers]
            exact g3

theorem System.step_ticketsOk (sys : System) (op : SysOp) (sys1 : System)
    (h : sys.TicketsOk) (hs : sys.step op = some sys1) :
    sys1.TicketsOk ∧ sys1.r.numWorkers = sys.r.numWorkers ∧ sys1.r.lockers = sys.r.lockers := by
  cases op with
  | get c key =>
    simp only [System.step, System.env_Get, Option.some.injEq] at hs
    subst hs
    exact System.tick_ticketsOk sys h
  | delete c key =>
    simp only [System.step, System.env_Delete, Option.some.injEq] at hs
    subst hs
    refine ⟨⟨?_, ?_, ?_, ?_⟩, ?_, ?_⟩
    · simp only [Requester.setCache_numWorkers]
      exact h.workers
    · simp only [Requester.setCache_numWorkers, Requester.setCache_lockers]
      exact h.lockers
    · simp only [Requester.setCache_numWorkers]
      exact h.jobs
    · intro c1 key1 e he
      simp only [Requester.setCache_numWorkers]
      by_cases hc : c1 = c
      · subst hc
        simp only [Requester.cache_setCache, syncCache.Delete, GoMap.get_delete] at he
        split at he
        · cases he
        · exact h.entries c1 key1 e he
      · rw [Requester.cache_setCache_ne _ _ _ _ hc] at he
        exact h.entries c1 key1 e he
    · simp only [Requester.setCache_numWorkers]
    · simp only [Requester.setCache_lockers]
  | send w =>
    simp only [System.step] at hs
    cases hsend : sys.send w with
    | none => rw [hsend] at hs; cases hs
    | some p =>
      obtain ⟨resp, s2⟩ := p
      rw [hsend] at hs
      simp only [Option.map_some', Option.some.injEq] at hs
      subst hs
      exact System.send_ticketsOk sys w resp s2 h hsend
  | wait t =>
    simp only [System.step] at hs
    unfold System.Wait at hs
    split at hs
    · cases hs
    · simp only [Option.some.injEq] at hs
      subst hs
      exact System.finish_ticketsOk sys _ h
  | clear =>
    simp only [System.step, Option.some.injEq] at hs
    subst hs
    refine ⟨⟨h.workers, h.lockers, h.jobs, ?_⟩, rfl, rfl⟩
    intro c1 key1 e he
    apply h.entries c1 key1 e
    cases c1 <;>
      exact GoMap.get_foldl_delete _ _ _ _ he

theorem New_ticketsOk (numWorkers : Int) (backend : Backend) (decrypter : Decrypter)
    (hn : 0 ≤ numWorkers) (complexKey : String → List Nat → String) (sched : Nat → Nat × Nat) :
    ∃ r, New numWorkers backend decrypter = some r ∧ r.numWorkers = numWorkers ∧
      r.lockers.length = (numWorkers + 1).toNat ∧
      (System.start r complexKey sched).TicketsOk := by
  have hneg : ¬ numWorkers + 1 < 0 := by omega
  refine ⟨Requester.mk numWorkers backend decrypter (newSyncCache initialCacheSize)
    (newSyncCache initialCacheSize) (newSyncCache initialCacheSize)
    ((List.range (numWorkers + 1).toNat).map (fun (i : Nat) => workTicket.mk (Int.ofNat i))),
    by simp only [New, hneg, if_false], rfl, ?_, ⟨hn, ?_, ?_, ?_⟩⟩
  · simp
  · intro i h0 h1
    have h1a : i ≤ numWorkers := h1
    have hlt : i.toNat < (numWorkers + 1).toNat := by omega
    have hi : ¬ i < 0 := by omega
    simp only [System.start, lockerAt, hi, if_false]
    rw [List.getElem?_map, List.getElem?_range hlt]
    simp only [Option.map_some', Option.some.injEq, workTicket.mk.injEq]
    show ((i.toNat : Nat) : Int) = i
    omega
  · intro j hj
    cases hj
  · intro c key e he
    cases c <;> cases he

theorem System.Reachable.ticketsOk {sys0 sys : System} (h0 : sys0.TicketsOk)
    (h : System.Reachable sys0 sys) :
    sys.TicketsOk ∧ sys.r.numWorkers = sys0.r.numWorkers ∧ sys.r.lockers = sys0.r.lockers := by
  induction h with
  | init => exact ⟨h0, rfl, rfl⟩
  | step op _ hs ih =>
    obtain ⟨g1, g2, g3⟩ := System.step_ticketsOk _ op _ ih.1 hs
    exact ⟨g1, g2.trans ih.2.1, g3.trans ih.2.2⟩

end requester

namespace requester

/-- C21 (counterexample). A backend whose `ReadFile` returns the byte `1`
together with the error `partial read`: after one `ReadFile("/p")` the file
cache holds, under `/p`, an entry with both data and error set (and the call
itself returned the byte with a nil error). -/
theorem worker_stores_data_and_error :
    (Call.run System.env specSystem.complexKey 2 specSystem (.ReadFile "/p")).map
      (fun x => (x.1, x.2.r.fileCache.m)) =
    some (.bytes [1] none,
      [("/p", { data := some (.fileData [1]), err := some "partial read", lockerNum := 0 })]) := by
  decide

/-- C22. For every `numWorkers ≥ 0`, `New` returns a requester with exactly
`numWorkers + 1` tickets, ticket `i` carrying `lockerNum = i`, and `Start` runs
workers with exactly the numbers `1 .. numWorkers`.  In every state the
started requester reaches, each worker at work and the worker that takes the
next item have a number that `Start` gave out; a cache entry with a ticket id
other than 0 is an entry without data and error whose id is in
`1 .. numWorkers`; an entry with data or an error has ticket id 0; and
`lockers[entry.lockerNum]` exists for every entry.  The entry written on
completion always has ticket id 0. -/
theorem ticket_identifiers (numWorkers : Int) (hn : 0 ≤ numWorkers) (backend : Backend)
    (decrypter : Decrypter) (complexKey : String → List Nat → String)
    (sched : Nat → Nat × Nat) :
    ∃ r, New numWorkers backend decrypter = some r ∧
      r.lockers.length = (numWorkers + 1).toNat ∧
      (∀ i : Int, 0 ≤ i → i ≤ numWorkers → lockerAt r.lockers i = some { lockerNum := i }) ∧
      (∀ num, num ∈ r.Start ↔ 1 ≤ num ∧ num ≤ numWorkers) ∧
      (∀ (key : String) (cache : syncCache) (res : Result),
        ((performRequestAndCacheSet key cache res).Get key).1.lockerNum = 0) ∧
      ∀ sys, System.Reachable (System.start r complexKey sched) sys →
        (∀ j ∈ sys.jobs, j.num ∈ r.Start) ∧
        (1 ≤ numWorkers → sys.nextWorker ∈ r.Start ∧
          lockerAt sys.r.lockers sys.nextWorker = some { lockerNum := sys.nextWorker }) ∧
        ∀ (c : CacheRef) (key : String) (e : genCacheEntry),
          (sys.r.cache c).m.get key = some e →
          (e.lockerNum ≠ 0 →
            e.data = none ∧ e.err = none ∧ 1 ≤ e.lockerNum ∧ e.lockerNum ≤ numWorkers) ∧
          ((e.data.isSome = true ∨ e.err.isSome = true) → e.lockerNum = 0) ∧
          lockerAt sys.r.lockers e.lockerNum = some { lockerNum := e.lockerNum } := by
  obtain ⟨r, hr, hnum, hlen, hok⟩ := New_ticketsOk numWorkers backend decrypter hn complexKey sched
  have hnw : (System.start r complexKey sched).r.numWorkers = numWorkers := hnum
  refine ⟨r, hr, hlen, ?_, ?_, ?_, ?_⟩
  · intro i h0 h1
    exact hok.lockers i h0 (by rw [hnw]; exact h1)
  · intro num
    rw [mem_Start, hnum]
  · intro key cache res
    simp [performRequestAndCacheSet, syncCache.Set, syncCache.Get, GoMap.get_set]
  · intro sys hreach
    obtain ⟨g, g2, g3⟩ := System.Reachable.ticketsOk hok hreach
    rw [hnw] at g2
    refine ⟨?_, ?_, ?_⟩
    · intro j hj
      rw [mem_Start, hnum, ← g2]
      exact g.jobs j hj
    · intro h1
      have hw : 1 ≤ sys.r.numWorkers := by rw [g2]; exact h1
      obtain ⟨r0, r1, r2⟩ := sys.nextWorker_range hw
      refine ⟨?_, g.lockers _ r0 r1⟩
      rw [mem_Start, hnum, ← g2]
      exact ⟨by omega, r1⟩
    · intro c key e he
      rcases g.entries c key e he with h0 | ⟨hd, herr, h1, h2⟩
      · refine ⟨fun hne => absurd h0 hne, fun _ => h0, ?_⟩
        rw [h0]
        exact g.lockers 0 (Int.le_refl 0) g.workers
      · refine ⟨fun _ => ⟨hd, herr, h1, by rw [← g2]; exact h2⟩, ?_,
          g.lockers _ (by omega) h2⟩
        intro hor
        rcases hor with hx | hx
        · rw [hd] at hx; cases hx
        · rw [herr] at hx; cases hx

theorem ticket_identifiers_witness :
    ∃ r, New 1 testBackend testDecrypter = some r ∧
      r.lockers.length = ((1 : Int) + 1).toNat ∧
      (∀ i : Int, 0 ≤ i → i ≤ 1 → lockerAt r.lockers i = some { lockerNum := i }) ∧
      (∀ num, num ∈ r.Start ↔ 1 ≤ num ∧ num ≤ 1) ∧
      (∀ (key : String) (cache : syncCache) (res : Result),
        ((performRequestAndCacheSet key cache res).Get key).1.lockerNum = 0) ∧
      ∀ sys, System.Reachable (System.start r (fun cName _ => cName) (fun _ => (0, 0))) sys →
        (∀ j ∈ sys.jobs, j.num ∈ r.Start) ∧
        ((1 : Int) ≤ 1 → sys.nextWorker ∈ r.Start ∧
          lockerAt sys.r.lockers sys.nextWorker = some { lockerNum := sys.nextWorker }) ∧
        ∀ (c : CacheRef) (key : String) (e : genCacheEntry),
          (sys.r.cache c).m.get key = some e →
          (e.lockerNum ≠ 0 →
            e.data = none ∧ e.err = none ∧ 1 ≤ e.lockerNum ∧ e.lockerNum ≤ 1) ∧
          ((e.data.isSome = true ∨ e.err.isSome = true) → e.lockerNum = 0) ∧
          lockerAt sys.r.lockers e.lockerNum = some { lockerNum := e.lockerNum } :=
  ticket_identifiers 1 (by decide) testBackend testDecrypter (fun cName _ => cName)
    (fun _ => (0, 0))

end requester

/-! ## The claim about empty results -/

namespace requester

theorem call_empty_eq (backend : Backend) (decrypter : Decrypter) (call : Call)
    (h : call.AlwaysEmpty backend decrypter) (r : Requester) (hb : r.backend = backend)
    (hd : r.decrypter = decrypter) (calls : List work) :
    workerRequest r calls call.work = (none, none) := by
  cases call with
  | ReadFile path => simp [workerRequest, Call.work, hb, h calls]
  | ReadDir path => simp [workerRequest, Call.work, hb, h calls]
  | DecryptName cName iv => simp [workerRequest, Call.work, hd, h calls]

/-- Against the latched empty entry every attempt sends one work item, gets
ticket 0 back and retries; the entry stays and no operation is invoked. -/
theorem attempts_latched (fuel : Nat) (call : Call) (n : Nat) :
    ∀ (s : System) (errs : List String), s.EmptyLatched call →
      ∃ s1, attempts System.env (fuel + 1) call.work.requestType call.work.arg1
          call.work.arg2 call.cacheRef (call.key s.complexKey) n s errs =
          some ((none, some (retriesError (errs ++
            List.replicate n "data missing by the time request completed"))), s1) ∧
        s1.EmptyLatched call ∧ s1.complexKey = s.complexKey ∧ s1.calls = s.calls ∧
        s1.sent = s.sent + n := by
  induction n with
  | zero =>
    intro s errs h
    refine ⟨s, ?_, h, rfl, rfl, rfl⟩
    rw [attempts]
    simp
  | succ n ih =>
    intro s errs h
    have hl := h.wf.lockers 0 (Int.le_refl 0) (by have := h.wf.workers; omega)
    have h1 : s.sentOne.EmptyLatched call :=
      ⟨h.jobs, System.WF_of_eq h.wf rfl rfl, h.target, h.entry⟩
    obtain ⟨s1, e1, g1, g2, g3, g4⟩ := ih s.sentOne
      (errs ++ ["data missing by the time request completed"]) h1
    refine ⟨s1, ?_, g1, g2, g3, ?_⟩
    · rw [attempt_empty s fuel call.cacheRef (call.key s.complexKey) call.work.requestType
        call.work.arg1 call.work.arg2 n errs { data := none, err := none, lockerNum := 0 }
        h.jobs h.wf h.target h.entry rfl rfl]
      simp only [hl]
      rw [if_pos (by decide)]
      rw [show s.complexKey = s.sentOne.complexKey from rfl, e1, List.append_assoc]
      rfl
    · rw [g4]
      show s.sent + 1 + n = s.sent + (n + 1)
      omega

/-- A call against the latched empty entry fails after three attempts without
invoking the operation. -/
theorem makeRequest_latched (sys : System) (fuel : Nat) (call : Call)
    (h : sys.EmptyLatched call) :
    ∃ sys1, makeRequest System.env sys.complexKey (fuel + 1) sys call.work.requestType
        call.work.arg1 call.work.arg2 = some ((none, some emptyError), sys1) ∧
      sys1.EmptyLatched call ∧ sys1.complexKey = sys.complexKey ∧ sys1.calls = sys.calls ∧
      sys1.sent = sys.sent + 3 := by
  obtain ⟨s1, e1, g1, g2, g3, g4⟩ := attempts_latched fuel call 3 sys [] h
  refine ⟨s1, ?_, g1, g2, g3, g4⟩
  unfold makeRequest
  rw [call_requestCache_eq]
  exact e1

/-- The first call for a key whose operation returns an empty payload: one
invocation, three attempts, and the empty entry is left behind. -/
theorem makeRequest_empty_first (sys : System) (fuel : Nat) (call : Call)
    (hj : sys.jobs = []) (hwf : sys.WF)
    (htarget : workerTarget sys.complexKey call.work =
      some (call.cacheRef, call.key sys.complexKey))
    (hempty : ∀ calls, workerRequest sys.r calls call.work = (none, none))
    (habs : (sys.r.cache call.cacheRef).m.get (call.key sys.complexKey) = none) :
    ∃ sys1, makeRequest System.env sys.complexKey (fuel + 2) sys call.work.requestType
        call.work.arg1 call.work.arg2 = some ((none, some emptyError), sys1) ∧
      sys1.EmptyLatched call ∧ sys1.complexKey = sys.complexKey ∧
      sys1.calls = sys.calls ++ [call.work] ∧ sys1.sent = sys.sent + 3 := by
  have hd : (sys.done call.cacheRef (call.key sys.complexKey) call.work).EmptyLatched call := by
    refine ⟨hj, System.WF_of_eq hwf (by simp [System.done]) (by simp [System.done]),
      htarget, ?_⟩
    show ((sys.done call.cacheRef (call.key sys.complexKey) call.work).r.cache
      call.cacheRef).m.get (call.key sys.complexKey) = _
    simp [System.done, performRequestAndCacheSet, syncCache.Set, GoMap.get_set, hempty sys.calls]
  obtain ⟨s1, e1, g1, g2, g3, g4⟩ := attempts_latched (fuel + 1) call 2
    (sys.done call.cacheRef (call.key sys.complexKey) call.work)
    ([] ++ ["data missing by the time request completed"]) hd
  refine ⟨s1, ?_, g1, g2, g3, ?_⟩
  · unfold makeRequest
    rw [call_requestCache_eq]
    show attempts System.env (fuel + 2) call.work.requestType call.work.arg1
      call.work.arg2 call.cacheRef (call.key sys.complexKey) (2 + 1) sys [] = _
    rw [attempt_absent sys fuel call.cacheRef (call.key sys.complexKey)
      call.work.requestType call.work.arg1 call.work.arg2 2 [] hj hwf htarget habs]
    have := hempty sys.calls
    simp only [show (⟨call.work.requestType, call.work.arg1, call.work.arg2⟩ : work)
      = call.work from rfl, this]
    simp only [Option.isSome_none, Bool.false_eq_true, false_and, if_false]
    exact e1
  · rw [g4]
    show sys.sent + 1 + 2 = sys.sent + 3
    omega

theorem callN_latched (fuel : Nat) (call : Call) (N : Nat) :
    ∀ sys : System, sys.EmptyLatched call →
      ∃ sys1, sys.callN (fuel + 1) call N =
          some (List.replicate N (call.failure emptyError), sys1) ∧
        sys1.EmptyLatched call ∧ sys1.complexKey = sys.complexKey ∧
        sys1.calls = sys.calls ∧ sys1.sent = sys.sent + 3 * N := by
  induction N with
  | zero =>
    intro sys h
    exact ⟨sys, rfl, h, rfl, rfl, rfl⟩
  | succ N ih =>
    intro sys h
    obtain ⟨sys1, h1, h2, h3, h4, h5⟩ := makeRequest_latched sys fuel call h
    obtain ⟨sys2, k1, k2, k3, k4, k5⟩ := ih sys1 h2
    refine ⟨sys2, ?_, k2, k3.trans h3, k4.trans h4, ?_⟩
    · simp only [System.callN, call_run_of_error _ _ _ _ _ _ _ h1, k1, List.replicate_succ]
    · rw [k5, h5]
      omega

end requester

/-! ## The claim about the keys of caller and worker -/

namespace requester

/-- No collision-free `complexKey` can agree with the caller's bare name on
every request with an empty IV: for the name `complexKey("enc", [73, 86])` the
caller's key and the worker's key differ. -/
theorem keys_disagree_of_injective (complexKey : String → List Nat → String)
    (hinj : ∀ n1 iv1 n2 iv2, complexKey n1 iv1 = complexKey n2 iv2 → n1 = n2 ∧ iv1 = iv2) :
    workerTarget complexKey ⟨.workDecryptName, complexKey "enc" [73, 86], []⟩ ≠
      some (.decryptCache, requestKey complexKey (complexKey "enc" [73, 86]) []) := by
  intro h
  simp only [workerTarget, requestKey, List.length_nil, gt_iff_lt, Nat.lt_irrefl, if_false,
    Option.some.injEq, Prod.mk.injEq, true_and] at h
  have := (hinj _ _ _ _ h).2
  cases this

set_option maxRecDepth 8000 in
/-- C28 (counterexample).  With `complexKey` the length-prefixed
composition of the specification, `makeRequest` looks up
`DecryptName("enc", [])` under the bare name `enc`, and the worker stores its
result under `3:enc`.  The call therefore never sees the result: the name is
decrypted to `plain` and cached, and the call returns the retries-exhausted
error. -/
theorem caller_worker_keys_disagree :
    requestKey complexKeySpec "enc" [] = "enc" ∧
    workerTarget complexKeySpec ⟨.workDecryptName, "enc", []⟩ = some (.decryptCache, "3:enc") ∧
    (Call.run System.env specSystem.complexKey 2 specSystem (.DecryptName "enc" [])).map
      (fun x => (x.1, x.2.r.decryptCache.m, x.2.calls)) =
    some (.name "" (some (retriesError ["cache wiped before ticket could be handled",
        "cache wiped before ticket could be handled",
        "cache wiped before ticket could be handled"])),
      [("3:enc", { data := some (.decryptedName "plain"), err := none, lockerNum := 0 })],
      [⟨.workDecryptName, "enc", []⟩]) := by
  decide

end requester

/-! ## The claim about the file header -/

namespace filetree

/-- C26 (counterexample). A content of exactly `HeaderLen = 18` bytes whose
header `ParseHeader` accepts: `readFileID` returns `io.EOF` and no file id. -/
theorem readFileID_header_only :
    (List.replicate 18 7).length = testContentEnc.HeaderLen ∧
    testContentEnc.ParseHeader ((List.replicate 18 7).take testContentEnc.HeaderLen) =
      (List.replicate 16 7, none) ∧
    readFileID testContentEnc (List.replicate 18 7) = ([], some handlers.ioEOF) := by
  decide

/-- C26, amended. `readFileID` fails exactly when the content is not longer
than `HeaderLen` (then with `io.EOF`) or `ParseHeader` rejects the first
`HeaderLen` bytes (then with that error); for every content longer than
`HeaderLen` whose header is accepted it returns the file id that `ParseHeader`
yields for the first `HeaderLen` bytes.  Whenever `readFileID` fails,
`decryptFile` returns that error and no bytes. -/
theorem readFileID_spec {Block : Type} (cEnc : ContentEnc Block) (fileBytes : List Nat) :
    ((readFileID cEnc fileBytes).2.isSome = true ↔
      (fileBytes.length ≤ cEnc.HeaderLen ∨
        (cEnc.ParseHeader (fileBytes.take cEnc.HeaderLen)).2.isSome = true)) ∧
    (fileBytes.length ≤ cEnc.HeaderLen →
      readFileID cEnc fileBytes = ([], some handlers.ioEOF)) ∧
    (cEnc.HeaderLen < fileBytes.length →
      ∀ e, (cEnc.ParseHeader (fileBytes.take cEnc.HeaderLen)).2 = some e →
        readFileID cEnc fileBytes = ([], some e)) ∧
    (cEnc.HeaderLen < fileBytes.length →
      (cEnc.ParseHeader (fileBytes.take cEnc.HeaderLen)).2 = none →
      readFileID cEnc fileBytes = ((cEnc.ParseHeader (fileBytes.take cEnc.HeaderLen)).1, none)) ∧
    (∀ e, (readFileID cEnc fileBytes).2 = some e →
      decryptFile cEnc fileBytes = some ([], some e)) := by
  have hshort : fileBytes.length ≤ cEnc.HeaderLen →
      readFileID cEnc fileBytes = ([], some handlers.ioEOF) := by
    intro h
    unfold readFileID
    rw [if_pos h]
  have herr : cEnc.HeaderLen < fileBytes.length →
      ∀ e, (cEnc.ParseHeader (fileBytes.take cEnc.HeaderLen)).2 = some e →
        readFileID cEnc fileBytes = ([], some e) := by
    intro h e he
    unfold readFileID
    rw [if_neg (by omega)]
    dsimp only
    split
    · rename_i e1 hp
      rw [hp] at he
      cases he
      rfl
    · rename_i hp
      rw [hp] at he
      cases he
  have hok : cEnc.HeaderLen < fileBytes.length →
      (cEnc.ParseHeader (fileBytes.take cEnc.HeaderLen)).2 = none →
      readFileID cEnc fileBytes =
        ((cEnc.ParseHeader (fileBytes.take cEnc.HeaderLen)).1, none) := by
    intro h he
    unfold readFileID
    rw [if_neg (by omega)]
    dsimp only
    split
    · rename_i e1 hp
      rw [hp] at he
      cases he
    · rename_i hp
      rw [hp]
  refine ⟨?_, hshort, herr, hok, ?_⟩
  · by_cases hlen : fileBytes.length ≤ cEnc.HeaderLen
    · rw [hshort hlen]
      exact ⟨fun _ => Or.inl hlen, fun _ => rfl⟩
    · have hlt : cEnc.HeaderLen < fileBytes.length := by omega
      cases hp : (cEnc.ParseHeader (fileBytes.take cEnc.HeaderLen)).2 with
      | none =>
        rw [hok hlt hp]
        constructor
        · intro h; cases h
        · intro h
          rcases h with h | h
          · exact absurd h hlen
          · cases h
      | some e =>
        rw [herr hlt e hp]
        exact ⟨fun _ => Or.inr rfl, fun _ => rfl⟩
  · intro e he
    unfold decryptFile
    dsimp only
    split
    · rename_i e1 hr
      rw [hr] at he
      cases he
      rfl
    · rename_i hr
      rw [hr] at he
      cases he

/-- C26, amended, on a content of 19 bytes: one byte longer than the header,
so the file id is the one `ParseHeader` yields. -/
theorem readFileID_spec_witness :
    readFileID testContentEnc (List.replicate 19 7) = (List.replicate 16 7, none) :=
  (readFileID_spec testContentEnc (List.replicate 19 7)).2.2.2.1 (by decide) (by decide)

end filetree

/-! ## `path/filepath`: cleaned absolute paths and their parents -/

namespace filetree

theorem splitPath_noslash (a : List Char) : ∀ (cur : List Char), '/' ∉ a →
    splitPath cur a = [cur.reverse ++ a] := by
  induction a with
  | nil => intro cur _; simp [splitPath]
  | cons c a ih =>
    intro cur h
    have hc : c ≠ '/' := fun e => h (e ▸ List.mem_cons_self _ _)
    have ha : '/' ∉ a := fun e => h (List.mem_cons_of_mem _ e)
    rw [splitPath, if_neg hc, ih _ ha]
    simp

theorem splitPath_slash (a : List Char) : ∀ (cur rest : List Char), '/' ∉ a →
    splitPath cur (a ++ '/' :: rest) = (cur.reverse ++ a) :: splitPath [] rest := by
  induction a with
  | nil => intro cur rest _; simp [splitPath]
  | cons c a ih =>
    intro cur rest h
    have hc : c ≠ '/' := fun e => h (e ▸ List.mem_cons_self _ _)
    have ha : '/' ∉ a := fun e => h (List.mem_cons_of_mem _ e)
    rw [List.cons_append, splitPath, if_neg hc, ih _ _ ha]
    simp

theorem splitPath_mem (cs : List Char) : ∀ (cur : List Char), '/' ∉ cur →
    ∀ e ∈ splitPath cur cs, '/' ∉ e := by
  induction cs with
  | nil =>
    intro cur h e he
    simp only [splitPath, List.mem_singleton] at he
    subst he
    simpa using h
  | cons c cs ih =>
    intro cur h e he
    rw [splitPath] at he
    split at he
    · rcases List.mem_cons.mp he with he | he
      · subst he
        simpa using h
      · exact ih [] (by simp) e he
    · rename_i hc
      refine ih (c :: cur) ?_ e he
      intro hm
      rcases List.mem_cons.mp hm with hm | hm
      · exact hc hm.symm
      · exact h hm

theorem joinElems_cons (e : List Char) (es : List (List Char)) (h : es ≠ []) :
    joinElems (e :: es) = e ++ '/' :: joinElems es := by
  cases es with
  | nil => exact absurd rfl h
  | cons e2 rest => rfl

theorem joinElems_concat (es : List (List Char)) (e : List Char) :
    joinElems (es ++ [e]) = if es = [] then e else joinElems es ++ '/' :: e := by
  induction es with
  | nil => rfl
  | cons a es ih =>
    rw [if_neg (List.cons_ne_nil _ _)]
    have h1 : es ++ [e] ≠ [] := by simp
    rw [List.cons_append, joinElems_cons _ _ h1, ih]
    by_cases hes : es = []
    · subst hes
      simp [joinElems]
    · rw [if_neg hes, joinElems_cons _ _ hes]
      simp

theorem splitPath_joinElems_slash (es : List (List Char)) (tail : List Char) (hne : es ≠ [])
    (h : ∀ e ∈ es, '/' ∉ e) :
    splitPath [] (joinElems es ++ '/' :: tail) = es ++ splitPath [] tail := by
  induction es with
  | nil => exact absurd rfl hne
  | cons a es ih =>
    have ha : '/' ∉ a := h a (List.mem_cons_self _ _)
    by_cases hes : es = []
    · subst hes
      simp only [joinElems]
      rw [splitPath_slash a [] tail ha]
      simp
    · rw [joinElems_cons _ _ hes, List.append_assoc, List.cons_append,
        splitPath_slash a [] _ ha, ih hes (fun e he => h e (List.mem_cons_of_mem _ he))]
      simp

theorem splitPath_joinElems (es : List (List Char)) (hne : es ≠ [])
    (h : ∀ e ∈ es, '/' ∉ e) : splitPath [] (joinElems es) = es := by
  induction es with
  | nil => exact absurd rfl hne
  | cons a es ih =>
    have ha : '/' ∉ a := h a (List.mem_cons_self _ _)
    by_cases hes : es = []
    · subst hes
      simp only [joinElems]
      rw [splitPath_noslash a [] ha]
      simp
    · rw [joinElems_cons _ _ hes, splitPath_slash a [] _ ha,
        ih hes (fun e he => h e (List.mem_cons_of_mem _ he))]
      simp

theorem cleanElems_cons (rooted : Bool) (out : List (List Char)) (e : List Char)
    (rest : List (List Char)) :
    cleanElems rooted out (e :: rest) =
      if e = [] ∨ e = ['.'] then cleanElems rooted out rest
      else if e = ['.', '.'] then
        match out with
        | [] => if rooted then cleanElems rooted [] rest else cleanElems rooted [e] rest
        | top :: below =>
          if top = ['.', '.'] then cleanElems rooted (e :: out) rest
          else cleanElems rooted below rest
      else cleanElems rooted (e :: out) rest := by
  cases out with
  | nil => rw [cleanElems.eq_2]
  | cons top below => rw [cleanElems.eq_3]

/-- In an absolute path `Clean` keeps proper elements only. -/
theorem cleanElems_proper (rest : List (List Char)) :
    ∀ (out : List (List Char)), (∀ e ∈ out, Proper e) → (∀ e ∈ rest, '/' ∉ e) →
      ∀ e ∈ cleanElems true out rest, Proper e := by
  induction rest with
  | nil =>
    intro out ho _ e he
    simp only [cleanElems, List.mem_reverse] at he
    exact ho e he
  | cons a rest ih =>
    intro out ho hr e he
    have hrest : ∀ e ∈ rest, '/' ∉ e := fun e he => hr e (List.mem_cons_of_mem _ he)
    rw [cleanElems_cons] at he
    split at he
    · exact ih out ho hrest e he
    · rename_i h1
      split at he
      · rename_i h2
        split at he
        · simp only [if_true] at he
          exact ih [] ho hrest e he
        · rename_i top below
          have htop : Proper top := ho top (List.mem_cons_self _ _)
          rw [if_neg htop.2.2.2] at he
          exact ih below (fun e he => ho e (List.mem_cons_of_mem _ he)) hrest e he
      · rename_i h2
        refine ih (a :: out) ?_ hrest e he
        intro x hx
        rcases List.mem_cons.mp hx with hx | hx
        · subst hx
          refine ⟨fun e0 => h1 (Or.inl e0), hr x (List.mem_cons_self _ _),
            fun e0 => h1 (Or.inr e0), h2⟩
        · exact ho x hx

/-- On proper elements, with empty elements in between, `Clean` changes
nothing but to drop the empty ones. -/
theorem cleanElems_id (es : List (List Char)) :
    ∀ (out : List (List Char)), (∀ e ∈ es, Proper e ∨ e = []) →
      cleanElems true out es = out.reverse ++ es.filter (fun e => decide (e ≠ [])) := by
  induction es with
  | nil => intro out _; simp [cleanElems]
  | cons a es ih =>
    intro out h
    have hes : ∀ e ∈ es, Proper e ∨ e = [] := fun e he => h e (List.mem_cons_of_mem _ he)
    rcases h a (List.mem_cons_self _ _) with ha | ha
    · have h1 : ¬ (a = [] ∨ a = ['.']) := fun e0 => e0.elim ha.1 ha.2.2.1
      rw [cleanElems_cons, if_neg h1, if_neg ha.2.2.2, ih _ hes]
      simp [ha.1]
    · subst ha
      rw [cleanElems_cons, if_pos (Or.inl rfl), ih _ hes]
      simp

theorem filter_proper (es : List (List Char)) (h : ∀ e ∈ es, Proper e) :
    es.filter (fun e => decide (e ≠ [])) = es := by
  rw [List.filter_eq_self]
  intro e he
  simpa using (h e he).1

theorem cleanElems_nonempty (rooted : Bool) (rest : List (List Char)) :
    ∀ (out : List (List Char)), (∀ e ∈ out, e ≠ [] ∧ '/' ∉ e) → (∀ e ∈ rest, '/' ∉ e) →
      ∀ e ∈ cleanElems rooted out rest, e ≠ [] ∧ '/' ∉ e := by
  induction rest with
  | nil =>
    intro out ho _ e he
    simp only [cleanElems, List.mem_reverse] at he
    exact ho e he
  | cons a rest ih =>
    intro out ho hr e he
    have hrest : ∀ e ∈ rest, '/' ∉ e := fun e he => hr e (List.mem_cons_of_mem _ he)
    have ha : '/' ∉ a := hr a (List.mem_cons_self _ _)
    have hpush : a ≠ [] → ∀ x ∈ a :: out, x ≠ [] ∧ '/' ∉ x := by
      intro hne x hx
      rcases List.mem_cons.mp hx with hx | hx
      · subst hx
        exact ⟨hne, ha⟩
      · exact ho x hx
    rw [cleanElems_cons] at he
    split at he
    · exact ih out ho hrest e he
    · rename_i h1
      have hne : a ≠ [] := fun e0 => h1 (Or.inl e0)
      split at he
      · split at he
        · split at he
          · exact ih [] ho hrest e he
          · refine ih [a] ?_ hrest e he
            intro x hx
            simp only [List.mem_singleton] at hx
            subst hx
            exact ⟨hne, ha⟩
        · rename_i top below
          split at he
          · exact ih (a :: top :: below) (hpush hne) hrest e he
          · exact ih below (fun e he => ho e (List.mem_cons_of_mem _ he)) hrest e he
      · exact ih (a :: out) (hpush hne) hrest e he

theorem joinElems_head (es : List (List Char)) (h : ∀ e ∈ es, e ≠ [] ∧ '/' ∉ e) :
    (joinElems es).head? ≠ some '/' := by
  cases es with
  | nil => simp [joinElems]
  | cons a es =>
    obtain ⟨hne, hs⟩ := h a (List.mem_cons_self _ _)
    cases a with
    | nil => exact absurd rfl hne
    | cons c a =>
      have hc : c ≠ '/' := fun e => hs (e ▸ List.mem_cons_self _ _)
      cases es with
      | nil => simpa [joinElems] using hc
      | cons b es => simpa [joinElems] using hc

theorem goClean_rooted (p : String) (cs : List Char) (h : p.data = '/' :: cs) :
    goClean p = absPath (cleanElems true [] (splitPath [] ('/' :: cs))) := by
  unfold goClean absPath
  simp [h]

/-- The cleaned form of a path that begins with `/` is an absolute path with
proper elements. -/
theorem goClean_abs (p : String) (h : p.data.head? = some '/') :
    ∃ es, (∀ e ∈ es, Proper e) ∧ goClean p = absPath es := by
  cases hp : p.data with
  | nil => rw [hp] at h; cases h
  | cons c cs =>
    rw [hp] at h
    simp only [List.head?_cons, Option.some.injEq] at h
    subst h
    refine ⟨_, ?_, goClean_rooted p cs hp⟩
    exact cleanElems_proper _ [] (fun e he => by cases he)
      (splitPath_mem _ [] (by simp))

/-- A path whose cleaned form begins with `/` begins with `/` itself. -/
theorem goClean_head (p : String) (h : (goClean p).data.head? = some '/') :
    p.data.head? = some '/' := by
  cases hp : p.data with
  | nil =>
    have : goClean p = "." := by unfold goClean; simp [hp]
    rw [this] at h
    revert h
    decide
  | cons c cs =>
    by_cases hc : c = '/'
    · subst hc
      rfl
    · exfalso
      have hne := joinElems_head (cleanElems false [] (splitPath [] (c :: cs)))
        (cleanElems_nonempty false _ [] (fun e he => by cases he)
          (splitPath_mem _ [] (by simp)))
      unfold goClean at h
      simp only [hp, List.cons_ne_nil, if_false, List.head?_cons, Option.some.injEq, hc,
        decide_False, Bool.false_eq_true] at h
      split at h
      · revert h
        decide
      · exact hne h

/-- Cleaning a cleaned absolute path changes nothing. -/
theorem goClean_absPath (es : List (List Char)) (h : ∀ e ∈ es, Proper e) :
    goClean (absPath es) = absPath es := by
  rw [goClean_rooted (absPath es) (joinElems es) rfl]
  congr 1
  rw [splitPath, if_pos rfl]
  by_cases hes : es = []
  · subst hes
    simp only [joinElems, splitPath, List.reverse_nil]
    rw [cleanElems_cons, if_pos (Or.inl rfl), cleanElems_cons, if_pos (Or.inl rfl)]
    rfl
  · rw [splitPath_joinElems es hes (fun e he => (h e he).2.1)]
    rw [List.reverse_nil, cleanElems_cons, if_pos (Or.inl rfl), cleanElems_id es []
      (fun e he => Or.inl (h e he)), filter_proper es h]
    rfl

theorem dropWhile_all {α : Type} (q : α → Bool) (a b : List α) (h : ∀ x ∈ a, q x = true) :
    (a ++ b).dropWhile q = b.dropWhile q := by
  induction a with
  | nil => rfl
  | cons x a ih =>
    rw [List.cons_append, List.dropWhile_cons, h x (List.mem_cons_self _ _)]
    exact ih (fun y hy => h y (List.mem_cons_of_mem _ hy))

theorem dir_cut (pre e : List Char) (h : '/' ∉ e) :
    ((pre ++ '/' :: e).reverse.dropWhile (fun c => decide (c ≠ '/'))).reverse = pre ++ ['/'] := by
  rw [List.reverse_append, List.reverse_cons, List.append_assoc]
  rw [dropWhile_all _ e.reverse _ (by
    intro x hx
    have hx1 : x ∈ e := List.mem_reverse.mp hx
    have : x ≠ '/' := fun e0 => h (e0 ▸ hx1)
    simpa using this)]
  simp

/-- The parent of a cleaned absolute path is that path without its last
element. -/
theorem goDir_absPath (es : List (List Char)) (e : List Char)
    (h : ∀ x ∈ es ++ [e], Proper x) : goDir (absPath (es ++ [e])) = absPath es := by
  have he : Proper e := h e (by simp)
  have hes : ∀ x ∈ es, Proper x := fun x hx => h x (by simp [hx])
  unfold goDir
  have hdata : (absPath (es ++ [e])).data = '/' :: joinElems (es ++ [e]) := rfl
  rw [hdata, joinElems_concat]
  by_cases hnil : es = []
  · subst hnil
    rw [if_pos rfl]
    have := dir_cut [] e he.2.1
    simp only [List.nil_append] at this
    rw [this]
    rfl
  · rw [if_neg hnil]
    have := dir_cut ('/' :: joinElems es) e he.2.1
    rw [List.cons_append] at this
    rw [this]
    rw [goClean_rooted (String.mk ('/' :: joinElems es ++ ['/'])) (joinElems es ++ ['/']) rfl]
    congr 1
    rw [splitPath, if_pos rfl, splitPath_joinElems_slash es [] hnil (fun x hx => (hes x hx).2.1)]
    rw [List.reverse_nil, cleanElems_cons, if_pos (Or.inl rfl)]
    rw [cleanElems_id _ [] (by
      intro x hx
      simp only [splitPath, List.reverse_nil, List.mem_append, List.mem_singleton] at hx
      rcases hx with hx | hx
      · exact Or.inl (hes x hx)
      · exact Or.inr hx)]
    simp only [splitPath, List.reverse_nil, List.filter_append, filter_proper es hes]
    simp

theorem absPath_length (es : List (List Char)) (e : List Char) (he : e ≠ []) :
    (absPath es).length < (absPath (es ++ [e])).length := by
  show (joinElems es).length + 1 < (joinElems (es ++ [e])).length + 1
  rw [joinElems_concat]
  have : 0 < e.length := List.length_pos.mpr he
  by_cases hes : es = []
  · subst hes
    simp only [joinElems, List.length_nil, if_true]
    omega
  · rw [if_neg hes]
    simp only [List.length_append, List.length_cons]
    omega

theorem absPath_ne_slash (es : List (List Char)) (e : List Char) (he : e ≠ []) :
    absPath (es ++ [e]) ≠ "/" := by
  intro h
  have h1 := absPath_length es e he
  rw [h] at h1
  have h2 : 1 ≤ (absPath es).length := by
    show 1 ≤ (joinElems es).length + 1
    omega
  have h3 : ("/" : String).length = 1 := by decide
  omega

end filetree

/-! ## The claim about `findInDir` -/

namespace filetree

open requester (GoError)

/-- The loop of `findInDir` passes over the entries whose name fails to
decrypt or decrypts to another name. -/
theorem rangeLoop_skip {σ : Type} (d : Deps σ) (plainName : String) (iv : List Nat)
    (pre : List FileInfo) :
    ∀ (rest : List FileInfo) (acc : Option FileInfo) (f f3 : FileTree σ)
      (rs : List (String × Option GoError)),
      decryptNames d iv pre f = some (rs, f3) →
      (∀ r ∈ rs, r.2.isSome = true ∨ r.1 ≠ plainName) →
      rangeLoop d (findInDirFn plainName) iv (pre ++ rest) acc f =
        rangeLoop d (findInDirFn plainName) iv rest acc f3 := by
  induction pre with
  | nil =>
    intro rest acc f f3 rs h _
    rw [decryptNames] at h
    cases h
    rfl
  | cons info pre ih =>
    intro rest acc f f3 rs h hrs
    rw [decryptNames] at h
    rw [List.cons_append, rangeLoop]
    cases hd : f.reqDecryptName d info.Name iv with
    | none => rw [hd] at h; cases h
    | some x =>
      obtain ⟨⟨rName, err⟩, f1⟩ := x
      rw [hd] at h
      dsimp only at h ⊢
      cases hn : decryptNames d iv pre f1 with
      | none => rw [hn] at h; cases h
      | some y =>
        obtain ⟨rs1, f2⟩ := y
        rw [hn] at h
        simp only [Option.some.injEq, Prod.mk.injEq] at h
        obtain ⟨h1, h2⟩ := h
        subst h1
        subst h2
        have hrs1 : ∀ r ∈ rs1, r.2.isSome = true ∨ r.1 ≠ plainName :=
          fun r hr => hrs r (List.mem_cons_of_mem _ hr)
        have h0 := hrs (rName, err) (List.mem_cons_self _ _)
        cases herr : err.isSome with
        | true =>
          simp only [if_true]
          exact ih rest acc f1 f2 rs1 hn hrs1
        | false =>
          have hne : ¬ plainName = rName := by
            rcases h0 with h0 | h0
            · rw [herr] at h0; cases h0
            · exact fun e => h0 e.symm
          simp only [Bool.false_eq_true, if_false, findInDirFn, hne]
          exact ih rest acc f1 f2 rs1 hn hrs1

/-- What the loop of `findInDir` returns: nothing after all names were asked
and none matched, or the first entry whose name decrypts to `plainName`. -/
theorem rangeLoop_find_cases {σ : Type} (d : Deps σ) (plainName : String) (iv : List Nat)
    (l : List FileInfo) :
    ∀ (f f1 : FileTree σ) (item : Option FileInfo),
      rangeLoop d (findInDirFn plainName) iv l none f = some (item, f1) →
      (item = none ∧ ∃ rs, decryptNames d iv l f = some (rs, f1) ∧
        ∀ r ∈ rs, r.2.isSome = true ∨ r.1 ≠ plainName) ∨
      (∃ pre info post rs f3, l = pre ++ info :: post ∧ item = some info ∧
        decryptNames d iv pre f = some (rs, f3) ∧
        (∀ r ∈ rs, r.2.isSome = true ∨ r.1 ≠ plainName) ∧
        f3.reqDecryptName d info.Name iv = some ((plainName, none), f1)) := by
  induction l with
  | nil =>
    intro f f1 item h
    rw [rangeLoop] at h
    cases h
    exact Or.inl ⟨rfl, [], rfl, fun r hr => by cases hr⟩
  | cons info l ih =>
    intro f f1 item h
    rw [rangeLoop] at h
    cases hd : f.reqDecryptName d info.Name iv with
    | none => rw [hd] at h; cases h
    | some x =>
      obtain ⟨⟨rName, err⟩, f2⟩ := x
      rw [hd] at h
      dsimp only at h
      have hrec : rangeLoop d (findInDirFn plainName) iv l none f2 = some (item, f1) →
          (err.isSome = true ∨ rName ≠ plainName) →
          (item = none ∧ ∃ rs, decryptNames d iv (info :: l) f = some (rs, f1) ∧
            ∀ r ∈ rs, r.2.isSome = true ∨ r.1 ≠ plainName) ∨
          (∃ pre info1 post rs f3, info :: l = pre ++ info1 :: post ∧ item = some info1 ∧
            decryptNames d iv pre f = some (rs, f3) ∧
            (∀ r ∈ rs, r.2.isSome = true ∨ r.1 ≠ plainName) ∧
            f3.reqDecryptName d info1.Name iv = some ((plainName, none), f1)) := by
        intro hl hskip
        rcases ih f2 f1 item hl with ⟨hi, rs, hrs, hall⟩ | ⟨pre, info1, post, rs, f3, hl1, hi, hrs, hall, hhit⟩
        · refine Or.inl ⟨hi, (rName, err) :: rs, ?_, ?_⟩
          · rw [decryptNames, hd]
            dsimp only
            rw [hrs]
          · intro r hr
            rcases List.mem_cons.mp hr with hr | hr
            · subst hr
              exact hskip
            · exact hall r hr
        · refine Or.inr ⟨info :: pre, info1, post, (rName, err) :: rs, f3, ?_, hi, ?_, ?_, hhit⟩
          · rw [hl1]
            rfl
          · rw [decryptNames, hd]
            dsimp only
            rw [hrs]
          · intro r hr
            rcases List.mem_cons.mp hr with hr | hr
            · subst hr
              exact hskip
            · exact hall r hr
      cases herr : err.isSome with
      | true =>
        rw [herr] at h
        simp only [if_true] at h
        exact hrec h (Or.inl herr)
      | false =>
        rw [herr] at h
        simp only [Bool.false_eq_true, if_false, findInDirFn] at h
        by_cases hname : plainName = rName
        · simp only [hname, if_true] at h
          cases h
          refine Or.inr ⟨[], info, l, [], f, rfl, rfl, rfl, (fun r hr => by cases hr), ?_⟩
          rw [hd, hname]
          have : err = none := by
            cases err with
            | none => rfl
            | some e => cases herr
          rw [this]
        · simp only [hname, if_false] at h
          exact hrec h (Or.inr (fun e => hname e.symm))

/-- With the IV file and the listing read, `findInDir` is the loop over the
listing followed by the test `item == nil`. -/
theorem findInDir_eq {σ : Type} (d : Deps σ) (f f1 f2 : FileTree σ)
    (cipherPath plainName : String) (iv : List Nat) (dirListing : List FileInfo)
    (hiv : f.reqReadFile d (d.filepath.Join cipherPath "gocryptfs.diriv") = some ((iv, none), f1))
    (hdir : f1.reqReadDir d cipherPath = some ((dirListing, none), f2)) :
    f.findInDir d cipherPath plainName =
      match rangeLoop d (findInDirFn plainName) iv dirListing none f2 with
      | none => none
      | some (none, f3) =>
        some ((none, some (plainName ++ " not found in " ++ cipherPath)), f3)
      | some (some item, f3) => some ((some item, none), f3) := by
  unfold FileTree.findInDir FileTree.rangeInDir
  rw [hiv]
  dsimp only
  rw [hdir]
  dsimp only
  cases hl : rangeLoop d (findInDirFn plainName) iv dirListing none f2 with
  | none => rfl
  | some x =>
    obtain ⟨item, f3⟩ := x
    cases item <;> rfl

end filetree

namespace filetree

open requester (GoError)

theorem reqReadFile_total {σ : Type} {d : Deps σ} (hd : d.Total) (f : FileTree σ)
    (path : String) : ∃ r f1, f.reqReadFile d path = some (r, f1) := by
  have h := hd.readFile f.world path
  unfold FileTree.reqReadFile
  cases hr : d.ReadFile f.world path with
  | none => rw [hr] at h; cases h
  | some x => exact ⟨x.1, _, rfl⟩

theorem reqReadDir_total {σ : Type} {d : Deps σ} (hd : d.Total) (f : FileTree σ)
    (path : String) : ∃ r f1, f.reqReadDir d path = some (r, f1) := by
  have h := hd.readDir f.world path
  unfold FileTree.reqReadDir
  cases hr : d.ReadDir f.world path with
  | none => rw [hr] at h; cases h
  | some x => exact ⟨x.1, _, rfl⟩

theorem reqDecryptName_total {σ : Type} {d : Deps σ} (hd : d.Total) (f : FileTree σ)
    (cName : String) (iv : List Nat) :
    ∃ r f1, f.reqDecryptName d cName iv = some (r, f1) := by
  have h := hd.decryptName f.world cName iv
  unfold FileTree.reqDecryptName
  cases hr : d.DecryptName f.world cName iv with
  | none => rw [hr] at h; cases h
  | some x => exact ⟨x.1, _, rfl⟩

/-- The loop over a listing ends when every call of the coalescer returns. -/
theorem rangeLoop_total {σ α : Type} {d : Deps σ} (hd : d.Total)
    (fn : α → FileInfo → String → α × Bool) (iv : List Nat) (l : List FileInfo) :
    ∀ (acc : α) (f : FileTree σ), ∃ r, rangeLoop d fn iv l acc f = some r := by
  induction l with
  | nil => exact fun acc f => ⟨(acc, f), rfl⟩
  | cons info rest ih =>
    intro acc f
    obtain ⟨r, f1, hr⟩ := reqDecryptName_total hd f info.Name iv
    obtain ⟨rName, err⟩ := r
    rw [rangeLoop, hr]
    dsimp only
    split
    · exact ih acc f1
    · split
      · exact ⟨_, rfl⟩
      · exact ih _ f1

/-- The method `rangeInDir` returns when every call of the coalescer returns. -/
theorem rangeInDir_total {σ α : Type} {d : Deps σ} (hd : d.Total) (f : FileTree σ)
    (cipherPath : String) (fn : α → FileInfo → String → α × Bool) (acc : α) :
    ∃ r, f.rangeInDir d cipherPath fn acc = some r := by
  unfold FileTree.rangeInDir
  obtain ⟨r, f1, hr⟩ := reqReadFile_total hd f (d.filepath.Join cipherPath "gocryptfs.diriv")
  obtain ⟨iv, e⟩ := r
  rw [hr]
  cases e with
  | some e => exact ⟨_, rfl⟩
  | none =>
    dsimp only
    obtain ⟨r2, f2, hr2⟩ := reqReadDir_total hd f1 cipherPath
    obtain ⟨dirListing, e2⟩ := r2
    rw [hr2]
    cases e2 with
    | some e2 => exact ⟨_, rfl⟩
    | none =>
      dsimp only
      obtain ⟨r3, hr3⟩ := rangeLoop_total hd fn iv dirListing acc f2
      rw [hr3]
      exact ⟨_, rfl⟩

/-- The method `findInDir` returns when every call of the coalescer returns,
and what it returns is an item or an error, never both and never neither. -/
theorem findInDir_total {σ : Type} {d : Deps σ} (hd : d.Total) (f : FileTree σ)
    (cipherPath plainName : String) :
    (∃ item f1, f.findInDir d cipherPath plainName = some ((some item, none), f1)) ∨
    (∃ err f1, f.findInDir d cipherPath plainName = some ((none, some err), f1)) := by
  unfold FileTree.findInDir
  obtain ⟨r, hr⟩ := rangeInDir_total hd f cipherPath (findInDirFn plainName) none
  obtain ⟨⟨item, e⟩, f1⟩ := r
  rw [hr]
  cases item with
  | none =>
    cases e with
    | some e => exact Or.inr ⟨"error iterating " ++ cipherPath ++ ": " ++ e, f1, rfl⟩
    | none => exact Or.inr ⟨plainName ++ " not found in " ++ cipherPath, f1, rfl⟩
  | some item =>
    cases e with
    | some e => exact Or.inr ⟨"error iterating " ++ cipherPath ++ ": " ++ e, f1, rfl⟩
    | none => exact Or.inl ⟨item, f1, rfl⟩

/-- C23. The method `findInDir(cipherPath, plainName)`.  When every call of
the coalescer returns, it returns an item with a nil error or a nil item with an
error.  When the IV file or the listing cannot be read, it returns a nil item
and an error.  When both are read, it asks the coalescer for the names in listing
order and returns the first entry whose name is decrypted without error to
exactly `plainName`, the entries before it having failed to decrypt or decrypted
to another name; and it returns a nil item with the error `not found` exactly
when every entry of the listing was asked and none matched. -/
theorem findInDir_selection {σ : Type} (d : Deps σ) (f : FileTree σ)
    (cipherPath plainName : String) :
    (d.Total →
      (∃ item f1, f.findInDir d cipherPath plainName = some ((some item, none), f1)) ∨
      (∃ err f1, f.findInDir d cipherPath plainName = some ((none, some err), f1))) ∧
    (∀ x e f1,
      f.reqReadFile d (d.filepath.Join cipherPath "gocryptfs.diriv") = some ((x, some e), f1) →
      f.findInDir d cipherPath plainName =
        some ((none, some ("error iterating " ++ cipherPath ++ ": " ++
          ("error reading directory IV: " ++ e))), f1)) ∧
    (∀ iv f1 x e f2,
      f.reqReadFile d (d.filepath.Join cipherPath "gocryptfs.diriv") = some ((iv, none), f1) →
      f1.reqReadDir d cipherPath = some ((x, some e), f2) →
      f.findInDir d cipherPath plainName =
        some ((none, some ("error iterating " ++ cipherPath ++ ": " ++
          ("error listing directory: " ++ e))), f2)) ∧
    (∀ iv f1 dirListing f2,
      f.reqReadFile d (d.filepath.Join cipherPath "gocryptfs.diriv") = some ((iv, none), f1) →
      f1.reqReadDir d cipherPath = some ((dirListing, none), f2) →
      ∀ item err f3, f.findInDir d cipherPath plainName = some ((item, err), f3) ↔
        ((∃ pre info post rs f0, dirListing = pre ++ info :: post ∧
            decryptNames d iv pre f2 = some (rs, f0) ∧
            (∀ r ∈ rs, r.2.isSome = true ∨ r.1 ≠ plainName) ∧
            f0.reqDecryptName d info.Name iv = some ((plainName, none), f3) ∧
            item = some info ∧ err = none) ∨
         (∃ rs, decryptNames d iv dirListing f2 = some (rs, f3) ∧
            (∀ r ∈ rs, r.2.isSome = true ∨ r.1 ≠ plainName) ∧
            item = none ∧ err = some (plainName ++ " not found in " ++ cipherPath)))) := by
  refine ⟨fun hd => findInDir_total hd f cipherPath plainName, ?_, ?_, ?_⟩
  · intro x e f1 hiv
    unfold FileTree.findInDir FileTree.rangeInDir
    rw [hiv]
  · intro iv f1 x e f2 hiv hdir
    unfold FileTree.findInDir FileTree.rangeInDir
    rw [hiv]
    dsimp only
    rw [hdir]
  · intro iv f1 dirListing f2 hiv hdir item err f3
    rw [findInDir_eq d f f1 f2 cipherPath plainName iv dirListing hiv hdir]
    constructor
    · intro h
      cases hl : rangeLoop d (findInDirFn plainName) iv dirListing none f2 with
      | none => rw [hl] at h; cases h
      | some y =>
        obtain ⟨it, f4⟩ := y
        rw [hl] at h
        rcases rangeLoop_find_cases d plainName iv dirListing f2 f4 it hl with
          ⟨hi, rs, hrs, hall⟩ | ⟨pre, info, post, rs, f0, hsplit, hi, hrs, hall, hhit⟩
        · subst hi
          cases h
          exact Or.inr ⟨rs, hrs, hall, rfl, rfl⟩
        · subst hi
          cases h
          exact Or.inl ⟨pre, info, post, rs, f0, hsplit, hrs, hall, hhit, rfl, rfl⟩
    · rintro (⟨pre, info, post, rs, f0, hsplit, hrs, hall, hhit, hi, he⟩ | ⟨rs, hrs, hall, hi, he⟩)
      · subst hi
        subst he
        subst hsplit
        rw [rangeLoop_skip d plainName iv pre (info :: post) none f2 f0 rs hrs hall]
        rw [rangeLoop, hhit]
        simp [findInDirFn]
      · subst hi
        subst he
        have h0 := rangeLoop_skip d plainName iv dirListing [] none f2 f3 rs hrs hall
        rw [List.append_nil] at h0
        rw [h0, rangeLoop]

/-- In the small tree, `findInDir` passes over `gocryptfs.diriv`, whose name
does not decrypt, and returns `Xdir` for the plaintext name `dir`. -/
theorem findInDir_selection_witness :
    testTree.reqReadFile testDeps (testDeps.filepath.Join "/enc" "gocryptfs.diriv") =
      some (([73, 86], none), testTreeAt 1 [.readFile "/enc/gocryptfs.diriv"]) ∧
    (testTreeAt 1 [.readFile "/enc/gocryptfs.diriv"]).reqReadDir testDeps "/enc" =
      some ((testListing, none),
        testTreeAt 2 [.readFile "/enc/gocryptfs.diriv", .readDir "/enc"]) ∧
    testTree.findInDir testDeps "/enc" "dir" =
      some ((some { Name := "Xdir", Size := 4096, Mode := 493, ModTime := 2, IsDir := true,
                    Sys := none }, none),
        testTreeAt 4 [.readFile "/enc/gocryptfs.diriv", .readDir "/enc",
                      .decryptName "gocryptfs.diriv" [73, 86],
                      .decryptName "Xdir" [73, 86]]) :=
  ⟨by decide, by decide,
   ((findInDir_selection testDeps testTree "/enc" "dir").2.2.2 [73, 86]
      (testTreeAt 1 [.readFile "/enc/gocryptfs.diriv"]) testListing
      (testTreeAt 2 [.readFile "/enc/gocryptfs.diriv", .readDir "/enc"])
      (by decide) (by decide) _ _ _).mpr
     (Or.inl ⟨[{ Name := "gocryptfs.diriv", Size := 16, Mode := 420, ModTime := 1,
                 IsDir := false, Sys := none }],
       { Name := "Xdir", Size := 4096, Mode := 493, ModTime := 2, IsDir := true, Sys := none },
       [{ Name := "Xfile", Size := 150, Mode := 420, ModTime := 3, IsDir := false,
          Sys := some 7 }],
       [("", some "Error decrypting")],
       testTreeAt 3 [.readFile "/enc/gocryptfs.diriv", .readDir "/enc",
                     .decryptName "gocryptfs.diriv" [73, 86]],
       by decide, by decide, by decide, by decide, rfl, rfl⟩)⟩

end filetree

/-! ## The keys of the directory cache -/

namespace filetree

open requester (GoError)

theorem update_storage {f f1 : FastCache} {p : Nat} {g : DirMapping → DirMapping}
    (h : f.update p g = some f1) :
    f1.storage = f.storage ∧ f1.last = f.last ∧ f1.head = f.head ∧
      f1.cacheSize = f.cacheSize ∧ f1.count = f.count := by
  unfold FastCache.update at h
  split at h
  · cases h
  · cases h
    exact ⟨rfl, rfl, rfl, rfl, rfl⟩

/-- The method `refreshNode` leaves the map alone. -/
theorem refreshNode_storage {f f1 : FastCache} {d : Nat} (h : f.refreshNode d = some f1) :
    f1.storage = f.storage ∧ f1.cacheSize = f.cacheSize ∧ f1.count = f.count := by
  unfold FastCache.refreshNode at h
  split at h
  · cases h
  · split at h
    · cases h
      exact ⟨rfl, rfl, rfl⟩
    · simp only [Option.bind_eq_bind, Option.bind_eq_some] at h
      obtain ⟨a1, h1, a2, h2, a3, h3, l, -, a4, h4, h5⟩ := h
      have e1 : a1.storage = f.storage ∧ a1.cacheSize = f.cacheSize ∧ a1.count = f.count := by
        split at h1
        · have := update_storage h1
          exact ⟨this.1, this.2.2.2.1, this.2.2.2.2⟩
        · cases h1
          exact ⟨rfl, rfl, rfl⟩
      have e2 := update_storage h2
      have e3 := update_storage h3
      have e4 := update_storage h4
      cases h5
      exact ⟨by rw [← e1.1, ← e2.1, ← e3.1, ← e4.1],
        by rw [← e1.2.1, ← e2.2.2.2.1, ← e3.2.2.2.1, ← e4.2.2.2.1],
        by rw [← e1.2.2, ← e2.2.2.2.2, ← e3.2.2.2.2, ← e4.2.2.2.2]⟩

/-- The method `Find` leaves the map alone. -/
theorem Find_storage {f f1 : FastCache} {k : String} {n : DirMapping} {found : Bool}
    (h : f.Find k = some (f1, n, found)) : f1.storage = f.storage := by
  unfold FastCache.Find at h
  split at h
  · cases h
    rfl
  · simp only [Option.bind_eq_bind, Option.bind_eq_some] at h
    obtain ⟨a1, h1, a2, -, h3⟩ := h
    cases h3
    exact (refreshNode_storage h1).1

/-- The method `Store(pPath, cPath)` adds no key other than `pPath`. -/
theorem Store_keys {f f1 : FastCache} {p c : String} (h : f.Store p c = some f1)
    (k : String) (hk : k ≠ p) (hf : f.storage.get k = none) : f1.storage.get k = none := by
  have hpk : ¬ p = k := fun e => hk e.symm
  unfold FastCache.Store at h
  split at h
  · simp only [Option.bind_eq_bind, Option.bind_eq_some] at h
    obtain ⟨a1, h1, h2⟩ := h
    rw [(update_storage h2).1, (refreshNode_storage h1).1]
    exact hf
  · dsimp only at h
    split at h
    · simp only [Option.bind_eq_bind, Option.bind_eq_some] at h
      obtain ⟨dd, -, hn, -, a1, h1, a2, h2, a3, h3, h4⟩ := h
      cases h4
      have e : a3.storage = f.storage := by
        rw [(update_storage h3).1, (update_storage h2).1, (refreshNode_storage h1).1]
      simp only [GoMap.get_set, GoMap.get_delete, hpk, if_false, e]
      split
      · rfl
      · exact hf
    · split at h
      · cases h
        simp only [GoMap.get_set, hpk, if_false]
        exact hf
      · simp only [Option.bind_eq_bind, Option.bind_eq_some] at h
        obtain ⟨a1, h1, l, -, a2, h2, h3⟩ := h
        cases h3
        have e := (update_storage h2).1
        have e1 := (update_storage h1).1
        dsimp only at e e1 ⊢
        rw [e, e1]
        simp only [GoMap.get_set, hpk, if_false]
        exact hf

end filetree

/-! ## The recursion of `findPath` -/

namespace filetree

open requester (GoError)

/-- A lookup of an unmapped path misses and leaves the directory cache alone. -/
theorem lruFind_miss {σ : Type} (f : FileTree σ) (k : String)
    (hk : f.fastCache.storage.get k = none) :
    f.lruFind k = some ((DirMapping.zero, false), f.afterMiss k) := by
  unfold FileTree.lruFind
  rw [Find_miss f.fastCache k hk]
  rfl

/-- The body of `findPath` after a miss in the directory cache: the parent is
resolved, the last element is looked up in it, and a directory is stored. -/
theorem findPath_miss {σ : Type} (d : Deps σ) (depth : Nat) (f : FileTree σ) (p : String)
    (hroot : d.filepath.Clean p ≠ "/")
    (hmiss : f.fastCache.storage.get (d.filepath.Clean p) = none) :
    f.findPath d (depth + 1) p =
      match (f.afterMiss (d.filepath.Clean p)).findPath d depth
          (d.filepath.Dir (d.filepath.Clean p)) with
      | none => none
      | some ((_, some err), f2) => some (("", some err), f2)
      | some ((cipherParentPath, none), f2) =>
        match f2.findInDir d cipherParentPath (d.filepath.Base (d.filepath.Clean p)) with
        | none => none
        | some ((_, some err), f3) => some (("", some err), f3)
        | some ((none, none), _) => none
        | some ((some item, none), f3) =>
          if !item.IsDir then
            some (("", some (d.filepath.Join cipherParentPath item.Name ++
              " is not a directory")), f3)
          else
            match f3.lruStore (d.filepath.Clean p)
                (d.filepath.Join cipherParentPath item.Name) with
            | none => none
            | some f4 => some ((d.filepath.Join cipherParentPath item.Name, none), f4) := by
  rw [FileTree.findPath]
  dsimp only
  rw [if_neg hroot, lruFind_miss f _ hmiss]

theorem lruStore_keys {σ : Type} {f f1 : FileTree σ} {p c : String}
    (h : f.lruStore p c = some f1) (k : String) (hk : k ≠ p)
    (hf : f.fastCache.storage.get k = none) : f1.fastCache.storage.get k = none := by
  unfold FileTree.lruStore at h
  split at h
  · cases h
  · rename_i fc hs
    cases h
    exact Store_keys hs k hk hf

theorem lruFind_keys {σ : Type} {f f1 : FileTree σ} {p : String} {r : DirMapping × Bool}
    (h : f.lruFind p = some (r, f1)) : f1.fastCache.storage = f.fastCache.storage := by
  unfold FileTree.lruFind at h
  split at h
  · cases h
  · rename_i fc dm found hs
    cases h
    exact Find_storage hs

/-- With Go's path functions, resolving an absolute path adds no key longer
than its cleaned form to the directory cache. -/
theorem findPath_keys {σ : Type} (d : Deps σ) (hfp : d.filepath = goFilepath) (depth : Nat) :
    ∀ (f : FileTree σ) (p : String) (r : String × Option GoError) (f1 : FileTree σ)
      (es : List (List Char)),
      f.findPath d depth p = some (r, f1) → (∀ e ∈ es, Proper e) → goClean p = absPath es →
      ∀ k : String, (absPath es).length < k.length → f.fastCache.storage.get k = none →
        f1.fastCache.storage.get k = none := by
  induction depth with
  | zero =>
    intro f p r f1 es h
    rw [FileTree.findPath] at h
    cases h
  | succ depth ih =>
    intro f p r f1 es h hes hclean k hlen hk
    have hc : d.filepath.Clean p = absPath es := by rw [hfp]; exact hclean
    rw [FileTree.findPath] at h
    dsimp only at h
    split at h
    · cases h
      exact hk
    · rename_i hroot
      rw [hc] at hroot
      split at h
      · cases h
      · rename_i dm f2 hfind
        cases h
        rw [lruFind_keys hfind]
        exact hk
      · rename_i dm f2 hfind
        have hk2 : f2.fastCache.storage.get k = none := by
          rw [lruFind_keys hfind]
          exact hk
        rcases List.eq_nil_or_concat es with h0 | ⟨es0, e, h0⟩
        · subst h0
          exact absurd rfl hroot
        · rw [List.concat_eq_append] at h0
          subst h0
          have hes0 : ∀ x ∈ es0, Proper x := fun x hx => hes x (by simp [hx])
          have he : Proper e := hes e (by simp)
          have hdir : d.filepath.Dir (d.filepath.Clean p) = absPath es0 := by
            rw [hc, hfp]
            exact goDir_absPath es0 e hes
          rw [hdir] at h
          have hlt := absPath_length es0 e he.1
          split at h
          · cases h
          · rename_i c0 err f3 hpar
            have hk3 := ih f2 _ _ _ es0 hpar hes0 (goClean_absPath es0 hes0) k (by omega) hk2
            cases h
            exact hk3
          · rename_i cp f3 hpar
            have hk3 := ih f2 _ _ _ es0 hpar hes0 (goClean_absPath es0 hes0) k (by omega) hk2
            split at h
            · cases h
            · rename_i x err f4 hin
              cases h
              rw [(findInDir_cache hin).1]
              exact hk3
            · cases h
            · rename_i item f4 hin
              have hk4 : f4.fastCache.storage.get k = none := by
                rw [(findInDir_cache hin).1]
                exact hk3
              split at h
              · cases h
                exact hk4
              · split at h
                · cases h
                · rename_i f5 hst
                  cases h
                  refine lruStore_keys hst k ?_ hk4
                  intro e0
                  rw [e0, hc] at hlen
                  omega

/-- With Go's path functions, a coalescer that always returns and a directory
cache in a consistent state, `findPath` on an absolute path returns within one
call for each element of the cleaned path and one for `/`. -/
theorem findPath_abs_total {σ : Type} (d : Deps σ) (hfp : d.filepath = goFilepath)
    (hd : d.Total) (es : List (List Char)) :
    ∀ (f : FileTree σ) (p : String) (depth : Nat),
      (∀ e ∈ es, Proper e) → goClean p = absPath es → Inv cacheSize f.fastCache →
      es.length + 1 ≤ depth → ∃ r f1, f.findPath d depth p = some (r, f1) := by
  induction es using List.reverseRecOn with
  | nil =>
    intro f p depth _ hclean _ hdepth
    obtain ⟨n, rfl⟩ : ∃ n, depth = n + 1 := ⟨depth - 1, by simp at hdepth; omega⟩
    have hc : d.filepath.Clean p = "/" := by rw [hfp]; exact hclean
    exact ⟨_, _, resolve_slash d n f p hc⟩
  | append_singleton es0 e ih =>
    intro f p depth hes hclean hinv hdepth
    have hes0 : ∀ x ∈ es0, Proper x := fun x hx => hes x (by simp [hx])
    have he : Proper e := hes e (by simp)
    have hc : d.filepath.Clean p = absPath (es0 ++ [e]) := by rw [hfp]; exact hclean
    have hroot : d.filepath.Clean p ≠ "/" := by
      rw [hc]
      exact absPath_ne_slash es0 e he.1
    obtain ⟨n, rfl⟩ : ∃ n, depth = n + 1 := ⟨depth - 1, by omega⟩
    have hn : es0.length + 1 ≤ n := by
      simp only [List.length_append, List.length_singleton] at hdepth
      omega
    cases hk : f.fastCache.storage.get (d.filepath.Clean p) with
    | some dd =>
      obtain ⟨fc, nd, hfind, -⟩ := Find_hit hinv hk
      rw [FileTree.findPath]
      dsimp only
      rw [if_neg hroot]
      unfold FileTree.lruFind
      rw [hfind]
      exact ⟨_, _, rfl⟩
    | none =>
      rw [findPath_miss d n f p hroot hk]
      have hdir : d.filepath.Dir (d.filepath.Clean p) = absPath es0 := by
        rw [hc, hfp]
        exact goDir_absPath es0 e hes
      rw [hdir]
      obtain ⟨r, f2, hpar⟩ := ih (f.afterMiss (d.filepath.Clean p)) (absPath es0) n hes0
        (goClean_absPath es0 hes0) hinv hn
      have hinv2 := (findPath_spec d (by decide : (1 : Int) ≤ cacheSize) n
        (f.afterMiss (d.filepath.Clean p)) _ _ _ hinv hpar).1
      obtain ⟨cp, err⟩ := r
      rw [hpar]
      cases err with
      | some err => exact ⟨_, _, rfl⟩
      | none =>
        dsimp only
        rcases findInDir_total hd f2 cp (d.filepath.Base (d.filepath.Clean p)) with
          ⟨item, f3, hin⟩ | ⟨err, f3, hin⟩
        · rw [hin]
          dsimp only
          split
          · exact ⟨_, _, rfl⟩
          · have hinv3 : Inv cacheSize f3.fastCache := by
              rw [(findInDir_cache hin).1]
              exact hinv2
            obtain ⟨fc, hst, -⟩ := Store_spec hinv3 (by decide : (1 : Int) ≤ cacheSize)
              (d.filepath.Clean p) (d.filepath.Join cp item.Name)
            unfold FileTree.lruStore
            rw [hst]
            exact ⟨_, _, rfl⟩
        · rw [hin]
          exact ⟨_, _, rfl⟩

/-- The parent of a relative path is a relative path. -/
theorem goDir_head (q : String) (h : (goDir q).data.head? = some '/') :
    q.data.head? = some '/' := by
  unfold goDir at h
  have h1 := goClean_head _ h
  have hpre : (q.data.reverse.dropWhile (fun c => decide (c ≠ '/'))).reverse <+: q.data := by
    have := List.reverse_prefix.mpr (List.dropWhile_suffix (fun c => decide (c ≠ '/'))
      (l := q.data.reverse))
    rwa [List.reverse_reverse] at this
  obtain ⟨t, ht⟩ := hpre
  dsimp only at h1
  cases hx : (q.data.reverse.dropWhile (fun c => decide (c ≠ '/'))).reverse with
  | nil => rw [hx] at h1; cases h1
  | cons c cs =>
    rw [hx] at h1 ht
    simp only [List.head?_cons, Option.some.injEq] at h1
    rw [← ht, h1]
    rfl

/-- With Go's path functions and a directory cache that maps no relative path,
`findPath` on a path whose cleaned form is relative never returns: no bound on
the depth of the recursion is enough. -/
theorem findPath_relative {σ : Type} (d : Deps σ) (hfp : d.filepath = goFilepath)
    (depth : Nat) :
    ∀ (f : FileTree σ) (p : String),
      (goClean p).data.head? ≠ some '/' →
      (∀ k : String, k.data.head? ≠ some '/' → f.fastCache.storage.get k = none) →
      f.findPath d depth p = none := by
  induction depth with
  | zero =>
    intro f p _ _
    rw [FileTree.findPath]
  | succ depth ih =>
    intro f p hrel hcache
    have hc : d.filepath.Clean p = goClean p := by rw [hfp]; rfl
    have hroot : d.filepath.Clean p ≠ "/" := by
      rw [hc]
      intro e0
      rw [e0] at hrel
      exact hrel rfl
    have hk : f.fastCache.storage.get (d.filepath.Clean p) = none := by
      rw [hc]
      exact hcache _ hrel
    rw [findPath_miss d depth f p hroot hk]
    have hpar : (f.afterMiss (d.filepath.Clean p)).findPath d depth
        (d.filepath.Dir (d.filepath.Clean p)) = none := by
      apply ih
      · intro h0
        have h1 := goClean_head _ h0
        rw [hc, hfp] at h1
        exact hrel (goDir_head _ h1)
      · exact hcache
    rw [hpar]

end filetree

/-! ## The calls of the backend `Stat` -/

namespace filetree

open requester (GoError)

theorem statCalls_append (a b : List Event) :
    statCalls (a ++ b) = statCalls a ++ statCalls b := by
  induction a with
  | nil => rfl
  | cons e a ih =>
    cases e <;> simp [statCalls, ih]

theorem lruFind_stat {σ : Type} {f f1 : FileTree σ} {p : String} {r : DirMapping × Bool}
    (h : f.lruFind p = some (r, f1)) : statCalls f1.trace = statCalls f.trace := by
  unfold FileTree.lruFind at h
  split at h
  · cases h
  · cases h
    simp [statCalls_append, statCalls]

theorem lruStore_stat {σ : Type} {f f1 : FileTree σ} {p c : String}
    (h : f.lruStore p c = some f1) : statCalls f1.trace = statCalls f.trace := by
  unfold FileTree.lruStore at h
  split at h
  · cases h
  · cases h
    simp [statCalls_append, statCalls]

theorem reqReadFile_stat {σ : Type} {d : Deps σ} {f f1 : FileTree σ} {path : String}
    {r : List Nat × Option GoError} (h : f.reqReadFile d path = some (r, f1)) :
    statCalls f1.trace = statCalls f.trace := by
  unfold FileTree.reqReadFile at h
  split at h
  · cases h
  · cases h
    simp [statCalls_append, statCalls]

theorem reqReadDir_stat {σ : Type} {d : Deps σ} {f f1 : FileTree σ} {path : String}
    {r : List FileInfo × Option GoError} (h : f.reqReadDir d path = some (r, f1)) :
    statCalls f1.trace = statCalls f.trace := by
  unfold FileTree.reqReadDir at h
  split at h
  · cases h
  · cases h
    simp [statCalls_append, statCalls]

theorem reqDecryptName_stat {σ : Type} {d : Deps σ} {f f1 : FileTree σ} {cName : String}
    {iv : List Nat} {r : String × Option GoError}
    (h : f.reqDecryptName d cName iv = some (r, f1)) :
    statCalls f1.trace = statCalls f.trace := by
  unfold FileTree.reqDecryptName at h
  split at h
  · cases h
  · cases h
    simp [statCalls_append, statCalls]

theorem rangeLoop_stat {σ α : Type} (d : Deps σ) (fn : α → FileInfo → String → α × Bool)
    (iv : List Nat) (l : List FileInfo) :
    ∀ (acc : α) (f : FileTree σ) (acc1 : α) (f1 : FileTree σ),
      rangeLoop d fn iv l acc f = some (acc1, f1) →
      statCalls f1.trace = statCalls f.trace := by
  induction l with
  | nil =>
    intro acc f acc1 f1 h
    rw [rangeLoop] at h
    cases h
    rfl
  | cons info rest ih =>
    intro acc f acc1 f1 h
    rw [rangeLoop] at h
    split at h
    · cases h
    · rename_i rName err f2 hd
      have g := reqDecryptName_stat hd
      split at h
      · exact (ih _ _ _ _ h).trans g
      · split at h
        split at h
        · cases h
          exact g
        · exact (ih _ _ _ _ h).trans g

theorem rangeInDir_stat {σ α : Type} {d : Deps σ} {f f1 : FileTree σ} {cipherPath : String}
    {fn : α → FileInfo → String → α × Bool} {acc : α} {r : α × Option GoError}
    (h : f.rangeInDir d cipherPath fn acc = some (r, f1)) :
    statCalls f1.trace = statCalls f.trace := by
  unfold FileTree.rangeInDir at h
  split at h
  · cases h
  · rename_i hr
    cases h
    exact reqReadFile_stat hr
  · rename_i hr
    have g := reqReadFile_stat hr
    split at h
    · cases h
    · rename_i hr2
      have g2 := reqReadDir_stat hr2
      cases h
      exact g2.trans g
    · rename_i hr2
      have g2 := reqReadDir_stat hr2
      split at h
      · cases h
      · rename_i hl
        have g3 := rangeLoop_stat _ _ _ _ _ _ _ _ hl
        cases h
        exact g3.trans (g2.trans g)

theorem findInDir_stat {σ : Type} {d : Deps σ} {f f1 : FileTree σ} {cipherPath plainName : String}
    {r : Option FileInfo × Option GoError}
    (h : f.findInDir d cipherPath plainName = some (r, f1)) :
    statCalls f1.trace = statCalls f.trace := by
  unfold FileTree.findInDir at h
  split at h
  · cases h
  · rename_i hr
    cases h
    exact rangeInDir_stat hr
  · rename_i hr
    cases h
    exact rangeInDir_stat hr
  · rename_i hr
    cases h
    exact rangeInDir_stat hr

/-- The method `findPath` never calls the backend `Stat`. -/
theorem findPath_stat {σ : Type} (d : Deps σ) (depth : Nat) :
    ∀ (f : FileTree σ) (p : String) (r : String × Option GoError) (f1 : FileTree σ),
      f.findPath d depth p = some (r, f1) → statCalls f1.trace = statCalls f.trace := by
  induction depth with
  | zero =>
    intro f p r f1 h
    rw [FileTree.findPath] at h
    cases h
  | succ depth ih =>
    intro f p r f1 h
    rw [FileTree.findPath] at h
    dsimp only at h
    split at h
    · cases h
      rfl
    · split at h
      · cases h
      · rename_i dm f2 hfind
        cases h
        exact lruFind_stat hfind
      · rename_i dm f2 hfind
        have g := lruFind_stat hfind
        split at h
        · cases h
        · rename_i c0 err f3 hpar
          have g2 := ih _ _ _ _ hpar
          cases h
          exact g2.trans g
        · rename_i cp f3 hpar
          have g2 := ih _ _ _ _ hpar
          split at h
          · cases h
          · rename_i x err f4 hin
            have g3 := findInDir_stat hin
            cases h
            exact g3.trans (g2.trans g)
          · cases h
          · rename_i item f4 hin
            have g3 := findInDir_stat hin
            split at h
            · cases h
              exact g3.trans (g2.trans g)
            · split at h
              · cases h
              · rename_i f5 hst
                have g4 := lruStore_stat hst
                cases h
                exact g4.trans (g3.trans (g2.trans g))

end filetree

/-! ## The claims about `findPath` and `Stat` -/

namespace filetree

open requester (GoError)

/-- C24. Let `p` be a path whose cleaned form is not `/` and is not a key of the
directory cache, so that `findPath(p)` resolves the parent and looks the last
element up in it.  If the entry found is not a directory, `findPath(p)` returns
the empty path and the error `is not a directory`, and the directory cache is as
the resolution of the parent left it.  Every failure of `findPath(p)` returns the
empty path and leaves the directory cache as the resolution of the parent left
it; with Go's path functions and an absolute `p`, `Find` on the cleaned `p` still
misses afterwards.  A success comes from an entry that is a directory: the
result is the parent's ciphertext path joined with the entry's name, and it is
the mapping stored for the cleaned `p`. -/
theorem findPath_not_directory {σ : Type} (d : Deps σ) (depth : Nat) (f : FileTree σ)
    (p : String) (hroot : d.filepath.Clean p ≠ "/")
    (hmiss : f.fastCache.storage.get (d.filepath.Clean p) = none) :
    (∀ cp f2 item f3,
      (f.afterMiss (d.filepath.Clean p)).findPath d depth
          (d.filepath.Dir (d.filepath.Clean p)) = some ((cp, none), f2) →
      f2.findInDir d cp (d.filepath.Base (d.filepath.Clean p)) = some ((some item, none), f3) →
      item.IsDir = false →
      f.findPath d (depth + 1) p =
          some (("", some (d.filepath.Join cp item.Name ++ " is not a directory")), f3) ∧
        f3.fastCache = f2.fastCache) ∧
    (∀ c err f1, f.findPath d (depth + 1) p = some ((c, some err), f1) →
      c = "" ∧
      (∃ rp f2, (f.afterMiss (d.filepath.Clean p)).findPath d depth
          (d.filepath.Dir (d.filepath.Clean p)) = some (rp, f2) ∧
        f1.fastCache = f2.fastCache) ∧
      (d.filepath = goFilepath → (goClean p).data.head? = some '/' →
        f1.fastCache.Find (d.filepath.Clean p) =
          some (f1.fastCache, DirMapping.zero, false))) ∧
    (∀ c f1, f.findPath d (depth + 1) p = some ((c, none), f1) →
      ∃ cp f2 item f3,
        (f.afterMiss (d.filepath.Clean p)).findPath d depth
          (d.filepath.Dir (d.filepath.Clean p)) = some ((cp, none), f2) ∧
        f2.findInDir d cp (d.filepath.Base (d.filepath.Clean p)) =
          some ((some item, none), f3) ∧
        item.IsDir = true ∧ c = d.filepath.Join cp item.Name ∧
        f3.fastCache.Store (d.filepath.Clean p) c = some f1.fastCache ∧
        (Inv cacheSize f.fastCache → f1.fastCache.Maps (d.filepath.Clean p) c)) := by
  have hunfold := findPath_miss d depth f p hroot hmiss
  refine ⟨?_, ?_, ?_⟩
  · intro cp f2 item f3 hpar hin hdir
    rw [hunfold, hpar]
    dsimp only
    rw [hin]
    dsimp only
    rw [hdir]
    exact ⟨rfl, (findInDir_cache hin).1⟩
  · intro c err f1 h
    have hframe : c = "" ∧ ∃ rp f2, (f.afterMiss (d.filepath.Clean p)).findPath d depth
        (d.filepath.Dir (d.filepath.Clean p)) = some (rp, f2) ∧
        f1.fastCache = f2.fastCache := by
      rw [hunfold] at h
      split at h
      · cases h
      · rename_i c0 err0 f2 hpar
        cases h
        exact ⟨rfl, _, _, hpar, rfl⟩
      · rename_i cp f2 hpar
        split at h
        · cases h
        · rename_i x err0 f3 hin
          have g := (findInDir_cache hin).1
          cases h
          exact ⟨rfl, _, _, hpar, g⟩
        · cases h
        · rename_i item f3 hin
          have g := (findInDir_cache hin).1
          split at h
          · cases h
            exact ⟨rfl, _, _, hpar, g⟩
          · split at h
            · cases h
            · cases h
    refine ⟨hframe.1, hframe.2, ?_⟩
    intro hfp habs
    obtain ⟨rp, f2, hpar, hfc⟩ := hframe.2
    obtain ⟨es, hes, hclean⟩ := goClean_abs p (goClean_head p habs)
    have hc : d.filepath.Clean p = absPath es := by rw [hfp]; exact hclean
    rcases List.eq_nil_or_concat es with h0 | ⟨es0, e, h0⟩
    · subst h0
      exact absurd hc hroot
    · rw [List.concat_eq_append] at h0
      subst h0
      have hes0 : ∀ x ∈ es0, Proper x := fun x hx => hes x (by simp [hx])
      have he : Proper e := hes e (by simp)
      have hdir : d.filepath.Dir (d.filepath.Clean p) = absPath es0 := by
        rw [hc, hfp]
        exact goDir_absPath es0 e hes
      rw [hdir] at hpar
      have hk := findPath_keys d hfp depth _ _ _ _ es0 hpar hes0 (goClean_absPath es0 hes0)
        (d.filepath.Clean p) (by rw [hc]; exact absPath_length es0 e he.1) hmiss
      apply Find_miss
      rw [hfc]
      exact hk
  · intro c f1 h
    have hspec := findPath_spec d (by decide : (1 : Int) ≤ cacheSize) (depth + 1) f p
      (c, none) f1
    have hmaps : Inv cacheSize f.fastCache → f1.fastCache.Maps (d.filepath.Clean p) c := by
      intro hinv
      rcases (hspec hinv h).2.2 rfl with ⟨h1, -⟩ | ⟨-, h2⟩
      · exact absurd h1 hroot
      · exact h2
    rw [hunfold] at h
    split at h
    · cases h
    · cases h
    · rename_i cp f2 hpar
      split at h
      · cases h
      · cases h
      · cases h
      · rename_i item f3 hin
        split at h
        · cases h
        · rename_i hdir
          split at h
          · cases h
          · rename_i f4 hst
            simp only [Option.some.injEq, Prod.mk.injEq] at h
            obtain ⟨⟨hcp, -⟩, hf4⟩ := h
            subst hcp
            subst hf4
            refine ⟨cp, f2, item, f3, hpar, hin, by simpa using hdir, rfl, ?_, hmaps⟩
            unfold FileTree.lruStore at hst
            split at hst
            · cases hst
            · rename_i fc hS
              cases hst
              exact hS

set_option maxRecDepth 8000 in
/-- In the small tree, `/file` is a regular file: `findPath` fails with `is
not a directory` and the directory cache stays empty. -/
theorem findPath_not_directory_witness :
    testDeps.filepath.Clean "/file" ≠ "/" ∧
    testTree.fastCache.storage.get (testDeps.filepath.Clean "/file") = none ∧
    testTree.findPath testDeps 2 "/file" =
      some (("", some "/enc/Xfile is not a directory"),
        testTreeAt 5 [.lruFind "/file", .readFile "/enc/gocryptfs.diriv", .readDir "/enc",
                      .decryptName "gocryptfs.diriv" [73, 86], .decryptName "Xdir" [73, 86],
                      .decryptName "Xfile" [73, 86]]) :=
  ⟨by decide, by decide,
   ((findPath_not_directory testDeps 1 testTree "/file" (by decide) (by decide)).1
      "/enc" (testTreeAt 0 [.lruFind "/file"])
      { Name := "Xfile", Size := 150, Mode := 420, ModTime := 3, IsDir := false, Sys := some 7 }
      (testTreeAt 5 [.lruFind "/file", .readFile "/enc/gocryptfs.diriv", .readDir "/enc",
                     .decryptName "gocryptfs.diriv" [73, 86], .decryptName "Xdir" [73, 86],
                     .decryptName "Xfile" [73, 86]])
      (by decide) (by decide) rfl).1⟩

end filetree

namespace filetree

open requester (GoError)

/-- C29. The method `Stat(p)`.  Whenever the resolution of the cleaned path
fails, `Stat` returns a nil item and the error of the resolution behind `Stat:
error finding path:`, in the state the resolution ended in: the backend `Stat`
is not called, by `Stat` or by the resolution.  This is what happens for a
path, not mapped by the directory cache, whose last element is found as an entry
that is not a directory: the error ends in `is not a directory`.  A success of
`Stat` comes from a path that resolves, which is `/` or one the directory cache
then maps, and from a backend `Stat` that answers it; the item returned has the
base name of the cleaned path for `Name()` and the plaintext size of the backend
size for `Size()`. -/
theorem Stat_regular_file {σ : Type} (d : Deps σ) (depth : Nat) (f : FileTree σ)
    (p : String) :
    (∀ c err f1, f.findPath d depth (d.filepath.Clean p) = some ((c, some err), f1) →
      f.Stat d depth p = some ((none, some ("Stat: " ++ ("error finding path: " ++ err))), f1) ∧
      statCalls f1.trace = statCalls f.trace) ∧
    (d.filepath.Clean (d.filepath.Clean p) = d.filepath.Clean p →
      d.filepath.Clean p ≠ "/" →
      f.fastCache.storage.get (d.filepath.Clean p) = none →
      ∀ n cp f2 item f3, depth = n + 1 →
        (f.afterMiss (d.filepath.Clean p)).findPath d n
          (d.filepath.Dir (d.filepath.Clean p)) = some ((cp, none), f2) →
        f2.findInDir d cp (d.filepath.Base (d.filepath.Clean p)) =
          some ((some item, none), f3) →
        item.IsDir = false →
        f.Stat d depth p =
            some ((none, some ("Stat: " ++ ("error finding path: " ++
              (d.filepath.Join cp item.Name ++ " is not a directory")))), f3) ∧
          statCalls f3.trace = statCalls f.trace) ∧
    (∀ info f1, f.Stat d depth p = some ((some info, none), f1) →
      ∃ c f2 item,
        f.findPath d depth (d.filepath.Clean p) = some ((c, none), f2) ∧
        f2.fsStat d c = some ((some item, none), f1) ∧
        info = plainFileInfo item (d.filepath.Base (d.filepath.Clean p))
          (plainSize d item.Size) ∧
        info.Name = d.filepath.Base (d.filepath.Clean p) ∧
        info.Size = toInt64 (d.CipherSizeToPlainSize (toUint64 item.Size)) ∧
        (Inv cacheSize f.fastCache →
          d.filepath.Clean (d.filepath.Clean p) = "/" ∨
          f2.fastCache.Maps (d.filepath.Clean (d.filepath.Clean p)) c)) := by
  have hfail : ∀ c err f1,
      f.findPath d depth (d.filepath.Clean p) = some ((c, some err), f1) →
      f.Stat d depth p = some ((none, some ("Stat: " ++ ("error finding path: " ++ err))), f1) ∧
      statCalls f1.trace = statCalls f.trace := by
    intro c err f1 h
    refine ⟨?_, findPath_stat d depth f _ _ f1 h⟩
    unfold FileTree.Stat
    dsimp only
    rw [h]
  refine ⟨hfail, ?_, ?_⟩
  · intro hidem hroot hmiss n cp f2 item f3 hn hpar hin hdir
    subst hn
    apply hfail ""
    have hroot1 : d.filepath.Clean (d.filepath.Clean p) ≠ "/" := by rw [hidem]; exact hroot
    have hmiss1 : f.fastCache.storage.get (d.filepath.Clean (d.filepath.Clean p)) = none := by
      rw [hidem]
      exact hmiss
    rw [findPath_miss d n f (d.filepath.Clean p) hroot1 hmiss1, hidem, hpar]
    dsimp only
    rw [hin]
    dsimp only
    rw [hdir]
    rfl
  · intro info f1 h
    unfold FileTree.Stat at h
    dsimp only at h
    split at h
    · cases h
    · cases h
    · rename_i c f2 hres
      split at h
      · cases h
      · cases h
      · cases h
      · rename_i item f3 hstat
        simp only [Option.some.injEq, Prod.mk.injEq, and_true] at h
        obtain ⟨hinfo, hf⟩ := h
        subst hinfo
        subst hf
        refine ⟨c, f2, item, hres, hstat, rfl, rfl, rfl, ?_⟩
        intro hinv
        rcases (findPath_spec d (by decide : (1 : Int) ≤ cacheSize) depth f _ (c, none) f2
          hinv hres).2.2 rfl with ⟨h1, -⟩ | ⟨-, h2⟩
        · exact Or.inl h1
        · exact Or.inr h2

set_option maxRecDepth 8000 in
/-- In the small tree, `Stat` on the regular file `/file` fails in the
resolution of the path, and no call of the backend `Stat` is recorded. -/
theorem Stat_regular_file_witness :
    testTree.findPath testDeps 2 (testDeps.filepath.Clean "/file") =
      some (("", some "/enc/Xfile is not a directory"),
        testTreeAt 5 [.lruFind "/file", .readFile "/enc/gocryptfs.diriv", .readDir "/enc",
                      .decryptName "gocryptfs.diriv" [73, 86], .decryptName "Xdir" [73, 86],
                      .decryptName "Xfile" [73, 86]]) ∧
    testTree.Stat testDeps 2 "/file" =
      some ((none, some "Stat: error finding path: /enc/Xfile is not a directory"),
        testTreeAt 5 [.lruFind "/file", .readFile "/enc/gocryptfs.diriv", .readDir "/enc",
                      .decryptName "gocryptfs.diriv" [73, 86], .decryptName "Xdir" [73, 86],
                      .decryptName "Xfile" [73, 86]]) :=
  ⟨by decide,
   ((Stat_regular_file testDeps 2 testTree "/file").1 ""
      "/enc/Xfile is not a directory"
      (testTreeAt 5 [.lruFind "/file", .readFile "/enc/gocryptfs.diriv", .readDir "/enc",
                     .decryptName "gocryptfs.diriv" [73, 86], .decryptName "Xdir" [73, 86],
                     .decryptName "Xfile" [73, 86]])
      (by decide)).1⟩

/-- The cleaned form of a path that begins with `/` is `/` followed by its
elements. -/
theorem goClean_pathElems (p : String) (h : p.data.head? = some '/') :
    (∀ e ∈ pathElems p, Proper e) ∧ goClean p = absPath (pathElems p) := by
  cases hp : p.data with
  | nil => rw [hp] at h; cases h
  | cons c cs =>
    rw [hp] at h
    simp only [List.head?_cons, Option.some.injEq] at h
    subst h
    unfold pathElems
    rw [hp]
    exact ⟨cleanElems_proper _ [] (fun e he => by cases he) (splitPath_mem _ [] (by simp)),
      goClean_rooted p cs hp⟩

/-- C30. With Go's path functions: for a path whose cleaned form begins with
`/`, that form is `/` followed by its elements; its parent is the same path
without the last element, again clean and strictly shorter; and when every call
of the coalescer returns and the directory cache is in a state reachable from
`NewFastCache(cacheSize)`, `findPath` returns within one call for each element
and one for `/`.  For a path whose cleaned form does not begin with `/`, as
`foo` and the empty path, the parent chain stays relative, the parent of `.`
is `.`, and with no relative path mapped by the directory cache `findPath` does
not return within any number of calls. -/
theorem findPath_termination {σ : Type} (d : Deps σ) (hfp : d.filepath = goFilepath)
    (f : FileTree σ) (p : String) :
    ((goClean p).data.head? = some '/' →
      (∀ e ∈ pathElems p, Proper e) ∧ d.filepath.Clean p = absPath (pathElems p) ∧
      (∀ es0 e, pathElems p = es0 ++ [e] →
        d.filepath.Dir (d.filepath.Clean p) = absPath es0 ∧
        d.filepath.Clean (absPath es0) = absPath es0 ∧
        (absPath es0).length < (d.filepath.Clean p).length) ∧
      (d.Total → Reachable cacheSize f.fastCache →
        ∀ depth, (pathElems p).length + 1 ≤ depth →
          ∃ r f1, f.findPath d depth p = some (r, f1))) ∧
    ((goClean p).data.head? ≠ some '/' →
      (d.filepath.Dir (d.filepath.Clean p)).data.head? ≠ some '/' ∧
      ((∀ k : String, k.data.head? ≠ some '/' → f.fastCache.storage.get k = none) →
        ∀ depth, f.findPath d depth p = none)) ∧
    d.filepath.Clean "foo" = "foo" ∧ d.filepath.Dir "foo" = "." ∧
    d.filepath.Clean "" = "." ∧ d.filepath.Clean "." = "." ∧ d.filepath.Dir "." = "." := by
  refine ⟨?_, ?_, ?_⟩
  · intro habs
    obtain ⟨hes, hclean⟩ := goClean_pathElems p (goClean_head p habs)
    have hc : d.filepath.Clean p = absPath (pathElems p) := by rw [hfp]; exact hclean
    refine ⟨hes, hc, ?_, ?_⟩
    · intro es0 e h0
      rw [h0] at hes hc
      have hes0 : ∀ x ∈ es0, Proper x := fun x hx => hes x (by simp [hx])
      have he : Proper e := hes e (by simp)
      refine ⟨?_, ?_, ?_⟩
      · rw [hc, hfp]
        exact goDir_absPath es0 e hes
      · rw [hfp]
        exact goClean_absPath es0 hes0
      · rw [hc]
        exact absPath_length es0 e he.1
    · intro hd hreach depth hdepth
      exact findPath_abs_total d hfp hd (pathElems p) f p depth hes hclean
        (hreach.inv (by decide)) hdepth
  · intro hrel
    refine ⟨?_, fun hcache depth => findPath_relative d hfp depth f p hrel hcache⟩
    intro h0
    rw [hfp] at h0
    exact hrel (goDir_head _ h0)
  · rw [hfp]
    decide

set_option maxRecDepth 8000 in
/-- In the small tree, `/dir/x` has two elements and `findPath` returns
within three calls, while on `foo` and on the empty path it returns within no
number of calls. -/
theorem findPath_termination_witness :
    (goClean "/dir/x").data.head? = some '/' ∧
    (goClean "foo").data.head? ≠ some '/' ∧
    (goClean "").data.head? ≠ some '/' ∧
    (∃ r f1, testTree.findPath testDeps 3 "/dir/x" = some (r, f1)) ∧
    (∀ depth, testTree.findPath testDeps depth "foo" = none) ∧
    (∀ depth, testTree.findPath testDeps depth "" = none) :=
  ⟨by decide, by decide, by decide,
   ((findPath_termination testDeps rfl testTree "/dir/x").1 (by decide)).2.2.2
     ⟨fun _ _ => rfl, fun _ _ => rfl, fun _ _ _ => rfl⟩ Reachable.init 3 (by decide),
   ((findPath_termination testDeps rfl testTree "foo").2.1 (by decide)).2
     (fun _ _ => rfl),
   ((findPath_termination testDeps rfl testTree "").2.1 (by decide)).2
     (fun _ _ => rfl)⟩

end filetree

/-! ## Where the resolved entries come from -/

namespace requester

theorem workerRequest_congr (r r1 : Requester) (hb : r1.backend = r.backend)
    (hd : r1.decrypter = r.decrypter) (calls : List work) (w : work) :
    workerRequest r1 calls w = workerRequest r calls w := by
  unfold workerRequest
  rw [hb, hd]

theorem System.complete_provenance (sys : System) (r0 : Requester) (j : Job)
    (h : sys.Provenance r0) : (sys.complete j).Provenance r0 := by
  unfold System.complete
  split
  · exact h
  · rename_i c key hwt
    refine ⟨?_, ?_⟩
    · intro calls w
      simp only [workerRequest_setCache]
      exact h.request calls w
    · intro c1 key1 e he h0
      by_cases hc : c1 = c
      · subst hc
        simp only [Requester.cache_setCache, performRequestAndCacheSet, syncCache.Set,
          GoMap.get_set] at he
        split at he
        · rename_i hk
          subst hk
          simp only [Option.some.injEq] at he
          refine ⟨sys.calls, [], j.w, rfl, hwt, ?_⟩
          rw [← he, h.request]
        · obtain ⟨pre, post, w, e1, e2, e3⟩ := h.entries c1 key1 e he h0
          refine ⟨pre, post ++ [j.w], w, ?_, e2, e3⟩
          show sys.calls ++ [j.w] = _
          rw [e1]
          simp
      · rw [Requester.cache_setCache_ne _ _ _ _ hc] at he
        obtain ⟨pre, post, w, e1, e2, e3⟩ := h.entries c1 key1 e he h0
        refine ⟨pre, post ++ [j.w], w, ?_, e2, e3⟩
        show sys.calls ++ [j.w] = _
        rw [e1]
        simp

theorem System.foldl_complete_provenance (r0 : Requester) (js : List Job) :
    ∀ sys : System, sys.Provenance r0 → (js.foldl System.complete sys).Provenance r0 := by
  induction js with
  | nil => intro sys h; exact h
  | cons j js ih =>
    intro sys h
    exact ih _ (System.complete_provenance sys r0 j h)

theorem System.tick_provenance (sys : System) (r0 : Requester) (h : sys.Provenance r0) :
    sys.tick.Provenance r0 := by
  simp only [System.tick]
  exact System.foldl_complete_provenance r0 _ _ ⟨h.request, h.entries⟩

theorem System.finish_provenance (sys : System) (r0 : Requester) (num : Int)
    (h : sys.Provenance r0) : (sys.finish num).Provenance r0 := by
  unfold System.finish
  exact System.foldl_complete_provenance r0 _ _ ⟨h.request, h.entries⟩

theorem System.complete_complexKey (sys : System) (j : Job) :
    (sys.complete j).complexKey = sys.complexKey ∧ (sys.complete j).jobs = sys.jobs ∧
      (sys.complete j).sent = sys.sent ∧ (sys.complete j).sched = sys.sched := by
  unfold System.complete
  split <;> exact ⟨rfl, rfl, rfl, rfl⟩

theorem System.foldl_complete_complexKey (js : List Job) :
    ∀ s : System, (js.foldl System.complete s).complexKey = s.complexKey ∧
      (js.foldl System.complete s).jobs = s.jobs ∧
      (js.foldl System.complete s).sent = s.sent := by
  induction js with
  | nil => intro s; exact ⟨rfl, rfl, rfl⟩
  | cons j js ih =>
    intro s
    rw [List.foldl_cons]
    obtain ⟨h1, h2, h3⟩ := ih (s.complete j)
    obtain ⟨g1, g2, g3, -⟩ := System.complete_complexKey s j
    exact ⟨h1.trans g1, h2.trans g2, h3.trans g3⟩

theorem System.tick_key (sys : System) : sys.tick.complexKey = sys.complexKey := by
  simp only [System.tick]
  exact (System.foldl_complete_complexKey _ _).1

theorem System.finish_complexKey (sys : System) (num : Int) :
    (sys.finish num).complexKey = sys.complexKey := by
  unfold System.finish
  exact (System.foldl_complete_complexKey _ _).1

theorem System.send_complexKey (sys : System) (w : work) (resp : Resp) (sys1 : System)
    (hs : sys.send w = some (resp, sys1)) : sys1.complexKey = sys.complexKey := by
  unfold System.send at hs
  simp only [] at hs
  have gk := System.finish_complexKey (System.mk sys.r sys.complexKey sys.sched sys.jobs
    sys.calls (sys.sent + 1)) sys.nextWorker
  split at hs
  · simp only [Option.some.injEq, Prod.mk.injEq] at hs
    obtain ⟨-, rfl⟩ := hs
    rfl
  · split at hs
    · simp only [Option.some.injEq, Prod.mk.injEq] at hs
      obtain ⟨-, rfl⟩ := hs
      exact gk
    · split at hs
      · cases hs
      · split at hs
        · simp only [Option.some.injEq, Prod.mk.injEq] at hs
          obtain ⟨-, rfl⟩ := hs
          exact gk
        · simp only [Option.some.injEq, Prod.mk.injEq] at hs
          obtain ⟨-, rfl⟩ := hs
          exact gk

theorem System.step_complexKey (sys : System) (op : SysOp) (sys1 : System)
    (hs : sys.step op = some sys1) : sys1.complexKey = sys.complexKey := by
  cases op with
  | get c key =>
    simp only [System.step, System.env_Get, Option.some.injEq] at hs
    subst hs
    exact System.tick_key sys
  | delete c key =>
    simp only [System.step, System.env_Delete, Option.some.injEq] at hs
    subst hs
    rfl
  | send w =>
    simp only [System.step] at hs
    cases hsend : sys.send w with
    | none => rw [hsend] at hs; cases hs
    | some p =>
      obtain ⟨resp, s2⟩ := p
      rw [hsend] at hs
      simp only [Option.map_some', Option.some.injEq] at hs
      subst hs
      exact System.send_complexKey sys w resp s2 hsend
  | wait t =>
    simp only [System.step] at hs
    unfold System.Wait at hs
    split at hs
    · cases hs
    · simp only [Option.some.injEq] at hs
      subst hs
      exact System.finish_complexKey sys _
  | clear =>
    simp only [System.step, Option.some.injEq] at hs
    subst hs
    rfl

theorem System.Reachable.complexKey {sys0 sys : System} (h : System.Reachable sys0 sys) :
    sys.complexKey = sys0.complexKey := by
  induction h with
  | init => rfl
  | step op _ hs ih => exact (System.step_complexKey _ op _ hs).trans ih

theorem New_caches (numWorkers : Int) (backend : Backend) (decrypter : Decrypter)
    (r : Requester) (hr : New numWorkers backend decrypter = some r) :
    r.backend = backend ∧ r.decrypter = decrypter ∧ r.numWorkers = numWorkers ∧
      r.fileCache.m = [] ∧ r.dirCache.m = [] ∧ r.decryptCache.m = [] := by
  unfold New at hr
  split at hr
  · cases hr
  · cases hr
    exact ⟨rfl, rfl, rfl, rfl, rfl, rfl⟩

theorem System.send_provenance (sys : System) (r0 : Requester) (w : work) (resp : Resp)
    (sys1 : System) (h : sys.Provenance r0) (hs : sys.send w = some (resp, sys1)) :
    sys1.Provenance r0 := by
  unfold System.send at hs
  simp only [] at hs
  have h0 : (System.mk sys.r sys.complexKey sys.sched sys.jobs sys.calls
      (sys.sent + 1)).Provenance r0 := ⟨h.request, h.entries⟩
  split at hs
  · simp only [Option.some.injEq, Prod.mk.injEq] at hs
    obtain ⟨-, rfl⟩ := hs
    exact h0
  · rename_i hnw
    have hw1 : 1 ≤ sys.r.numWorkers := by omega
    have hr0 : sys.nextWorker ≠ 0 := (sys.nextWorker_range hw1).2.2
    have g1 := System.finish_provenance _ r0 sys.nextWorker h0
    have gk := System.finish_complexKey (System.mk sys.r sys.complexKey sys.sched sys.jobs
      sys.calls (sys.sent + 1)) sys.nextWorker
    split at hs
    · simp only [Option.some.injEq, Prod.mk.injEq] at hs
      obtain ⟨-, rfl⟩ := hs
      exact g1
    · rename_i c key hwt
      split at hs
      · cases hs
      · rename_i cache1 resp1 run hp
        have hent := performRequestAndCache_entries _ _ _ _ _ _ _ hp
        have hprov : ∀ (jobs : List Job), (System.mk
            (((System.mk sys.r sys.complexKey sys.sched sys.jobs sys.calls
              (sys.sent + 1)).finish sys.nextWorker).r.setCache c cache1)
            ((System.mk sys.r sys.complexKey sys.sched sys.jobs sys.calls
              (sys.sent + 1)).finish sys.nextWorker).complexKey
            ((System.mk sys.r sys.complexKey sys.sched sys.jobs sys.calls
              (sys.sent + 1)).finish sys.nextWorker).sched
            jobs
            ((System.mk sys.r sys.complexKey sys.sched sys.jobs sys.calls
              (sys.sent + 1)).finish sys.nextWorker).calls
            ((System.mk sys.r sys.complexKey sys.sched sys.jobs sys.calls
              (sys.sent + 1)).finish sys.nextWorker).sent).Provenance r0 := by
          intro jobs
          refine ⟨?_, ?_⟩
          · intro calls w1
            simp only [workerRequest_setCache]
            exact g1.request calls w1
          · intro c1 key1 e he h1
            by_cases hc : c1 = c
            · subst hc
              rw [Requester.cache_setCache] at he
              rcases hent key1 e he with he1 | he1
              · exact g1.entries c1 key1 e he1 h1
              · subst he1
                exact absurd h1 hr0
            · rw [Requester.cache_setCache_ne _ _ _ _ hc] at he
              exact g1.entries c1 key1 e he h1
        split at hs
        · simp only [Option.some.injEq, Prod.mk.injEq] at hs
          obtain ⟨-, rfl⟩ := hs
          exact hprov _
        · simp only [Option.some.injEq, Prod.mk.injEq] at hs
          obtain ⟨-, rfl⟩ := hs
          exact hprov _

theorem System.step_provenance (sys : System) (r0 : Requester) (op : SysOp) (sys1 : System)
    (h : sys.Provenance r0) (hs : sys.step op = some sys1) : sys1.Provenance r0 := by
  cases op with
  | get c key =>
    simp only [System.step, System.env_Get, Option.some.injEq] at hs
    subst hs
    exact System.tick_provenance sys r0 h
  | delete c key =>
    simp only [System.step, System.env_Delete, Option.some.injEq] at hs
    subst hs
    refine ⟨?_, ?_⟩
    · intro calls w
      simp only [workerRequest_setCache]
      exact h.request calls w
    · intro c1 key1 e he h0
      by_cases hc : c1 = c
      · subst hc
        simp only [Requester.cache_setCache, syncCache.Delete, GoMap.get_delete] at he
        split at he
        · cases he
        · exact h.entries c1 key1 e he h0
      · rw [Requester.cache_setCache_ne _ _ _ _ hc] at he
        exact h.entries c1 key1 e he h0
  | send w =>
    simp only [System.step] at hs
    cases hsend : sys.send w with
    | none => rw [hsend] at hs; cases hs
    | some p =>
      obtain ⟨resp, s2⟩ := p
      rw [hsend] at hs
      simp only [Option.map_some', Option.some.injEq] at hs
      subst hs
      exact System.send_provenance sys r0 w resp s2 h hsend
  | wait t =>
    simp only [System.step] at hs
    unfold System.Wait at hs
    split at hs
    · cases hs
    · simp only [Option.some.injEq] at hs
      subst hs
      exact System.finish_provenance sys r0 _ h
  | clear =>
    simp only [System.step, Option.some.injEq] at hs
    subst hs
    refine ⟨?_, ?_⟩
    · intro calls w
      exact (workerRequest_congr sys.r _ rfl rfl calls w).trans (h.request calls w)
    · intro c1 key1 e he h0
      apply h.entries c1 key1 e _ h0
      cases c1 <;>
        exact GoMap.get_foldl_delete _ _ _ _ he

theorem System.Reachable.provenance {sys0 sys : System} {r0 : Requester}
    (h0 : sys0.Provenance r0) (h : System.Reachable sys0 sys) : sys.Provenance r0 := by
  induction h with
  | init => exact h0
  | step op _ hs ih => exact System.step_provenance _ r0 op _ ih hs

theorem System.start_provenance (r : Requester) (complexKey : String → List Nat → String)
    (sched : Nat → Nat × Nat) (h1 : r.fileCache.m = []) (h2 : r.dirCache.m = [])
    (h3 : r.decryptCache.m = []) : (System.start r complexKey sched).Provenance r := by
  refine ⟨fun _ _ => rfl, ?_⟩
  intro c key e he
  cases c
  · simp only [System.start, Requester.cache, h1] at he
    cases he
  · simp only [System.start, Requester.cache, h2] at he
    cases he
  · simp only [System.start, Requester.cache, h3] at he
    cases he

/-- C21, amended. On a requester made by `New` and started, in every state
reached by cache reads, deletions, sends, waits and `ClearCache`, with the
workers running as the scheduler decides, every entry stored in the file,
directory or decrypt cache is in exactly one of five states: pending (no
data, no error, ticket id not 0), or, with ticket id 0, resolved-ok (data, no
error), resolved-err (error, no data), resolved-empty (neither) or resolved
with both data and error.  An entry with ticket id 0 holds what the worker's
closure returned for an invocation in the log whose target is the entry's cache
and key; and that closure returns the error of the backend or decrypter as it
is, with the payload as data when the payload is not empty and without data
otherwise.  So an entry has both data and error exactly when the operation
returned a non-empty payload together with an error. -/
theorem cache_entry_states (numWorkers : Int) (hn : 0 ≤ numWorkers) (backend : Backend)
    (decrypter : Decrypter) (r : Requester) (hr : New numWorkers backend decrypter = some r)
    (complexKey : String → List Nat → String) (sched : Nat → Nat × Nat) (sys : System)
    (hreach : System.Reachable (System.start r complexKey sched) sys)
    (c : CacheRef) (key : String) (e : genCacheEntry)
    (he : (sys.r.cache c).m.get key = some e) :
    ((e.data = none ∧ e.err = none ∧ e.lockerNum ≠ 0) ∨
     (e.data.isSome = true ∧ e.err = none ∧ e.lockerNum = 0) ∨
     (e.data = none ∧ e.err.isSome = true ∧ e.lockerNum = 0) ∨
     (e.data = none ∧ e.err = none ∧ e.lockerNum = 0) ∨
     (e.data.isSome = true ∧ e.err.isSome = true ∧ e.lockerNum = 0)) ∧
    (e.lockerNum = 0 →
      ∃ (pre post : List work) (w : work), sys.calls = pre ++ w :: post ∧
        workerTarget complexKey w = some (c, key) ∧
        e.data = (workerRequest r pre w).1 ∧ e.err = (workerRequest r pre w).2) ∧
    (∀ (calls : List work) (path : String) (arg2 : List Nat),
      workerRequest r calls ⟨.workReadFile, path, arg2⟩ =
        (if (backend.ReadFile calls path).1.length > 0
          then some (.fileData (backend.ReadFile calls path).1) else none,
         (backend.ReadFile calls path).2)) ∧
    (∀ (calls : List work) (path : String) (arg2 : List Nat),
      workerRequest r calls ⟨.workReadDir, path, arg2⟩ =
        (if (backend.ReadDir calls path).1.length > 0
          then some (.dirData (backend.ReadDir calls path).1) else none,
         (backend.ReadDir calls path).2)) ∧
    (∀ (calls : List work) (cName : String) (iv : List Nat),
      workerRequest r calls ⟨.workDecryptName, cName, iv⟩ =
        (if (decrypter.DecryptName calls cName iv).1.length > 0
          then some (.decryptedName (decrypter.DecryptName calls cName iv).1) else none,
         (decrypter.DecryptName calls cName iv).2)) := by
  obtain ⟨hb, hd, -, hf1, hf2, hf3⟩ := New_caches numWorkers backend decrypter r hr
  obtain ⟨r1, hr1, -, -, hok⟩ := New_ticketsOk numWorkers backend decrypter hn complexKey sched
  rw [hr] at hr1
  cases hr1
  obtain ⟨g, -, -⟩ := System.Reachable.ticketsOk hok hreach
  have hprov := System.Reachable.provenance
    (System.start_provenance r complexKey sched hf1 hf2 hf3) hreach
  have hkey : sys.complexKey = complexKey := System.Reachable.complexKey hreach
  refine ⟨?_, ?_, ?_, ?_, ?_⟩
  · rcases g.entries c key e he with h0 | ⟨hd0, herr, h1, -⟩
    · cases hd1 : e.data <;> cases herr : e.err <;> simp [h0]
    · exact Or.inl ⟨hd0, herr, by omega⟩
  · intro h0
    obtain ⟨pre, post, w, e1, e2, e3⟩ := hprov.entries c key e he h0
    rw [hkey] at e2
    refine ⟨pre, post, w, e1, e2, ?_, ?_⟩
    · rw [e3]
    · rw [e3]
  · intro calls path arg2
    simp only [workerRequest, hb]
    split <;> rfl
  · intro calls path arg2
    simp only [workerRequest, hb]
    split <;> rfl
  · intro calls cName iv
    simp only [workerRequest, hd]
    split <;> rfl

/-- On the test requester, after one `ReadFile("/a")` has been sent and the
next cache read has let the worker finish, the entry under `/a` is in the state
resolved-err: it holds the error that the backend returned for the one
invocation in the log. -/
theorem cache_entry_states_witness :
    ∃ sys1 sys2, testSystem.step (.send ⟨.workReadFile, "/a", []⟩) = some sys1 ∧
      sys1.step (.get .fileCache "/a") = some sys2 ∧
      (sys2.r.cache .fileCache).m.get "/a" =
        some { data := none, err := some "Not found", lockerNum := 0 } ∧
      ∃ (pre post : List work) (w : work), sys2.calls = pre ++ w :: post ∧
        workerTarget (fun cName _ => cName) w = some (.fileCache, "/a") ∧
        (none : Option Payload) = (workerRequest testRequester pre w).1 ∧
        some "Not found" = (workerRequest testRequester pre w).2 :=
  ⟨_, _, rfl, rfl, rfl,
    (cache_entry_states 1 (by decide) testBackend testDecrypter testRequester rfl
      (fun cName _ => cName) (fun _ => (0, 0)) _
      (System.Reachable.step (.get .fileCache "/a")
        (System.Reachable.step (.send ⟨.workReadFile, "/a", []⟩) System.Reachable.init rfl)
        rfl)
      .fileCache "/a" { data := none, err := some "Not found", lockerNum := 0 } rfl).2.1 rfl⟩

end requester

/-! ## Single-flight while the entry is kept -/

namespace requester

theorem countP_split {α : Type} (p q : α → Bool) (l : List α) :
    (l.filter q).countP p + (l.filter (fun a => !q a)).countP p = l.countP p := by
  induction l with
  | nil => rfl
  | cons a l ih =>
    cases hq : q a <;> cases hp : p a <;>
      simp [List.filter_cons, List.countP_cons, hq, hp] <;> omega

theorem set_get_other (r : Requester) (c c1 : CacheRef) (key k1 : String) (res : Result)
    (hne : ¬ (c1 = c ∧ k1 = key)) :
    ((r.setCache c1 (performRequestAndCacheSet k1 (r.cache c1) res)).cache c).m.get key =
      (r.cache c).m.get key := by
  by_cases hc : c = c1
  · subst hc
    have hk : ¬ k1 = key := fun e => hne ⟨rfl, e⟩
    simp only [Requester.cache_setCache, performRequestAndCacheSet, syncCache.Set,
      GoMap.get_set, hk, if_false]
  · rw [Requester.cache_setCache_ne _ _ _ _ hc]

theorem set_get_same (r : Requester) (c : CacheRef) (key : String) (res : Result) :
    ((r.setCache c (performRequestAndCacheSet key (r.cache c) res)).cache c).m.get key =
      some { data := res.1, err := res.2, lockerNum := 0 } := by
  simp only [Requester.cache_setCache, performRequestAndCacheSet, syncCache.Set,
    GoMap.get_set, if_true]

theorem targets_iff (complexKey : String → List Nat → String) (c : CacheRef) (key : String)
    (w : work) : w.targets complexKey c key = true ↔ workerTarget complexKey w = some (c, key) := by
  simp [work.targets]

/-- The worker of a job calls `request()` and stores the result: the counts
of invocations move from the jobs about to complete to the log. -/
theorem System.complete_single (sys : System) (c : CacheRef) (key : String) (j : Job)
    (pend : List Job) (h : sys.Single c key (j :: pend)) :
    (sys.complete j).Single c key pend := by
  have hle : (if ((sys.r.cache c).m.get key).isSome then 1 else 0) ≤ 1 := by
    split <;> omega
  have hcount := h.count
  have hres := h.resolved
  rw [List.countP_cons] at hcount
  simp only [List.countP_cons] at hres
  unfold System.complete
  split
  · rename_i hwt
    have hj : j.w.targets sys.complexKey c key = false := by
      simp [work.targets, hwt]
    simp only [hj, Bool.false_eq_true, if_false, Nat.add_zero] at hcount hres
    exact ⟨hcount, hres⟩
  · rename_i c1 k1 hwt
    by_cases htg : c1 = c ∧ k1 = key
    · obtain ⟨rfl, rfl⟩ := htg
      have hj : j.w.targets sys.complexKey c1 k1 = true := (targets_iff _ _ _ _).mpr hwt
      simp only [hj, if_true] at hcount hres
      refine ⟨?_, ?_⟩
      · show (sys.calls ++ [j.w]).countP (work.targets sys.complexKey c1 k1) + _ + _ = _
        rw [set_get_same]
        simp only [List.countP_append, List.countP_cons, List.countP_nil, hj, if_true,
          Option.isSome_some]
        omega
      · intro e _ _
        show List.countP (fun j => j.w.targets sys.complexKey c1 k1) pend +
          List.countP (fun j => j.w.targets sys.complexKey c1 k1) sys.jobs = 0
        omega
    · have hj : j.w.targets sys.complexKey c key = false := by
        cases hx : j.w.targets sys.complexKey c key with
        | false => rfl
        | true =>
          have := (targets_iff _ _ _ _).mp hx
          rw [hwt] at this
          simp only [Option.some.injEq, Prod.mk.injEq] at this
          exact absurd this htg
      simp only [hj, Bool.false_eq_true, if_false, Nat.add_zero] at hcount hres
      refine ⟨?_, ?_⟩
      · show (sys.calls ++ [j.w]).countP (work.targets sys.complexKey c key) + _ + _ = _
        rw [set_get_other _ _ _ _ _ _ htg]
        simp only [List.countP_append, List.countP_cons, List.countP_nil, hj,
          Bool.false_eq_true, if_false, Nat.add_zero]
        exact hcount
      · intro e he h0
        rw [set_get_other _ _ _ _ _ _ htg] at he
        exact hres e he h0

theorem System.foldl_complete_single (c : CacheRef) (key : String) (js : List Job) :
    ∀ sys : System, sys.Single c key js → (js.foldl System.complete sys).Single c key [] := by
  induction js with
  | nil => intro sys h; exact h
  | cons j js ih =>
    intro sys h
    exact ih _ (System.complete_single sys c key j js h)

theorem System.single_reshape (sys : System) (c : CacheRef) (key : String)
    (jobs1 pend : List Job) (sent1 : Nat)
    (hsum : pend.countP (fun j => j.w.targets sys.complexKey c key) +
      jobs1.countP (fun j => j.w.targets sys.complexKey c key) =
      sys.jobs.countP (fun j => j.w.targets sys.complexKey c key))
    (h : sys.Single c key []) :
    (System.mk sys.r sys.complexKey sys.sched jobs1 sys.calls sent1).Single c key pend := by
  have hcount := h.count
  have hres := h.resolved
  simp only [List.countP_nil, Nat.add_zero, Nat.zero_add] at hcount hres
  refine ⟨?_, ?_⟩
  · show sys.calls.countP (work.targets sys.complexKey c key) +
      pend.countP (fun j => j.w.targets sys.complexKey c key) +
      jobs1.countP (fun j => j.w.targets sys.complexKey c key) =
      if ((sys.r.cache c).m.get key).isSome then 1 else 0
    omega
  · intro e he h0
    show pend.countP (fun j => j.w.targets sys.complexKey c key) +
      jobs1.countP (fun j => j.w.targets sys.complexKey c key) = 0
    have := hres e he h0
    omega

theorem System.tick_single (sys : System) (c : CacheRef) (key : String)
    (h : sys.Single c key []) : sys.tick.Single c key [] := by
  simp only [System.tick]
  apply System.foldl_complete_single
  have hsplit := countP_split (fun j : Job => j.w.targets sys.complexKey c key)
    (fun j => j.delay == 0) sys.jobs
  have hmap : ((sys.jobs.filter (fun j => j.delay != 0)).map
      (fun j => Job.mk j.num j.w (j.delay - 1))).countP
        (fun j => j.w.targets sys.complexKey c key) =
      (sys.jobs.filter (fun j => !(j.delay == 0))).countP
        (fun j => j.w.targets sys.complexKey c key) := by
    rw [List.countP_map]
    rfl
  exact System.single_reshape sys c key _ _ sys.sent (by rw [hmap]; exact hsplit) h

theorem System.finish_single (sys : System) (c : CacheRef) (key : String) (num : Int)
    (h : sys.Single c key []) : (sys.finish num).Single c key [] := by
  unfold System.finish
  apply System.foldl_complete_single
  have hsplit := countP_split (fun j : Job => j.w.targets sys.complexKey c key)
    (fun j => j.num == num) sys.jobs
  exact System.single_reshape sys c key _ _ sys.sent hsplit h

/-- What `performRequestAndCache` does to the cache: it inserts the pending
entry under an absent key and goes on to call `request()`, or it finds an
entry and leaves the cache alone. -/
theorem performRequestAndCache_cases (lockers : List workTicket) (key : String) (num : Int)
    (cache cache1 : syncCache) (resp : Resp) (run : Bool)
    (h : performRequestAndCache lockers key num cache = some (cache1, resp, run)) :
    (cache.m.get key = none ∧
      cache1 = { m := cache.m.set key { data := none, err := none, lockerNum := num } } ∧
      run = true) ∨
    (∃ e, cache.m.get key = some e ∧ cache1 = cache ∧ run = false) := by
  unfold performRequestAndCache syncCache.GetOrInsert at h
  cases hg : cache.m.get key with
  | none =>
    simp only [hg, Bool.not_false, if_true] at h
    split at h
    · cases h
    · simp only [Option.some.injEq, Prod.mk.injEq] at h
      obtain ⟨rfl, -, rfl⟩ := h
      exact Or.inl ⟨rfl, rfl, rfl⟩
  | some e0 =>
    simp only [hg, Bool.not_true, Bool.false_eq_true, if_false] at h
    split at h
    · simp only [Option.some.injEq, Prod.mk.injEq] at h
      obtain ⟨rfl, -, rfl⟩ := h
      exact Or.inr ⟨e0, rfl, rfl, rfl⟩
    · split at h
      · cases h
      · simp only [Option.some.injEq, Prod.mk.injEq] at h
        obtain ⟨rfl, -, rfl⟩ := h
        exact Or.inr ⟨e0, rfl, rfl, rfl⟩

theorem Requester.cache_setCache_self (r : Requester) (c c1 : CacheRef) :
    (r.setCache c (r.cache c)).cache c1 = r.cache c1 := by
  cases c <;> cases c1 <;> rfl

theorem System.single_of_eq (s s1 : System) (c : CacheRef) (key : String)
    (hk : s1.complexKey = s.complexKey) (hcalls : s1.calls = s.calls)
    (hjobs : s1.jobs.countP (fun j => j.w.targets s.complexKey c key) =
      s.jobs.countP (fun j => j.w.targets s.complexKey c key))
    (hget : (s1.r.cache c).m.get key = (s.r.cache c).m.get key)
    (h : s.Single c key []) : s1.Single c key [] := by
  have hcount := h.count
  have hres := h.resolved
  refine ⟨?_, ?_⟩
  · rw [hk, hcalls, hjobs, hget]
    exact hcount
  · intro e he h0
    rw [hk, hjobs]
    rw [hget] at he
    exact hres e he h0

theorem System.single_insert (s s1 : System) (c : CacheRef) (key : String)
    (e1 : genCacheEntry)
    (hk : s1.complexKey = s.complexKey) (hcalls : s1.calls = s.calls)
    (hjobs : s1.jobs.countP (fun j => j.w.targets s.complexKey c key) =
      s.jobs.countP (fun j => j.w.targets s.complexKey c key) + 1)
    (habs : (s.r.cache c).m.get key = none)
    (hget : (s1.r.cache c).m.get key = some e1) (hne : e1.lockerNum ≠ 0)
    (h : s.Single c key []) : s1.Single c key [] := by
  have hcount := h.count
  simp only [habs, Option.isSome_none, Bool.false_eq_true, if_false, List.countP_nil,
    Nat.add_zero] at hcount
  refine ⟨?_, ?_⟩
  · rw [hk, hcalls, hjobs, hget]
    simp only [Option.isSome_some, if_true, List.countP_nil, Nat.add_zero]
    omega
  · intro e he h0
    rw [hget] at he
    cases he
    exact absurd h0 hne

/-- A send on the work queue starts an invocation for the entry only if the
entry is absent, and then inserts it. -/
theorem System.send_single (sys : System) (c : CacheRef) (key : String) (w : work)
    (resp : Resp) (sys1 : System) (h : sys.Single c key [])
    (hs : sys.send w = some (resp, sys1)) : sys1.Single c key [] := by
  unfold System.send at hs
  simp only [] at hs
  have h0 : (System.mk sys.r sys.complexKey sys.sched sys.jobs sys.calls
      (sys.sent + 1)).Single c key [] :=
    System.single_reshape sys c key sys.jobs [] (sys.sent + 1) (by simp) h
  split at hs
  · simp only [Option.some.injEq, Prod.mk.injEq] at hs
    obtain ⟨-, rfl⟩ := hs
    exact h0
  · rename_i hnw
    have hw1 : 1 ≤ sys.r.numWorkers := by omega
    have hr0 : sys.nextWorker ≠ 0 := (sys.nextWorker_range hw1).2.2
    have g1 := System.finish_single _ c key sys.nextWorker h0
    have gk := System.finish_complexKey (System.mk sys.r sys.complexKey sys.sched sys.jobs
      sys.calls (sys.sent + 1)) sys.nextWorker
    generalize (System.mk sys.r sys.complexKey sys.sched sys.jobs sys.calls
      (sys.sent + 1)).finish sys.nextWorker = S at hs g1 gk
    have gk1 : S.complexKey = sys.complexKey := gk
    split at hs
    · simp only [Option.some.injEq, Prod.mk.injEq] at hs
      obtain ⟨-, rfl⟩ := hs
      exact g1
    · rename_i c1 k1 hwt
      split at hs
      · cases hs
      · rename_i cache1 resp1 run hp
        rcases performRequestAndCache_cases _ _ _ _ _ _ _ hp with
          ⟨habs, rfl, rfl⟩ | ⟨e0, hpres, rfl, rfl⟩
        · simp only [if_true, Option.some.injEq, Prod.mk.injEq] at hs
          obtain ⟨-, rfl⟩ := hs
          by_cases htg : c1 = c ∧ k1 = key
          · obtain ⟨rfl, rfl⟩ := htg
            have hj : w.targets S.complexKey c1 k1 = true := by
              rw [gk1]
              exact (targets_iff _ _ _ _).mpr hwt
            refine System.single_insert S _ c1 k1
              { data := none, err := none, lockerNum := sys.nextWorker } rfl rfl ?_ habs ?_ hr0 g1
            · show (S.jobs ++ [Job.mk sys.nextWorker w sys.nextDelay]).countP _ = _
              simp only [List.countP_append, List.countP_cons, List.countP_nil, hj, if_true]
            · show ((S.r.setCache c1 _).cache c1).m.get k1 = _
              simp only [Requester.cache_setCache, GoMap.get_set, if_true]
          · have hj : w.targets S.complexKey c key = false := by
              cases hx : w.targets S.complexKey c key with
              | false => rfl
              | true =>
                have := (targets_iff _ _ _ _).mp hx
                rw [gk1, hwt] at this
                simp only [Option.some.injEq, Prod.mk.injEq] at this
                exact absurd this htg
            refine System.single_of_eq S _ c key rfl rfl ?_ ?_ g1
            · show (S.jobs ++ [Job.mk sys.nextWorker w sys.nextDelay]).countP _ = _
              simp only [List.countP_append, List.countP_cons, List.countP_nil, hj,
                Bool.false_eq_true, if_false, Nat.add_zero]
            · show ((S.r.setCache c1 _).cache c).m.get key = _
              by_cases hc : c = c1
              · subst hc
                have hk : ¬ k1 = key := fun e => htg ⟨rfl, e⟩
                simp only [Requester.cache_setCache, GoMap.get_set, hk, if_false]
              · rw [Requester.cache_setCache_ne _ _ _ _ hc]
        · simp only [Bool.false_eq_true, if_false, Option.some.injEq, Prod.mk.injEq] at hs
          obtain ⟨-, rfl⟩ := hs
          refine System.single_of_eq S _ c key rfl rfl rfl ?_ g1
          show ((S.r.setCache c1 (S.r.cache c1)).cache c).m.get key = _
          rw [Requester.cache_setCache_self]

/-- An operation that keeps the entry keeps the count of its invocations in
step with its presence. -/
theorem System.step_single (sys : System) (c : CacheRef) (key : String) (op : SysOp)
    (sys1 : System) (h : sys.Single c key []) (hop : op.Keeps c key)
    (hs : sys.step op = some sys1) : sys1.Single c key [] := by
  cases op with
  | get c1 key1 =>
    simp only [System.step, System.env_Get, Option.some.injEq] at hs
    subst hs
    exact System.tick_single sys c key h
  | delete c1 key1 =>
    simp only [System.step, System.env_Delete, Option.some.injEq] at hs
    subst hs
    refine System.single_of_eq sys _ c key rfl rfl rfl ?_ h
    show ((sys.r.setCache c1 ((sys.r.cache c1).Delete key1)).cache c).m.get key = _
    by_cases hc : c = c1
    · subst hc
      have hk : ¬ key1 = key := fun e => hop ⟨rfl, e⟩
      simp only [Requester.cache_setCache, syncCache.Delete, GoMap.get_delete, hk, if_false]
    · rw [Requester.cache_setCache_ne _ _ _ _ hc]
  | send w =>
    simp only [System.step] at hs
    cases hsend : sys.send w with
    | none => rw [hsend] at hs; cases hs
    | some p =>
      obtain ⟨resp, s2⟩ := p
      rw [hsend] at hs
      simp only [Option.map_some', Option.some.injEq] at hs
      subst hs
      exact System.send_single sys c key w resp s2 h hsend
  | wait t =>
    simp only [System.step] at hs
    unfold System.Wait at hs
    split at hs
    · cases hs
    · simp only [Option.some.injEq] at hs
      subst hs
      exact System.finish_single sys c key _ h
  | clear => exact absurd hop (by simp [SysOp.Keeps])

theorem System.ReachableKeeping.single {sys0 sys : System} {c : CacheRef} {key : String}
    (h0 : sys0.Single c key []) (h : System.ReachableKeeping sys0 c key sys) :
    sys.Single c key [] := by
  induction h with
  | init => exact h0
  | step op _ hop hs ih => exact System.step_single _ c key op _ ih hop hs

theorem System.start_single (r : Requester) (complexKey : String → List Nat → String)
    (sched : Nat → Nat × Nat) (h1 : r.fileCache.m = []) (h2 : r.dirCache.m = [])
    (h3 : r.decryptCache.m = []) (c : CacheRef) (key : String) :
    (System.start r complexKey sched).Single c key [] := by
  have habs : ((System.start r complexKey sched).r.cache c).m.get key = none := by
    cases c
    · simp only [System.start, Requester.cache, h1]; rfl
    · simp only [System.start, Requester.cache, h2]; rfl
    · simp only [System.start, Requester.cache, h3]; rfl
  refine ⟨?_, ?_⟩
  · rw [habs]
    rfl
  · intro e he
    rw [habs] at he
    cases he

theorem System.complete_get (sys : System) (c : CacheRef) (key : String) (j : Job)
    (hj : j.w.targets sys.complexKey c key = false) :
    ((sys.complete j).r.cache c).m.get key = (sys.r.cache c).m.get key := by
  unfold System.complete
  split
  · rfl
  · rename_i c1 k1 hwt
    have htg : ¬ (c1 = c ∧ k1 = key) := by
      rintro ⟨rfl, rfl⟩
      rw [(targets_iff _ _ _ _).mpr hwt] at hj
      cases hj
    exact set_get_other _ _ _ _ _ _ htg

theorem System.foldl_complete_get (c : CacheRef) (key : String) (js : List Job) :
    ∀ sys : System, (∀ j ∈ js, j.w.targets sys.complexKey c key = false) →
      ((js.foldl System.complete sys).r.cache c).m.get key = (sys.r.cache c).m.get key := by
  induction js with
  | nil => intro sys _; rfl
  | cons j js ih =>
    intro sys h
    rw [List.foldl_cons, ih]
    · exact System.complete_get sys c key j (h j (List.mem_cons_self _ _))
    · intro j1 hj1
      rw [(System.complete_complexKey sys j).1]
      exact h j1 (List.mem_cons_of_mem _ hj1)

theorem System.tick_get (sys : System) (c : CacheRef) (key : String)
    (h : ∀ j ∈ sys.jobs, j.w.targets sys.complexKey c key = false) :
    (sys.tick.r.cache c).m.get key = (sys.r.cache c).m.get key := by
  simp only [System.tick]
  rw [System.foldl_complete_get]
  intro j hj
  exact h j (List.mem_filter.mp hj).1

theorem System.finish_get (sys : System) (c : CacheRef) (key : String) (num : Int)
    (h : ∀ j ∈ sys.jobs, j.w.targets sys.complexKey c key = false) :
    ((sys.finish num).r.cache c).m.get key = (sys.r.cache c).m.get key := by
  unfold System.finish
  rw [System.foldl_complete_get]
  intro j hj
  exact h j (List.mem_filter.mp hj).1

theorem System.send_get (sys : System) (c : CacheRef) (key : String) (w : work)
    (resp : Resp) (sys1 : System) (e : genCacheEntry)
    (h : ∀ j ∈ sys.jobs, j.w.targets sys.complexKey c key = false)
    (he : (sys.r.cache c).m.get key = some e)
    (hs : sys.send w = some (resp, sys1)) : (sys1.r.cache c).m.get key = some e := by
  unfold System.send at hs
  simp only [] at hs
  split at hs
  · simp only [Option.some.injEq, Prod.mk.injEq] at hs
    obtain ⟨-, rfl⟩ := hs
    exact he
  · have g1 : (((System.mk sys.r sys.complexKey sys.sched sys.jobs sys.calls
        (sys.sent + 1)).finish sys.nextWorker).r.cache c).m.get key = some e :=
      (System.finish_get (System.mk sys.r sys.complexKey sys.sched sys.jobs sys.calls
        (sys.sent + 1)) c key sys.nextWorker h).trans he
    generalize (System.mk sys.r sys.complexKey sys.sched sys.jobs sys.calls
      (sys.sent + 1)).finish sys.nextWorker = S at hs g1
    split at hs
    · simp only [Option.some.injEq, Prod.mk.injEq] at hs
      obtain ⟨-, rfl⟩ := hs
      exact g1
    · rename_i c1 k1 hwt
      split at hs
      · cases hs
      · rename_i cache1 resp1 run hp
        have hget : ((S.r.setCache c1 cache1).cache c).m.get key = some e := by
          by_cases hc : c = c1
          · subst hc
            rw [Requester.cache_setCache]
            rcases performRequestAndCache_cases _ _ _ _ _ _ _ hp with
              ⟨habs, rfl, rfl⟩ | ⟨e0, hpres, rfl, rfl⟩
            · have hk : ¬ k1 = key := by
                intro e1
                subst e1
                rw [habs] at g1
                cases g1
              simp only [GoMap.get_set, hk, if_false]
              exact g1
            · exact g1
          · rw [Requester.cache_setCache_ne _ _ _ _ hc]
            exact g1
        split at hs
        · simp only [Option.some.injEq, Prod.mk.injEq] at hs
          obtain ⟨-, rfl⟩ := hs
          exact hget
        · simp only [Option.some.injEq, Prod.mk.injEq] at hs
          obtain ⟨-, rfl⟩ := hs
          exact hget

theorem System.Single.idle {sys : System} {c : CacheRef} {key : String}
    (h : sys.Single c key []) {e : genCacheEntry} (he : (sys.r.cache c).m.get key = some e)
    (h0 : e.lockerNum = 0) : ∀ j ∈ sys.jobs, j.w.targets sys.complexKey c key = false := by
  have := h.resolved e he h0
  simp only [List.countP_nil, Nat.zero_add, List.countP_eq_zero] at this
  intro j hj
  cases hx : j.w.targets sys.complexKey c key with
  | false => rfl
  | true => exact absurd hx (this j hj)

/-- An operation that keeps the entry leaves a stored result as it is. -/
theorem System.step_keep_entry (sys : System) (c : CacheRef) (key : String) (op : SysOp)
    (sys1 : System) (e : genCacheEntry) (h : sys.Single c key [])
    (he : (sys.r.cache c).m.get key = some e) (h0 : e.lockerNum = 0)
    (hop : op.Keeps c key) (hs : sys.step op = some sys1) :
    (sys1.r.cache c).m.get key = some e := by
  have hidle := h.idle he h0
  cases op with
  | get c1 key1 =>
    simp only [System.step, System.env_Get, Option.some.injEq] at hs
    subst hs
    exact (System.tick_get sys c key hidle).trans he
  | delete c1 key1 =>
    simp only [System.step, System.env_Delete, Option.some.injEq] at hs
    subst hs
    show ((sys.r.setCache c1 ((sys.r.cache c1).Delete key1)).cache c).m.get key = _
    by_cases hc : c = c1
    · subst hc
      have hk : ¬ key1 = key := fun e => hop ⟨rfl, e⟩
      simp only [Requester.cache_setCache, syncCache.Delete, GoMap.get_delete, hk, if_false]
      exact he
    · rw [Requester.cache_setCache_ne _ _ _ _ hc]
      exact he
  | send w =>
    simp only [System.step] at hs
    cases hsend : sys.send w with
    | none => rw [hsend] at hs; cases hs
    | some p =>
      obtain ⟨resp, s2⟩ := p
      rw [hsend] at hs
      simp only [Option.map_some', Option.some.injEq] at hs
      subst hs
      exact System.send_get sys c key w resp s2 e hidle he hsend
  | wait t =>
    simp only [System.step] at hs
    unfold System.Wait at hs
    split at hs
    · cases hs
    · simp only [Option.some.injEq] at hs
      subst hs
      exact (System.finish_get sys c key _ hidle).trans he
  | clear => exact absurd hop (by simp [SysOp.Keeps])

theorem System.ReachableKeeping.entry {sys0 sys : System} {c : CacheRef} {key : String}
    {e : genCacheEntry} (h0 : sys0.Single c key [])
    (he : (sys0.r.cache c).m.get key = some e) (hl : e.lockerNum = 0)
    (h : System.ReachableKeeping sys0 c key sys) :
    (sys.r.cache c).m.get key = some e := by
  induction h with
  | init => exact he
  | step op hreach hop hs ih =>
    exact System.step_keep_entry _ c key op _ e (hreach.single h0) ih hl hop hs

theorem System.Single.started {sys : System} {c : CacheRef} {key : String}
    (h : sys.Single c key []) :
    sys.started c key = if ((sys.r.cache c).m.get key).isSome then 1 else 0 := by
  have := h.count
  simp only [List.countP_nil, Nat.add_zero] at this
  exact this

/-- C10, amended. On a requester made by `New` and started, take any
sequence of the operations that callers perform (cache reads, sends on the work
queue, waits on tickets, deletions), with the workers running in between as the
scheduler decides, in which the entry of cache `c` under `key` is not deleted
and `ClearCache` is not called.  Then the invocation of `request()` for that
entry has been started at most once: once if the entry exists and not at all
otherwise.  And once the entry holds a result (ticket id 0), every later state
of such a sequence holds the same entry, and no further invocation is
started. -/
theorem single_flight_while_kept (numWorkers : Int) (hn : 0 ≤ numWorkers)
    (backend : Backend) (decrypter : Decrypter) (complexKey : String → List Nat → String)
    (sched : Nat → Nat × Nat) (c : CacheRef) (key : String) :
    ∃ r, New numWorkers backend decrypter = some r ∧
      ∀ sys, System.ReachableKeeping (System.start r complexKey sched) c key sys →
        sys.started c key ≤ 1 ∧
        (sys.started c key = 1 ↔ ((sys.r.cache c).m.get key).isSome = true) ∧
        ∀ e, (sys.r.cache c).m.get key = some e → e.lockerNum = 0 →
          ∀ sys1, System.ReachableKeeping sys c key sys1 →
            (sys1.r.cache c).m.get key = some e ∧ sys1.started c key = 1 := by
  obtain ⟨r, hr, -, -, -⟩ := New_ticketsOk numWorkers backend decrypter hn complexKey sched
  obtain ⟨-, -, -, hf1, hf2, hf3⟩ := New_caches numWorkers backend decrypter r hr
  refine ⟨r, hr, ?_⟩
  intro sys hreach
  have hS := hreach.single (System.start_single r complexKey sched hf1 hf2 hf3 c key)
  have hst := hS.started
  refine ⟨?_, ?_, ?_⟩
  · rw [hst]
    split <;> omega
  · rw [hst]
    constructor
    · intro h
      split at h
      · assumption
      · cases h
    · intro h
      rw [if_pos h]
  · intro e he h0 sys1 hreach1
    have he1 := hreach1.entry hS he h0
    refine ⟨he1, ?_⟩
    rw [(hreach1.single hS).started, he1]
    rfl

/-- On the test requester: after `ReadFile("/a")` was sent and the worker has
stored the error, a second send and further reads leave that entry in place and
start no second invocation. -/
theorem single_flight_while_kept_witness :
    ∃ r, New 1 testBackend testDecrypter = some r ∧
      ∀ sys, System.ReachableKeeping (System.start r (fun cName _ => cName) (fun _ => (0, 0)))
          .fileCache "/a" sys →
        sys.started .fileCache "/a" ≤ 1 ∧
        (sys.started .fileCache "/a" = 1 ↔
          ((sys.r.cache .fileCache).m.get "/a").isSome = true) ∧
        ∀ e, (sys.r.cache .fileCache).m.get "/a" = some e → e.lockerNum = 0 →
          ∀ sys1, System.ReachableKeeping sys .fileCache "/a" sys1 →
            (sys1.r.cache .fileCache).m.get "/a" = some e ∧
              sys1.started .fileCache "/a" = 1 :=
  single_flight_while_kept 1 (by decide) testBackend testDecrypter (fun cName _ => cName)
    (fun _ => (0, 0)) .fileCache "/a"

set_option maxRecDepth 8000 in
/-- C10 (counterexample). Two callers of `ReadFile("/a")` on the test
requester, whose backend fails with `Not found`.  The first caller reads the
cache, finds nothing and sends its work item: the entry is pending and the
worker at work.  Before the first caller reads again, the second caller makes
its whole call: it finds the stored error, sends, gets the closed channel,
deletes the entry, sends again, and returns `Not found`.  The backend has then
been invoked twice for the one key. -/
theorem burst_invokes_twice :
    (testSystem.run [.get .fileCache "/a", .send ⟨.workReadFile, "/a", []⟩]).map
        (fun s => (s.calls, s.jobs.length, (s.r.cache .fileCache).m.get "/a")) =
      some ([], 1, some { data := none, err := none, lockerNum := 1 }) ∧
    ((testSystem.run [.get .fileCache "/a", .send ⟨.workReadFile, "/a", []⟩]).bind
        (fun sA => makeRequest System.env sA.complexKey 2 sA .workReadFile "/a" [])).map
        (fun x => (x.1, x.2.calls)) =
      some ((none, some "Not found"),
        [⟨.workReadFile, "/a", []⟩, ⟨.workReadFile, "/a", []⟩]) := by
  decide

end requester

/-! ## A caller whose key is not the worker's key -/

namespace requester

theorem System.complete_calls (sys : System) (j : Job) :
    ∀ w1 ∈ (sys.complete j).calls, w1 ∈ sys.calls ∨ w1 = j.w := by
  unfold System.complete
  split
  · exact fun w1 h => Or.inl h
  · intro w1 h
    have h1 : w1 ∈ sys.calls ++ [j.w] := h
    simpa using h1

theorem System.foldl_complete_calls (w : work) (js : List Job) :
    ∀ sys : System, (∀ w1 ∈ sys.calls, w1 = w) → (∀ j ∈ js, j.w = w) →
      ∀ w1 ∈ (js.foldl System.complete sys).calls, w1 = w := by
  induction js with
  | nil => intro sys h _; exact h
  | cons j js ih =>
    intro sys h hjs
    rw [List.foldl_cons]
    apply ih
    · intro w1 hw1
      rcases System.complete_calls sys j w1 hw1 with h1 | h1
      · exact h w1 h1
      · rw [h1]
        exact hjs j (List.mem_cons_self _ _)
    · exact fun j1 hj1 => hjs j1 (List.mem_cons_of_mem _ hj1)

theorem System.Stray.idle_key {sys : System} {c : CacheRef} {k wk : String} {w : work}
    (h : sys.Stray c k wk w) (hne : wk ≠ k) :
    ∀ j ∈ sys.jobs, j.w.targets sys.complexKey c k = false := by
  intro j hj
  cases hx : j.w.targets sys.complexKey c k with
  | false => rfl
  | true =>
    have := (targets_iff _ _ _ _).mp hx
    rw [h.jobs j hj, h.target] at this
    simp only [Option.some.injEq, Prod.mk.injEq, true_and] at this
    exact absurd this hne

theorem System.tick_stray (sys : System) (c : CacheRef) (k wk : String) (w : work)
    (hne : wk ≠ k) (h : sys.Stray c k wk w) :
    sys.tick.Stray c k wk w ∧ sys.tick.sent = sys.sent := by
  obtain ⟨t1, t2, -⟩ := System.tick_ticketsOk sys h.tickets
  refine ⟨⟨t1, by rw [t2]; exact h.workers, by rw [System.tick_key]; exact h.target, ?_, ?_,
    ?_, System.tick_single sys c wk h.single⟩, ?_⟩
  · intro j hj
    simp only [System.tick] at hj
    rw [(System.foldl_complete_complexKey _ _).2.1] at hj
    simp only [List.mem_map, List.mem_filter] at hj
    obtain ⟨j0, ⟨hj0, -⟩, rfl⟩ := hj
    exact h.jobs j0 hj0
  · simp only [System.tick]
    exact System.foldl_complete_calls w _ _ h.calls
      (fun j hj => h.jobs j (List.mem_filter.mp hj).1)
  · rw [System.tick_get sys c k (h.idle_key hne)]
    exact h.absent
  · simp only [System.tick]
    exact (System.foldl_complete_complexKey _ _).2.2

theorem System.finish_stray (sys : System) (c : CacheRef) (k wk : String) (w : work)
    (num : Int) (hne : wk ≠ k) (h : sys.Stray c k wk w) :
    (sys.finish num).Stray c k wk w ∧ (sys.finish num).sent = sys.sent := by
  obtain ⟨t1, t2, -⟩ := System.finish_ticketsOk sys num h.tickets
  refine ⟨⟨t1, by rw [t2]; exact h.workers, by rw [System.finish_complexKey]; exact h.target,
    ?_, ?_, ?_, System.finish_single sys c wk num h.single⟩, ?_⟩
  · intro j hj
    unfold System.finish at hj
    rw [(System.foldl_complete_complexKey _ _).2.1] at hj
    exact h.jobs j (List.mem_filter.mp hj).1
  · unfold System.finish
    exact System.foldl_complete_calls w _ _ h.calls
      (fun j hj => h.jobs j (List.mem_filter.mp hj).1)
  · rw [System.finish_get sys c k num (h.idle_key hne)]
    exact h.absent
  · unfold System.finish
    exact (System.foldl_complete_complexKey _ _).2.2

/-- The send of the call's work item is answered with a ticket or a closed
channel, leaves the caller's key without an entry, and leaves an entry under
the worker's key. -/
theorem System.send_stray (sys : System) (c : CacheRef) (k wk : String) (w : work)
    (hne : wk ≠ k) (h : sys.Stray c k wk w) :
    ∃ resp sys1, sys.send w = some (resp, sys1) ∧ resp ≠ .timeout ∧
      sys1.Stray c k wk w ∧ sys1.sent = sys.sent + 1 ∧
      ((sys1.r.cache c).m.get wk).isSome = true := by
  have hS0 : (System.mk sys.r sys.complexKey sys.sched sys.jobs sys.calls
      (sys.sent + 1)).Stray c k wk w :=
    ⟨⟨h.tickets.workers, h.tickets.lockers, h.tickets.jobs, h.tickets.entries⟩, h.workers,
      h.target, h.jobs, h.calls, h.absent,
      System.single_reshape sys c wk sys.jobs [] (sys.sent + 1) (by simp) h.single⟩
  obtain ⟨g, gsent⟩ := System.finish_stray _ c k wk w sys.nextWorker hne hS0
  have hnw : ¬ sys.r.numWorkers ≤ 0 := by have := h.workers; omega
  obtain ⟨hr0, hr1, hr2⟩ := sys.nextWorker_range h.workers
  have glock : ((System.mk sys.r sys.complexKey sys.sched sys.jobs sys.calls
      (sys.sent + 1)).finish sys.nextWorker).r.lockers = sys.r.lockers :=
    (System.finish_ticketsOk _ sys.nextWorker hS0.tickets).2.2
  have gnum : ((System.mk sys.r sys.complexKey sys.sched sys.jobs sys.calls
      (sys.sent + 1)).finish sys.nextWorker).r.numWorkers = sys.r.numWorkers :=
    (System.finish_ticketsOk _ sys.nextWorker hS0.tickets).2.1
  unfold System.send
  simp only [hnw, if_false, h.target]
  generalize (System.mk sys.r sys.complexKey sys.sched sys.jobs sys.calls
    (sys.sent + 1)).finish sys.nextWorker = S at g gsent glock gnum
  have gsent1 : S.sent = sys.sent + 1 := gsent
  have hlock : lockerAt S.r.lockers sys.nextWorker = some { lockerNum := sys.nextWorker } :=
    g.tickets.lockers _ hr0 (by rw [gnum]; exact hr1)
  cases hget : (S.r.cache c).m.get wk with
  | none =>
    have hp : performRequestAndCache S.r.lockers wk sys.nextWorker (S.r.cache c) =
        some (syncCache.mk ((S.r.cache c).m.set wk (genCacheEntry.mk none none sys.nextWorker)),
          .ticket (workTicket.mk sys.nextWorker), true) := by
      simp [performRequestAndCache, syncCache.GetOrInsert, hget, hlock]
    rw [hp]
    simp only [if_true]
    refine ⟨_, _, rfl, by simp, ?_, gsent1, ?_⟩
    · have hk : ¬ wk = k := hne
      have hjw : w.targets S.complexKey c wk = true := (targets_iff _ _ _ _).mpr g.target
      refine ⟨⟨?_, ?_, ?_, ?_⟩, ?_, g.target, ?_, g.calls, ?_, ?_⟩
      · simp only [Requester.setCache_numWorkers]
        exact g.tickets.workers
      · simp only [Requester.setCache_numWorkers, Requester.setCache_lockers]
        exact g.tickets.lockers
      · intro j hj
        simp only [Requester.setCache_numWorkers]
        simp only [List.mem_append, List.mem_singleton] at hj
        rcases hj with hj | rfl
        · exact g.tickets.jobs j hj
        · exact ⟨by show 1 ≤ sys.nextWorker; omega, by show sys.nextWorker ≤ _; omega⟩
      · intro c1 key1 e he
        simp only [Requester.setCache_numWorkers]
        by_cases hc : c1 = c
        · subst hc
          simp only [Requester.cache_setCache, GoMap.get_set] at he
          split at he
          · simp only [Option.some.injEq] at he
            subst he
            exact Or.inr ⟨rfl, rfl, by show 1 ≤ sys.nextWorker; omega,
              by show sys.nextWorker ≤ _; omega⟩
          · exact g.tickets.entries c1 key1 e he
        · rw [Requester.cache_setCache_ne _ _ _ _ hc] at he
          exact g.tickets.entries c1 key1 e he
      · simp only [Requester.setCache_numWorkers]
        exact g.workers
      · intro j hj
        simp only [List.mem_append, List.mem_singleton] at hj
        rcases hj with hj | rfl
        · exact g.jobs j hj
        · rfl
      · show ((S.r.setCache c _).cache c).m.get k = none
        simp only [Requester.cache_setCache, GoMap.get_set, hk, if_false]
        exact g.absent
      · refine System.single_insert S _ c wk
          { data := none, err := none, lockerNum := sys.nextWorker } rfl rfl ?_ hget ?_ hr2
          g.single
        · show (S.jobs ++ [Job.mk sys.nextWorker w sys.nextDelay]).countP _ = _
          simp only [List.countP_append, List.countP_cons, List.countP_nil, hjw, if_true]
        · show ((S.r.setCache c _).cache c).m.get wk = _
          simp only [Requester.cache_setCache, GoMap.get_set, if_true]
    · show (((S.r.setCache c _).cache c).m.get wk).isSome = true
      simp only [Requester.cache_setCache, GoMap.get_set, if_true, Option.isSome_some]
  | some e =>
    have hstay : (System.mk (S.r.setCache c (S.r.cache c)) S.complexKey S.sched S.jobs S.calls
        S.sent).Stray c k wk w := by
      refine ⟨⟨?_, ?_, ?_, ?_⟩, ?_, g.target, g.jobs, g.calls, ?_, ?_⟩
      · simp only [Requester.setCache_numWorkers]
        exact g.tickets.workers
      · simp only [Requester.setCache_numWorkers, Requester.setCache_lockers]
        exact g.tickets.lockers
      · simp only [Requester.setCache_numWorkers]
        exact g.tickets.jobs
      · intro c1 key1 e1 he1
        simp only [Requester.setCache_numWorkers]
        rw [Requester.cache_setCache_self] at he1
        exact g.tickets.entries c1 key1 e1 he1
      · simp only [Requester.setCache_numWorkers]
        exact g.workers
      · show ((S.r.setCache c (S.r.cache c)).cache c).m.get k = none
        rw [Requester.cache_setCache_self]
        exact g.absent
      · refine System.single_of_eq S _ c wk rfl rfl rfl ?_ g.single
        show ((S.r.setCache c (S.r.cache c)).cache c).m.get wk = _
        rw [Requester.cache_setCache_self]
    have hpres : (((S.r.setCache c (S.r.cache c)).cache c).m.get wk).isSome = true := by
      rw [Requester.cache_setCache_self, hget]
      rfl
    by_cases hres : (e.data.isSome || e.err.isSome) = true
    · have hp : performRequestAndCache S.r.lockers wk sys.nextWorker (S.r.cache c) =
          some (S.r.cache c, .closed, false) := by
        simp [performRequestAndCache, syncCache.GetOrInsert, hget, hres]
      rw [hp]
      simp only [Bool.false_eq_true, if_false]
      exact ⟨_, _, rfl, by simp, hstay, gsent1, hpres⟩
    · have hl : lockerAt S.r.lockers e.lockerNum = some { lockerNum := e.lockerNum } := by
        rcases g.tickets.entries c wk e hget with h0 | ⟨-, -, h1, h2⟩
        · rw [h0]
          exact g.tickets.lockers 0 (Int.le_refl 0) g.tickets.workers
        · exact g.tickets.lockers _ (by omega) h2
      have hp : performRequestAndCache S.r.lockers wk sys.nextWorker (S.r.cache c) =
          some (S.r.cache c, .ticket { lockerNum := e.lockerNum }, false) := by
        simp [performRequestAndCache, syncCache.GetOrInsert, hget, hres, hl]
      rw [hp]
      simp only [Bool.false_eq_true, if_false]
      exact ⟨_, _, rfl, by simp, hstay, gsent1, hpres⟩

theorem System.complete_present (sys : System) (c : CacheRef) (key : String) (j : Job)
    (h : ((sys.r.cache c).m.get key).isSome = true) :
    (((sys.complete j).r.cache c).m.get key).isSome = true := by
  unfold System.complete
  split
  · exact h
  · rename_i c1 k1 hwt
    by_cases htg : c1 = c ∧ k1 = key
    · obtain ⟨rfl, rfl⟩ := htg
      rw [set_get_same]
      rfl
    · rw [set_get_other _ _ _ _ _ _ htg]
      exact h

theorem System.tick_present (sys : System) (c : CacheRef) (key : String)
    (h : ((sys.r.cache c).m.get key).isSome = true) :
    ((sys.tick.r.cache c).m.get key).isSome = true := by
  simp only [System.tick]
  have : ∀ (js : List Job) (s : System), ((s.r.cache c).m.get key).isSome = true →
      (((js.foldl System.complete s).r.cache c).m.get key).isSome = true := by
    intro js
    induction js with
    | nil => exact fun s hs => hs
    | cons j js ih => exact fun s hs => ih _ (System.complete_present s c key j hs)
  exact this _ _ h

theorem System.Stray.once {sys : System} {c : CacheRef} {k wk : String} {w : work}
    (h : sys.Stray c k wk w) (hp : ((sys.r.cache c).m.get wk).isSome = true) :
    sys.calls.length + sys.jobs.length = 1 := by
  have hst := h.single.started
  rw [if_pos hp] at hst
  have hw : w.targets sys.complexKey c wk = true := (targets_iff _ _ _ _).mpr h.target
  have h1 : sys.calls.countP (work.targets sys.complexKey c wk) = sys.calls.length := by
    rw [List.countP_eq_length]
    intro w1 hw1
    rw [h.calls w1 hw1]
    exact hw
  have h2 : sys.jobs.countP (fun j => j.w.targets sys.complexKey c wk) = sys.jobs.length := by
    rw [List.countP_eq_length]
    intro j hj
    show j.w.targets sys.complexKey c wk = true
    rw [h.jobs j hj]
    exact hw
  unfold System.started at hst
  omega

/-- The retry loop of a caller whose key is not the worker's key: every pass
sends the work item, misses the entry after the answer and retries; the loop
ends with the retries-exhausted error. -/
theorem stray_attempts (fuel : Nat) (c : CacheRef) (k wk : String) (requestType : workType)
    (arg1 : String) (arg2 : List Nat) (hne : wk ≠ k) (r0 : Requester) (n : Nat) :
    ∀ (sys : System) (retryErrs : List String),
      sys.Stray c k wk ⟨requestType, arg1, arg2⟩ → sys.Provenance r0 →
      ∃ sys1, attempts System.env fuel requestType arg1 arg2 c k n sys retryErrs =
          some ((none, some (retriesError (retryErrs ++
            List.replicate n "cache wiped before ticket could be handled"))), sys1) ∧
        sys1.Stray c k wk ⟨requestType, arg1, arg2⟩ ∧ sys1.Provenance r0 ∧
        sys1.sent = sys.sent + n ∧ sys1.complexKey = sys.complexKey ∧
        (0 < n → ((sys1.r.cache c).m.get wk).isSome = true) := by
  induction n with
  | zero =>
    intro sys retryErrs h hp
    refine ⟨sys, ?_, h, hp, rfl, rfl, fun h0 => absurd h0 (by omega)⟩
    rw [attempts]
    simp
  | succ n ih =>
    intro sys retryErrs h hp
    obtain ⟨h1, hs1⟩ := System.tick_stray sys c k wk _ hne h
    obtain ⟨resp, s2, hsend, hnt, h2, hs2, hpres2⟩ := System.send_stray sys.tick c k wk _ hne h1
    obtain ⟨h3, hs3⟩ := System.tick_stray s2 c k wk _ hne h2
    have hp1 := System.tick_provenance sys r0 hp
    have hp2 := System.send_provenance sys.tick r0 _ resp s2 hp1 hsend
    have hp3 := System.tick_provenance s2 r0 hp2
    have hk3 : s2.tick.complexKey = sys.complexKey := by
      rw [System.tick_key, System.send_complexKey _ _ _ _ hsend, System.tick_key]
    have hpres3 := System.tick_present s2 c wk hpres2
    have hG1 : (sys.tick.r.cache c).Get k = (genCacheEntry.zero, false) :=
      syncCache.Get_absent _ k h1.absent
    have hG2 : (s2.tick.r.cache c).Get k = (genCacheEntry.zero, false) :=
      syncCache.Get_absent _ k h3.absent
    obtain ⟨s4, e4, h4, hp4, hs4, hk4, hpres4⟩ := ih s2.tick
      (retryErrs ++ ["cache wiped before ticket could be handled"]) h3 hp3
    have hpres : ((s4.r.cache c).m.get wk).isSome = true := by
      by_cases hn : 0 < n
      · exact hpres4 hn
      · have hn0 : n = 0 := by omega
        subst hn0
        rw [attempts] at e4
        simp only [Option.some.injEq, Prod.mk.injEq] at e4
        rw [← e4.2]
        exact hpres3
    have hsent : s4.sent = sys.sent + (n + 1) := by
      rw [hs4, hs3, hs2, hs1]
      omega
    refine ⟨s4, ?_, h4, hp4, hsent, hk4.trans hk3, fun _ => hpres⟩
    rw [attempts]
    simp only [System.env_Get, hG1, System.env_send, hsend]
    have hlist : retryErrs ++ List.replicate (n + 1)
        "cache wiped before ticket could be handled" =
        retryErrs ++ ["cache wiped before ticket could be handled"] ++
          List.replicate n "cache wiped before ticket could be handled" := by
      rw [List.replicate_succ, List.append_assoc]
      rfl
    rw [hlist, ← e4]
    cases resp with
    | timeout => exact absurd rfl hnt
    | closed => simp [hG2, genCacheEntry.zero]
    | ticket t => simp [hG2, genCacheEntry.zero]

/-- The call `DecryptName(cName, [])` when `complexKey(cName, [])` is not
`cName`: it returns the retries-exhausted error after three sends. -/
theorem run_stray (fuel : Nat) (complexKey : String → List Nat → String) (cName : String)
    (hne : complexKey cName [] ≠ cName) (r0 : Requester) (sys : System)
    (hk : sys.complexKey = complexKey)
    (h : sys.Stray .decryptCache cName (complexKey cName []) ⟨.workDecryptName, cName, []⟩)
    (hp : sys.Provenance r0) :
    ∃ sys1, Call.run System.env sys.complexKey fuel sys (.DecryptName cName []) =
        some (.name "" (some wipedError), sys1) ∧
      sys1.Stray .decryptCache cName (complexKey cName []) ⟨.workDecryptName, cName, []⟩ ∧
      sys1.Provenance r0 ∧ sys1.sent = sys.sent + 3 ∧ sys1.complexKey = complexKey ∧
      ((sys1.r.cache .decryptCache).m.get (complexKey cName [])).isSome = true := by
  obtain ⟨s1, e1, g1, gp1, gs1, gk1, gpres⟩ := stray_attempts fuel .decryptCache cName
    (complexKey cName []) .workDecryptName cName [] hne r0 3 sys [] h hp
  refine ⟨s1, ?_, g1, gp1, gs1, gk1.trans hk, gpres (by omega)⟩
  apply call_run_of_error System.env sys.complexKey fuel sys s1 (.DecryptName cName [])
    wipedError
  show makeRequest System.env sys.complexKey fuel sys .workDecryptName cName [] = _
  unfold makeRequest
  simp only [requestCache, requestKey, List.length_nil, gt_iff_lt, Nat.lt_irrefl, if_false,
    cacheErrRetryAttempts]
  rw [e1]
  rfl

/-- The same call, repeated by a single caller. -/
theorem callN_stray (fuel : Nat) (complexKey : String → List Nat → String) (cName : String)
    (hne : complexKey cName [] ≠ cName) (r0 : Requester) (N : Nat) :
    ∀ sys : System, sys.complexKey = complexKey →
      sys.Stray .decryptCache cName (complexKey cName []) ⟨.workDecryptName, cName, []⟩ →
      sys.Provenance r0 →
      ∃ sys1, sys.callN fuel (.DecryptName cName []) (N + 1) =
          some (List.replicate (N + 1) (.name "" (some wipedError)), sys1) ∧
        sys1.Stray .decryptCache cName (complexKey cName []) ⟨.workDecryptName, cName, []⟩ ∧
        sys1.Provenance r0 ∧ sys1.sent = sys.sent + 3 * (N + 1) ∧
        sys1.complexKey = complexKey ∧
        ((sys1.r.cache .decryptCache).m.get (complexKey cName [])).isSome = true := by
  induction N with
  | zero =>
    intro sys hk h hp
    obtain ⟨s1, e1, g1, gp1, gs1, gk1, gpres⟩ := run_stray fuel complexKey cName hne r0 sys hk h hp
    refine ⟨s1, ?_, g1, gp1, gs1, gk1, gpres⟩
    simp only [System.callN, e1, List.replicate]
  | succ N ih =>
    intro sys hk h hp
    obtain ⟨s1, e1, g1, gp1, gs1, gk1, -⟩ := run_stray fuel complexKey cName hne r0 sys hk h hp
    obtain ⟨s2, e2, g2, gp2, gs2, gk2, gpres2⟩ := ih s1 gk1 g1 gp1
    have hsent : s2.sent = sys.sent + 3 * (N + 1 + 1) := by
      rw [gs2, gs1]
      omega
    refine ⟨s2, ?_, g2, gp2, hsent, gk2, gpres2⟩
    rw [System.callN, e1]
    simp only []
    rw [e2]
    rfl

theorem System.start_stray (numWorkers : Int) (backend : Backend) (decrypter : Decrypter)
    (r : Requester) (hn : 1 ≤ numWorkers) (hr : New numWorkers backend decrypter = some r)
    (complexKey : String → List Nat → String) (sched : Nat → Nat × Nat) (c : CacheRef)
    (k wk : String) (w : work) (hw : workerTarget complexKey w = some (c, wk)) :
    (System.start r complexKey sched).Stray c k wk w ∧
      (System.start r complexKey sched).Provenance r := by
  obtain ⟨-, -, hnum, hf1, hf2, hf3⟩ := New_caches numWorkers backend decrypter r hr
  obtain ⟨r1, hr1, -, -, hok⟩ := New_ticketsOk numWorkers backend decrypter (by omega)
    complexKey sched
  rw [hr] at hr1
  cases hr1
  have hw1 : 1 ≤ (System.start r complexKey sched).r.numWorkers := by
    show 1 ≤ r.numWorkers
    omega
  refine ⟨⟨hok, hw1, hw, (fun j hj => by cases hj),
    (fun w1 hw1 => by cases hw1), ?_, System.start_single r complexKey sched hf1 hf2 hf3 c wk⟩,
    System.start_provenance r complexKey sched hf1 hf2 hf3⟩
  cases c
  · simp only [System.start, Requester.cache, hf1]; rfl
  · simp only [System.start, Requester.cache, hf2]; rfl
  · simp only [System.start, Requester.cache, hf3]; rfl

/-- The calls whose caller key is not the worker's key: `DecryptName` with an
empty IV for a name that `complexKey` does not map to itself. -/
theorem not_keysAgree (complexKey : String → List Nat → String) (call : Call)
    (h : ¬ call.KeysAgree complexKey) :
    ∃ cName, call = .DecryptName cName [] ∧ complexKey cName [] ≠ cName := by
  cases call with
  | ReadFile path => exact absurd trivial h
  | ReadDir path => exact absurd trivial h
  | DecryptName cName iv =>
    cases iv with
    | nil => exact ⟨cName, rfl, fun e => h (fun _ => e)⟩
    | cons b bs => exact absurd (fun e => by cases e) h

end requester

/-! ## The claims about repeated calls and about the keys -/

namespace requester

set_option maxRecDepth 8000 in
/-- C8 (counterexample). With `complexKey` the length-prefixed composition
of the specification and a decrypter that fails on `enc` with `Error
decrypting`, three sequential calls `DecryptName("enc", [])` each return the
retries-exhausted error, not the decrypter's error, and the decrypter is invoked
once in all, not three times. -/
theorem stray_errors_invoked_once :
    testDecrypter.DecryptName [] "enc" [] = ("", some "Error decrypting") ∧
    (failingSystem.callN 2 (.DecryptName "enc" []) 3).map (fun x => (x.1, x.2.calls)) =
      some ([.name "" (some wipedError), .name "" (some wipedError),
             .name "" (some wipedError)],
        [⟨.workDecryptName, "enc", []⟩]) := by
  decide

/-- C8, amended. On a `Requester` made by `New` with at least one worker and
started, with empty caches, let the operation behind a call (`ReadFile`,
`ReadDir` or `DecryptName` with fixed arguments) fail with the error `E` and
return no data whenever it is invoked.  If the caller and the worker use the
same cache key for the call (`KeysAgree`: always for `ReadFile` and `ReadDir`,
for `DecryptName` with a non-empty IV, and for `DecryptName` with an empty IV
when `complexKey(cName, [])` is `cName`), then for every `N`, whatever the
scheduler does, `N` sequential calls each return the empty result with the
error `E`, and the operation is invoked exactly `N` times, every time for this
request.  Otherwise each of `N + 1` sequential calls returns the empty result
with the retries-exhausted error that lists three times `cache wiped before
ticket could be handled`, and the operation is invoked once in all: it is in
the log of invocations, or its worker is still at work. -/
theorem repeated_errors_reattempt (numWorkers : Int) (hn : 1 ≤ numWorkers)
    (backend : Backend) (decrypter : Decrypter) (r : Requester)
    (hr : New numWorkers backend decrypter = some r)
    (complexKey : String → List Nat → String) (sched : Nat → Nat × Nat)
    (call : Call) (E : GoError)
    (hfail : call.AlwaysFails backend decrypter E) (fuel N : Nat) :
    (call.KeysAgree complexKey →
      ∃ sys1, (System.start r complexKey sched).callN (fuel + 2) call N =
          some (List.replicate N (call.failure E), sys1) ∧
        sys1.calls = List.replicate N call.work) ∧
    (¬ call.KeysAgree complexKey →
      ∃ sys1, (System.start r complexKey sched).callN (fuel + 2) call (N + 1) =
          some (List.replicate (N + 1) (call.failure wipedError), sys1) ∧
        sys1.calls.length + sys1.jobs.length = 1 ∧
        (∀ w ∈ sys1.calls, w = call.work) ∧ (∀ j ∈ sys1.jobs, j.w = call.work)) := by
  constructor
  · intro hkey
    obtain ⟨hwf, hb, hd, hf1, hf2, hf3⟩ :=
      New_WF numWorkers backend decrypter r hn hr complexKey sched
    have hready : (System.start r complexKey sched).ErrReady call E := by
      refine ⟨rfl, hwf, call_target_eq complexKey call hkey,
        call_fails_eq backend decrypter E call hfail r hb hd, Or.inl ?_⟩
      cases call <;> simp [System.start, Requester.cache, Call.cacheRef, hf1, hf2, hf3, GoMap.get]
    obtain ⟨sys1, h1, h2⟩ := callN_error fuel call E N _ hready
    exact ⟨sys1, h1, by simpa [System.start] using h2⟩
  · intro hkey
    obtain ⟨cName, rfl, hne⟩ := not_keysAgree complexKey call hkey
    obtain ⟨hS, hP⟩ := System.start_stray numWorkers backend decrypter r hn hr complexKey sched
      .decryptCache cName (complexKey cName []) ⟨.workDecryptName, cName, []⟩ rfl
    obtain ⟨sys1, e1, g1, -, -, -, gpres⟩ := callN_stray (fuel + 2) complexKey cName hne r N
      (System.start r complexKey sched) rfl hS hP
    exact ⟨sys1, e1, g1.once gpres, g1.calls, g1.jobs⟩

/-- On the test requester: five calls of `ReadFile` on a missing path each
return `Not found` and invoke the backend five times; with the key composition
of the specification, three calls `DecryptName("enc", [])` each return the
retries-exhausted error and the decrypter is invoked once. -/
theorem repeated_errors_reattempt_witness :
    (∃ sys1, testSystem.callN 2 (.ReadFile "/nonexistent/file/path") 5 =
        some (List.replicate 5 (Call.failure "Not found" (.ReadFile "/nonexistent/file/path")),
          sys1) ∧
      sys1.calls = List.replicate 5 (Call.work (.ReadFile "/nonexistent/file/path"))) ∧
    (∃ sys1, failingSystem.callN 2 (.DecryptName "enc" []) (2 + 1) =
        some (List.replicate (2 + 1) (Call.failure wipedError (.DecryptName "enc" [])), sys1) ∧
      sys1.calls.length + sys1.jobs.length = 1 ∧
      (∀ w ∈ sys1.calls, w = Call.work (.DecryptName "enc" [])) ∧
      (∀ j ∈ sys1.jobs, j.w = Call.work (.DecryptName "enc" []))) :=
  ⟨(repeated_errors_reattempt 1 (by decide) testBackend testDecrypter testRequester (by rfl)
      (fun cName _ => cName) (fun _ => (0, 0)) (.ReadFile "/nonexistent/file/path")
      "Not found" (by intro calls; rfl) 0 5).1 (by simp [Call.KeysAgree]),
   (repeated_errors_reattempt 1 (by decide) testBackend testDecrypter testRequester (by rfl)
      complexKeySpec (fun _ => (0, 0)) (.DecryptName "enc" [])
      "Error decrypting" (by intro calls; rfl) 0 2).2
      (fun h => absurd (h rfl) (by decide))⟩

/-- C27. On a `Requester` made by `New` with at least one worker and started,
with empty caches, let the operation behind a call (`ReadFile`, `ReadDir` or
`DecryptName` with fixed arguments) return an empty payload and a nil error
whenever it is invoked.  Then, whatever the scheduler does and whatever
`complexKey` computes, each of `N + 1` sequential calls returns the empty result
with a retries-exhausted error of three retry reasons; each call sends three
work items; the operation is invoked once in all (it is in the log of
invocations, or its worker is still at work); and the cache still holds, under
the key the worker uses, an entry without data and without error.  When the
caller and the worker use the same cache key (`KeysAgree`), the three reasons
are `data missing by the time request completed`, the one invocation is in the
log with no worker at work, and the entry has ticket id 0; when they do not
(`DecryptName` with an empty IV for a name that `complexKey` does not map to
itself), the three reasons are `cache wiped before ticket could be handled`. -/
theorem empty_results_latched (numWorkers : Int) (hn : 1 ≤ numWorkers)
    (backend : Backend) (decrypter : Decrypter) (r : Requester)
    (hr : New numWorkers backend decrypter = some r)
    (complexKey : String → List Nat → String) (sched : Nat → Nat × Nat)
    (call : Call) (hempty : call.AlwaysEmpty backend decrypter) (fuel N : Nat) :
    ∃ sys1 E, (System.start r complexKey sched).callN (fuel + 2) call (N + 1) =
        some (List.replicate (N + 1) (call.failure E), sys1) ∧
      sys1.sent = 3 * (N + 1) ∧
      sys1.calls.length + sys1.jobs.length = 1 ∧
      (∀ w ∈ sys1.calls, w = call.work) ∧ (∀ j ∈ sys1.jobs, j.w = call.work) ∧
      (∃ wk e, workerTarget complexKey call.work = some (call.cacheRef, wk) ∧
        (sys1.r.cache call.cacheRef).m.get wk = some e ∧ e.data = none ∧ e.err = none) ∧
      (call.KeysAgree complexKey →
        E = emptyError ∧ sys1.calls = [call.work] ∧ sys1.jobs = [] ∧
        (sys1.r.cache call.cacheRef).m.get (call.key complexKey) =
          some { data := none, err := none, lockerNum := 0 }) ∧
      (¬ call.KeysAgree complexKey → E = wipedError) := by
  by_cases hkey : call.KeysAgree complexKey
  · obtain ⟨hwf, hb, hd, hf1, hf2, hf3⟩ :=
      New_WF numWorkers backend decrypter r hn hr complexKey sched
    have habs : ((System.start r complexKey sched).r.cache call.cacheRef).m.get
        (call.key complexKey) = none := by
      cases call <;> simp [System.start, Requester.cache, Call.cacheRef, hf1, hf2, hf3, GoMap.get]
    obtain ⟨sys1, h1, h2, h3, h4, h5⟩ := makeRequest_empty_first (System.start r complexKey sched)
      fuel call rfl hwf (call_target_eq complexKey call hkey)
      (call_empty_eq backend decrypter call hempty r hb hd) habs
    obtain ⟨sys2, k1, k2, k3, k4, k5⟩ := callN_latched (fuel + 1) call N sys1 h2
    have hcalls : sys2.calls = [call.work] := by
      rw [k4, h4]
      rfl
    have hentry : (sys2.r.cache call.cacheRef).m.get (call.key complexKey) =
        some { data := none, err := none, lockerNum := 0 } := by
      have := k2.entry
      rw [k3, h3] at this
      exact this
    refine ⟨sys2, emptyError, ?_, ?_, ?_, ?_, ?_, ?_, fun _ => ⟨rfl, hcalls, k2.jobs, hentry⟩,
      fun h => absurd hkey h⟩
    · have hrun := call_run_of_error _ _ _ _ _ _ _ h1
      simp only [System.callN]
      rw [show (System.start r complexKey sched).complexKey = complexKey from rfl] at hrun
      rw [show (System.start r complexKey sched).complexKey = complexKey from rfl, hrun]
      simp only [k1, List.replicate_succ]
    · rw [k5, h5]
      show 0 + 3 + 3 * N = 3 * (N + 1)
      omega
    · rw [hcalls, k2.jobs]
      rfl
    · rw [hcalls]
      intro w hw
      simpa using hw
    · rw [k2.jobs]
      intro j hj
      cases hj
    · exact ⟨call.key complexKey, _, call_target_eq complexKey call hkey, hentry, rfl, rfl⟩
  · obtain ⟨cName, rfl, hne⟩ := not_keysAgree complexKey call hkey
    obtain ⟨hb, hd, -, -, -, -⟩ := New_caches numWorkers backend decrypter r hr
    obtain ⟨hS, hP⟩ := System.start_stray numWorkers backend decrypter r hn hr complexKey sched
      .decryptCache cName (complexKey cName []) ⟨.workDecryptName, cName, []⟩ rfl
    obtain ⟨sys1, e1, g1, gp1, gs1, gk1, gpres⟩ := callN_stray (fuel + 2) complexKey cName hne r N
      (System.start r complexKey sched) rfl hS hP
    have hsent : sys1.sent = 3 * (N + 1) := by
      rw [gs1]
      show 0 + 3 * (N + 1) = 3 * (N + 1)
      omega
    refine ⟨sys1, wipedError, e1, hsent, g1.once gpres, g1.calls, g1.jobs, ?_,
      fun h => absurd h hkey, fun _ => rfl⟩
    cases hget : (sys1.r.cache .decryptCache).m.get (complexKey cName []) with
    | none => rw [hget] at gpres; cases gpres
    | some e =>
      refine ⟨complexKey cName [], e, rfl, hget, ?_⟩
      rcases g1.tickets.entries .decryptCache _ e hget with h0 | ⟨h1, h2, -, -⟩
      · obtain ⟨pre, post, w, hc, -, he⟩ := gp1.entries .decryptCache _ e hget h0
        have hw : w = ⟨.workDecryptName, cName, []⟩ := g1.calls w (by rw [hc]; simp)
        have hres := call_empty_eq backend decrypter (.DecryptName cName []) hempty r hb hd pre
        rw [hw] at he
        rw [show (Call.DecryptName cName []).work = ⟨.workDecryptName, cName, []⟩ from rfl]
          at hres
        rw [hres] at he
        rw [he]
        exact ⟨rfl, rfl⟩
      · exact ⟨h1, h2⟩

/-- On a requester whose `ReadDir` returns an empty listing: three calls each
fail after three sends, the backend is invoked once, and the entry without
data and error stays; with the key composition of the specification and a
decrypter that returns the empty name, `DecryptName("enc", [])` behaves in the
same way, with the other retry reasons. -/
theorem empty_results_latched_witness :
    (∃ sys1 E, (System.start partialRequester (fun cName _ => cName) (fun _ => (0, 0))).callN 2
        (.ReadDir "/empty") (2 + 1) =
        some (List.replicate (2 + 1) (Call.failure E (.ReadDir "/empty")), sys1) ∧
      sys1.sent = 3 * (2 + 1) ∧ sys1.calls.length + sys1.jobs.length = 1 ∧
      E = emptyError ∧ sys1.calls = [Call.work (.ReadDir "/empty")] ∧ sys1.jobs = [] ∧
      (sys1.r.cache .dirCache).m.get "/empty" =
        some { data := none, err := none, lockerNum := 0 }) ∧
    (∃ sys1 E, (System.start emptyNameRequester complexKeySpec (fun _ => (0, 0))).callN 2
        (.DecryptName "enc" []) (2 + 1) =
        some (List.replicate (2 + 1) (Call.failure E (.DecryptName "enc" [])), sys1) ∧
      sys1.sent = 3 * (2 + 1) ∧ sys1.calls.length + sys1.jobs.length = 1 ∧
      E = wipedError) :=
  ⟨by
    obtain ⟨sys1, E, h1, h2, h3, -, -, -, h7, -⟩ :=
      empty_results_latched 1 (by decide) partialBackend plainDecrypter partialRequester rfl
        (fun cName _ => cName) (fun _ => (0, 0)) (.ReadDir "/empty") (fun _ => rfl) 0 2
    obtain ⟨k1, k2, k3, k4⟩ := h7 trivial
    exact ⟨sys1, E, h1, h2, h3, k1, k2, k3, k4⟩,
   by
    obtain ⟨sys1, E, h1, h2, h3, -, -, -, -, h8⟩ :=
      empty_results_latched 1 (by decide) testBackend emptyNameDecrypter emptyNameRequester rfl
        complexKeySpec (fun _ => (0, 0)) (.DecryptName "enc" []) (fun _ => rfl) 0 2
    exact ⟨sys1, E, h1, h2, h3, h8 (fun h => absurd (h rfl) (by decide))⟩⟩

/-- C28, amended. For `ReadFile`, for `ReadDir`, and for `DecryptName` with a
non-empty IV, the cache and key under which `makeRequest` looks the entry up
are the cache and key under which the worker inserts and resolves it.  For
`DecryptName` with an empty IV the caller uses the bare name and the worker
`complexKey(cName, [])`: the keys are equal exactly when `complexKey(cName, [])`
is `cName`.  No collision-free `complexKey` has that property for every name.
And when the keys differ, on a requester made by `New` with at least one worker
and started, the call misses the entry in each of its three attempts and
returns the retries-exhausted error, whatever the decrypter returns, while the
decrypter is invoked once. -/
theorem caller_worker_key_agreement (complexKey : String → List Nat → String) :
    (∀ path, workerTarget complexKey (Call.ReadFile path).work =
      some ((Call.ReadFile path).cacheRef, (Call.ReadFile path).key complexKey)) ∧
    (∀ path, workerTarget complexKey (Call.ReadDir path).work =
      some ((Call.ReadDir path).cacheRef, (Call.ReadDir path).key complexKey)) ∧
    (∀ cName iv, iv ≠ [] → workerTarget complexKey (Call.DecryptName cName iv).work =
      some ((Call.DecryptName cName iv).cacheRef, (Call.DecryptName cName iv).key complexKey)) ∧
    (∀ cName, (Call.DecryptName cName []).key complexKey = cName ∧
      workerTarget complexKey (Call.DecryptName cName []).work =
        some (.decryptCache, complexKey cName []) ∧
      (workerTarget complexKey (Call.DecryptName cName []).work =
        some ((Call.DecryptName cName []).cacheRef, (Call.DecryptName cName []).key complexKey) ↔
        complexKey cName [] = cName)) ∧
    ((∀ n1 iv1 n2 iv2, complexKey n1 iv1 = complexKey n2 iv2 → n1 = n2 ∧ iv1 = iv2) →
      ∃ cName, complexKey cName [] ≠ cName) ∧
    (∀ (numWorkers : Int) (backend : Backend) (decrypter : Decrypter) (r : Requester)
      (sched : Nat → Nat × Nat) (cName : String) (fuel : Nat),
      1 ≤ numWorkers → New numWorkers backend decrypter = some r →
      complexKey cName [] ≠ cName →
      ∃ sys1, Call.run System.env complexKey fuel (System.start r complexKey sched)
          (.DecryptName cName []) = some (.name "" (some wipedError), sys1) ∧
        sys1.calls.length + sys1.jobs.length = 1) := by
  refine ⟨fun _ => rfl, fun _ => rfl, ?_, ?_, ?_, ?_⟩
  · intro cName iv hiv
    exact call_target_eq complexKey _ (fun h => absurd h hiv)
  · intro cName
    refine ⟨rfl, rfl, ?_⟩
    constructor
    · intro h
      have h1 : workerTarget complexKey (Call.DecryptName cName []).work =
          some (.decryptCache, complexKey cName []) := rfl
      rw [h1] at h
      simp only [Option.some.injEq, Prod.mk.injEq] at h
      exact h.2
    · intro h
      exact call_target_eq complexKey _ (fun _ => h)
  · intro hinj
    refine ⟨complexKey "enc" [73, 86], ?_⟩
    intro h
    have := (hinj _ _ _ _ h).2
    cases this
  · intro numWorkers backend decrypter r sched cName fuel hn hr hne
    obtain ⟨hS, hP⟩ := System.start_stray numWorkers backend decrypter r hn hr complexKey sched
      .decryptCache cName (complexKey cName []) ⟨.workDecryptName, cName, []⟩ rfl
    obtain ⟨sys1, e1, g1, -, -, -, gpres⟩ := run_stray fuel complexKey cName hne r
      (System.start r complexKey sched) rfl hS hP
    exact ⟨sys1, e1, g1.once gpres⟩

end requester
